import Mathlib

/-!
# Multi-literal matching with an optional demodulation equality (`Kernel/MLMatcher2.cpp`)

A shallow embedding of `createLiteralBindings`, `MatchingData` and
`MLMatcher2::Impl` together with the properties established about them.

Conventions of the embedding.

* C++ arrays indexed by a base-literal level become functions on `Nat`
  (`varCnts`, `boundVarNums`, `altBindings`, `remaining`, `nextAlts`,
  `matchRecord`); the linear buffers they point into (`boundVarNumStorage`,
  `altBindingPtrStorage`, `altBindingStorage`, `intersectionStorage`) are not
  represented, every level owns its own lists.
* A null `boundVarNums[i]` is `none`.
* `unsigned` values are natural numbers; the sentinel `0xFFFFFFFF` is
  `NONE`, and a decrement wraps at zero (`dec32`).
* `getIntersectInfo` caches its result in `intersections`; the cached value is a
  function of `boundVarNums[b1]` and `boundVarNums[b2]`, which never change once
  set, so the embedding recomputes it.
-/

namespace Kernel

/-! ## Terms, literals, clauses -/

/-- Modelled from the spec: a term is a variable (an unsigned index) or a
function application (`Kernel/Term.hpp` is not part of the sources). Shared
terms are compared by pointer, which is structural equality. -/
inductive Term where
  | var : Nat → Term
  | app : Nat → List Term → Term

instance : Inhabited Term := ⟨Term.var 0⟩

mutual
/-- Decision procedure for equality of terms (pointer comparison of shared
terms). -/
def Term.decEq : (s t : Term) → Decidable (s = t)
  | .var a, .var b =>
      if h : a = b then isTrue (by rw [h]) else isFalse (fun e => h (by cases e; rfl))
  | .app f as, .app g bs =>
      if h : f = g then
        match Term.decEqList as bs with
        | isTrue e => isTrue (by rw [h, e])
        | isFalse n => isFalse (fun e => n (by cases e; rfl))
      else isFalse (fun e => h (by cases e; rfl))
  | .var _, .app _ _ => isFalse (fun e => by cases e)
  | .app _ _, .var _ => isFalse (fun e => by cases e)
/-- Decision procedure for equality of argument lists. -/
def Term.decEqList : (ss ts : List Term) → Decidable (ss = ts)
  | [], [] => isTrue rfl
  | a :: as, b :: bs =>
      match Term.decEq a b with
      | isTrue e =>
          match Term.decEqList as bs with
          | isTrue e2 => isTrue (by rw [e, e2])
          | isFalse n => isFalse (fun e3 => n (by cases e3; rfl))
      | isFalse n => isFalse (fun e3 => n (by cases e3; rfl))
  | [], _ :: _ => isFalse (fun e => by cases e)
  | _ :: _, [] => isFalse (fun e => by cases e)
end

instance : DecidableEq Term := Term.decEq

mutual
/-- The variables of a term in the order `VariableIterator` yields them
(left to right, with repetitions). -/
def Term.vars : Term → List Nat
  | .var v => [v]
  | .app _ as => Term.varsList as
/-- The variables of an argument list, left to right. -/
def Term.varsList : List Term → List Nat
  | [] => []
  | a :: as => Term.vars a ++ Term.varsList as
end

mutual
/-- Application of a substitution to a term. -/
def Term.subst (σ : Nat → Term) : Term → Term
  | .var v => σ v
  | .app f as => .app f (Term.substList σ as)
/-- Application of a substitution to an argument list. -/
def Term.substList (σ : Nat → Term) : List Term → List Term
  | [] => []
  | a :: as => Term.subst σ a :: Term.substList σ as
end

/-- Modelled from the spec: a literal is a term wearing sign and predicate
(`Kernel/Term.hpp` is not part of the sources). Predicate symbol `0` is
equality. -/
structure Literal where
  functor : Nat
  positive : Bool
  args : List Term
deriving DecidableEq

instance : Inhabited Literal := ⟨⟨1, true, []⟩⟩

/-- Modelled from the spec: the is-equality bit. -/
def Literal.isEquality (l : Literal) : Bool := l.functor == 0

/-- Modelled from the spec: the is-positive bit. -/
def Literal.isPositive (l : Literal) : Bool := l.positive

/-- Modelled from the spec: the is-commutative bit; the only literals with two
argument orders are equalities. -/
def Literal.commutative (l : Literal) : Bool := l.isEquality

/-- The argument at position `n` (`Term::nthArgument`). -/
def Literal.nthArgument (l : Literal) (n : Nat) : Term := l.args.getD n default

/-- The variables of a literal as `VariableIterator` yields them. -/
def Literal.vars (l : Literal) : List Nat := Term.varsList l.args

/-- Modelled from the spec: `Term::getDistinctVars`, the number of distinct
variables of a literal. -/
def Literal.getDistinctVars (l : Literal) : Nat := l.vars.dedup.length

/-- Application of a substitution to a literal. -/
def Literal.subst (σ : Nat → Term) (l : Literal) : Literal :=
  { l with args := Term.substList σ l.args }

/-- The literal with its two arguments exchanged (the other orientation of an
equality). -/
def Literal.swapArgs (l : Literal) : Literal :=
  { l with args := [l.nthArgument 1, l.nthArgument 0] }

/-- Identity of shared literals. The term-sharing structure stores an equality
with its two arguments in a canonical order, so `s = t` and `t = s` are one
literal; all other literals are identified structurally. -/
def Literal.same (l m : Literal) : Prop :=
  l = m ∨ (l.isEquality = true ∧ l.args.length = 2 ∧ m = l.swapArgs)

instance (l m : Literal) : Decidable (Literal.same l m) := by
  unfold Literal.same; infer_instance

/-- A clause is its sequence of literals. -/
abbrev Clause := List Literal

/-- Modelled from the spec: `Clause::getLiteralPosition` returns the position
of a literal within the clause (`Kernel/Clause.hpp` is not part of the
sources). -/
def Clause.getLiteralPosition (c : Clause) (l : Literal) : Nat := c.indexOf l

/-! ## Matching utilities -/

mutual
/-- Modelled from the spec: `MatchingUtils::matchTerms` (`Kernel/Matcher.hpp`
is not part of the sources). One-sided matching of `base` onto `inst`; every
variable of the base is handed to the binder together with the subterm it
faces, left to right, and matching stops at the first failure. The binder
state is returned in both cases, since a binder writes as it goes. -/
def MatchingUtils.matchTerms {β : Type} (bind : β → Nat → Term → Bool × β) :
    Term → Term → β → Bool × β
  | .var v, t, b => bind b v t
  | .app f as, .app g bs, b =>
      if f = g then MatchingUtils.matchTermList bind as bs b else (false, b)
  | .app _ _, .var _, b => (false, b)
/-- Matching of two argument lists, left to right. -/
def MatchingUtils.matchTermList {β : Type} (bind : β → Nat → Term → Bool × β) :
    List Term → List Term → β → Bool × β
  | [], [], b => (true, b)
  | a :: as, c :: cs, b =>
      match MatchingUtils.matchTerms bind a c b with
      | (true, b1) => MatchingUtils.matchTermList bind as cs b1
      | (false, b1) => (false, b1)
  | [], _ :: _, b => (false, b)
  | _ :: _, [], b => (false, b)
end

/-- Modelled from the spec: `MapBinder::bind`; a variable may be bound once,
binding it again succeeds only with the same term. -/
def MapBinder.bind (m : List (Nat × Term)) (v : Nat) (t : Term) : Bool × List (Nat × Term) :=
  match m.lookup v with
  | some u => (decide (u = t), m)
  | none => (true, (v, t) :: m)

/-- `ArrayStoringBinder::bind`: store the term at the position of the variable
and report success, whatever was stored there before. -/
def ArrayStoringBinder.bind (v2pos : Nat → Nat) (arr : List Term) (v : Nat) (t : Term) :
    Bool × List Term :=
  (true, arr.set (v2pos v) t)

/-- `MatchingUtils::matchArgs(base, instance)` with the internal `MapBinder`:
the functors are assumed equal, only the arguments are matched. -/
def MatchingUtils.matchArgs (base inst : Literal) : Bool :=
  (MatchingUtils.matchTermList MapBinder.bind base.args inst.args []).1

/-- `MatchingUtils::matchReversedArgs`: first argument onto second and second
onto first, under one `MapBinder`. -/
def MatchingUtils.matchReversedArgs (base inst : Literal) : Bool :=
  match MatchingUtils.matchTerms MapBinder.bind (base.nthArgument 0) (inst.nthArgument 1) [] with
  | (true, m) => (MatchingUtils.matchTerms MapBinder.bind (base.nthArgument 1) (inst.nthArgument 0) m).1
  | (false, _) => false

/-! ## Binding rows -/

/-- One row of `altBindings[bi]`: the terms bound to the variables of the base
literal in ascending variable order, and in the extra last cell the position
of the alternative in the instance clause. -/
structure AltRow where
  binds : List Term
  pos : Nat
deriving DecidableEq

instance : Inhabited AltRow := ⟨⟨[], 0⟩⟩

/-- Modelled from the spec: `BinaryHeap::insert` on a min-heap, kept as an
ascending list (`Lib/BinaryHeap.hpp` is not part of the sources). -/
def BinaryHeap.insert (h : List Nat) (v : Nat) : List Nat := h.orderedInsert (· ≤ ·) v

/-- The first loop of `createLiteralBindings`: every variable occurrence of the
base literal is inserted into the heap. -/
def collectVarNums (baseLit : Literal) : List Nat :=
  baseLit.vars.foldl BinaryHeap.insert []

/-- The second loop of `createLiteralBindings`: pop the least variable, pop its
further copies, and append it to `boundVarData` when `variablePositions` did
not hold it yet. The first argument bounds the number of iterations. -/
def popVarNums : Nat → List Nat → List Nat → List Nat
  | 0, _, acc => acc
  | _ + 1, [], acc => acc
  | n + 1, v :: rest, acc =>
      let rest1 := rest.dropWhile (fun w => w == v)
      if acc.contains v then popVarNums n rest1 acc
      else popVarNums n rest1 (acc ++ [v])

/-- The variables of the base literal in ascending order, written to
`boundVarData`. -/
def boundVarsOf (baseLit : Literal) : List Nat :=
  let h := collectVarNums baseLit
  popVarNums h.length h []

/-- The rows `createLiteralBindings` stores for one alternative. -/
def rowsOfAlt (baseLit : Literal) (vars : List Nat) (instCl : Clause) (alit : Literal) :
    List AltRow :=
  let numVars := vars.length
  let v2pos : Nat → Nat := fun v => vars.indexOf v
  let blank : List Term := List.replicate numVars default
  let p := instCl.getLiteralPosition alit
  if alit.isEquality then
    (if MatchingUtils.matchArgs baseLit alit then
      [AltRow.mk (MatchingUtils.matchTermList (ArrayStoringBinder.bind v2pos)
          baseLit.args alit.args blank).2 p]
     else []) ++
    (if MatchingUtils.matchReversedArgs baseLit alit then
      [AltRow.mk (MatchingUtils.matchTerms (ArrayStoringBinder.bind v2pos)
          (baseLit.nthArgument 1) (alit.nthArgument 0)
          (MatchingUtils.matchTerms (ArrayStoringBinder.bind v2pos)
            (baseLit.nthArgument 0) (alit.nthArgument 1) blank).2).2 p]
     else [])
  else
    [AltRow.mk (if numVars ≠ 0 then
        (MatchingUtils.matchTermList (ArrayStoringBinder.bind v2pos)
          baseLit.args alit.args blank).2
      else blank) p]

/-- `createLiteralBindings`: the ascending variables of the base literal and,
for the alternatives in list order, their binding rows. -/
def createLiteralBindings (baseLit : Literal) (alts : List Literal) (instCl : Clause) :
    List Nat × List AltRow :=
  let vars := boundVarsOf baseLit
  (vars, alts.flatMap (rowsOfAlt baseLit vars instCl))

/-! ## Matching data -/

/-- The sentinel `0xFFFFFFFF`. -/
def NONE : Nat := 4294967295

/-- Decrement of an `unsigned`: wraps at zero. -/
def dec32 (n : Nat) : Nat := if n = 0 then 4294967295 else n - 1

/-- `std::swap(rows[i], rows[j])`. -/
def swapRows {α : Type} [Inhabited α] (l : List α) (i j : Nat) : List α :=
  (l.set i (l.getD j default)).set j (l.getD i default)

/-- `TriangularArray::set`. -/
def TriangularArray.set (a : Nat → Nat → Nat) (i k v : Nat) : Nat → Nat → Nat :=
  fun x y => if x = i ∧ y = k then v else a x y

/-- `MatchingData::InitResult`. -/
inductive InitResult where
  | OK
  | MUST_BACKTRACK
  | NO_ALTERNATIVE
deriving DecidableEq

/-- `struct MatchingData`. `inst` is the field `instance`. -/
structure MatchingData where
  len : Nat
  varCnts : Nat → Nat
  boundVarNums : Nat → Option (List Nat)
  altBindings : Nat → List AltRow
  remaining : Nat → Nat → Nat
  nextAlts : Nat → Nat
  eqLitForDemodulation : Nat
  bases : List Literal
  alts : List (List Literal)
  inst : Clause
  matchRecord : Nat → Nat
  currBLit : Nat

namespace MatchingData

/-- `isInitialized`: `boundVarNums[bIndex]` is not null. -/
def isInitialized (md : MatchingData) (bIndex : Nat) : Bool := (md.boundVarNums bIndex).isSome

/-- The body of the `while(true)` loop of `getIntersectInfo`, run on the parts
of the two variable arrays that are still ahead (`b1vn`, `b2vn`) with their
indices. Reading `*b2vn` at the stop position (which the first inner loop
does when `b2` has no variable left) yields `0` here; the result does not
depend on the value read. The first argument bounds the number of rounds. -/
def intersectLoop : Nat → List Nat → Nat → List Nat → Nat → List (Nat × Nat) →
    List (Nat × Nat)
  | 0, _, _, _, _, acc => acc
  | fuel + 1, b1vn, i1, b2vn, i2, acc =>
      let skip1 := (b1vn.takeWhile (fun v => decide (v < b2vn.headD 0))).length
      let b1vn1 := b1vn.drop skip1
      let i11 := i1 + skip1
      match b1vn1 with
      | [] => acc
      | v1 :: rest1 =>
          let skip2 := (b2vn.takeWhile (fun w => decide (v1 > w))).length
          let b2vn1 := b2vn.drop skip2
          let i21 := i2 + skip2
          match b2vn1 with
          | [] => acc
          | v2 :: rest2 =>
              if v1 = v2 then
                if rest1.isEmpty || rest2.isEmpty then acc ++ [(i11, i21)]
                else intersectLoop fuel rest1 (i11 + 1) rest2 (i21 + 1) (acc ++ [(i11, i21)])
              else intersectLoop fuel b1vn1 i11 b2vn1 i21 acc

/-- The index pairs `getIntersectInfo` computes for two variable arrays (the
terminating pair with first component `-1` is the end of the list). -/
def intersectInfo (vs1 vs2 : List Nat) : List (Nat × Nat) :=
  intersectLoop (vs1.length + vs2.length + 1) vs1 0 vs2 0 []

/-- `getIntersectInfo(b1, b2)`. -/
def getIntersectInfo (md : MatchingData) (b1 b2 : Nat) : List (Nat × Nat) :=
  intersectInfo ((md.boundVarNums b1).getD []) ((md.boundVarNums b2).getD [])

/-- `basesHaveVariablesInCommon(b1, b2)`. -/
def basesHaveVariablesInCommon (md : MatchingData) (b1 b2 : Nat) : Bool :=
  !(md.getIntersectInfo b1 b2).isEmpty

/-- `getRemainingInCurrent(bi)`. -/
def getRemainingInCurrent (md : MatchingData) (bi : Nat) : Nat := md.remaining bi bi

/-- `getAltRecordIndex(bi, alti)`. -/
def getAltRecordIndex (md : MatchingData) (bi alti : Nat) : Nat :=
  ((md.altBindings bi).getD alti default).pos

/-- The test `compatible` performs on two rows, given the intersect info. -/
def compatibleRows (iinfo : List (Nat × Nat)) (i1Bindings i2Bindings : AltRow) : Bool :=
  iinfo.all (fun pq => decide (i1Bindings.binds.getD pq.1 default = i2Bindings.binds.getD pq.2 default))

/-- `compatible(b1Index, i1Bindings, b2Index, i2AltIndex)`. -/
def compatible (md : MatchingData) (b1Index : Nat) (i1Bindings : AltRow)
    (b2Index i2AltIndex : Nat) : Bool :=
  compatibleRows (md.getIntersectInfo b1Index b2Index) i1Bindings
    ((md.altBindings b2Index).getD i2AltIndex default)

/-- The loop `for(ai=0; ai<remAlts; ai++)` that `bindAlt` and `ensureInit`
share: an alternative that fails the test is exchanged with the last
remaining one and the count of remaining ones drops. The first argument
bounds the number of iterations. -/
def filterAlts (ok : AltRow → Bool) : Nat → List AltRow → Nat → Nat → List AltRow × Nat
  | 0, rows, _, remAlts => (rows, remAlts)
  | fuel + 1, rows, ai, remAlts =>
      if ai < remAlts then
        if ok (rows.getD ai default) then filterAlts ok fuel rows (ai + 1) remAlts
        else filterAlts ok fuel (swapRows rows ai (remAlts - 1)) ai (remAlts - 1)
      else (rows, remAlts)

/-- The body of the loop of `bindAlt` for the levels `i`, `i+1`, ... -/
def bindAltLoop (bIndex : Nat) (curBindings : AltRow) :
    Nat → Nat → MatchingData → Bool × MatchingData
  | 0, _, md => (true, md)
  | fuel + 1, i, md =>
      if i < md.len then
        if !md.isInitialized i then (true, md)
        else
          let remAlts := md.remaining i bIndex
          let res :=
            if md.basesHaveVariablesInCommon bIndex i then
              filterAlts (compatibleRows (md.getIntersectInfo bIndex i) curBindings)
                remAlts (md.altBindings i) 0 remAlts
            else (md.altBindings i, remAlts)
          let md1 := { md with altBindings := Function.update md.altBindings i res.1 }
          if res.2 = 0 then (false, md1)
          else bindAltLoop bIndex curBindings fuel (i + 1)
                { md1 with remaining := TriangularArray.set md1.remaining i (bIndex + 1) res.2 }
      else (true, md)

/-- `bindAlt(bIndex, altIndex)`. -/
def bindAlt (md : MatchingData) (bIndex altIndex : Nat) : Bool × MatchingData :=
  bindAltLoop bIndex ((md.altBindings bIndex).getD altIndex default)
    (md.len - (bIndex + 1)) (bIndex + 1) md

/-- The body of the loop of `skipBinding` for the levels `i`, `i+1`, ... -/
def skipBindingLoop (bIndex : Nat) : Nat → Nat → MatchingData → MatchingData
  | 0, _, md => md
  | fuel + 1, i, md =>
      if i < md.len then
        if !md.isInitialized i then md
        else skipBindingLoop bIndex fuel (i + 1)
              { md with remaining :=
                  TriangularArray.set md.remaining i (bIndex + 1) (md.remaining i bIndex) }
      else md

/-- `skipBinding(bIndex)`. -/
def skipBinding (md : MatchingData) (bIndex : Nat) : MatchingData :=
  skipBindingLoop bIndex (md.len - (bIndex + 1)) (bIndex + 1) md

/-- The state of `ensureInit(bIndex)` after the first `n` rounds of its loop
over the previous levels `pbi`, with the value of `remAlts`. -/
def ensureInitLoop (bIndex : Nat) (md0 : MatchingData) : Nat → MatchingData × Nat
  | 0 => (md0, 0)
  | pbi + 1 =>
      let md := (ensureInitLoop bIndex md0 pbi).1
      let remAlts := md.remaining bIndex pbi
      let res :=
        if pbi ≠ md.eqLitForDemodulation ∧ md.basesHaveVariablesInCommon pbi bIndex = true then
          filterAlts (compatibleRows (md.getIntersectInfo pbi bIndex)
              ((md.altBindings pbi).getD (dec32 (md.nextAlts pbi)) default))
            remAlts (md.altBindings bIndex) 0 remAlts
        else (md.altBindings bIndex, remAlts)
      ({ md with altBindings := Function.update md.altBindings bIndex res.1,
                 remaining := TriangularArray.set md.remaining bIndex (pbi + 1) res.2 }, res.2)

/-- `ensureInit(bIndex)`. -/
def ensureInit (md : MatchingData) (bIndex : Nat) : InitResult × MatchingData :=
  if md.isInitialized bIndex then (InitResult.OK, md)
  else
    let base := md.bases.getD bIndex default
    let cr := createLiteralBindings base (md.alts.getD bIndex []) md.inst
    let md1 := { md with boundVarNums := Function.update md.boundVarNums bIndex (some cr.1),
                         altBindings := Function.update md.altBindings bIndex cr.2,
                         varCnts := Function.update md.varCnts bIndex cr.1.length }
    let altCnt := cr.2.length
    if altCnt = 0 then
      if base.isEquality && base.isPositive then
        let md2 := { md1 with remaining :=
                      fun x y => if x = bIndex ∧ y ≤ bIndex then 0 else md1.remaining x y }
        if md2.eqLitForDemodulation < bIndex then (InitResult.MUST_BACKTRACK, md2)
        else (InitResult.OK, md2)
      else (InitResult.NO_ALTERNATIVE, md1)
    else
      let md2 := { md1 with remaining := TriangularArray.set md1.remaining bIndex 0 altCnt }
      let res := ensureInitLoop bIndex md2 bIndex
      if 0 < bIndex ∧ res.2 = 0 then (InitResult.MUST_BACKTRACK, res.1)
      else (InitResult.OK, res.1)

end MatchingData

/-! ## The matcher -/

/-- The state of `MLMatcher2::Impl` that the search uses. -/
structure Impl where
  s_matchingData : MatchingData
  s_counter : Nat

/-- The reordering state of `initMatchingData`: the two arrays that `swapLits`
permutes and the counters of the loop. -/
structure ReorderState where
  s_baseLits : List Literal
  s_altsArr : List (List Literal)
  zeroAlts : Nat
  singleAlts : Nat
  mostDistVarsLit : Nat
  mostDistVarsCnt : Nat

/-- The lambda `swapLits` of `initMatchingData`. -/
def ReorderState.swapLits (s : ReorderState) (i j : Nat) : ReorderState :=
  { s with s_baseLits := swapRows s.s_baseLits i j, s_altsArr := swapRows s.s_altsArr i j }

/-- The count `currAltCnt` of `initMatchingData`: a commutative alternative
counts twice. -/
def currAltCnt (alts : List Literal) : Nat :=
  alts.foldl (fun n a => if a.commutative then n + 2 else n + 1) 0

/-- One round of the reordering loop of `initMatchingData`, for index `i`. -/
def ReorderState.step (s : ReorderState) (i : Nat) : ReorderState :=
  let distVars := (s.s_baseLits.getD i default).getDistinctVars
  let cnt := currAltCnt (s.s_altsArr.getD i [])
  if cnt = 0 then
    let s1 :=
      if s.zeroAlts ≠ i then
        let s2 := if s.singleAlts ≠ s.zeroAlts then s.swapLits s.singleAlts s.zeroAlts else s
        let s3 := s2.swapLits i s2.zeroAlts
        if s3.mostDistVarsLit = s3.singleAlts then { s3 with mostDistVarsLit := i } else s3
      else s
    { s1 with zeroAlts := s1.zeroAlts + 1, singleAlts := s1.singleAlts + 1 }
  else if cnt = 1 then
    let s1 :=
      if s.singleAlts ≠ i then
        let s2 := s.swapLits i s.singleAlts
        if s2.mostDistVarsLit = s2.singleAlts then { s2 with mostDistVarsLit := i } else s2
      else s
    { s1 with singleAlts := s1.singleAlts + 1 }
  else if 0 < i ∧ s.mostDistVarsCnt < distVars then
    { s with mostDistVarsLit := i, mostDistVarsCnt := distVars }
  else s

/-- The reordering state after the rounds `0 .. n-1`. -/
def ReorderState.run (s : ReorderState) : Nat → ReorderState
  | 0 => s
  | n + 1 => (ReorderState.run s n).step n

/-- The reordering of `initMatchingData`, the final exchange included. -/
def reorder (baseLits0 : List Literal) (alts : List (List Literal)) (first : Literal) :
    ReorderState :=
  let s := ReorderState.run
    { s_baseLits := baseLits0, s_altsArr := alts, zeroAlts := 0, singleAlts := 0,
      mostDistVarsLit := 0, mostDistVarsCnt := first.getDistinctVars } baseLits0.length
  if s.mostDistVarsLit > s.singleAlts then s.swapLits s.mostDistVarsLit s.singleAlts else s

/-- `MLMatcher2::Impl::initMatchingData`. The element `s_baseLits[0]` is read
before the loop; with `baseLen = 0` the array has no such element and the
function has no result. The uninitialised cells of `varCnts`, `altBindings`,
`remaining` and `nextAlts` read as `0`, resp. as empty. -/
def initMatchingData (baseLits0 : List Literal) (inst : Clause) (alts : List (List Literal)) :
    Option MatchingData :=
  match baseLits0[0]? with
  | none => none
  | some first =>
      let s := reorder baseLits0 alts first
      some
        { len := baseLits0.length
          varCnts := fun _ => 0
          boundVarNums := fun _ => none
          altBindings := fun _ => []
          remaining := fun _ _ => 0
          nextAlts := fun _ => 0
          eqLitForDemodulation := NONE
          bases := s.s_baseLits
          alts := s.s_altsArr
          inst := inst
          matchRecord := fun _ => NONE
          currBLit := 0 }

/-- `MLMatcher2::Impl::init`. -/
def init (baseLits : List Literal) (inst : Clause) (alts : List (List Literal)) : Option Impl :=
  (initMatchingData baseLits inst alts).map (fun md => { s_matchingData := md, s_counter := 0 })

namespace MatchingData

/-- The loop `for (i < matchRecord.size()) if (matchRecord[i] == currBLit)
matchRecord[i] = 0xFFFFFFFF`. -/
def unassign (md : MatchingData) : MatchingData :=
  { md with matchRecord := fun i =>
      if i < md.inst.length ∧ md.matchRecord i = md.currBLit then NONE else md.matchRecord i }

/-- The loop of `nextMatch` that looks for a suitable alternative of the current
base literal. The first argument bounds the number of iterations. -/
def findAlt (maxAlt : Nat) : Nat → MatchingData → MatchingData
  | 0, md => md
  | fuel + 1, md =>
      if md.nextAlts md.currBLit < maxAlt then
        if md.matchRecord (md.getAltRecordIndex md.currBLit (md.nextAlts md.currBLit)) < md.currBLit then
          findAlt maxAlt fuel
            { md with nextAlts := Function.update md.nextAlts md.currBLit (md.nextAlts md.currBLit + 1) }
        else
          let r := md.bindAlt md.currBLit (md.nextAlts md.currBLit)
          if r.1 then r.2
          else findAlt maxAlt fuel
            { r.2 with nextAlts := Function.update r.2.nextAlts r.2.currBLit (r.2.nextAlts r.2.currBLit + 1) }
      else md

end MatchingData

/-- What one round of the `while (true)` loop of `nextMatch` ends with. -/
inductive Round where
  /-- The statement `continue` after `MUST_BACKTRACK`: no counter update. -/
  | backtrackInit (md : MatchingData)
  /-- The end of the loop body is reached: the counter is updated. -/
  | next (md : MatchingData)
  /-- The statement `break`: a complete match. -/
  | complete (md : MatchingData)
  /-- The statement `return false`. -/
  | fail (md : MatchingData)

/-- One round of the `while (true)` loop of `nextMatch`, up to the counter. -/
def nextMatchRound (md0 : MatchingData) : Round :=
  let ir := md0.ensureInit md0.currBLit
  let md := ir.2
  match ir.1 with
  | InitResult.MUST_BACKTRACK => Round.backtrackInit { md with currBLit := dec32 md.currBLit }
  | InitResult.NO_ALTERNATIVE => Round.fail md
  | InitResult.OK =>
      let maxAlt := md.getRemainingInCurrent md.currBLit
      let md1 := MatchingData.findAlt maxAlt (maxAlt - md.nextAlts md.currBLit) md
      if md1.nextAlts md1.currBLit < maxAlt then
        let md2 := md1.unassign
        let matchRecordIndex := md2.getAltRecordIndex md2.currBLit (md2.nextAlts md2.currBLit)
        let md3 := { md2 with matchRecord := Function.update md2.matchRecord matchRecordIndex md2.currBLit }
        let md4 := { md3 with nextAlts := Function.update md3.nextAlts md3.currBLit (md3.nextAlts md3.currBLit + 1) }
        let md5 := { md4 with currBLit := md4.currBLit + 1 }
        if md5.currBLit = md5.len then Round.complete md5
        else
          let md6 := { md5 with nextAlts := Function.update md5.nextAlts md5.currBLit 0 }
          Round.next
            (if md6.eqLitForDemodulation = md6.currBLit then { md6 with eqLitForDemodulation := NONE }
             else md6)
      else if md1.eqLitForDemodulation > md1.currBLit
          ∧ (md1.bases.getD md1.currBLit default).isEquality = true
          ∧ (md1.bases.getD md1.currBLit default).isPositive = true then
        let md2 := md1.unassign
        let md3 := { md2 with eqLitForDemodulation := md2.currBLit }
        let md4 := md3.skipBinding md3.currBLit
        let md5 := { md4 with currBLit := md4.currBLit + 1 }
        if md5.currBLit = md5.len then Round.complete md5
        else Round.next { md5 with nextAlts := Function.update md5.nextAlts md5.currBLit 0 }
      else
        if md1.currBLit = 0 then Round.fail md1
        else Round.next { md1 with currBLit := dec32 md1.currBLit }

/-- What a call of `nextMatch` ends with. -/
inductive MatchResult where
  /-- The value `true` or `false` is returned. -/
  | returned (b : Bool) (impl : Impl)
  /-- The exception `TimeLimitExceededException` is thrown. -/
  | timeLimitExceeded (impl : Impl)

/-- The `while (true)` loop of `nextMatch` and what follows it.
`timeLimitReached t` is the answer of `env.timeLimitReached()` when it is asked
in round `t` of this call. The first argument bounds the number of rounds; the
result is `none` when that bound is used up. -/
def nextMatchLoop (timeLimitReached : Nat → Bool) : Nat → Nat → Impl → Option MatchResult
  | 0, _, _ => none
  | fuel + 1, t, impl =>
      match nextMatchRound impl.s_matchingData with
      | Round.backtrackInit md =>
          nextMatchLoop timeLimitReached fuel (t + 1) { impl with s_matchingData := md }
      | Round.fail md => some (MatchResult.returned false { impl with s_matchingData := md })
      | Round.complete md =>
          some (MatchResult.returned true
            { impl with s_matchingData := { md with currBLit := dec32 md.currBLit } })
      | Round.next md =>
          let s_counter := impl.s_counter + 1
          if s_counter = 50000 then
            if timeLimitReached t then
              some (MatchResult.timeLimitExceeded { s_matchingData := md, s_counter := 0 })
            else nextMatchLoop timeLimitReached fuel (t + 1) { s_matchingData := md, s_counter := 0 }
          else nextMatchLoop timeLimitReached fuel (t + 1) { s_matchingData := md, s_counter := s_counter }

/-- `MLMatcher2::Impl::nextMatch`. -/
def nextMatch (timeLimitReached : Nat → Bool) (fuel : Nat) (impl : Impl) : Option MatchResult :=
  nextMatchLoop timeLimitReached fuel 0 impl

/-- `MLMatcher2::Impl::getEqualityForDemodulation`; `none` is `nullptr`. -/
def getEqualityForDemodulation (impl : Impl) : Option Literal :=
  let md := impl.s_matchingData
  if md.eqLitForDemodulation ≥ md.len then none
  else some (md.bases.getD md.eqLitForDemodulation default)

/-- The state of `getMatchedAltsBitmap` after the rounds `bi = 0 .. n-1`. -/
def matchedAltsBitmapLoop (md : MatchingData) : Nat → List Bool
  | 0 => List.replicate md.inst.length false
  | bi + 1 =>
      let out := matchedAltsBitmapLoop md bi
      if bi ≠ md.eqLitForDemodulation then
        out.set (md.getAltRecordIndex bi (dec32 (md.nextAlts bi))) true
      else out

/-- `MLMatcher2::Impl::getMatchedAltsBitmap`. -/
def getMatchedAltsBitmap (impl : Impl) : List Bool :=
  matchedAltsBitmapLoop impl.s_matchingData impl.s_matchingData.len

/-- `outBindings.insert({var, trm})`: nothing changes when the key is present.
The map is kept as the list of its entries in insertion order. -/
def insertBinding (out : List (Nat × Term)) (var : Nat) (trm : Term) : List (Nat × Term) :=
  if (out.lookup var).isSome then out else out ++ [(var, trm)]

/-- The inner loop of `getBindings`, after the rounds `vi = 0 .. n-1`. -/
def bindingsOfLevel (md : MatchingData) (bi alti : Nat) (out : List (Nat × Term)) :
    Nat → List (Nat × Term)
  | 0 => out
  | vi + 1 =>
      insertBinding (bindingsOfLevel md bi alti out vi)
        (((md.boundVarNums bi).getD []).getD vi 0)
        (((md.altBindings bi).getD alti default).binds.getD vi default)

/-- The outer loop of `getBindings`, after the rounds `bi = 0 .. n-1`. -/
def bindingsLoop (md : MatchingData) : Nat → List (Nat × Term)
  | 0 => []
  | bi + 1 =>
      let out := bindingsLoop md bi
      if bi ≠ md.eqLitForDemodulation then
        bindingsOfLevel md bi (dec32 (md.nextAlts bi)) out (md.varCnts bi)
      else out

/-- `MLMatcher2::Impl::getBindings`. -/
def getBindings (impl : Impl) : List (Nat × Term) :=
  bindingsLoop impl.s_matchingData impl.s_matchingData.len

/-- The substitution a map of bindings stands for: a variable without entry
stays as it is. -/
def bindingsSubst (out : List (Nat × Term)) : Nat → Term :=
  fun v => (out.lookup v).getD (Term.var v)

/-- The value a call of `nextMatch` returned, if it returned one. -/
def MatchResult.value : MatchResult → Option Bool
  | .returned b _ => some b
  | .timeLimitExceeded _ => none

/-- The matcher state a call of `nextMatch` left behind. -/
def MatchResult.impl : MatchResult → Impl
  | .returned _ i => i
  | .timeLimitExceeded i => i

/-- The environment in which the time limit is never reached. -/
def noTimeLimit : Nat → Bool := fun _ => false

/-! ## Example literals -/

/-- The variable `x`. -/
def exX : Term := .var 0
/-- The variable `y`. -/
def exY : Term := .var 1
/-- The constant `a`. -/
def exA : Term := .app 10 []
/-- The constant `b`. -/
def exB : Term := .app 11 []
/-- The constant `d`. -/
def exD : Term := .app 13 []
/-- The literal `P(t)`. -/
def exP (t : Term) : Literal := ⟨1, true, [t]⟩
/-- The literal `Q(s,t)`. -/
def exQ (s t : Term) : Literal := ⟨2, true, [s, t]⟩
/-- The literal `R`. -/
def exR : Literal := ⟨3, true, []⟩
/-- The positive equality `s = t`. -/
def exEq (s t : Term) : Literal := ⟨0, true, [s, t]⟩

end Kernel

namespace Kernel

/-! ## Invariants of the search -/

/-- The rows of `l2` are those of `l1` in another order, and from position
`n` on nothing has moved. -/
def PrefixPerm (n : Nat) (l1 l2 : List AltRow) : Prop :=
  l2.Perm l1 ∧ l2.drop n = l1.drop n

namespace MatchingData

/-- The two states agree on every field except `altBindings` and
`remaining`. -/
structure Frame (md md2 : MatchingData) : Prop where
  len : md2.len = md.len
  varCnts : md2.varCnts = md.varCnts
  boundVarNums : md2.boundVarNums = md.boundVarNums
  nextAlts : md2.nextAlts = md.nextAlts
  eqLit : md2.eqLitForDemodulation = md.eqLitForDemodulation
  bases : md2.bases = md.bases
  alts : md2.alts = md.alts
  inst : md2.inst = md.inst
  matchRecord : md2.matchRecord = md.matchRecord
  currBLit : md2.currBLit = md.currBLit

/-- The variables `createLiteralBindings` computes for level `i`. -/
def varsP (md : MatchingData) (i : Nat) : List Nat :=
  boundVarsOf (md.bases.getD i default)

/-- The rows `createLiteralBindings` computes for level `i`. -/
def rowsP (md : MatchingData) (i : Nat) : List AltRow :=
  (createLiteralBindings (md.bases.getD i default) (md.alts.getD i []) md.inst).2

/-- The row selected at level `j`: `altBindings[j][nextAlts[j]-1]`. -/
def selRow (md : MatchingData) (j : Nat) : AltRow :=
  (md.altBindings j).getD (dec32 (md.nextAlts j)) default

/-- The test of `compatible` for a row of level `j` and a row of level `i`. -/
def compatP (md : MatchingData) (j i : Nat) (r1 r2 : AltRow) : Bool :=
  compatibleRows (intersectInfo (md.varsP j) (md.varsP i)) r1 r2

/-- What `bindAlt` guarantees when its loop is entered at level `i` in state
`md` and ends with the result `res`. -/
def BindAltPost (b : Nat) (cur : AltRow) (i : Nat) (md : MatchingData)
    (res : Bool × MatchingData) : Prop :=
  Frame md res.2 ∧
  (∀ l, l < i → res.2.altBindings l = md.altBindings l) ∧
  (∀ l k, (l < i ∨ k ≠ b + 1) → res.2.remaining l k = md.remaining l k) ∧
  (∀ l, PrefixPerm (md.remaining l b) (md.altBindings l) (res.2.altBindings l)) ∧
  (∀ l, res.2.remaining l (b + 1) = md.remaining l (b + 1) ∨
    res.2.remaining l (b + 1) ≤ md.remaining l b) ∧
  (res.1 = true →
    ∀ l, i ≤ l → l < md.len → md.isInitialized l = true →
      0 < res.2.remaining l (b + 1) ∧
      res.2.remaining l (b + 1) ≤ md.remaining l b ∧
      (∀ k, k < res.2.remaining l (b + 1) →
        compatibleRows (md.getIntersectInfo b l) cur ((res.2.altBindings l).getD k default) = true) ∧
      (∀ k, res.2.remaining l (b + 1) ≤ k → k < md.remaining l b →
        compatibleRows (md.getIntersectInfo b l) cur ((res.2.altBindings l).getD k default) = false)) ∧
  (res.1 = false →
    ∃ l, i ≤ l ∧ l < md.len ∧ md.isInitialized l = true ∧
      ∀ k, k < md.remaining l b →
        compatibleRows (md.getIntersectInfo b l) cur ((md.altBindings l).getD k default) = false)

/-- What `skipBinding` guarantees when its loop is entered at level `i` in state
`md` and ends in state `res`. -/
def SkipPost (b : Nat) (i : Nat) (md res : MatchingData) : Prop :=
  Frame md res ∧
  res.altBindings = md.altBindings ∧
  (∀ l k, (l < i ∨ k ≠ b + 1) → res.remaining l k = md.remaining l k) ∧
  (∀ l, res.remaining l (b + 1) = md.remaining l (b + 1) ∨
    res.remaining l (b + 1) = md.remaining l b) ∧
  (∀ l, i ≤ l → l < md.len → md.isInitialized l = true →
    res.remaining l (b + 1) = md.remaining l b)

/-- What the loop of `ensureInit(c)` over the previous levels guarantees after
`n` rounds, started in state `md0`. -/
def EnsureInitPost (c : Nat) (md0 : MatchingData) (n : Nat) (res : MatchingData × Nat) : Prop :=
  Frame md0 res.1 ∧
  (∀ l, l ≠ c → res.1.altBindings l = md0.altBindings l) ∧
  (∀ l k, (l ≠ c ∨ k = 0 ∨ n < k) → res.1.remaining l k = md0.remaining l k) ∧
  (res.1.altBindings c).Perm (md0.altBindings c) ∧
  (∀ k, k < n → res.1.remaining c (k + 1) ≤ res.1.remaining c k) ∧
  (∀ k a j, k ≤ n → a < res.1.remaining c k → j < k → j ≠ md0.eqLitForDemodulation →
    compatibleRows (md0.getIntersectInfo j c) (md0.selRow j)
      ((res.1.altBindings c).getD a default) = true) ∧
  (∀ k a, k ≤ n → res.1.remaining c k ≤ a → a < (res.1.altBindings c).length →
    ∃ j, j < k ∧ j ≠ md0.eqLitForDemodulation ∧
      compatibleRows (md0.getIntersectInfo j c) (md0.selRow j)
        ((res.1.altBindings c).getD a default) = false) ∧
  (0 < n → res.2 = res.1.remaining c n)

/-- The invariant of the search. `u` is the number of levels that hold a
choice: `u = currBLit` while the search is at level `currBLit`, and
`u = currBLit + 1 = len` in a matched state. -/
structure InvAt (md : MatchingData) (u : Nat) : Prop where
  len_le : md.len ≤ NONE
  cur_lt : md.currBLit < md.len
  init_lt : ∀ i, md.isInitialized i = true → i < md.len
  init_down : ∀ i j, md.isInitialized i = true → j ≤ i → md.isInitialized j = true
  init_below : ∀ j, j < u → md.isInitialized j = true
  init_vars : ∀ i, md.isInitialized i = true → md.boundVarNums i = some (md.varsP i)
  init_cnt : ∀ i, md.isInitialized i = true → md.varCnts i = (md.varsP i).length
  init_rows : ∀ i, md.isInitialized i = true → (md.altBindings i).Perm (md.rowsP i)
  rem_zero : ∀ i, md.isInitialized i = true → md.remaining i 0 = (md.altBindings i).length
  rem_le : ∀ i k, md.isInitialized i = true → k ≤ i →
    md.remaining i k ≤ (md.altBindings i).length
  rem_mono : ∀ i k, md.isInitialized i = true → k < i → k < md.currBLit →
    md.remaining i (k + 1) ≤ md.remaining i k
  sound : ∀ i k a j, md.isInitialized i = true → k ≤ i → k ≤ md.currBLit →
    a < md.remaining i k → j < k → j ≠ md.eqLitForDemodulation →
    md.compatP j i (md.selRow j) ((md.altBindings i).getD a default) = true
  compl : ∀ i k a, md.isInitialized i = true → k ≤ i → k ≤ md.currBLit →
    md.remaining i k ≤ a → a < (md.altBindings i).length →
    ∃ j, j < k ∧ j ≠ md.eqLitForDemodulation ∧
      md.compatP j i (md.selRow j) ((md.altBindings i).getD a default) = false
  sel_pos : ∀ j, j < u → j ≠ md.eqLitForDemodulation → 0 < md.nextAlts j
  next_le : ∀ j, j ≤ md.currBLit → md.isInitialized j = true →
    md.nextAlts j ≤ md.remaining j j
  sel_rec : ∀ j, j < u → j ≠ md.eqLitForDemodulation → md.matchRecord (md.selRow j).pos = j
  rec_exact : ∀ p j, md.matchRecord p = j → j < u →
    j ≠ md.eqLitForDemodulation ∧ (md.selRow j).pos = p
  rec_dom : ∀ p, md.inst.length ≤ p → md.matchRecord p = NONE
  eq_real : md.eqLitForDemodulation < u →
    (md.bases.getD md.eqLitForDemodulation default).isEquality = true ∧
    (md.bases.getD md.eqLitForDemodulation default).isPositive = true
  eq_exh : ∀ j, j ≤ md.currBLit → md.eqLitForDemodulation = j →
    md.isInitialized j = true ∧ md.remaining j j ≤ md.nextAlts j
  cur_fresh : md.isInitialized md.currBLit = false → md.nextAlts md.currBLit = 0
  eq_dom : md.eqLitForDemodulation = NONE ∨ md.eqLitForDemodulation < md.len
  alts_inst : ∀ i l, l ∈ md.alts.getD i [] → l ∈ md.inst

/-- The invariant at the head of the loop of `nextMatch`. -/
def Inv (md : MatchingData) : Prop := InvAt md md.currBLit

/-- The state after `nextMatch` has returned `true`. -/
def Matched (md : MatchingData) : Prop := InvAt md md.len ∧ md.currBLit + 1 = md.len

/-- How the scan of the alternatives of the current level may change the
state. -/
structure ScanRel (md md2 : MatchingData) : Prop where
  len : md2.len = md.len
  varCnts : md2.varCnts = md.varCnts
  boundVarNums : md2.boundVarNums = md.boundVarNums
  eqLit : md2.eqLitForDemodulation = md.eqLitForDemodulation
  bases : md2.bases = md.bases
  alts : md2.alts = md.alts
  inst : md2.inst = md.inst
  matchRecord : md2.matchRecord = md.matchRecord
  currBLit : md2.currBLit = md.currBLit
  next_ne : ∀ j, j ≠ md.currBLit → md2.nextAlts j = md.nextAlts j
  next_ge : md.nextAlts md.currBLit ≤ md2.nextAlts md.currBLit
  alt_le : ∀ l, l ≤ md.currBLit → md2.altBindings l = md.altBindings l
  alt_pp : ∀ l, PrefixPerm (md.remaining l md.currBLit) (md.altBindings l) (md2.altBindings l)
  rem : ∀ l k, (l ≤ md.currBLit ∨ k ≠ md.currBLit + 1) → md2.remaining l k = md.remaining l k
  rem2 : ∀ l, md2.remaining l (md.currBLit + 1) = md.remaining l (md.currBLit + 1) ∨
    md2.remaining l (md.currBLit + 1) ≤ md.remaining l md.currBLit

/-- The alternative `a` of the current level cannot be chosen: its position is
claimed by an earlier level, or some later initialised level has no row left
that is compatible with it. -/
def Dead (md : MatchingData) (a : Nat) : Prop :=
  md.matchRecord ((md.altBindings md.currBLit).getD a default).pos < md.currBLit ∨
  ∃ l, md.currBLit < l ∧ l < md.len ∧ md.isInitialized l = true ∧
    ∀ k, k < md.remaining l md.currBLit →
      md.compatP md.currBLit l ((md.altBindings md.currBLit).getD a default)
        ((md.altBindings l).getD k default) = false

/-- The alternative `nextAlts[currBLit]` has passed both tests of the scan and
the later initialised levels are filtered against it. -/
def Ready (md : MatchingData) : Prop :=
  ¬ (md.matchRecord (md.getAltRecordIndex md.currBLit (md.nextAlts md.currBLit)) < md.currBLit) ∧
  ∀ l, md.currBLit < l → l < md.len → md.isInitialized l = true →
    0 < md.remaining l (md.currBLit + 1) ∧
    md.remaining l (md.currBLit + 1) ≤ md.remaining l md.currBLit ∧
    (∀ k, k < md.remaining l (md.currBLit + 1) →
      md.compatP md.currBLit l ((md.altBindings md.currBLit).getD (md.nextAlts md.currBLit) default)
        ((md.altBindings l).getD k default) = true) ∧
    (∀ k, md.remaining l (md.currBLit + 1) ≤ k → k < md.remaining l md.currBLit →
      md.compatP md.currBLit l ((md.altBindings md.currBLit).getD (md.nextAlts md.currBLit) default)
        ((md.altBindings l).getD k default) = false)

/-- What the scan of the alternatives of the current level guarantees. -/
def FindAltPost (maxAlt : Nat) (md md2 : MatchingData) : Prop :=
  ScanRel md md2 ∧ InvAt md2 md2.currBLit ∧ md2.nextAlts md2.currBLit ≤ maxAlt ∧
  (md2.nextAlts md2.currBLit < maxAlt → Ready md2) ∧
  (∀ a, md.nextAlts md.currBLit ≤ a → a < md2.nextAlts md2.currBLit → Dead md2 a)

/-- How `ensureInit(c)` may change the state. -/
structure InitRel (c : Nat) (md md2 : MatchingData) : Prop where
  len : md2.len = md.len
  nextAlts : md2.nextAlts = md.nextAlts
  eqLit : md2.eqLitForDemodulation = md.eqLitForDemodulation
  bases : md2.bases = md.bases
  alts : md2.alts = md.alts
  inst : md2.inst = md.inst
  matchRecord : md2.matchRecord = md.matchRecord
  currBLit : md2.currBLit = md.currBLit
  other_bv : ∀ l, l ≠ c → md2.boundVarNums l = md.boundVarNums l
  other_vc : ∀ l, l ≠ c → md2.varCnts l = md.varCnts l
  other_alt : ∀ l, l ≠ c → md2.altBindings l = md.altBindings l
  other_rem : ∀ l k, l ≠ c → md2.remaining l k = md.remaining l k

/-- The state of `ensureInit(bIndex)` right after `createLiteralBindings`. -/
def freshLevel (md : MatchingData) (bIndex : Nat) : MatchingData :=
  { md with boundVarNums := Function.update md.boundVarNums bIndex (some (md.varsP bIndex)),
            altBindings := Function.update md.altBindings bIndex (md.rowsP bIndex),
            varCnts := Function.update md.varCnts bIndex (md.varsP bIndex).length }

/-- The state of `ensureInit(bIndex)` after the line of `remaining` has been
zeroed for a positive equality without alternatives. -/
def zeroedLevel (md : MatchingData) (bIndex : Nat) : MatchingData :=
  { md.freshLevel bIndex with
    remaining := fun x y => if x = bIndex ∧ y ≤ bIndex then 0 else md.remaining x y }

/-- The state of `ensureInit(bIndex)` after the number of alternatives has
been stored in column `0`. -/
def countedLevel (md : MatchingData) (bIndex : Nat) : MatchingData :=
  { md.freshLevel bIndex with
    remaining := TriangularArray.set md.remaining bIndex 0 (md.rowsP bIndex).length }

/-- What `ensureInit(currBLit)` guarantees. -/
def EnsureInitSpec (md : MatchingData) (r : InitResult × MatchingData) : Prop :=
  InitRel md.currBLit md r.2 ∧
  (r.1 = InitResult.NO_ALTERNATIVE →
    md.isInitialized md.currBLit = false ∧ md.rowsP md.currBLit = [] ∧
    ¬ ((md.bases.getD md.currBLit default).isEquality = true ∧
        (md.bases.getD md.currBLit default).isPositive = true)) ∧
  (r.1 ≠ InitResult.NO_ALTERNATIVE →
    InvAt r.2 r.2.currBLit ∧ r.2.isInitialized md.currBLit = true) ∧
  (r.1 = InitResult.MUST_BACKTRACK →
    md.isInitialized md.currBLit = false ∧ 0 < md.currBLit ∧
    r.2.remaining md.currBLit md.currBLit = 0 ∧
    (md.rowsP md.currBLit = [] → md.eqLitForDemodulation < md.currBLit))

/-- The state of `nextMatch` after the alternative `nextAlts[currBLit]` has been
recorded as the choice of the current level, before the level is left. -/
def accepted (md : MatchingData) : MatchingData :=
  { md with
    matchRecord := Function.update md.unassign.matchRecord
      (md.getAltRecordIndex md.currBLit (md.nextAlts md.currBLit)) md.currBLit
    nextAlts := Function.update md.nextAlts md.currBLit (md.nextAlts md.currBLit + 1) }

/-- The state of `nextMatch` after the current level has been selected as the
equality for demodulation, before the level is left. -/
def skipped (md : MatchingData) : MatchingData :=
  ({ md.unassign with eqLitForDemodulation := md.currBLit } : MatchingData).skipBinding
    md.currBLit

/-- The state of `nextMatch` after the step to the next level. -/
def advanced (md : MatchingData) : MatchingData :=
  { md with
    currBLit := md.currBLit + 1
    nextAlts := Function.update md.nextAlts (md.currBLit + 1) 0
    eqLitForDemodulation :=
      if md.eqLitForDemodulation = md.currBLit + 1 then NONE else md.eqLitForDemodulation }

/-- Column `currBLit + 1` of `remaining` is in order for the later initialised
levels. -/
def ColReady (md : MatchingData) : Prop :=
  ∀ l, md.currBLit < l → md.isInitialized l = true →
    md.remaining l (md.currBLit + 1) ≤ md.remaining l md.currBLit ∧
    (∀ a j, a < md.remaining l (md.currBLit + 1) → j < md.currBLit + 1 →
      j ≠ md.eqLitForDemodulation →
      md.compatP j l (md.selRow j) ((md.altBindings l).getD a default) = true) ∧
    (∀ a, md.remaining l (md.currBLit + 1) ≤ a → a < (md.altBindings l).length →
      ∃ j, j < md.currBLit + 1 ∧ j ≠ md.eqLitForDemodulation ∧
        md.compatP j l (md.selRow j) ((md.altBindings l).getD a default) = false)

end MatchingData

/-- The cases of one round of the loop of `nextMatch`, each with what is known
about the states it passes through: `md1` is the state after `ensureInit`,
`md2` the state after the scan of the alternatives. -/
inductive RoundCase (md : MatchingData) : Round → Prop where
  | initBacktrack (md1 : MatchingData)
      (hrel : MatchingData.InitRel md.currBLit md md1)
      (hfix : md.isInitialized md.currBLit = true → md1 = md)
      (hinv : MatchingData.InvAt md1 md1.currBLit)
      (hinit : md1.isInitialized md.currBLit = true)
      (hun : md.isInitialized md.currBLit = false)
      (hc : 0 < md.currBLit)
      (hz : md1.remaining md.currBLit md.currBLit = 0)
      (hbt : md.rowsP md.currBLit = [] → md.eqLitForDemodulation < md.currBLit) :
      RoundCase md (Round.backtrackInit { md1 with currBLit := dec32 md1.currBLit })
  | initFail (md1 : MatchingData)
      (hrel : MatchingData.InitRel md.currBLit md md1)
      (hfix : md.isInitialized md.currBLit = true → md1 = md)
      (hun : md.isInitialized md.currBLit = false)
      (hnil : md.rowsP md.currBLit = [])
      (hnpe : ¬ ((md.bases.getD md.currBLit default).isEquality = true ∧
        (md.bases.getD md.currBLit default).isPositive = true)) :
      RoundCase md (Round.fail md1)
  | acceptLast (md1 md2 : MatchingData)
      (hrel : MatchingData.InitRel md.currBLit md md1)
      (hfix : md.isInitialized md.currBLit = true → md1 = md)
      (hinv : MatchingData.InvAt md1 md1.currBLit)
      (hinit : md1.isInitialized md1.currBLit = true)
      (hfa : MatchingData.FindAltPost (md1.remaining md1.currBLit md1.currBLit) md1 md2)
      (hlt : md2.nextAlts md2.currBLit < md1.remaining md1.currBLit md1.currBLit)
      (hlast : md2.currBLit + 1 = md2.len) :
      RoundCase md (Round.complete { md2.accepted with currBLit := md2.currBLit + 1 })
  | acceptNext (md1 md2 : MatchingData)
      (hrel : MatchingData.InitRel md.currBLit md md1)
      (hfix : md.isInitialized md.currBLit = true → md1 = md)
      (hinv : MatchingData.InvAt md1 md1.currBLit)
      (hinit : md1.isInitialized md1.currBLit = true)
      (hfa : MatchingData.FindAltPost (md1.remaining md1.currBLit md1.currBLit) md1 md2)
      (hlt : md2.nextAlts md2.currBLit < md1.remaining md1.currBLit md1.currBLit)
      (hlast : md2.currBLit + 1 ≠ md2.len) :
      RoundCase md (Round.next md2.accepted.advanced)
  | skipLast (md1 md2 : MatchingData)
      (hrel : MatchingData.InitRel md.currBLit md md1)
      (hfix : md.isInitialized md.currBLit = true → md1 = md)
      (hinv : MatchingData.InvAt md1 md1.currBLit)
      (hinit : md1.isInitialized md1.currBLit = true)
      (hfa : MatchingData.FindAltPost (md1.remaining md1.currBLit md1.currBLit) md1 md2)
      (hge : ¬ md2.nextAlts md2.currBLit < md1.remaining md1.currBLit md1.currBLit)
      (heq : md2.eqLitForDemodulation > md2.currBLit)
      (hpe : (md2.bases.getD md2.currBLit default).isEquality = true ∧
        (md2.bases.getD md2.currBLit default).isPositive = true)
      (hlast : md2.currBLit + 1 = md2.len) :
      RoundCase md (Round.complete { md2.skipped with currBLit := md2.currBLit + 1 })
  | skipNext (md1 md2 : MatchingData)
      (hrel : MatchingData.InitRel md.currBLit md md1)
      (hfix : md.isInitialized md.currBLit = true → md1 = md)
      (hinv : MatchingData.InvAt md1 md1.currBLit)
      (hinit : md1.isInitialized md1.currBLit = true)
      (hfa : MatchingData.FindAltPost (md1.remaining md1.currBLit md1.currBLit) md1 md2)
      (hge : ¬ md2.nextAlts md2.currBLit < md1.remaining md1.currBLit md1.currBLit)
      (heq : md2.eqLitForDemodulation > md2.currBLit)
      (hpe : (md2.bases.getD md2.currBLit default).isEquality = true ∧
        (md2.bases.getD md2.currBLit default).isPositive = true)
      (hlast : md2.currBLit + 1 ≠ md2.len) :
      RoundCase md (Round.next md2.skipped.advanced)
  | backFail (md1 md2 : MatchingData)
      (hrel : MatchingData.InitRel md.currBLit md md1)
      (hfix : md.isInitialized md.currBLit = true → md1 = md)
      (hinv : MatchingData.InvAt md1 md1.currBLit)
      (hinit : md1.isInitialized md1.currBLit = true)
      (hfa : MatchingData.FindAltPost (md1.remaining md1.currBLit md1.currBLit) md1 md2)
      (hge : ¬ md2.nextAlts md2.currBLit < md1.remaining md1.currBLit md1.currBLit)
      (hns : ¬ (md2.eqLitForDemodulation > md2.currBLit ∧
        (md2.bases.getD md2.currBLit default).isEquality = true ∧
        (md2.bases.getD md2.currBLit default).isPositive = true))
      (hc : md2.currBLit = 0) :
      RoundCase md (Round.fail md2)
  | backNext (md1 md2 : MatchingData)
      (hrel : MatchingData.InitRel md.currBLit md md1)
      (hfix : md.isInitialized md.currBLit = true → md1 = md)
      (hinv : MatchingData.InvAt md1 md1.currBLit)
      (hinit : md1.isInitialized md1.currBLit = true)
      (hfa : MatchingData.FindAltPost (md1.remaining md1.currBLit md1.currBLit) md1 md2)
      (hge : ¬ md2.nextAlts md2.currBLit < md1.remaining md1.currBLit md1.currBLit)
      (hns : ¬ (md2.eqLitForDemodulation > md2.currBLit ∧
        (md2.bases.getD md2.currBLit default).isEquality = true ∧
        (md2.bases.getD md2.currBLit default).isPositive = true))
      (hc : md2.currBLit ≠ 0) :
      RoundCase md (Round.next { md2 with currBLit := dec32 md2.currBLit })

/-- What holds for the state a round of the loop of `nextMatch` ends with. -/
def RoundInv : Round → Prop
  | Round.backtrackInit md2 => MatchingData.InvAt md2 md2.currBLit
  | Round.next md2 => MatchingData.InvAt md2 md2.currBLit
  | Round.complete md2 => MatchingData.Matched { md2 with currBLit := dec32 md2.currBLit }
  | Round.fail _ => True

/-- What `init` requires of a matching problem: the number of base literals
fits an `unsigned` below the sentinel, there is one list of alternatives per
base literal, and all alternatives appear in the instance clause. -/
structure WellFormed (baseLits : List Literal) (inst : Clause) (alts : List (List Literal)) :
    Prop where
  len_le : baseLits.length ≤ NONE
  alts_len : alts.length = baseLits.length
  alts_inst : ∀ as, as ∈ alts → ∀ l, l ∈ as → l ∈ inst

/-- The matcher is in a valid state for the given problem: it has been
initialised with it and every call of `nextMatch` since has returned `true`. -/
inductive ValidState (baseLits : List Literal) (inst : Clause) (alts : List (List Literal)) :
    Impl → Prop where
  | init (impl : Impl) (h : init baseLits inst alts = some impl) :
      ValidState baseLits inst alts impl
  | next (impl impl2 : Impl) (tl : Nat → Bool) (fuel : Nat)
      (hv : ValidState baseLits inst alts impl)
      (h : nextMatch tl fuel impl = some (MatchResult.returned true impl2)) :
      ValidState baseLits inst alts impl2

/-- The position in the instance clause that level `i` claims in a matched
state: `getAltRecordIndex(i, nextAlts[i] - 1)`. -/
def claimedPos (impl : Impl) (i : Nat) : Nat :=
  impl.s_matchingData.getAltRecordIndex i (dec32 (impl.s_matchingData.nextAlts i))

/-- The invariant of the reordering loop before round `i`. -/
structure ReorderInv (baseLits0 : List Literal) (alts : List (List Literal))
    (s : ReorderState) (i : Nat) : Prop where
  zero_le : s.zeroAlts ≤ s.singleAlts
  single_le : s.singleAlts ≤ i
  most : s.mostDistVarsLit = 0 ∨ s.mostDistVarsLit < i
  len_b : s.s_baseLits.length = baseLits0.length
  len_a : s.s_altsArr.length = baseLits0.length
  perm : (s.s_baseLits.zip s.s_altsArr).Perm (baseLits0.zip alts)

end Kernel

namespace Kernel

/-! ## A measure of the progress of the search -/

/-- The value of the first `n` digits `d 0, d 1, ...` in the mixed radix
`r 0, r 1, ...`, the digit `0` being the most significant one. -/
def mixedVal (r d : Nat → Nat) : Nat → Nat
  | 0 => 0
  | n + 1 => mixedVal r d n * r n + d n

/-- The product of the first `n` radices. -/
def radixProd (r : Nat → Nat) : Nat → Nat
  | 0 => 1
  | n + 1 => radixProd r n * r n

namespace MatchingData

/-- The digit of level `i`: twice the number of alternatives passed at a level
that is on the path of the search, plus one when the level has been selected
for demodulation; the largest digit at a level the search is not at. -/
def digit (md : MatchingData) (i : Nat) : Nat :=
  if i ≤ md.currBLit then
    2 * md.nextAlts i + (if md.eqLitForDemodulation = i then 1 else 0)
  else 2 * (md.rowsP i).length + 2

/-- The radix of level `i`. -/
def radix (md : MatchingData) (i : Nat) : Nat := 2 * (md.rowsP i).length + 3

/-- The progress of the search: it grows with every round of the loop of
`nextMatch`. -/
def progress (md : MatchingData) : Nat := mixedVal md.radix md.digit md.len

/-- A bound of the progress. -/
def progressBound (md : MatchingData) : Nat := radixProd md.radix md.len

/-- The second state is further on in the search over the same problem. -/
def Progress (md md2 : MatchingData) : Prop :=
  md2.len = md.len ∧ md2.bases = md.bases ∧ md2.alts = md.alts ∧ md2.inst = md.inst ∧
  md.progress < md2.progress

end MatchingData

/-- A round that does not end the loop of `nextMatch` makes progress. -/
def RoundProgress (md : MatchingData) : Round → Prop
  | Round.backtrackInit md2 => MatchingData.Progress md md2
  | Round.next md2 => MatchingData.Progress md md2
  | Round.complete _ => True
  | Round.fail _ => True

/-- The state a round of the loop of `nextMatch` ends with. -/
def Round.state : Round → MatchingData
  | Round.backtrackInit md => md
  | Round.next md => md
  | Round.complete md => md
  | Round.fail md => md

/-- The two states belong to the same matching problem. -/
def SameProblem (md md2 : MatchingData) : Prop :=
  md2.len = md.len ∧ md2.bases = md.bases ∧ md2.alts = md.alts ∧ md2.inst = md.inst

end Kernel

namespace Kernel

/-! ## Notions for the soundness of a match -/

/-- The literal `a` is an instance of the literal `base`: some substitution
maps `base` to `a`, as shared literals. -/
def Literal.instanceOf (base a : Literal) : Prop :=
  ∃ σ : Nat → Term, Literal.same (base.subst σ) a

/-- The substitution a binding row stands for, given the ascending variables of
its base literal: the variable at position `k` is bound to the cell `k` of the
row. -/
def rowSubst (vars : List Nat) (r : AltRow) : Nat → Term :=
  fun v => r.binds.getD (vars.indexOf v) default

/-- The substitution the map of a `MapBinder` stands for. -/
def mapSubst (m : List (Nat × Term)) : Nat → Term :=
  fun v => (m.lookup v).getD default

/-- The map `m` holds all bindings of the map `m0`. -/
def MapExt (m0 m : List (Nat × Term)) : Prop :=
  ∀ v u, m0.lookup v = some u → m.lookup v = some u

end Kernel

namespace Kernel

/-! ## A base of one literal -/

/-- The state `init` leaves behind for a base of one literal `b` with one
alternative `a`. -/
def oneLevel (b : Literal) (inst : Clause) (a : Literal) : MatchingData :=
  { len := 1
    varCnts := fun _ => 0
    boundVarNums := fun _ => none
    altBindings := fun _ => []
    remaining := fun _ _ => 0
    nextAlts := fun _ => 0
    eqLitForDemodulation := NONE
    bases := [b]
    alts := [[a]]
    inst := inst
    matchRecord := fun _ => NONE
    currBLit := 0 }

/-- The state of the matcher for a base of one literal once the rows of the
literal are stored, with the array `na` of the numbers of alternatives passed
and the match record `rcd`. -/
def oneLevelAt (b : Literal) (inst : Clause) (a : Literal) (na : Nat → Nat) (rcd : Nat → Nat) :
    MatchingData :=
  { len := 1
    varCnts := Function.update (fun _ => 0) 0 (createLiteralBindings b [a] inst).1.length
    boundVarNums := Function.update (fun _ => none) 0 (some (createLiteralBindings b [a] inst).1)
    altBindings := Function.update (fun _ => []) 0 (createLiteralBindings b [a] inst).2
    remaining := TriangularArray.set (fun _ _ => 0) 0 0 (createLiteralBindings b [a] inst).2.length
    nextAlts := na
    eqLitForDemodulation := NONE
    bases := [b]
    alts := [[a]]
    inst := inst
    matchRecord := rcd
    currBLit := 0 }

/-- The row `createLiteralBindings` stores for the direct match of an equality
`b` onto the alternative `a`. -/
def directRow (b : Literal) (inst : Clause) (a : Literal) : AltRow :=
  AltRow.mk (MatchingUtils.matchTermList
    (ArrayStoringBinder.bind (fun v => (boundVarsOf b).indexOf v)) b.args a.args
    (List.replicate (boundVarsOf b).length default)).2 (inst.getLiteralPosition a)

/-- The row `createLiteralBindings` stores for the reversed match of an equality
`b` onto the alternative `a`. -/
def reversedRow (b : Literal) (inst : Clause) (a : Literal) : AltRow :=
  AltRow.mk (MatchingUtils.matchTerms
    (ArrayStoringBinder.bind (fun v => (boundVarsOf b).indexOf v)) (b.nthArgument 1)
    (a.nthArgument 0)
    (MatchingUtils.matchTerms
      (ArrayStoringBinder.bind (fun v => (boundVarsOf b).indexOf v)) (b.nthArgument 0)
      (a.nthArgument 1) (List.replicate (boundVarsOf b).length default)).2).2
    (inst.getLiteralPosition a)

end Kernel

namespace Kernel

/-! ## The control of the search -/

namespace MatchingData

/-- The step of a round that goes back one level. -/
def StepBack (md md2 : MatchingData) : Prop :=
  md2.currBLit + 1 = md.currBLit ∧
  (∀ j, j < md.currBLit → md2.nextAlts j = md.nextAlts j) ∧
  md2.eqLitForDemodulation = md.eqLitForDemodulation

/-- The step of a round that accepts an alternative of the current level. -/
def StepAccept (md md2 : MatchingData) : Prop :=
  (∀ j, j < md.currBLit → md2.nextAlts j = md.nextAlts j) ∧
  md.nextAlts md.currBLit < md2.nextAlts md.currBLit ∧
  md.eqLitForDemodulation ≠ md.currBLit ∧
  (∀ j, j ≤ md.currBLit → (md2.eqLitForDemodulation = j ↔ md.eqLitForDemodulation = j))

/-- The step of a round that selects the current level for demodulation. -/
def StepSkip (md md2 : MatchingData) : Prop :=
  (∀ j, j < md.currBLit → md2.nextAlts j = md.nextAlts j) ∧
  md.currBLit < md.eqLitForDemodulation ∧
  md2.eqLitForDemodulation = md.currBLit

/-- The step of a round that goes on to the next level. -/
def StepFwd (md md2 : MatchingData) : Prop :=
  md2.currBLit = md.currBLit + 1 ∧ (StepAccept md md2 ∨ StepSkip md md2)

/-- The state agrees below level `d` with the choices `oldN`, `oldE` of an
earlier match. -/
def SameBelow (oldN : Nat → Nat) (oldE : Nat) (md : MatchingData) (d : Nat) : Prop :=
  ∀ j, j < d → md.nextAlts j = oldN j ∧ (md.eqLitForDemodulation = j ↔ oldE = j)

/-- The choice at level `d` is past the choice `oldN d`, `oldE` of an earlier
match: the level was matched then, and now a later alternative has been
reached or the level is selected for demodulation. -/
def Strict (oldN : Nat → Nat) (oldE : Nat) (md : MatchingData) (d : Nat) : Prop :=
  oldE ≠ d ∧
  ((md.eqLitForDemodulation ≠ d ∧ oldN d < md.nextAlts d) ∨ md.eqLitForDemodulation = d)

/-- The search has left the choices of the earlier match at some level `d`. -/
def Diverged (oldN : Nat → Nat) (oldE : Nat) (md : MatchingData) : Prop :=
  ∃ d, d ≤ md.currBLit ∧ SameBelow oldN oldE md d ∧ Strict oldN oldE md d

/-- The search is back at a level at and below which the choices are those
of the earlier match. -/
def Pristine (oldN : Nat → Nat) (oldE : Nat) (md : MatchingData) : Prop :=
  SameBelow oldN oldE md md.currBLit ∧ oldN md.currBLit ≤ md.nextAlts md.currBLit ∧
  (md.eqLitForDemodulation = md.currBLit ↔ oldE = md.currBLit)

/-- The invariant of a call of `nextMatch` that follows a match. -/
def Resumed (oldN : Nat → Nat) (oldE : Nat) (md : MatchingData) : Prop :=
  Pristine oldN oldE md ∨ Diverged oldN oldE md

end MatchingData

/-- How a round of the loop of `nextMatch` moves through the levels. -/
def RoundCtl (md : MatchingData) : Round → Prop
  | Round.backtrackInit md2 => MatchingData.StepBack md md2
  | Round.next md2 => MatchingData.StepBack md md2 ∨ MatchingData.StepFwd md md2
  | Round.complete md2 => MatchingData.StepFwd md md2
  | Round.fail _ => True

/-- What the invariant of a call that follows a match becomes after a
round. -/
def RoundResumed (oldN : Nat → Nat) (oldE : Nat) : Round → Prop
  | Round.backtrackInit md2 => MatchingData.Resumed oldN oldE md2
  | Round.next md2 => MatchingData.Resumed oldN oldE md2
  | Round.complete md2 =>
      MatchingData.Diverged oldN oldE { md2 with currBLit := dec32 md2.currBLit }
  | Round.fail _ => True

/-- The second of two calls of `nextMatch` under no time limit: it is made when
the first call has returned `true`. -/
def secondCall (fuel : Nat) : MatchResult → Option MatchResult
  | MatchResult.returned true impl => nextMatch noTimeLimit fuel impl
  | _ => none

end Kernel

namespace Kernel

/-! ## The choices of rows -/

/-- Two chosen rows, each with its base literal, go together: they bind every
variable the two base literals share to the same term and they point to
different positions of the instance. -/
def RowsAgree (x y : Literal × AltRow) : Prop :=
  (∀ v, v ∈ x.1.vars → v ∈ y.1.vars →
    rowSubst (boundVarsOf x.1) x.2 v = rowSubst (boundVarsOf y.1) y.2 v) ∧
  x.2.pos ≠ y.2.pos

instance (x y : Literal × AltRow) : Decidable (RowsAgree x y) := by
  unfold RowsAgree; infer_instance

/-- The binding rows of a base literal with its alternatives, each paired with
the base literal. -/
def rowChoices (inst : Clause) (p : Literal × List Literal) : List (Literal × AltRow) :=
  (createLiteralBindings p.1 p.2 inst).2.map (fun r => (p.1, r))

/-- The ways to choose one member from each list of a list of lists. -/
def tuples {α : Type} : List (List α) → List (List α)
  | [] => [[]]
  | l :: ls => l.flatMap (fun a => (tuples ls).map (fun t => a :: t))

/-- The ways to choose one binding row per base literal such that the chosen
rows agree on every variable shared by two base literals and point to
pairwise distinct positions of the instance. -/
def validChoices (baseLits : List Literal) (inst : Clause) (alts : List (List Literal)) :
    List (List (Literal × AltRow)) :=
  (tuples ((baseLits.zip alts).map (rowChoices inst))).filter
    (fun t => decide (t.Pairwise RowsAgree))

/-- The choice a matched state reports: for every level the base literal and
the row selected for it. -/
def reportedChoice (impl : Impl) : List (Literal × AltRow) :=
  (List.range impl.s_matchingData.len).map
    (fun i => (impl.s_matchingData.bases.getD i default, impl.s_matchingData.selRow i))

/-- The matcher goes from the first state to the second by consecutive calls of
`nextMatch` under no time limit that all return `true`; the list holds the
states after the calls. -/
inductive Calls : Impl → List Impl → Impl → Prop where
  | nil (impl : Impl) : Calls impl [] impl
  | cons (impl impl1 impl2 : Impl) (ms : List Impl) (fuel : Nat)
      (h : nextMatch noTimeLimit fuel impl = some (MatchResult.returned true impl1))
      (hs : Calls impl1 ms impl2) : Calls impl (impl1 :: ms) impl2

namespace MatchingData

/-- The rows of level `i`, each paired with the base literal of the level. -/
def levelRows (md : MatchingData) (i : Nat) : List (Literal × AltRow) :=
  (md.rowsP i).map (fun r => (md.bases.getD i default, r))

/-- The choices of rows for the levels `d, d+1, ..., d+n-1`. -/
def tuplesFrom (md : MatchingData) (d n : Nat) : List (List (Literal × AltRow)) :=
  tuples ((List.range' d n).map md.levelRows)

/-- The valid choices of rows for all levels that begin with the choices `p` for
the first levels. -/
def ext (md : MatchingData) (p : List (Literal × AltRow)) : List (List (Literal × AltRow)) :=
  ((md.tuplesFrom p.length (md.len - p.length)).map (fun t => p ++ t)).filter
    (fun t => decide (t.Pairwise RowsAgree))

/-- The rows of level `d` in the order the matcher holds them. -/
def rowsCur (md : MatchingData) (d : Nat) : List AltRow :=
  if md.isInitialized d then md.altBindings d else md.rowsP d

/-- The choices made at the levels before `d`. -/
def prefixSel (md : MatchingData) (d : Nat) : List (Literal × AltRow) :=
  (List.range d).map (fun j => (md.bases.getD j default, md.selRow j))

/-- The valid choices that agree with the choices made before level `d` and
take at level `d` an alternative that has not been passed yet. -/
def futTerm (md : MatchingData) (d : Nat) : List (List (Literal × AltRow)) :=
  ((md.rowsCur d).drop (md.nextAlts d)).flatMap
    (fun r => md.ext (md.prefixSel d ++ [(md.bases.getD d default, r)]))

/-- The valid choices that are still ahead of the search, for the levels before
`n`. -/
def fut (md : MatchingData) : Nat → List (List (Literal × AltRow))
  | 0 => []
  | n + 1 => fut md n ++ md.futTerm n

/-- The two states agree on the rows, the alternatives passed and the
initialisation of the levels before `n`. -/
def AgreeBelow (md md2 : MatchingData) (n : Nat) : Prop :=
  ∀ j, j < n → md2.altBindings j = md.altBindings j ∧ md2.nextAlts j = md.nextAlts j ∧
    md2.isInitialized j = md.isInitialized j

/-- No base literal is a positive equality. -/
def NoPosEq (md : MatchingData) : Prop :=
  ∀ i, i < md.len → ¬ ((md.bases.getD i default).isEquality = true ∧
    (md.bases.getD i default).isPositive = true)

/-- The invariant of the enumeration: the choices reported so far and the
choices still ahead are, together, the valid choices. -/
def EnumInv (rep : List (List (Literal × AltRow))) (md : MatchingData) : Prop :=
  md.eqLitForDemodulation = NONE ∧ (rep ++ md.fut (md.currBLit + 1)).Perm (md.ext [])

end MatchingData

/-- What the invariant of the enumeration becomes after a round. -/
def RoundEnum (rep : List (List (Literal × AltRow))) (md : MatchingData) : Round → Prop
  | Round.backtrackInit md2 => MatchingData.EnumInv rep md2
  | Round.next md2 => MatchingData.EnumInv rep md2
  | Round.complete md2 =>
      MatchingData.EnumInv (rep ++ [md2.prefixSel md2.len])
        { md2 with currBLit := dec32 md2.currBLit }
  | Round.fail _ => rep.Perm (md.ext [])

end Kernel

/-! ## Indexing/IndexManager.cpp

The index manager is a registry of reference-counted indices keyed by
`IndexType`. The class is embedded as a record of its fields together with the
part of the heap its member functions act on; a member function that can fail
returns in `Except Error`. -/

namespace Indexing

/-- Modelled from the spec: the enumeration `IndexType` is declared in
`IndexManager.hpp`, which is not among the sources. The first fifteen values
are the labels of the `switch` in `create` (the kinds listed in section 6 of
the specification); `OTHER n` stands for every further value, which `create`
sends to its `default` label. -/
inductive IndexType
  | GENERATING_SUBST_TREE
  | FW_SIMPLIFICATION_SUBST_TREE
  | BW_SIMPLIFICATION_SUBST_TREE
  | FW_SIMPLIFYING_UNIT_CLAUSE_SUBST_TREE
  | GENERATING_UNIT_CLAUSE_SUBST_TREE
  | GENERATING_NON_UNIT_CLAUSE_SUBST_TREE
  | SUPERPOSITION_SUBTERM_SUBST_TREE
  | SUPERPOSITION_LHS_SUBST_TREE
  | ACYCLICITY_INDEX
  | BW_DEMODULATION_SUBTERM_SUBST_TREE
  | FW_DEMODULATION_LHS_SUBST_TREE
  | FW_SUBSUMPTION_CODE_TREE
  | FW_SUBSUMPTION_SUBST_TREE
  | FW_REWRITE_RULE_SUBST_TREE
  | FW_GLOBAL_SUBSUMPTION_INDEX
  | OTHER (n : Nat)
  deriving DecidableEq, Repr

/-- Modelled from the spec: the saturation algorithm as far as the index manager
reads it, namely the addresses of its three clause containers. -/
structure SaturationAlgorithm where
  getGeneratingClauseContainer : Nat
  getSimplifyingClauseContainer : Nat
  getToBeSimplifiedClauseContainer : Nat
  deriving DecidableEq, Repr

/-- Modelled from the spec: an entry of the registry (`IndexManager::Entry`
of the missing header), a pointer to the index and its reference count. The
count is an integer, so that a decrement below one is visible. -/
structure Entry where
  index : Nat
  refCnt : Int
  deriving DecidableEq, Repr

/-- The indexing structures `create` allocates with `new`. -/
inductive IndexingStructure
  | LiteralSubstitutionTree (useConstraints : Bool)
  | TermSubstitutionTree (useConstraints : Bool)
  | CodeTreeTIS
  deriving DecidableEq, Repr

/-- The index classes `create` instantiates. -/
inductive IndexClass
  | GeneratingLiteralIndex
  | SimplifyingLiteralIndex
  | UnitClauseLiteralIndex
  | NonUnitClauseLiteralIndex
  | SuperpositionSubtermIndex
  | SuperpositionLHSIndex
  | AcyclicityIndex
  | DemodulationSubtermIndex
  | DemodulationLHSIndex
  | CodeTreeSubsumptionIndex
  | FwSubsSimplifyingLiteralIndex
  | RewriteRuleIndex
  | GroundingIndex
  deriving DecidableEq, Repr

/-- An object on the heap: an indexing structure, or an index of class `cls`
built over the structure at address `is` (`0` if it has none) and attached to
`container` once `attachContainer` has been called. -/
inductive HeapObject
  | indexingStructure (s : IndexingStructure)
  | index (cls : IndexClass) (is : Nat) (container : Option Nat)
  deriving DecidableEq, Repr

/-- The part of the program state outside the manager object: the objects
allocated by `new` (address `0` is the null pointer, `nextPtr` the next free
address), the addresses `delete` has been called on, latest first, and the
static flag `useConstraints` of `create`. -/
structure World where
  heap : Nat → Option HeapObject
  nextPtr : Nat
  deleted : List Nat
  useConstraints : Bool

/-- The fields of the class `IndexManager` and the world it acts on. The
registry `_store` is a map from kinds to entries. -/
structure IndexManager where
  _alg : Option SaturationAlgorithm
  _genLitIndex : Nat
  _equalSimpContainers : Bool
  _store : IndexType → Option Entry
  world : World

/-- The ways a member function fails: the exception of `INVALID_OPERATION(msg)`,
with the state of the manager at the moment it is thrown, and behaviour the
language leaves undefined (a null `_alg` dereferenced, `_store.get` of a key
the map does not hold). -/
inductive Error
  | invalidOperation (msg : String) (m : IndexManager)
  | undefinedBehaviour

/-- Allocation, `new`: the object is stored at the next free address. -/
def World.alloc (o : HeapObject) (w : World) : Nat × World :=
  (w.nextPtr, { w with heap := Function.update w.heap w.nextPtr (some o), nextPtr := w.nextPtr + 1 })

/-- The call `res->attachContainer(c)`. -/
def World.attachContainer (res c : Nat) (w : World) : World :=
  let o : Option HeapObject :=
    match w.heap res with
    | some (HeapObject.index cls is _) => some (HeapObject.index cls is (some c))
    | o => o
  { w with heap := Function.update w.heap res o }

/-- The statement `delete p`. -/
def World.delete (p : Nat) (w : World) : World :=
  { w with deleted := p :: w.deleted }

/-- The container the index at address `p` is attached to, if any. -/
def World.containerOf (w : World) (p : Nat) : Option Nat :=
  match w.heap p with
  | some (HeapObject.index _ _ c) => c
  | _ => none

/-- The block that opens `request`, `release`, `contains` and `get`:
`if(t == BW_SIMPLIFICATION_SUBST_TREE && _equalSimpContainers) t = FW_SIMPLIFICATION_SUBST_TREE;`. -/
def IndexManager.aliased (m : IndexManager) (t : IndexType) : IndexType :=
  if t = IndexType.BW_SIMPLIFICATION_SUBST_TREE ∧ m._equalSimpContainers = true then
    IndexType.FW_SIMPLIFICATION_SUBST_TREE
  else t

/-- The call `_store.set(t,e)`. -/
def IndexManager.storeSet (m : IndexManager) (t : IndexType) (e : Entry) : IndexManager :=
  { m with _store := Function.update m._store t (some e) }

/-- The call `_store.remove(t)`. -/
def IndexManager.storeRemove (m : IndexManager) (t : IndexType) : IndexManager :=
  { m with _store := Function.update m._store t none }

/-- One case of the `switch` in `create` that builds an index over an indexing
structure: `is = new S; res = new C(is); res->attachContainer(c);`. -/
def IndexManager.createOver (m : IndexManager) (s : IndexingStructure) (cls : IndexClass)
    (c : Nat) : Nat × IndexManager :=
  let (is, w1) := m.world.alloc (HeapObject.indexingStructure s)
  let (res, w2) := w1.alloc (HeapObject.index cls is none)
  (res, { m with world := w2.attachContainer res c })

/-- One case of the `switch` in `create` that builds an index without a separate
structure: `res = new C(); res->attachContainer(c);`. -/
def IndexManager.createPlain (m : IndexManager) (cls : IndexClass) (c : Nat) :
    Nat × IndexManager :=
  let (res, w1) := m.world.alloc (HeapObject.index cls 0 none)
  (res, { m with world := w1.attachContainer res c })

/-- The function `IndexManager::create`. A kind outside the `switch` throws
`INVALID_OPERATION("Unsupported IndexType.")`; every other case reads a
container through `_alg`, which must not be null. -/
def IndexManager.create (m : IndexManager) (t : IndexType) : Except Error (Nat × IndexManager) :=
  match t with
  | IndexType.OTHER _ => Except.error (Error.invalidOperation ("Unsupported IndexType.") m)
  | IndexType.GENERATING_SUBST_TREE =>
      match m._alg with
      | none => Except.error Error.undefinedBehaviour
      | some alg =>
          let (is, w1) := m.world.alloc
            (HeapObject.indexingStructure (IndexingStructure.LiteralSubstitutionTree m.world.useConstraints))
          let (res, w2) := w1.alloc (HeapObject.index IndexClass.GeneratingLiteralIndex is none)
          Except.ok (res, { m with _genLitIndex := is,
                                   world := w2.attachContainer res alg.getGeneratingClauseContainer })
  | IndexType.FW_SIMPLIFICATION_SUBST_TREE =>
      match m._alg with
      | none => Except.error Error.undefinedBehaviour
      | some alg => Except.ok (m.createOver (IndexingStructure.LiteralSubstitutionTree false)
          IndexClass.SimplifyingLiteralIndex alg.getSimplifyingClauseContainer)
  | IndexType.BW_SIMPLIFICATION_SUBST_TREE =>
      match m._alg with
      | none => Except.error Error.undefinedBehaviour
      | some alg => Except.ok (m.createOver (IndexingStructure.LiteralSubstitutionTree false)
          IndexClass.SimplifyingLiteralIndex alg.getToBeSimplifiedClauseContainer)
  | IndexType.FW_SIMPLIFYING_UNIT_CLAUSE_SUBST_TREE =>
      match m._alg with
      | none => Except.error Error.undefinedBehaviour
      | some alg => Except.ok (m.createOver (IndexingStructure.LiteralSubstitutionTree false)
          IndexClass.UnitClauseLiteralIndex alg.getSimplifyingClauseContainer)
  | IndexType.GENERATING_UNIT_CLAUSE_SUBST_TREE =>
      match m._alg with
      | none => Except.error Error.undefinedBehaviour
      | some alg => Except.ok (m.createOver (IndexingStructure.LiteralSubstitutionTree false)
          IndexClass.UnitClauseLiteralIndex alg.getGeneratingClauseContainer)
  | IndexType.GENERATING_NON_UNIT_CLAUSE_SUBST_TREE =>
      match m._alg with
      | none => Except.error Error.undefinedBehaviour
      | some alg => Except.ok (m.createOver (IndexingStructure.LiteralSubstitutionTree false)
          IndexClass.NonUnitClauseLiteralIndex alg.getGeneratingClauseContainer)
  | IndexType.SUPERPOSITION_SUBTERM_SUBST_TREE =>
      match m._alg with
      | none => Except.error Error.undefinedBehaviour
      | some alg => Except.ok (m.createOver
          (IndexingStructure.TermSubstitutionTree m.world.useConstraints)
          IndexClass.SuperpositionSubtermIndex alg.getGeneratingClauseContainer)
  | IndexType.SUPERPOSITION_LHS_SUBST_TREE =>
      match m._alg with
      | none => Except.error Error.undefinedBehaviour
      | some alg => Except.ok (m.createOver
          (IndexingStructure.TermSubstitutionTree m.world.useConstraints)
          IndexClass.SuperpositionLHSIndex alg.getGeneratingClauseContainer)
  | IndexType.ACYCLICITY_INDEX =>
      match m._alg with
      | none => Except.error Error.undefinedBehaviour
      | some alg => Except.ok (m.createOver (IndexingStructure.TermSubstitutionTree false)
          IndexClass.AcyclicityIndex alg.getGeneratingClauseContainer)
  | IndexType.BW_DEMODULATION_SUBTERM_SUBST_TREE =>
      match m._alg with
      | none => Except.error Error.undefinedBehaviour
      | some alg => Except.ok (m.createOver (IndexingStructure.TermSubstitutionTree false)
          IndexClass.DemodulationSubtermIndex alg.getToBeSimplifiedClauseContainer)
  | IndexType.FW_DEMODULATION_LHS_SUBST_TREE =>
      match m._alg with
      | none => Except.error Error.undefinedBehaviour
      | some alg => Except.ok (m.createOver IndexingStructure.CodeTreeTIS
          IndexClass.DemodulationLHSIndex alg.getSimplifyingClauseContainer)
  | IndexType.FW_SUBSUMPTION_CODE_TREE =>
      match m._alg with
      | none => Except.error Error.undefinedBehaviour
      | some alg => Except.ok (m.createPlain IndexClass.CodeTreeSubsumptionIndex
          alg.getSimplifyingClauseContainer)
  | IndexType.FW_SUBSUMPTION_SUBST_TREE =>
      match m._alg with
      | none => Except.error Error.undefinedBehaviour
      | some alg => Except.ok (m.createOver (IndexingStructure.LiteralSubstitutionTree false)
          IndexClass.FwSubsSimplifyingLiteralIndex alg.getSimplifyingClauseContainer)
  | IndexType.FW_REWRITE_RULE_SUBST_TREE =>
      match m._alg with
      | none => Except.error Error.undefinedBehaviour
      | some alg => Except.ok (m.createOver (IndexingStructure.LiteralSubstitutionTree false)
          IndexClass.RewriteRuleIndex alg.getSimplifyingClauseContainer)
  | IndexType.FW_GLOBAL_SUBSUMPTION_INDEX =>
      match m._alg with
      | none => Except.error Error.undefinedBehaviour
      | some alg => Except.ok (m.createPlain IndexClass.GroundingIndex
          alg.getSimplifyingClauseContainer)

/-- The function `IndexManager::request`: the pointer returned and the state
left behind. An exception of `create` leaves before `_store.set`. -/
def IndexManager.request (m : IndexManager) (t : IndexType) :
    Except Error (Nat × IndexManager) :=
  let t := m.aliased t
  match m._store t with
  | some e =>
      let e := { e with refCnt := e.refCnt + 1 }
      Except.ok (e.index, m.storeSet t e)
  | none =>
      match m.create t with
      | Except.error err => Except.error err
      | Except.ok (index, m1) =>
          let e : Entry := { index := index, refCnt := 1 }
          Except.ok (e.index, m1.storeSet t e)

/-- The function `IndexManager::release`. The call `_store.get(t)` needs an
entry for `t`. -/
def IndexManager.release (m : IndexManager) (t : IndexType) : Except Error IndexManager :=
  let t := m.aliased t
  match m._store t with
  | none => Except.error Error.undefinedBehaviour
  | some e =>
      let e := { e with refCnt := e.refCnt - 1 }
      if e.refCnt = 0 then
        let m1 := if t = IndexType.GENERATING_SUBST_TREE then { m with _genLitIndex := 0 } else m
        let m2 := { m1 with world := m1.world.delete e.index }
        Except.ok (m2.storeRemove t)
      else
        Except.ok (m.storeSet t e)

/-- The function `IndexManager::contains`. -/
def IndexManager.contains (m : IndexManager) (t : IndexType) : Bool :=
  (m._store (m.aliased t)).isSome

/-- The function `IndexManager::get`. The call `_store.get(t)` needs an entry
for `t`. -/
def IndexManager.get (m : IndexManager) (t : IndexType) : Except Error Nat :=
  match m._store (m.aliased t) with
  | none => Except.error Error.undefinedBehaviour
  | some e => Except.ok e.index

/-- The function `IndexManager::provideIndex`. The kind is not aliased; the
assertion that no entry exists is not compiled into a release build, and
`_store.set` overwrites. -/
def IndexManager.provideIndex (m : IndexManager) (t : IndexType) (index : Nat) : IndexManager :=
  let e : Entry := { index := index, refCnt := 1 }
  m.storeSet t e

/-- The function `IndexManager::attach`. -/
def IndexManager.attach (m : IndexManager) : Except Error IndexManager :=
  match m.request IndexType.GENERATING_SUBST_TREE with
  | Except.error err => Except.error err
  | Except.ok (_, m1) => Except.ok m1

/-- The constructor `IndexManager::IndexManager(alg)` run in the world `w`. -/
def IndexManager.new (alg : Option SaturationAlgorithm) (w : World) : Except Error IndexManager :=
  let m : IndexManager :=
    { _alg := alg, _genLitIndex := 0, _equalSimpContainers := false,
      _store := fun _ => none, world := w }
  match alg with
  | some a =>
      let eq : Bool :=
        decide (a.getSimplifyingClauseContainer = a.getToBeSimplifiedClauseContainer)
      IndexManager.attach { m with _equalSimpContainers := eq }
  | none => Except.ok m

/-- A call of one of the three member functions that change the registry. -/
inductive Op
  | request (t : IndexType)
  | release (t : IndexType)
  | provideIndex (t : IndexType) (index : Nat)
  deriving DecidableEq, Repr

/-- The state after one call. -/
def IndexManager.step (m : IndexManager) : Op → Except Error IndexManager
  | Op.request t =>
      match m.request t with
      | Except.error err => Except.error err
      | Except.ok (_, m1) => Except.ok m1
  | Op.release t => m.release t
  | Op.provideIndex t index => Except.ok (m.provideIndex t index)

/-- The state after a sequence of calls; the first call that fails ends the
sequence. -/
def IndexManager.run : List Op → IndexManager → Except Error IndexManager
  | [], m => Except.ok m
  | o :: os, m =>
      match m.step o with
      | Except.error err => Except.error err
      | Except.ok m1 => IndexManager.run os m1

/-- A call of `request(k)` or of `release(k)` for a fixed kind `k`. -/
inductive RefCall
  | request
  | release
  deriving DecidableEq, Repr

/-- The call on the kind `k`. -/
def RefCall.on (k : IndexType) : RefCall → Op
  | RefCall.request => Op.request k
  | RefCall.release => Op.release k

/-- In no prefix of the sequence do the releases outnumber the requests, where
`b` requests are already outstanding. -/
def balanced (b : Nat) : List RefCall → Bool
  | [] => true
  | RefCall.request :: cs => balanced (b + 1) cs
  | RefCall.release :: cs => decide (1 ≤ b) && balanced (b - 1) cs

/-- The number of requests in the sequence. -/
def requests (cs : List RefCall) : Nat := cs.count RefCall.request

/-- The number of releases in the sequence. -/
def releases (cs : List RefCall) : Nat := cs.count RefCall.release

/-- The reference count the registry holds for the key `t`, zero if there is no
entry. -/
def IndexManager.refCount (m : IndexManager) (t : IndexType) : Int :=
  match m._store t with
  | none => 0
  | some e => e.refCnt

/-- The registry invariant: every entry has a reference count of at least
one. -/
def IndexManager.Counted (m : IndexManager) : Prop :=
  ∀ t e, m._store t = some e → 1 ≤ e.refCnt

/-- The container roles of the table of index kinds in the specification. -/
inductive ContainerRole
  | generating
  | simplifying
  | toBeSimplified
  deriving DecidableEq, Repr

/-- The container of the algorithm that plays the role. -/
def ContainerRole.of (alg : SaturationAlgorithm) : ContainerRole → Nat
  | ContainerRole.generating => alg.getGeneratingClauseContainer
  | ContainerRole.simplifying => alg.getSimplifyingClauseContainer
  | ContainerRole.toBeSimplified => alg.getToBeSimplifiedClauseContainer

/-- The container each kind designates according to the specification: the
column `Attached container` of the table of index kinds. -/
def designatedContainer : IndexType → Option ContainerRole
  | IndexType.GENERATING_SUBST_TREE => some ContainerRole.generating
  | IndexType.GENERATING_UNIT_CLAUSE_SUBST_TREE => some ContainerRole.generating
  | IndexType.GENERATING_NON_UNIT_CLAUSE_SUBST_TREE => some ContainerRole.generating
  | IndexType.SUPERPOSITION_SUBTERM_SUBST_TREE => some ContainerRole.generating
  | IndexType.SUPERPOSITION_LHS_SUBST_TREE => some ContainerRole.generating
  | IndexType.ACYCLICITY_INDEX => some ContainerRole.generating
  | IndexType.FW_SIMPLIFICATION_SUBST_TREE => some ContainerRole.simplifying
  | IndexType.FW_SIMPLIFYING_UNIT_CLAUSE_SUBST_TREE => some ContainerRole.simplifying
  | IndexType.FW_DEMODULATION_LHS_SUBST_TREE => some ContainerRole.simplifying
  | IndexType.FW_SUBSUMPTION_CODE_TREE => some ContainerRole.simplifying
  | IndexType.FW_SUBSUMPTION_SUBST_TREE => some ContainerRole.simplifying
  | IndexType.FW_REWRITE_RULE_SUBST_TREE => some ContainerRole.simplifying
  | IndexType.FW_GLOBAL_SUBSUMPTION_INDEX => some ContainerRole.simplifying
  | IndexType.BW_SIMPLIFICATION_SUBST_TREE => some ContainerRole.toBeSimplified
  | IndexType.BW_DEMODULATION_SUBTERM_SUBST_TREE => some ContainerRole.toBeSimplified
  | IndexType.OTHER _ => none

/-- A world in which the manager has not allocated anything yet; the addresses
below `100` belong to objects built elsewhere. -/
def exWorld : World :=
  { heap := fun _ => none, nextPtr := 100, deleted := [], useConstraints := false }

/-- A saturation algorithm whose simplifying and to-be-simplified containers
are one container, as in Otter and Discount. -/
def exAlg : SaturationAlgorithm :=
  { getGeneratingClauseContainer := 101, getSimplifyingClauseContainer := 102,
    getToBeSimplifiedClauseContainer := 102 }

/-- A manager for `exAlg` with an empty registry. -/
def exManager : IndexManager :=
  { _alg := some exAlg, _genLitIndex := 0, _equalSimpContainers := true,
    _store := fun _ => none, world := exWorld }

/-- The example manager after the first request of `FW_SUBSUMPTION_CODE_TREE`:
the index built by `create` is registered with count one. -/
def exManager1 : IndexManager :=
  (exManager.createPlain IndexClass.CodeTreeSubsumptionIndex
    exAlg.getSimplifyingClauseContainer).2.storeSet IndexType.FW_SUBSUMPTION_CODE_TREE ⟨100, 1⟩

end Indexing

namespace Kernel

/-! ## The search for a match that leaves out one positive equality -/

/-- In the array of alternatives the lists counted at most once by
`initMatchingData` come first: the positions before `single` hold lists with a
count of at most one, the positions from `single` up to `i` lists with a count
of at least two. -/
def SmallFirst (A : List (List Literal)) (single i : Nat) : Prop :=
  (∀ j, j < single → currAltCnt (A.getD j []) ≤ 1) ∧
  (∀ j, single ≤ j → j < i → 2 ≤ currAltCnt (A.getD j []))

/-- The ways to choose one binding row for every base literal other than the
equality `e`, which has no alternatives, such that the chosen rows agree on
every variable shared by two base literals and point to pairwise distinct
positions of the instance. -/
def othersChoices (baseLits : List Literal) (inst : Clause) (alts : List (List Literal))
    (e : Literal) : List (List (Literal × AltRow)) :=
  (tuples (((baseLits.zip alts).erase (e, [])).map (rowChoices inst))).filter
    (fun t => decide (t.Pairwise RowsAgree))

namespace MatchingData

/-- A match of the other base literals: level `p` holds a positive equality
without rows, `χ` gives every other level one of its rows, these rows go
together pairwise, and the levels before `p` have at most one row. -/
structure Target (md : MatchingData) (p : Nat) (χ : Nat → AltRow) : Prop where
  p_lt : p < md.len
  p_rows : md.rowsP p = []
  p_eq : (md.bases.getD p default).isEquality = true ∧
    (md.bases.getD p default).isPositive = true
  mem : ∀ l, l < md.len → l ≠ p → χ l ∈ md.rowsP l
  agree : ∀ i j, i < md.len → j < md.len → i ≠ p → j ≠ p → i ≠ j →
    RowsAgree (md.bases.getD i default, χ i) (md.bases.getD j default, χ j)
  single : ∀ j, j < p → (md.rowsP j).length ≤ 1

/-- The match `χ` is still ahead of the search: the levels before `d` hold the
rows of `χ` (level `p` is left out), and at level `d` the row of `χ` has not
been passed yet. Before level `p` is left out the search has followed `χ` all
the way. -/
def Ahead (p : Nat) (χ : Nat → AltRow) (md : MatchingData) : Prop :=
  ∃ d, d ≤ md.currBLit ∧
    (d ≤ p → d = md.currBLit ∧ md.eqLitForDemodulation = NONE ∧
      (md.currBLit < p → md.isInitialized p = false)) ∧
    (p < d → md.eqLitForDemodulation = p) ∧
    (∀ j, j < d → j ≠ p → md.selRow j = χ j) ∧
    (d ≠ p → ∃ a, md.nextAlts d ≤ a ∧ a < (md.rowsCur d).length ∧
      (md.rowsCur d).getD a default = χ d)

end MatchingData

/-- What `Ahead` becomes after a round: a round that goes on keeps the match
ahead, and no round ends the search with `false`. -/
def RoundAhead (p : Nat) (χ : Nat → AltRow) : Round → Prop
  | Round.backtrackInit md2 => MatchingData.Ahead p χ md2
  | Round.next md2 => MatchingData.Ahead p χ md2
  | Round.complete _ => True
  | Round.fail _ => False

end Kernel

/-! ## Saturation/Discount.hpp, Saturation/Discount.cpp, Saturation/Otter.hpp

The three strategies `Discount`, `Discott` and `Otter` are subclasses of
`SaturationAlgorithm`. A clause and a clause container are known by their
addresses. The hooks act on the stores of the clauses and on the populations
the subscribers of the containers hold; what a hook does itself, in order, is
kept in a trace that the functions of the base class cannot write to. -/

namespace Saturation

/-- Modelled from the spec: the values of `Clause::Store` (`Kernel/Clause.hpp`
is not among the sources) that the state machine of the saturation loop
names. -/
inductive Store
  | NONE
  | UNPROCESSED
  | PASSIVE
  | SELECTED
  | ACTIVE
  deriving DecidableEq, Repr

/-- An event fired on a clause container: `addedEvent` or `removedEvent` of the
container at the address `container`, for the clause `cl`. -/
inductive ContainerEvent
  | added (container cl : Nat)
  | removed (container cl : Nat)
  deriving DecidableEq, Repr

/-- The part of the program state the hooks act on: the store of every clause,
for every clause container the population its subscribers hold (a clause
joins it with an added event and leaves it with a removed event), and the
events fired on the containers so far, the oldest first. -/
structure World where
  store : Nat → Store
  members : Nat → Nat → Bool
  fired : List ContainerEvent

/-- What a hook does itself: a call of a function of the base class, a call of
`setStore`, or an event it fires on a container. -/
inductive Action
  | forwardSimplify (cl : Nat)
  | backwardSimplify (cl : Nat)
  | setStore (cl : Nat) (s : Store)
  | removedEvent (container cl : Nat)
  | addedEvent (container cl : Nat)
  deriving DecidableEq, Repr

/-- The world together with the trace of the actions of the hooks. -/
structure State where
  world : World
  trace : List Action

/-- The call `cl->setStore(s)`. -/
def World.setStore (cl : Nat) (s : Store) (w : World) : World :=
  { w with store := Function.update w.store cl s }

/-- Modelled from the spec: `removedEvent.fire(c)` of the container at the
address `container`; the subscribers are invoked synchronously and drop the
clause (`Lib/Event.hpp` and the index classes are not among the sources). -/
def World.removedEvent (container cl : Nat) (w : World) : World :=
  let population := Function.update (w.members container) cl false
  { w with members := Function.update w.members container population,
           fired := w.fired ++ [ContainerEvent.removed container cl] }

/-- Modelled from the spec: `addedEvent.fire(c)` of the container at the
address `container`; the subscribers are invoked synchronously and take the
clause in. -/
def World.addedEvent (container cl : Nat) (w : World) : World :=
  let population := Function.update (w.members container) cl true
  { w with members := Function.update w.members container population,
           fired := w.fired ++ [ContainerEvent.added container cl] }

/-- Modelled from the spec: the part of the class `SaturationAlgorithm`
(`SaturationAlgorithm.hpp` and `.cpp` are not among the sources) the
subclasses use: the pointer `_active` to the container of the active clauses,
and the member functions the hooks call, each with its result and its effect
on the world. -/
structure SaturationAlgorithm where
  _active : Nat
  forwardSimplify : Nat → World → Bool × World
  backwardSimplify : Nat → World → World
  onActiveRemoved : Nat → World → World
  onPassiveRemoved : Nat → World → World
  onPassiveAdded : Nat → World → World
  onSOSClauseAdded : Nat → World → World

/-- The class `Discount`: it adds no field to its base class. -/
structure Discount where
  base : SaturationAlgorithm

/-- The class `Discott`: its base class and the address of its member
`_toBeSimplifiedContainer`. -/
structure Discott where
  base : SaturationAlgorithm
  _toBeSimplifiedContainer : Nat

/-- The class `Otter`: its base class and the address of its member
`_simplCont`. -/
structure Otter where
  base : SaturationAlgorithm
  _simplCont : Nat

/-- `Discount::getSimplifyingClauseContainer`: `return _active;`. -/
def Discount.getSimplifyingClauseContainer (d : Discount) : Nat := d.base._active

/-- `Discount::getToBeSimplifiedClauseContainer`: `return _active;`. -/
def Discount.getToBeSimplifiedClauseContainer (d : Discount) : Nat := d.base._active

/-- `Discott::getSimplifyingClauseContainer`: `return _active;`. -/
def Discott.getSimplifyingClauseContainer (d : Discott) : Nat := d.base._active

/-- `Discott::getToBeSimplifiedClauseContainer`:
`return &_toBeSimplifiedContainer;`. -/
def Discott.getToBeSimplifiedClauseContainer (d : Discott) : Nat := d._toBeSimplifiedContainer

/-- `Otter::getSimplifyingClauseContainer`: `return &_simplCont;`. -/
def Otter.getSimplifyingClauseContainer (o : Otter) : Nat := o._simplCont

/-- `Otter::getToBeSimplifiedClauseContainer`: `return &_simplCont;`. -/
def Otter.getToBeSimplifiedClauseContainer (o : Otter) : Nat := o._simplCont

/-- Modelled from the spec: `getGeneratingClauseContainer` is a member of the
base class; the generating container is the container of the active
clauses. -/
def SaturationAlgorithm.getGeneratingClauseContainer (a : SaturationAlgorithm) : Nat := a._active

/-- The algorithm as the index manager reads it through the virtual getters of
`Discount`. -/
def Discount.alg (d : Discount) : Indexing.SaturationAlgorithm :=
  { getGeneratingClauseContainer := d.base.getGeneratingClauseContainer,
    getSimplifyingClauseContainer := d.getSimplifyingClauseContainer,
    getToBeSimplifiedClauseContainer := d.getToBeSimplifiedClauseContainer }

/-- The algorithm as the index manager reads it through the virtual getters of
`Discott`. -/
def Discott.alg (d : Discott) : Indexing.SaturationAlgorithm :=
  { getGeneratingClauseContainer := d.base.getGeneratingClauseContainer,
    getSimplifyingClauseContainer := d.getSimplifyingClauseContainer,
    getToBeSimplifiedClauseContainer := d.getToBeSimplifiedClauseContainer }

/-- The algorithm as the index manager reads it through the virtual getters of
`Otter`. -/
def Otter.alg (o : Otter) : Indexing.SaturationAlgorithm :=
  { getGeneratingClauseContainer := o.base.getGeneratingClauseContainer,
    getSimplifyingClauseContainer := o.getSimplifyingClauseContainer,
    getToBeSimplifiedClauseContainer := o.getToBeSimplifiedClauseContainer }

/-- The container `_active` points to and the member `_toBeSimplifiedContainer`
are two objects, so their addresses differ. -/
def Discott.TwoContainers (d : Discott) : Prop := d.base._active ≠ d._toBeSimplifiedContainer

/-- `FakeContainer::add`: `addedEvent.fire(c)`, for the fake container at the
address `this`. -/
def FakeContainer.add (this cl : Nat) (s : State) : State :=
  { world := s.world.addedEvent this cl, trace := s.trace ++ [Action.addedEvent this cl] }

/-- `FakeContainer::remove`: `removedEvent.fire(c)`, for the fake container at
the address `this`. -/
def FakeContainer.remove (this cl : Nat) (s : State) : State :=
  { world := s.world.removedEvent this cl, trace := s.trace ++ [Action.removedEvent this cl] }

/-- `Discount::handleClauseBeforeActivation`. The assertion that the store of
the clause is `SELECTED` is not compiled into a release build. -/
def Discount.handleClauseBeforeActivation (d : Discount) (cl : Nat) (s : State) : Bool × State :=
  let r := d.base.forwardSimplify cl s.world
  let s1 : State := { world := r.2, trace := s.trace ++ [Action.forwardSimplify cl] }
  if !r.1 then
    (false, { world := s1.world.setStore cl Store.NONE,
              trace := s1.trace ++ [Action.setStore cl Store.NONE] })
  else
    (true, { world := d.base.backwardSimplify cl s1.world,
             trace := s1.trace ++ [Action.backwardSimplify cl] })

/-- `Discott::handleClauseBeforeActivation`. -/
def Discott.handleClauseBeforeActivation (d : Discott) (cl : Nat) (s : State) : Bool × State :=
  let s1 := FakeContainer.remove d._toBeSimplifiedContainer cl s
  let s2 : State := { world := d.base.backwardSimplify cl s1.world,
                      trace := s1.trace ++ [Action.backwardSimplify cl] }
  let s3 := FakeContainer.add d._toBeSimplifiedContainer cl s2
  (true, s3)

/-- `Discott::onActiveRemoved`: the callback of the removed event of the
container of the active clauses. -/
def Discott.onActiveRemoved (d : Discott) (cl : Nat) (s : State) : State :=
  let s1 := if s.world.store cl = Store.ACTIVE then
      FakeContainer.remove d._toBeSimplifiedContainer cl s
    else s
  { s1 with world := d.base.onActiveRemoved cl s1.world }

/-- `Discott::onPassiveRemoved`: the callback of the removed event of the
container of the passive clauses. -/
def Discott.onPassiveRemoved (d : Discott) (cl : Nat) (s : State) : State :=
  let s1 := if s.world.store cl = Store.PASSIVE then
      FakeContainer.remove d._toBeSimplifiedContainer cl s
    else s
  { s1 with world := d.base.onPassiveRemoved cl s1.world }

/-- Modelled from the spec: a backward simplification with the clause `cl` that
simplifies the active clause `victim` away. The container of the active
clauses fires its removed event for `victim`, which runs the callback
`onActiveRemoved` of the algorithm `d`. -/
def discardActive (d : Discott) (victim : Nat) (_cl : Nat) (w : World) : World :=
  (d.onActiveRemoved victim { world := w.removedEvent d.base._active victim, trace := [] }).world

/-- Modelled from the spec: the base-class callback of a removed clause: a
clause that is backward-simplified away goes to the store `NONE`. -/
def dropStore (cl : Nat) (w : World) : World := w.setStore cl Store.NONE

/-- A base class for the examples: `_active` is the container at address `5`,
forward simplification keeps every clause and backward simplification removes
nothing. -/
def exBase : SaturationAlgorithm :=
  { _active := 5, forwardSimplify := fun _ w => (true, w), backwardSimplify := fun _ w => w,
    onActiveRemoved := dropStore, onPassiveRemoved := dropStore,
    onPassiveAdded := fun _ w => w, onSOSClauseAdded := fun _ w => w }

/-- An algorithm of class `Discott` whose fake container is at address `7` and
whose backward simplification removes nothing. -/
def exDiscottQuiet : Discott := { base := exBase, _toBeSimplifiedContainer := 7 }

/-- An algorithm of class `Discott` whose fake container is at address `7` and
whose backward simplification with any clause simplifies the active clause `2`
away. -/
def exDiscott : Discott :=
  { base := { exBase with backwardSimplify := discardActive exDiscottQuiet 2 },
    _toBeSimplifiedContainer := 7 }

/-- An algorithm of class `Discount`. -/
def exDiscount : Discount := { base := exBase }

/-- An algorithm of class `Discount` whose forward simplification deletes every
clause. -/
def exDiscountFail : Discount :=
  { base := { exBase with forwardSimplify := fun cl w => (false, w.setStore cl Store.UNPROCESSED) } }

/-- An algorithm of class `Otter` whose fake container is at address `8`. -/
def exOtter : Otter := { base := exBase, _simplCont := 8 }

/-- A state for the examples: clause `1` is selected, clause `2` is active, both
are in the population of the fake container at address `7`, and clause `2` is
in the container of the active clauses at address `5`. -/
def exState : State :=
  { world :=
      { store := fun c => if c = 1 then Store.SELECTED else if c = 2 then Store.ACTIVE
          else Store.NONE,
        members := fun k c => (decide (k = 7) && (decide (c = 1) || decide (c = 2))) ||
          (decide (k = 5) && decide (c = 2)),
        fired := [] },
    trace := [] }

end Saturation

/-! ## vampire.cpp

The return value of the process. The functions of `vampire.cpp` are embedded
as far as they decide the global `vampireReturnValue`; what they print is left
out. -/

namespace Vampire

end Vampire

namespace Kernel

/-! ## The states of the search and the stored intersect info -/

/-- The constant `c`. -/
def exC : Term := .app 12 []
/-- The constant `e`. -/
def exE : Term := .app 14 []
/-- The constant `f`. -/
def exF : Term := .app 15 []
/-- The variable `z`. -/
def exZ : Term := .var 2

namespace MatchingData

/-- The state in which the round of the loop of `nextMatch` that starts in `md0`
calls `skipBinding(currBLit)`, if the round calls it: the match records of the
level have been unassigned and `eqLitForDemodulation` has been set to the
level. -/
def skipBindingCall (md0 : MatchingData) : Option MatchingData :=
  let ir := md0.ensureInit md0.currBLit
  let md := ir.2
  match ir.1 with
  | InitResult.MUST_BACKTRACK => none
  | InitResult.NO_ALTERNATIVE => none
  | InitResult.OK =>
      let maxAlt := md.getRemainingInCurrent md.currBLit
      let md1 := MatchingData.findAlt maxAlt (maxAlt - md.nextAlts md.currBLit) md
      if md1.nextAlts md1.currBLit < maxAlt then none
      else if md1.eqLitForDemodulation > md1.currBLit
          ∧ (md1.bases.getD md1.currBLit default).isEquality = true
          ∧ (md1.bases.getD md1.currBLit default).isPositive = true then
        let md2 := md1.unassign
        some { md2 with eqLitForDemodulation := md2.currBLit }
      else none

/-- The state at the beginning of round `n` of the `while (true)` loop of a call
of `nextMatch` that starts in `md`, if the call has not returned before. -/
def loopState : Nat → MatchingData → Option MatchingData
  | 0, md => some md
  | n + 1, md =>
      match nextMatchRound md with
      | Round.backtrackInit md2 => loopState n md2
      | Round.next md2 => loopState n md2
      | Round.complete _ => none
      | Round.fail _ => none

end MatchingData

/-- The matcher after `init` and `n` calls of `nextMatch` under no time limit
that have all returned `true`. -/
def afterCalls (baseLits : List Literal) (inst : Clause) (alts : List (List Literal))
    (fuel : Nat) : Nat → Option Impl
  | 0 => init baseLits inst alts
  | n + 1 =>
      (afterCalls baseLits inst alts fuel n).bind (fun impl =>
        match nextMatch noTimeLimit fuel impl with
        | some (MatchResult.returned true impl1) => some impl1
        | _ => none)

/-- The array `getIntersectInfo` leaves in `intersectionStorage`: the index
pairs as values of type `pair<int,int>`, followed by the terminating pair. The
function writes `-1` to the first component of the terminating pair and
nothing to its second component, which keeps the value `stale` the storage
held. -/
def intersectArray (vs1 vs2 : List Nat) (stale : Int) : List (Int × Int) :=
  (MatchingData.intersectInfo vs1 vs2).map (fun pq => ((pq.1 : Int), (pq.2 : Int)))
    ++ [(-1, stale)]

/-- The loop `while(iinfo->first!=-1)` of `compatible` over the stored array.
The result is `none` when the loop reads past the array without meeting the
terminating pair. -/
def compatibleScan : List (Int × Int) → AltRow → AltRow → Option Bool
  | [], _, _ => none
  | iinfo :: rest, i1Bindings, i2Bindings =>
      if iinfo.1 = -1 then some true
      else if i1Bindings.binds.getD iinfo.1.toNat default
          ≠ i2Bindings.binds.getD iinfo.2.toNat default then some false
      else compatibleScan rest i1Bindings i2Bindings

end Kernel

namespace Kernel

/-! ## The iterator over the function symbols of a term (`Kernel/TermIterators.cpp`) -/

/-- The state of a `TermFunIterator`. An entry of `_stack` is a `const TermList*`
into an argument array: it stands for the arguments from that position on, the
empty list being the end marker for which `isEmpty()` holds. The top of the
stack is the head of the list. -/
structure TermFunIterator where
  _stack : List (List Term)
  _hasNext : Bool
  _next : Nat

/-- `TermFunIterator::TermFunIterator(const Term* t)`: a `Term*` points to an
application, given here by `t->functor()` and `t->args()`. -/
def TermFunIterator.new (functor : Nat) (args : List Term) : TermFunIterator :=
  { _hasNext := true, _next := functor, _stack := [args] }

/-- The number of cells, end markers included, that the entries of the stack
still have ahead of them. -/
def TermFunIterator.stackSize : List (List Term) → Nat
  | [] => 0
  | ts :: rest => ts.length + 1 + TermFunIterator.stackSize rest

/-- The loop `while (_stack.isNonEmpty())` of `TermFunIterator::hasNext`, run on
the stack `s`, with what follows it. -/
def TermFunIterator.hasNextLoop (it : TermFunIterator) :
    List (List Term) → Bool × TermFunIterator
  | [] => (false, { it with _stack := [] })
  | [] :: rest => TermFunIterator.hasNextLoop it rest
  | (.var _ :: ts) :: rest => TermFunIterator.hasNextLoop it (ts :: rest)
  | (.app f as :: ts) :: rest => (true, { _hasNext := true, _next := f, _stack := as :: ts :: rest })
termination_by s => TermFunIterator.stackSize s
decreasing_by
  all_goals simp only [TermFunIterator.stackSize, List.length_cons, List.length_nil]
  all_goals omega

/-- `TermFunIterator::hasNext`: the returned value and the state it leaves. -/
def TermFunIterator.hasNext (it : TermFunIterator) : Bool × TermFunIterator :=
  if it._hasNext then (true, it) else TermFunIterator.hasNextLoop it it._stack

/-- `TermFunIterator::next`: the returned symbol and the state it leaves. The
assertion `ASS(_hasNext)` is the precondition of the call. -/
def TermFunIterator.next (it : TermFunIterator) : Nat × TermFunIterator :=
  (it._next, { it with _hasNext := false })

/-- The symbols obtained by calling `hasNext()` and, after each answer `true`,
`next()`, until `hasNext()` answers `false`, together with the state left by
that last call. The first argument bounds the number of calls of `hasNext()`;
the result is `none` when that bound is used up. -/
def TermFunIterator.drain : Nat → TermFunIterator → Option (List Nat × TermFunIterator)
  | 0, _ => none
  | fuel + 1, it =>
      if it.hasNext.1 then
        (TermFunIterator.drain fuel it.hasNext.2.next.2).map
          (fun p => (it.hasNext.2.next.1 :: p.1, p.2))
      else some ([], it.hasNext.2)

mutual
/-- The function symbols of a term in pre-order: the functor of the term first,
then the symbols of its arguments from left to right; a variable has none. -/
def Term.funSymbols : Term → List Nat
  | .var _ => []
  | .app f as => f :: Term.funSymbolsList as
/-- The function symbols of an argument list, argument by argument from left to
right. -/
def Term.funSymbolsList : List Term → List Nat
  | [] => []
  | a :: as => Term.funSymbols a ++ Term.funSymbolsList as
end

/-- The function symbols the entries of a stack still have to yield, the top
entry first. -/
def TermFunIterator.stackSymbols : List (List Term) → List Nat
  | [] => []
  | ts :: rest => Term.funSymbolsList ts ++ TermFunIterator.stackSymbols rest

end Kernel

namespace Saturation

/-! ## The callbacks of `Discott` along the life of a clause -/

/-- `Discott::onPassiveAdded`: the callback of the added event of the container
of the passive clauses. -/
def Discott.onPassiveAdded (d : Discott) (cl : Nat) (s : State) : State :=
  let s1 : State := { s with world := d.base.onPassiveAdded cl s.world }
  if s1.world.store cl = Store.PASSIVE then
    FakeContainer.add d._toBeSimplifiedContainer cl s1
  else s1

/-- `Discott::onSOSClauseAdded`. The assertions on the clause are not compiled
into a release build. -/
def Discott.onSOSClauseAdded (d : Discott) (cl : Nat) (s : State) : State :=
  let s1 : State := { s with world := d.base.onSOSClauseAdded cl s.world }
  FakeContainer.add d._toBeSimplifiedContainer cl s1

/-- `Discott::handleUnsuccessfulActivation`. -/
def Discott.handleUnsuccessfulActivation (d : Discott) (c : Nat) (s : State) : State :=
  let s1 := FakeContainer.remove d._toBeSimplifiedContainer c s
  { world := s1.world.setStore c Store.NONE,
    trace := s1.trace ++ [Action.setStore c Store.NONE] }

/-- The number of added events fired so far on the container `k` for the clause
`c`. -/
def World.addEvents (w : World) (k c : Nat) : Nat :=
  w.fired.countP (fun e => decide (e = ContainerEvent.added k c))

/-- The number of removed events fired so far on the container `k` for the
clause `c`. -/
def World.removeEvents (w : World) (k c : Nat) : Nat :=
  w.fired.countP (fun e => decide (e = ContainerEvent.removed k c))

/-- Modelled from the spec: what a backward simplification does to the clauses
it simplifies away. Such a clause is in the container of the active clauses or
in a container `k` of passive clauses; the container fires its removed event,
which runs the callback of the algorithm for that container. -/
inductive Discott.Simplifies (d : Discott) : World → World → Prop
  | done (w : World) : Discott.Simplifies d w w
  | active (victim : Nat) (w w2 : World) (hstore : w.store victim = Store.ACTIVE)
      (hrest : Discott.Simplifies d
        (d.onActiveRemoved victim
          { world := w.removedEvent d.base._active victim, trace := [] }).world w2) :
      Discott.Simplifies d w w2
  | passive (victim k : Nat) (w w2 : World) (hk : k ≠ d._toBeSimplifiedContainer)
      (hstore : w.store victim = Store.PASSIVE)
      (hrest : Discott.Simplifies d
        (d.onPassiveRemoved victim { world := w.removedEvent k victim, trace := [] }).world w2) :
      Discott.Simplifies d w w2

/-- Modelled from the spec: what the claim assumes of the functions of the base
class (`SaturationAlgorithm.cpp` is not among the sources). The base-class
callbacks of a removed clause take the clause to the store `NONE`, the
base-class callbacks of an added clause leave the stores alone, none of them
fires an event, and a backward simplification acts through the removed events
of the clauses it simplifies away. -/
structure Discott.FollowsStateMachine (d : Discott) : Prop where
  backward : ∀ cl w, Discott.Simplifies d w (d.base.backwardSimplify cl w)
  activeRemoved_store : ∀ cl w,
    (d.base.onActiveRemoved cl w).store = Function.update w.store cl Store.NONE
  activeRemoved_fired : ∀ cl w, (d.base.onActiveRemoved cl w).fired = w.fired
  passiveRemoved_store : ∀ cl w,
    (d.base.onPassiveRemoved cl w).store = Function.update w.store cl Store.NONE
  passiveRemoved_fired : ∀ cl w, (d.base.onPassiveRemoved cl w).fired = w.fired
  passiveAdded_store : ∀ cl w, (d.base.onPassiveAdded cl w).store = w.store
  passiveAdded_fired : ∀ cl w, (d.base.onPassiveAdded cl w).fired = w.fired
  sosAdded_store : ∀ cl w, (d.base.onSOSClauseAdded cl w).store = w.store
  sosAdded_fired : ∀ cl w, (d.base.onSOSClauseAdded cl w).fired = w.fired

/-- Modelled from the spec: the transitions of the state machine of a clause
within the saturation loop, each with the callbacks of the algorithm it runs.
`removePassive` and `removeActive` are removals of a clause from Passive or
Active outside a backward simplification. -/
inductive LoopStep
  | newClause (c : Nat)
  | deleteUnprocessed (c : Nat)
  | addToPassive (c : Nat)
  | removePassive (c : Nat)
  | popSelected (c : Nat)
  | activate (c : Nat)
  | failActivation (c : Nat)
  | removeActive (c : Nat)
  | addSOSClause (c : Nat)
  deriving DecidableEq, Repr

/-- The store a transition of the state machine starts from. A clause enters
the set of support from the stores `NONE` and `UNPROCESSED`. -/
def LoopStep.enabled : LoopStep → World → Bool
  | .newClause c, w => decide (w.store c = Store.NONE)
  | .deleteUnprocessed c, w => decide (w.store c = Store.UNPROCESSED)
  | .addToPassive c, w => decide (w.store c = Store.UNPROCESSED)
  | .removePassive c, w => decide (w.store c = Store.PASSIVE)
  | .popSelected c, w => decide (w.store c = Store.PASSIVE)
  | .activate c, w => decide (w.store c = Store.SELECTED)
  | .failActivation c, w => decide (w.store c = Store.SELECTED)
  | .removeActive c, w => decide (w.store c = Store.ACTIVE)
  | .addSOSClause c, w =>
      decide (w.store c = Store.NONE) || decide (w.store c = Store.UNPROCESSED)

/-- The loop sets the store of a clause. -/
def State.setStore (c : Nat) (st : Store) (s : State) : State :=
  { s with world := s.world.setStore c st }

/-- Modelled from the spec: one transition of the state machine of a clause
under the algorithm `d`: the loop sets the store and the callbacks of `d` are
run at the places the state machine names. -/
def Discott.step (d : Discott) : LoopStep → State → State
  | .newClause c, s => s.setStore c Store.UNPROCESSED
  | .deleteUnprocessed c, s => s.setStore c Store.NONE
  | .addToPassive c, s => d.onPassiveAdded c (s.setStore c Store.PASSIVE)
  | .removePassive c, s => d.onPassiveRemoved c s
  | .popSelected c, s => s.setStore c Store.SELECTED
  | .activate c, s => (d.handleClauseBeforeActivation c s).2.setStore c Store.ACTIVE
  | .failActivation c, s =>
      d.handleUnsuccessfulActivation c (d.handleClauseBeforeActivation c s).2
  | .removeActive c, s => d.onActiveRemoved c s
  | .addSOSClause c, s => d.onSOSClauseAdded c (s.setStore c Store.ACTIVE)

/-- The state after a sequence of transitions. -/
def Discott.run (d : Discott) : List LoopStep → State → State
  | [], s => s
  | st :: rest, s => Discott.run d rest (d.step st s)

/-- Every transition of the sequence starts from the store the state machine
names for it. -/
def Discott.Admissible (d : Discott) : List LoopStep → State → Prop
  | [], _ => True
  | st :: rest, s => st.enabled s.world = true ∧ Discott.Admissible d rest (d.step st s)

/-- The added events of the container `k` for the clause `c` never trail its
removed events and are never more than one ahead, at every moment of the log
of events. -/
def Balanced (log : List ContainerEvent) (k c : Nat) : Prop :=
  ∀ n,
    (log.take n).countP (fun e => decide (e = ContainerEvent.removed k c))
      ≤ (log.take n).countP (fun e => decide (e = ContainerEvent.added k c)) ∧
    (log.take n).countP (fun e => decide (e = ContainerEvent.added k c))
      ≤ (log.take n).countP (fun e => decide (e = ContainerEvent.removed k c)) + 1

/-- The to-be-simplified container of `d` tracks Passive and Active in the
world `w`: for every clause the log of events is balanced, there is one added
event more than removed events when the store of the clause is `PASSIVE`,
`SELECTED` or `ACTIVE`, and as many when it is `NONE` or `UNPROCESSED`. -/
def Discott.Tracks (d : Discott) (w : World) : Prop :=
  ∀ c, Balanced w.fired d._toBeSimplifiedContainer c ∧
    ((w.store c = Store.PASSIVE ∨ w.store c = Store.SELECTED ∨ w.store c = Store.ACTIVE) →
      w.addEvents d._toBeSimplifiedContainer c = w.removeEvents d._toBeSimplifiedContainer c + 1) ∧
    ((w.store c = Store.NONE ∨ w.store c = Store.UNPROCESSED) →
      w.addEvents d._toBeSimplifiedContainer c = w.removeEvents d._toBeSimplifiedContainer c)

/-- The number of added events a clause in the store `st` is ahead of its
removed events on the to-be-simplified container: one for a clause that is, or
is about to be, in Passive or Active. -/
def Store.held : Store → Nat
  | .PASSIVE => 1
  | .SELECTED => 1
  | .ACTIVE => 1
  | .NONE => 0
  | .UNPROCESSED => 0

/-- The log of events of the world `w` is balanced for the clause `c` on the
to-be-simplified container of `d`, and the added events are `n` ahead. -/
def Discott.Counts (d : Discott) (w : World) (c n : Nat) : Prop :=
  Balanced w.fired d._toBeSimplifiedContainer c ∧
  w.addEvents d._toBeSimplifiedContainer c = w.removeEvents d._toBeSimplifiedContainer c + n

/-- The world before any clause exists. -/
def World.empty : World :=
  { store := fun _ => Store.NONE, members := fun _ _ => false, fired := [] }

/-- An algorithm of class `Discott` whose backward simplification with any
clause simplifies the clause `2` away when it is active. -/
def exDiscottLoop : Discott :=
  { base := { exBase with
      backwardSimplify := fun cl w =>
        if w.store 2 = Store.ACTIVE then discardActive exDiscottQuiet 2 cl w else w },
    _toBeSimplifiedContainer := 7 }

/-- The state before any clause exists and any hook has run. -/
def exStart : State := { world := World.empty, trace := [] }

/-- A run for the examples: the clause `2` goes through Passive into Active,
then the clause `1` does, and the backward simplification with the clause `1`
simplifies the clause `2` away. -/
def exSteps : List LoopStep :=
  [LoopStep.newClause 2, LoopStep.addToPassive 2, LoopStep.popSelected 2, LoopStep.activate 2,
   LoopStep.newClause 1, LoopStep.addToPassive 1, LoopStep.popSelected 1, LoopStep.activate 1]

end Saturation

namespace Kernel

namespace MatchingData

/-- Every level that is initialised in the first state is initialised in the
second, with the same rows in some order and the same entry in column `0` of
`remaining`. -/
def KeepsRows (md md2 : MatchingData) : Prop :=
  ∀ i, md.isInitialized i = true →
    md2.isInitialized i = true ∧ (md2.altBindings i).Perm (md.altBindings i) ∧
    md2.remaining i 0 = md.remaining i 0

/-- Every entry of the match record is the sentinel `0xFFFFFFFF` or a level. -/
def RecRange (md : MatchingData) : Prop :=
  ∀ p, md.matchRecord p = NONE ∨ md.matchRecord p < md.len

/-- The number of levels before `n` that are not selected for demodulation. -/
def matchedLevels (md : MatchingData) : Nat → Nat
  | 0 => 0
  | n + 1 => matchedLevels md n + (if n ≠ md.eqLitForDemodulation then 1 else 0)

end MatchingData

end Kernel

namespace Kernel

/-! ## A base of one positive equality -/

/-- The state `init` leaves behind for a base of the one literal `b` with the
alternatives `as`. -/
def singleLevel (b : Literal) (inst : Clause) (as : List Literal) : MatchingData :=
  { len := 1
    varCnts := fun _ => 0
    boundVarNums := fun _ => none
    altBindings := fun _ => []
    remaining := fun _ _ => 0
    nextAlts := fun _ => 0
    eqLitForDemodulation := NONE
    bases := [b]
    alts := [as]
    inst := inst
    matchRecord := fun _ => NONE
    currBLit := 0 }

/-- A state of the search for the base of one literal `b` with the alternatives
`as` in which the level is initialised: its rows are the rows of
`createLiteralBindings` in their order, `k` of them have been passed, and
`eqLitForDemodulation` is `e`. -/
structure SingleAt (b : Literal) (inst : Clause) (as : List Literal) (k e : Nat)
    (md : MatchingData) : Prop where
  len_eq : md.len = 1
  cur_eq : md.currBLit = 0
  bases_eq : md.bases = [b]
  alts_eq : md.alts = [as]
  inst_eq : md.inst = inst
  vars_eq : md.boundVarNums 0 = some (boundVarsOf b)
  cnt_eq : md.varCnts 0 = (boundVarsOf b).length
  rows_eq : md.altBindings 0 = (createLiteralBindings b as inst).2
  rem_eq : md.remaining 0 0 = (createLiteralBindings b as inst).2.length
  next_eq : md.nextAlts 0 = k
  eqLit_eq : md.eqLitForDemodulation = e

/-- The matcher is ready for a call of `nextMatch` on the base of one literal:
`ensureInit` of the level gives a state in which `k` rows have been passed. -/
def SingleReady (b : Literal) (inst : Clause) (as : List Literal) (k e : Nat)
    (md : MatchingData) : Prop :=
  ∃ S, md.ensureInit md.currBLit = (InitResult.OK, S) ∧ SingleAt b inst as k e S

end Kernel

namespace Kernel

/-! ## The rounds of one call -/

end Kernel

namespace Kernel

/-! ## Lists and the filtering loop -/

theorem swapRows_length {α : Type} [Inhabited α] (l : List α) (i j : Nat) :
    (swapRows l i j).length = l.length := by
  simp [swapRows]

theorem swapRows_getD {α : Type} [Inhabited α] (l : List α) (i j k : Nat)
    (hi : i < l.length) (hj : j < l.length) :
    (swapRows l i j).getD k default =
      if k = j then l.getD i default else if k = i then l.getD j default else l.getD k default := by
  unfold swapRows
  simp only [List.getD_eq_getElem?_getD, List.getElem?_set, List.length_set]
  by_cases hkj : k = j
  · subst hkj; simp [hj]
  · by_cases hki : k = i
    · subst hki; simp [hkj, hi, Ne.symm hkj]
    · simp [hkj, hki, Ne.symm hkj, Ne.symm hki]

theorem swapRows_perm {α : Type} [Inhabited α] [DecidableEq α] (l : List α) (i j : Nat)
    (hi : i < l.length) (hj : j < l.length) : (swapRows l i j).Perm l := by
  rw [List.perm_iff_count]
  intro a
  unfold swapRows
  by_cases hij : i = j
  · subst hij
    simp only [List.getD_eq_getElem?_getD, List.getElem?_eq_getElem hi, Option.getD_some,
      List.set_set]
    rw [List.count_set _ _ _ _ hi]
    have h1 : 0 < l.count l[i] := List.count_pos_iff.2 (List.getElem_mem hi)
    by_cases e1 : l[i] = a
    · subst e1; simp
    · simp [e1]
  · rw [List.count_set _ _ _ _ (by simpa using hj), List.count_set _ _ _ _ hi]
    simp only [List.getD_eq_getElem?_getD, List.getElem?_eq_getElem hi,
      List.getElem?_eq_getElem hj, Option.getD_some, List.getElem_set_ne hij]
    have h1 : 0 < l.count l[i] := List.count_pos_iff.2 (List.getElem_mem hi)
    have h2 : 0 < l.count l[j] := List.count_pos_iff.2 (List.getElem_mem hj)
    by_cases e1 : l[i] = a <;> by_cases e2 : l[j] = a <;> simp [e1, e2] <;> 
      first
      | omega
      | (subst e1; omega)


theorem perm_take_of_drop_eq {α : Type} {l1 l2 : List α} (n : Nat) (hp : l1.Perm l2)
    (hd : l1.drop n = l2.drop n) : (l1.take n).Perm (l2.take n) := by
  have h1 : (l1.take n ++ l1.drop n).Perm (l2.take n ++ l1.drop n) := by
    rw [List.take_append_drop]
    conv_rhs => rw [hd, List.take_append_drop]
    exact hp
  exact (List.perm_append_right_iff _).1 h1

theorem drop_eq_of_getD_eq {α : Type} [Inhabited α] {l1 l2 : List α} (n : Nat)
    (hl : l1.length = l2.length)
    (h : ∀ k, n ≤ k → l1.getD k default = l2.getD k default) : l1.drop n = l2.drop n := by
  apply List.ext_getElem?
  intro k
  simp only [List.getElem?_drop]
  have := h (n + k) (by omega)
  simp only [List.getD_eq_getElem?_getD] at this
  by_cases hk : n + k < l1.length
  · have hk2 : n + k < l2.length := by omega
    simp only [List.getElem?_eq_getElem hk, List.getElem?_eq_getElem hk2, Option.getD_some] at this ⊢
    rw [this]
  · have hk2 : ¬ n + k < l2.length := by omega
    rw [List.getElem?_eq_none (by omega), List.getElem?_eq_none (by omega)]

theorem filterAlts_spec (ok : AltRow → Bool) :
    ∀ (fuel : Nat) (rows : List AltRow) (ai rem : Nat),
      ai ≤ rem → rem ≤ rows.length → rem - ai ≤ fuel →
      (MatchingData.filterAlts ok fuel rows ai rem).1.length = rows.length ∧
      ai ≤ (MatchingData.filterAlts ok fuel rows ai rem).2 ∧
      (MatchingData.filterAlts ok fuel rows ai rem).2 ≤ rem ∧
      ((MatchingData.filterAlts ok fuel rows ai rem).1).Perm rows ∧
      (∀ k, k < ai ∨ rem ≤ k →
        (MatchingData.filterAlts ok fuel rows ai rem).1.getD k default = rows.getD k default) ∧
      (∀ k, ai ≤ k → k < (MatchingData.filterAlts ok fuel rows ai rem).2 →
        ok ((MatchingData.filterAlts ok fuel rows ai rem).1.getD k default) = true) ∧
      (∀ k, (MatchingData.filterAlts ok fuel rows ai rem).2 ≤ k → k < rem →
        ok ((MatchingData.filterAlts ok fuel rows ai rem).1.getD k default) = false) := by
  intro fuel
  induction fuel with
  | zero =>
      intro rows ai rem h1 h2 h3
      have : ai = rem := by omega
      subst this
      show (rows, ai).1.length = rows.length ∧ ai ≤ (rows, ai).2 ∧ (rows, ai).2 ≤ ai ∧
        ((rows, ai).1).Perm rows ∧
        (∀ k, k < ai ∨ ai ≤ k → (rows, ai).1.getD k default = rows.getD k default) ∧
        (∀ k, ai ≤ k → k < (rows, ai).2 → ok ((rows, ai).1.getD k default) = true) ∧
        (∀ k, (rows, ai).2 ≤ k → k < ai → ok ((rows, ai).1.getD k default) = false)
      refine ⟨rfl, le_refl _, le_refl _, List.Perm.refl _, fun _ _ => rfl, ?_, ?_⟩
      · intro k hk1 hk2; simp only at hk2; omega
      · intro k hk1 hk2; simp only at hk1; omega
  | succ fuel ih =>
      intro rows ai rem h1 h2 h3
      unfold MatchingData.filterAlts
      by_cases hlt : ai < rem
      · simp only [hlt, if_true]
        by_cases hok : ok (rows.getD ai default) = true
        · simp only [hok, if_true]
          obtain ⟨a1, a2, a3, a4, a5, a6, a7⟩ := ih rows (ai + 1) rem (by omega) h2 (by omega)
          refine ⟨a1, by omega, a3, a4, ?_, ?_, a7⟩
          · intro k hk
            exact a5 k (by omega)
          · intro k hk1 hk2
            by_cases hk : k = ai
            · subst hk
              rw [a5 k (by omega)]
              exact hok
            · exact a6 k (by omega) hk2
        · rw [if_neg hok]
          have hsl := swapRows_length rows ai (rem - 1)
          obtain ⟨a1, a2, a3, a4, a5, a6, a7⟩ :=
            ih (swapRows rows ai (rem - 1)) ai (rem - 1) (by omega) (by omega) (by omega)
          have hg := fun k => swapRows_getD rows ai (rem - 1) k (by omega) (by omega)
          refine ⟨by omega, a2, by omega,
            a4.trans (swapRows_perm rows ai (rem - 1) (by omega) (by omega)), ?_, a6, ?_⟩
          · intro k hk
            rw [a5 k (by omega), hg k]
            have e1 : k ≠ rem - 1 := by omega
            have e2 : k ≠ ai := by omega
            simp [e1, e2]
          · intro k hk1 hk2
            by_cases hk : k < rem - 1
            · exact a7 k hk1 hk
            · have e : k = rem - 1 := by omega
              subst e
              rw [a5 _ (Or.inr (le_refl _)), hg]
              simpa using hok
      · have : ai = rem := by omega
        subst this
        rw [if_neg hlt]
        refine ⟨rfl, le_refl _, le_refl _, List.Perm.refl _, fun _ _ => rfl, ?_, ?_⟩
        · intro k hk1 hk2; simp only at hk2; omega
        · intro k hk1 hk2; simp only at hk1; omega

end Kernel

namespace Kernel

theorem prefixPerm_refl (n : Nat) (l : List AltRow) : PrefixPerm n l l :=
  ⟨List.Perm.refl _, rfl⟩

theorem prefixPerm_mono {n m : Nat} {l1 l2 : List AltRow} (h : PrefixPerm n l1 l2) (hm : n ≤ m) :
    PrefixPerm m l1 l2 := by
  refine ⟨h.1, ?_⟩
  have : m = n + (m - n) := by omega
  rw [this, ← List.drop_drop, ← List.drop_drop, h.2]

theorem prefixPerm_trans {n : Nat} {l1 l2 l3 : List AltRow} (h1 : PrefixPerm n l1 l2)
    (h2 : PrefixPerm n l2 l3) : PrefixPerm n l1 l3 :=
  ⟨h2.1.trans h1.1, h2.2.trans h1.2⟩

theorem prefixPerm_length {n : Nat} {l1 l2 : List AltRow} (h : PrefixPerm n l1 l2) :
    l2.length = l1.length := h.1.length_eq

theorem prefixPerm_getD {n : Nat} {l1 l2 : List AltRow} (h : PrefixPerm n l1 l2) (k : Nat)
    (hk : n ≤ k) : l2.getD k default = l1.getD k default := by
  have h2 := congrArg (fun l => l[k - n]?) h.2
  simp only [List.getElem?_drop] at h2
  have e : n + (k - n) = k := by omega
  rw [e] at h2
  simp [List.getD_eq_getElem?_getD, h2]

theorem prefixPerm_take {n m : Nat} {l1 l2 : List AltRow} (h : PrefixPerm n l1 l2) (hm : n ≤ m) :
    (l2.take m).Perm (l1.take m) :=
  perm_take_of_drop_eq m h.1 (prefixPerm_mono h hm).2

theorem getD_mem_take {l : List AltRow} {k m : Nat} (hk : k < m) (hl : k < l.length) :
    l.getD k default ∈ l.take m := by
  rw [List.mem_take_iff_getElem]
  refine ⟨k, by simp; omega, ?_⟩
  simp [List.getD_eq_getElem?_getD, List.getElem?_eq_getElem hl]

theorem exists_getD_of_mem_take {l : List AltRow} {r : AltRow} {m : Nat} (h : r ∈ l.take m) :
    ∃ k, k < m ∧ k < l.length ∧ l.getD k default = r := by
  rw [List.mem_take_iff_getElem] at h
  obtain ⟨k, hk, e⟩ := h
  have hk2 : k < m ∧ k < l.length := by simpa using hk
  exact ⟨k, hk2.1, hk2.2, by simp [List.getD_eq_getElem?_getD, List.getElem?_eq_getElem hk2.2, e]⟩

theorem prefixPerm_forall_take {n m : Nat} {l1 l2 : List AltRow} (h : PrefixPerm n l1 l2)
    (hm : n ≤ m) (P : AltRow → Prop)
    (hP : ∀ k, k < m → k < l1.length → P (l1.getD k default)) :
    ∀ k, k < m → k < l2.length → P (l2.getD k default) := by
  intro k hk hl
  have h1 : l2.getD k default ∈ l1.take m := (prefixPerm_take h hm).mem_iff.1 (getD_mem_take hk hl)
  obtain ⟨k2, a1, a2, a3⟩ := exists_getD_of_mem_take h1
  rw [← a3]
  exact hP k2 a1 a2

theorem filterAlts_prefixPerm (ok : AltRow → Bool) (rows : List AltRow) (rem : Nat)
    (h : rem ≤ rows.length) :
    PrefixPerm rem rows (MatchingData.filterAlts ok rem rows 0 rem).1 := by
  obtain ⟨a1, _, _, a4, a5, _, _⟩ := filterAlts_spec ok rem rows 0 rem (Nat.zero_le _) h (by omega)
  exact ⟨a4, drop_eq_of_getD_eq rem a1 (fun k hk => a5 k (Or.inr hk))⟩

namespace MatchingData

theorem Frame.frame_refl (md : MatchingData) : Frame md md :=
  ⟨rfl, rfl, rfl, rfl, rfl, rfl, rfl, rfl, rfl, rfl⟩

theorem Frame.frame_trans {m1 m2 m3 : MatchingData} (h1 : Frame m1 m2) (h2 : Frame m2 m3) :
    Frame m1 m3 :=
  ⟨h2.len.trans h1.len, h2.varCnts.trans h1.varCnts, h2.boundVarNums.trans h1.boundVarNums,
    h2.nextAlts.trans h1.nextAlts, h2.eqLit.trans h1.eqLit, h2.bases.trans h1.bases,
    h2.alts.trans h1.alts, h2.inst.trans h1.inst, h2.matchRecord.trans h1.matchRecord,
    h2.currBLit.trans h1.currBLit⟩

theorem Frame.frame_isInitialized {m1 m2 : MatchingData} (h : Frame m1 m2) (i : Nat) :
    m2.isInitialized i = m1.isInitialized i := by
  simp [MatchingData.isInitialized, h.boundVarNums]

theorem Frame.frame_getIntersectInfo {m1 m2 : MatchingData} (h : Frame m1 m2) (j i : Nat) :
    m2.getIntersectInfo j i = m1.getIntersectInfo j i := by
  simp [MatchingData.getIntersectInfo, h.boundVarNums]

theorem Frame.frame_varsP {m1 m2 : MatchingData} (h : Frame m1 m2) (i : Nat) :
    m2.varsP i = m1.varsP i := by
  simp [MatchingData.varsP, h.bases]

theorem Frame.frame_rowsP {m1 m2 : MatchingData} (h : Frame m1 m2) (i : Nat) :
    m2.rowsP i = m1.rowsP i := by
  simp [MatchingData.rowsP, h.bases, h.alts, h.inst]

theorem Frame.frame_compatP {m1 m2 : MatchingData} (h : Frame m1 m2) (j i : Nat) :
    m2.compatP j i = m1.compatP j i := by
  funext r1 r2
  simp [MatchingData.compatP, h.frame_varsP]

theorem prefixPerm_symm {n : Nat} {l1 l2 : List AltRow} (h : PrefixPerm n l1 l2) :
    PrefixPerm n l2 l1 := ⟨h.1.symm, h.2.symm⟩

/-- The filtering step shared by `bindAlt` and `ensureInit`, with the test for
common variables in front. -/
theorem filterStep_spec (iinfo : List (Nat × Nat)) (cur : AltRow) (rows : List AltRow)
    (rem : Nat) (h : rem ≤ rows.length) (res : List AltRow × Nat)
    (hres : res = if (!iinfo.isEmpty) = true then
        filterAlts (compatibleRows iinfo cur) rem rows 0 rem else (rows, rem)) :
    res.2 ≤ rem ∧ PrefixPerm rem rows res.1 ∧
      (∀ k, k < res.2 → compatibleRows iinfo cur (res.1.getD k default) = true) ∧
      (∀ k, res.2 ≤ k → k < rem → compatibleRows iinfo cur (res.1.getD k default) = false) := by
  by_cases hc : (!iinfo.isEmpty) = true
  · rw [if_pos hc] at hres
    subst hres
    obtain ⟨_, _, a3, _, _, a6, a7⟩ :=
      filterAlts_spec (compatibleRows iinfo cur) rem rows 0 rem (Nat.zero_le _) h (by omega)
    exact ⟨a3, filterAlts_prefixPerm _ rows rem h, fun k hk => a6 k (Nat.zero_le _) hk, a7⟩
  · rw [if_neg hc] at hres
    subst hres
    have he : iinfo = [] := by
      cases iinfo with
      | nil => rfl
      | cons a t => simp at hc
    subst he
    refine ⟨le_refl _, prefixPerm_refl _ _, ?_, ?_⟩
    · intro k _; simp [compatibleRows]
    · intro k h1 h2; simp only at h1; omega

theorem bindAltPost_id (b : Nat) (cur : AltRow) (i : Nat) (md : MatchingData)
    (h : ∀ l, i ≤ l → l < md.len → md.isInitialized l = true → False) :
    BindAltPost b cur i md (true, md) := by
  refine ⟨Frame.frame_refl _, fun _ _ => rfl, fun _ _ _ => rfl, fun _ => prefixPerm_refl _ _,
    fun _ => Or.inl rfl, ?_, ?_⟩
  · intro _ l h1 h2 h3
    exact (h l h1 h2 h3).elim
  · intro h; cases h

theorem bindAltLoop_spec (b : Nat) (cur : AltRow) :
    ∀ (fuel i : Nat) (md : MatchingData),
      b < i → md.len ≤ i + fuel →
      (∀ l j, md.isInitialized l = true → j ≤ l → md.isInitialized j = true) →
      (∀ l, i ≤ l → md.isInitialized l = true →
        md.remaining l b ≤ (md.altBindings l).length) →
      BindAltPost b cur i md (bindAltLoop b cur fuel i md) := by
  intro fuel
  induction fuel with
  | zero =>
      intro i md hb hlen hdown hrem
      exact bindAltPost_id b cur i md (fun l h1 h2 _ => by omega)
  | succ fuel ih =>
      intro i md hb hlen hdown hrem
      unfold bindAltLoop
      by_cases hi : i < md.len
      · rw [if_pos hi]
        by_cases hinit : md.isInitialized i = true
        · simp only [hinit, Bool.not_true, Bool.false_eq_true, if_false]
          generalize hres : (if md.basesHaveVariablesInCommon b i = true then
              filterAlts (compatibleRows (md.getIntersectInfo b i) cur) (md.remaining i b)
                (md.altBindings i) 0 (md.remaining i b)
            else (md.altBindings i, md.remaining i b)) = res
          obtain ⟨r2, r3, r4, r5⟩ := filterStep_spec (md.getIntersectInfo b i) cur
            (md.altBindings i) (md.remaining i b) (hrem i (le_refl _) hinit) res (by
              rw [← hres]; rfl)
          by_cases hz : res.2 = 0
          · rw [if_pos hz]
            refine ⟨⟨rfl, rfl, rfl, rfl, rfl, rfl, rfl, rfl, rfl, rfl⟩, ?_, fun _ _ _ => rfl, ?_,
              fun _ => Or.inl rfl, ?_, ?_⟩
            · intro l hl
              simp [Function.update, Nat.ne_of_lt hl]
            · intro l
              by_cases e : l = i
              · subst e; simpa using r3
              · simpa [Function.update, e] using prefixPerm_refl _ _
            · intro h; cases h
            · intro _
              refine ⟨i, le_refl _, hi, hinit, ?_⟩
              intro k hk
              have := prefixPerm_forall_take (prefixPerm_symm r3) (le_refl _)
                (fun r => compatibleRows (md.getIntersectInfo b i) cur r = false)
                (fun k h1 h2 => r5 k (by omega) h1) k hk
                (by have := hrem i (le_refl _) hinit; omega)
              exact this
          · rw [if_neg hz]
            have hlenr : res.1.length = (md.altBindings i).length := prefixPerm_length r3
            obtain ⟨f1, f2, f3, f4, f5, f6, f7⟩ := ih (i + 1)
              { md with altBindings := Function.update md.altBindings i res.1,
                        remaining := TriangularArray.set md.remaining i (b + 1) res.2 }
              (by omega) (by simpa using (by omega : md.len ≤ i + 1 + fuel))
              (fun l j h1 h2 => hdown l j h1 h2)
              (by
                intro l hli hl
                have h0 := hrem l (by omega) hl
                by_cases e : l = i
                · subst e
                  simpa [TriangularArray.set, hlenr] using h0
                · simpa [TriangularArray.set, Function.update, e] using h0)
            dsimp only at f2 f3 f4 f5 f6 f7
            have hA : ∀ l, l ≠ i → (Function.update md.altBindings i res.1) l = md.altBindings l := by
              intro l hl; simp [Function.update, hl]
            have hR : ∀ l k, ¬ (l = i ∧ k = b + 1) →
                TriangularArray.set md.remaining i (b + 1) res.2 l k = md.remaining l k := by
              intro l k hlk; simp [TriangularArray.set, hlk]
            have hRi : TriangularArray.set md.remaining i (b + 1) res.2 i (b + 1) = res.2 := by
              simp [TriangularArray.set]
            refine ⟨⟨f1.len, f1.varCnts, f1.boundVarNums, f1.nextAlts, f1.eqLit, f1.bases, f1.alts,
              f1.inst, f1.matchRecord, f1.currBLit⟩, ?_, ?_, ?_, ?_, ?_, ?_⟩
            · intro l hl
              rw [f2 l (by omega)]
              exact hA l (by omega)
            · intro l k hlk
              rw [f3 l k (by omega)]
              exact hR l k (by omega)
            · intro l
              by_cases e : l = i
              · subst e
                rw [f2 l (by omega)]
                simpa using r3
              · have := f4 l
                simp only [hA l e, hR l b (by omega)] at this
                exact this
            · intro l
              by_cases e : l = i
              · subst e
                right
                rw [f3 l (b + 1) (Or.inl (by omega)), hRi]
                exact r2
              · rcases f5 l with h | h
                · left; rw [h]; exact hR l (b + 1) (by simp [e])
                · right; rw [hR l b (by omega)] at h; exact h
            · intro ht l hl1 hl2 hl3
              by_cases e : l = i
              · subst e
                rw [f3 l (b + 1) (Or.inl (by omega)), hRi, f2 l (by omega)]
                simp only [Function.update_same]
                exact ⟨Nat.pos_of_ne_zero hz, r2, r4, r5⟩
              · have := f6 ht l (by omega) hl2 hl3
                simp only [hR l b (by omega)] at this
                exact this
            · intro hf
              obtain ⟨l, hl1, hl2, hl3, hl4⟩ := f7 hf
              refine ⟨l, by omega, hl2, hl3, ?_⟩
              have e : l ≠ i := by omega
              simp only [hA l e, hR l b (by omega)] at hl4
              exact hl4
        · simp only [hinit, Bool.not_false, if_true]
          exact bindAltPost_id b cur i md (fun l h1 h2 h3 => hinit (hdown l i h3 h1))
      · rw [if_neg hi]
        exact bindAltPost_id b cur i md (fun l h1 h2 _ => by omega)


theorem skipBindingLoop_spec (b : Nat) :
    ∀ (fuel i : Nat) (md : MatchingData),
      b < i → md.len ≤ i + fuel →
      (∀ l j, md.isInitialized l = true → j ≤ l → md.isInitialized j = true) →
      SkipPost b i md (skipBindingLoop b fuel i md) := by
  intro fuel
  induction fuel with
  | zero =>
      intro i md hb hlen hdown
      refine ⟨Frame.frame_refl _, rfl, fun _ _ _ => rfl, fun _ => Or.inl rfl, ?_⟩
      intro l h1 h2; omega
  | succ fuel ih =>
      intro i md hb hlen hdown
      unfold skipBindingLoop
      by_cases hi : i < md.len
      · rw [if_pos hi]
        by_cases hinit : md.isInitialized i = true
        · simp only [hinit, Bool.not_true, Bool.false_eq_true, if_false]
          obtain ⟨f1, f2, f3, f4, f5⟩ := ih (i + 1)
            { md with remaining :=
                TriangularArray.set md.remaining i (b + 1) (md.remaining i b) }
            (by omega) (by simpa using (by omega : md.len ≤ i + 1 + fuel))
            (fun l j h1 h2 => hdown l j h1 h2)
          dsimp only at f2 f3 f4 f5
          have hR : ∀ l k, ¬ (l = i ∧ k = b + 1) →
              TriangularArray.set md.remaining i (b + 1) (md.remaining i b) l k
                = md.remaining l k := by
            intro l k hlk; simp [TriangularArray.set, hlk]
          have hRi : TriangularArray.set md.remaining i (b + 1) (md.remaining i b) i (b + 1)
              = md.remaining i b := by
            simp [TriangularArray.set]
          refine ⟨⟨f1.len, f1.varCnts, f1.boundVarNums, f1.nextAlts, f1.eqLit, f1.bases, f1.alts,
            f1.inst, f1.matchRecord, f1.currBLit⟩, f2, ?_, ?_, ?_⟩
          · intro l k hlk
            rw [f3 l k (by omega)]
            exact hR l k (by omega)
          · intro l
            by_cases e : l = i
            · subst e
              right
              rw [f3 l (b + 1) (Or.inl (by omega)), hRi]
            · rcases f4 l with h | h
              · left; rw [h]; exact hR l (b + 1) (by simp [e])
              · right; rw [hR l b (by omega)] at h; exact h
          · intro l hl1 hl2 hl3
            by_cases e : l = i
            · subst e
              rw [f3 l (b + 1) (Or.inl (by omega)), hRi]
            · have := f5 l (by omega) hl2 hl3
              rw [hR l b (by omega)] at this
              exact this
        · simp only [hinit, Bool.not_false, if_true]
          refine ⟨Frame.frame_refl _, rfl, fun _ _ _ => rfl, fun _ => Or.inl rfl, ?_⟩
          intro l h1 h2 h3
          exact absurd (hdown l i h3 h1) hinit
      · rw [if_neg hi]
        refine ⟨Frame.frame_refl _, rfl, fun _ _ _ => rfl, fun _ => Or.inl rfl, ?_⟩
        intro l h1 h2; omega

theorem antitone_chain (f : Nat → Nat) (n : Nat) (h : ∀ k, k < n → f (k + 1) ≤ f k) :
    ∀ k, k ≤ n → f n ≤ f k := by
  induction n with
  | zero => intro k hk; have : k = 0 := by omega
            subst this; exact le_refl _
  | succ n ih =>
      intro k hk
      by_cases e : k = n + 1
      · subst e; exact le_refl _
      · exact le_trans (h n (by omega)) (ih (fun k hk => h k (by omega)) k (by omega))


theorem ensureInitLoop_spec (c : Nat) (md0 : MatchingData)
    (h0 : md0.remaining c 0 = (md0.altBindings c).length) :
    ∀ n, n ≤ c → EnsureInitPost c md0 n (ensureInitLoop c md0 n) := by
  intro n
  induction n with
  | zero =>
      intro _
      refine ⟨Frame.frame_refl _, fun _ _ => rfl, fun _ _ _ => rfl, List.Perm.refl _, ?_, ?_, ?_, ?_⟩
      · intro k hk; omega
      · intro k a j hk _ hj; omega
      · intro k a hk h1 h2
        have : k = 0 := by omega
        subst this
        simp only [ensureInitLoop] at h1 h2
        omega
      · intro h; omega
  | succ n ih =>
      intro hn
      obtain ⟨e1, e2, e3, e4, e5, e7, e8, _⟩ := ih (by omega)
      unfold ensureInitLoop
      unfold EnsureInitPost
      dsimp only
      generalize hmd : (ensureInitLoop c md0 n).1 = md at e1 e2 e3 e4 e5 e7 e8 ⊢
      have hnc : n ≠ c := by omega
      have hlen : (md.altBindings c).length = (md0.altBindings c).length := e4.length_eq
      have hanti := antitone_chain (fun k => md.remaining c k) n e5
      have hr0 : md.remaining c 0 = (md.altBindings c).length := by
        rw [e3 c 0 (Or.inr (Or.inl rfl)), h0, hlen]
      have hremle : md.remaining c n ≤ (md.altBindings c).length := by
        have := hanti 0 (Nat.zero_le _)
        simp only at this
        omega
      have hcur : (md.altBindings n).getD (dec32 (md.nextAlts n)) default = md0.selRow n := by
        simp [selRow, e2 n hnc, e1.nextAlts]
      have hii : md.getIntersectInfo n c = md0.getIntersectInfo n c := e1.frame_getIntersectInfo n c
      generalize hres : (if n ≠ md.eqLitForDemodulation ∧ md.basesHaveVariablesInCommon n c = true then
          filterAlts (compatibleRows (md.getIntersectInfo n c)
              ((md.altBindings n).getD (dec32 (md.nextAlts n)) default))
            (md.remaining c n) (md.altBindings c) 0 (md.remaining c n)
        else (md.altBindings c, md.remaining c n)) = res
      have hfs : res.2 ≤ md.remaining c n ∧ PrefixPerm (md.remaining c n) (md.altBindings c) res.1 ∧
          (n ≠ md0.eqLitForDemodulation →
            (∀ k, k < res.2 → compatibleRows (md0.getIntersectInfo n c) (md0.selRow n)
              (res.1.getD k default) = true) ∧
            (∀ k, res.2 ≤ k → k < md.remaining c n →
              compatibleRows (md0.getIntersectInfo n c) (md0.selRow n)
                (res.1.getD k default) = false)) ∧
          (n = md0.eqLitForDemodulation → res = (md.altBindings c, md.remaining c n)) := by
        by_cases hne : n = md.eqLitForDemodulation
        · have : res = (md.altBindings c, md.remaining c n) := by
            rw [← hres, if_neg (by simp [hne])]
          subst this
          refine ⟨le_refl _, prefixPerm_refl _ _, ?_, fun _ => rfl⟩
          intro h
          exact absurd (hne.trans e1.eqLit) h
        · obtain ⟨r2, r3, r4, r5⟩ := filterStep_spec (md.getIntersectInfo n c)
            ((md.altBindings n).getD (dec32 (md.nextAlts n)) default)
            (md.altBindings c) (md.remaining c n) hremle res (by
              rw [← hres]
              simp only [hne, ne_eq, not_false_eq_true, true_and, basesHaveVariablesInCommon])
          rw [hcur, hii] at r4 r5
          refine ⟨r2, r3, fun _ => ⟨r4, r5⟩, ?_⟩
          intro h
          exact absurd (h.trans e1.eqLit.symm) hne
      obtain ⟨r2, r3, r45, r6⟩ := hfs
      have hA : ∀ l, l ≠ c → (Function.update md.altBindings c res.1) l = md.altBindings l := by
        intro l hl; simp [Function.update, hl]
      have hAc : (Function.update md.altBindings c res.1) c = res.1 := by simp
      have hR : ∀ l k, ¬ (l = c ∧ k = n + 1) →
          TriangularArray.set md.remaining c (n + 1) res.2 l k = md.remaining l k := by
        intro l k hlk; simp [TriangularArray.set, hlk]
      have hRc : TriangularArray.set md.remaining c (n + 1) res.2 c (n + 1) = res.2 := by
        simp [TriangularArray.set]
      have hlen2 : res.1.length = (md.altBindings c).length := prefixPerm_length r3
      -- soundness of the old columns under the new row order
      have hsoundOld : ∀ k a j, k ≤ n → a < md.remaining c k → j < k →
          j ≠ md0.eqLitForDemodulation →
          compatibleRows (md0.getIntersectInfo j c) (md0.selRow j) (res.1.getD a default) = true := by
        intro k a j hk ha hj hje
        have hle : md.remaining c k ≤ (md.altBindings c).length := by
          have := antitone_chain (fun k => md.remaining c k) k (fun k2 h2 => e5 k2 (by omega)) 0
            (Nat.zero_le _)
          simp only at this
          omega
        exact prefixPerm_forall_take r3 (hanti k hk)
          (fun r => compatibleRows (md0.getIntersectInfo j c) (md0.selRow j) r = true)
          (fun a2 h1 _ => e7 k a2 j hk h1 hj hje) a ha (by omega)
      have hcomplOld : ∀ k a, k ≤ n → md.remaining c k ≤ a → a < res.1.length →
          ∃ j, j < k ∧ j ≠ md0.eqLitForDemodulation ∧
            compatibleRows (md0.getIntersectInfo j c) (md0.selRow j) (res.1.getD a default)
              = false := by
        intro k a hk h1 h2
        rw [prefixPerm_getD r3 a (le_trans (hanti k hk) h1)]
        exact e8 k a hk h1 (by omega)
      refine ⟨⟨e1.len, e1.varCnts, e1.boundVarNums, e1.nextAlts, e1.eqLit, e1.bases, e1.alts,
        e1.inst, e1.matchRecord, e1.currBLit⟩, ?_, ?_, ?_, ?_, ?_, ?_, ?_⟩
      · intro l hl
        rw [hA l hl]; exact e2 l hl
      · intro l k hlk
        rw [hR l k (by omega)]
        exact e3 l k (by omega)
      · rw [hAc]; exact r3.1.trans e4
      · intro k hk
        by_cases e : k = n
        · subst e
          rw [hRc, hR c k (by omega)]
          exact r2
        · rw [hR c (k + 1) (by omega), hR c k (by omega)]
          exact e5 k (by omega)
      · intro k a j hk ha hj hje
        rw [hAc]
        by_cases e : k = n + 1
        · subst e
          rw [hRc] at ha
          by_cases ej : j = n
          · subst ej
            exact (r45 hje).1 a ha
          · exact hsoundOld n a j (le_refl _) (by omega) (by omega) hje
        · rw [hR c k (by omega)] at ha
          exact hsoundOld k a j (by omega) ha hj hje
      · intro k a hk h1 h2
        rw [hAc] at h2 ⊢
        by_cases e : k = n + 1
        · subst e
          rw [hRc] at h1
          by_cases ha : md.remaining c n ≤ a
          · obtain ⟨j, j1, j2, j3⟩ := hcomplOld n a (le_refl _) ha h2
            exact ⟨j, by omega, j2, j3⟩
          · by_cases hne : n = md0.eqLitForDemodulation
            · have := r6 hne
              rw [this] at h1
              simp only at h1
              omega
            · exact ⟨n, by omega, hne, (r45 hne).2 a h1 (by omega)⟩
        · rw [hR c k (by omega)] at h1
          obtain ⟨j, j1, j2, j3⟩ := hcomplOld k a (by omega) h1 h2
          exact ⟨j, j1, j2, j3⟩
      · intro _
        rw [hRc]

end MatchingData

end Kernel

namespace Kernel

namespace MatchingData

theorem InvAt.rem_anti {md : MatchingData} {u : Nat} (h : InvAt md u) (i : Nat)
    (hi : md.isInitialized i = true) (k m : Nat) (hkm : k ≤ m) (hm : m ≤ i)
    (hmc : m ≤ md.currBLit) : md.remaining i m ≤ md.remaining i k := by
  induction m with
  | zero =>
      have : k = 0 := by omega
      subst this; exact le_refl _
  | succ m ih =>
      by_cases e : k = m + 1
      · subst e; exact le_refl _
      · exact le_trans (h.rem_mono i m hi (by omega) (by omega))
          (ih (by omega) (by omega) (by omega))

/-- Transfer of the invariant to a state that differs by what the scan of the
alternatives of the current level changes. -/
theorem InvAt.scan_transfer {md md2 : MatchingData} (h : InvAt md md.currBLit)
    (hinit : md.isInitialized md.currBLit = true)
    (hlen : md2.len = md.len) (hvc : md2.varCnts = md.varCnts)
    (hbv : md2.boundVarNums = md.boundVarNums)
    (heq : md2.eqLitForDemodulation = md.eqLitForDemodulation)
    (hbases : md2.bases = md.bases) (halts : md2.alts = md.alts) (hinst : md2.inst = md.inst)
    (hmr : md2.matchRecord = md.matchRecord) (hcur : md2.currBLit = md.currBLit)
    (hna : ∀ j, j ≠ md.currBLit → md2.nextAlts j = md.nextAlts j)
    (hnc1 : md.nextAlts md.currBLit ≤ md2.nextAlts md.currBLit)
    (hnc2 : md2.nextAlts md.currBLit ≤ md.remaining md.currBLit md.currBLit)
    (hab : ∀ l, l ≤ md.currBLit → md2.altBindings l = md.altBindings l)
    (hpp : ∀ l, PrefixPerm (md.remaining l md.currBLit) (md.altBindings l) (md2.altBindings l))
    (hrem : ∀ l k, (l ≤ md.currBLit ∨ k ≠ md.currBLit + 1) →
      md2.remaining l k = md.remaining l k)
    (hrem2 : ∀ l, md2.remaining l (md.currBLit + 1) = md.remaining l (md.currBLit + 1) ∨
      md2.remaining l (md.currBLit + 1) ≤ md.remaining l md.currBLit) :
    InvAt md2 md2.currBLit := by
  have hI : ∀ i, md2.isInitialized i = md.isInitialized i := by
    intro i; simp [isInitialized, hbv]
  have hV : ∀ i, md2.varsP i = md.varsP i := by intro i; simp [varsP, hbases]
  have hRP : ∀ i, md2.rowsP i = md.rowsP i := by intro i; simp [rowsP, hbases, halts, hinst]
  have hC : ∀ j i, md2.compatP j i = md.compatP j i := by
    intro j i; funext r1 r2; simp [compatP, hV]
  have hL : ∀ l, (md2.altBindings l).length = (md.altBindings l).length :=
    fun l => prefixPerm_length (hpp l)
  have hS : ∀ j, j < md.currBLit → md2.selRow j = md.selRow j := by
    intro j hj
    simp [selRow, hab j (by omega), hna j (by omega)]
  have hR : ∀ l k, k ≤ md.currBLit → md2.remaining l k = md.remaining l k :=
    fun l k hk => hrem l k (Or.inr (by omega))
  refine
    { len_le := by rw [hlen]; exact h.len_le
      cur_lt := by rw [hcur, hlen]; exact h.cur_lt
      init_lt := fun i hi => by rw [hlen]; exact h.init_lt i (by rwa [hI] at hi)
      init_down := fun i j hi hj => by
        rw [hI] at hi ⊢; exact h.init_down i j hi hj
      init_below := fun j hj => by
        rw [hI]; exact h.init_below j (by rwa [hcur] at hj)
      init_vars := fun i hi => by
        rw [hbv, hV]; exact h.init_vars i (by rwa [hI] at hi)
      init_cnt := fun i hi => by
        rw [hvc, hV]; exact h.init_cnt i (by rwa [hI] at hi)
      init_rows := fun i hi => by
        rw [hRP]; exact (hpp i).1.trans (h.init_rows i (by rwa [hI] at hi))
      rem_zero := fun i hi => by
        rw [hR i 0 (Nat.zero_le _), hL]; exact h.rem_zero i (by rwa [hI] at hi)
      rem_le := ?_
      rem_mono := fun i k hi hk hkc => by
        rw [hcur] at hkc
        rw [hR i (k + 1) (by omega), hR i k (by omega)]
        exact h.rem_mono i k (by rwa [hI] at hi) hk hkc
      sound := ?_
      compl := ?_
      sel_pos := fun j hj hje => by
        rw [hcur] at hj
        rw [hna j (by omega)]
        exact h.sel_pos j hj (by rwa [heq] at hje)
      next_le := ?_
      sel_rec := fun j hj hje => by
        rw [hcur] at hj
        rw [hmr, hS j hj]
        exact h.sel_rec j hj (by rwa [heq] at hje)
      rec_exact := fun p j hp hj => by
        rw [hcur] at hj
        rw [hmr] at hp
        rw [heq, hS j hj]
        exact h.rec_exact p j hp hj
      rec_dom := fun p hp => by
        rw [hmr]; exact h.rec_dom p (by rwa [hinst] at hp)
      eq_real := fun he => by
        rw [heq, hbases]; exact h.eq_real (by rwa [heq, hcur] at he)
      eq_exh := ?_
      cur_fresh := fun hc => by
        rw [hcur, hI, hinit] at hc; cases hc
      eq_dom := by rw [heq, hlen]; exact h.eq_dom
      alts_inst := fun i l hl => by
        rw [hinst]; exact h.alts_inst i l (by rwa [halts] at hl) }
  · intro i k hi hk
    rw [hI] at hi
    rw [hL]
    by_cases e : i ≤ md.currBLit ∨ k ≠ md.currBLit + 1
    · rw [hrem i k e]; exact h.rem_le i k hi hk
    · have e2 : k = md.currBLit + 1 := by omega
      subst e2
      rcases hrem2 i with h2 | h2
      · rw [h2]; exact h.rem_le i _ hi hk
      · exact le_trans h2 (h.rem_le i _ hi (by omega))
  · intro i k a j hi hk hkc ha hj hje
    rw [hI] at hi
    rw [hcur] at hkc
    rw [hR i k hkc] at ha
    rw [heq] at hje
    rw [hC, hS j (by omega)]
    by_cases e : i ≤ md.currBLit
    · rw [hab i e]; exact h.sound i k a j hi hk hkc ha hj hje
    · have hle := h.rem_le i k hi hk
      exact prefixPerm_forall_take (hpp i)
        (h.rem_anti i hi k md.currBLit hkc (by omega) (le_refl _))
        (fun r => md.compatP j i (md.selRow j) r = true)
        (fun a2 h1 _ => h.sound i k a2 j hi hk hkc h1 hj hje) a ha (by rw [hL]; omega)
  · intro i k a hi hk hkc ha hal
    rw [hI] at hi
    rw [hcur] at hkc
    rw [hR i k hkc] at ha
    rw [hL] at hal
    have hrow : (md2.altBindings i).getD a default = (md.altBindings i).getD a default := by
      by_cases e : i ≤ md.currBLit
      · rw [hab i e]
      · exact prefixPerm_getD (hpp i) a
          (le_trans (h.rem_anti i hi k md.currBLit hkc (by omega) (le_refl _)) ha)
    obtain ⟨j, j1, j2, j3⟩ := h.compl i k a hi hk hkc ha hal
    refine ⟨j, j1, by rwa [heq], ?_⟩
    rw [hC, hS j (by omega), hrow]
    exact j3
  · intro j hj hji
    rw [hI] at hji
    rw [hcur] at hj
    rw [hR j j hj]
    by_cases e : j = md.currBLit
    · subst e; exact hnc2
    · rw [hna j e]; exact h.next_le j hj hji
  · intro j hj hje
    rw [hcur] at hj
    rw [heq] at hje
    rw [hI, hR j j hj]
    obtain ⟨a1, a2⟩ := h.eq_exh j hj hje
    refine ⟨a1, ?_⟩
    by_cases e : j = md.currBLit
    · subst e; exact le_trans a2 hnc1
    · rw [hna j e]; exact a2


theorem ScanRel.scan_refl (md : MatchingData) : ScanRel md md :=
  { len := rfl, varCnts := rfl, boundVarNums := rfl, eqLit := rfl, bases := rfl, alts := rfl,
    inst := rfl, matchRecord := rfl, currBLit := rfl, next_ne := fun _ _ => rfl,
    next_ge := le_refl _, alt_le := fun _ _ => rfl, alt_pp := fun _ => prefixPerm_refl _ _,
    rem := fun _ _ _ => rfl, rem2 := fun _ => Or.inl rfl }

theorem ScanRel.scan_trans {m1 m2 m3 : MatchingData} (h1 : ScanRel m1 m2) (h2 : ScanRel m2 m3) :
    ScanRel m1 m3 := by
  have hc := h1.currBLit
  refine
    { len := h2.len.trans h1.len, varCnts := h2.varCnts.trans h1.varCnts,
      boundVarNums := h2.boundVarNums.trans h1.boundVarNums, eqLit := h2.eqLit.trans h1.eqLit,
      bases := h2.bases.trans h1.bases, alts := h2.alts.trans h1.alts,
      inst := h2.inst.trans h1.inst, matchRecord := h2.matchRecord.trans h1.matchRecord,
      currBLit := h2.currBLit.trans h1.currBLit,
      next_ne := fun j hj => (h2.next_ne j (by rw [hc]; exact hj)).trans (h1.next_ne j hj),
      next_ge := le_trans h1.next_ge (by have := h2.next_ge; rwa [hc] at this),
      alt_le := fun l hl => (h2.alt_le l (by rw [hc]; exact hl)).trans (h1.alt_le l hl),
      alt_pp := ?_, rem := ?_, rem2 := ?_ }
  · intro l
    have a := h1.alt_pp l
    have b := h2.alt_pp l
    rw [hc, h1.rem l _ (Or.inr (by omega))] at b
    exact prefixPerm_trans a b
  · intro l k hlk
    rw [h2.rem l k (by rw [hc]; exact hlk), h1.rem l k hlk]
  · intro l
    have a := h1.rem2 l
    have b := h2.rem2 l
    have e := h1.rem l m1.currBLit (Or.inr (by omega))
    rw [hc] at b
    rcases b with b | b
    · rw [b]; exact a
    · rw [e] at b; exact Or.inr b

theorem ScanRel.scan_isInitialized {m1 m2 : MatchingData} (h : ScanRel m1 m2) (i : Nat) :
    m2.isInitialized i = m1.isInitialized i := by
  simp [MatchingData.isInitialized, h.boundVarNums]

theorem ScanRel.scan_compatP {m1 m2 : MatchingData} (h : ScanRel m1 m2) (j i : Nat) :
    m2.compatP j i = m1.compatP j i := by
  funext r1 r2
  simp [MatchingData.compatP, MatchingData.varsP, h.bases]

theorem InvAt.of_scanRel {md md2 : MatchingData} (h : InvAt md md.currBLit)
    (hinit : md.isInitialized md.currBLit = true) (hs : ScanRel md md2)
    (hn : md2.nextAlts md.currBLit ≤ md.remaining md.currBLit md.currBLit) :
    InvAt md2 md2.currBLit :=
  InvAt.scan_transfer h hinit hs.len hs.varCnts hs.boundVarNums hs.eqLit hs.bases hs.alts hs.inst
    hs.matchRecord hs.currBLit hs.next_ne hs.next_ge hn hs.alt_le hs.alt_pp hs.rem hs.rem2

theorem scanRel_incr (md : MatchingData) (f : Nat → Nat)
    (hf : f = Function.update md.nextAlts md.currBLit (md.nextAlts md.currBLit + 1)) :
    ScanRel md { md with nextAlts := f } := by
  subst hf
  exact
  { len := rfl, varCnts := rfl, boundVarNums := rfl, eqLit := rfl, bases := rfl, alts := rfl,
    inst := rfl, matchRecord := rfl, currBLit := rfl,
    next_ne := fun j hj => (by simp [Function.update, hj]),
    next_ge := (by simp),
    alt_le := fun _ _ => rfl, alt_pp := fun _ => prefixPerm_refl _ _,
    rem := fun _ _ _ => rfl, rem2 := fun _ => Or.inl rfl }

theorem scanRel_bindAlt {md : MatchingData} {cur : AltRow} {res : Bool × MatchingData}
    (h : BindAltPost md.currBLit cur (md.currBLit + 1) md res) : ScanRel md res.2 := by
  obtain ⟨f1, f2, f3, f4, f5, _, _⟩ := h
  exact
    { len := f1.len, varCnts := f1.varCnts, boundVarNums := f1.boundVarNums, eqLit := f1.eqLit,
      bases := f1.bases, alts := f1.alts, inst := f1.inst, matchRecord := f1.matchRecord,
      currBLit := f1.currBLit,
      next_ne := fun j _ => (by rw [f1.nextAlts]),
      next_ge := (by rw [f1.nextAlts]),
      alt_le := fun l hl => f2 l (by omega),
      alt_pp := f4,
      rem := fun l k hlk => f3 l k (by omega),
      rem2 := f5 }

theorem Dead.transfer {md md2 : MatchingData} (hi : InvAt md md.currBLit) (hs : ScanRel md md2)
    (a : Nat) (h : Dead md a) : Dead md2 a := by
  unfold Dead at h ⊢
  rw [hs.currBLit, hs.matchRecord, hs.alt_le _ (le_refl _), hs.len]
  rcases h with h | ⟨l, l1, l2, l3, l4⟩
  · exact Or.inl h
  · refine Or.inr ⟨l, l1, l2, by rw [hs.scan_isInitialized]; exact l3, ?_⟩
    intro k hk
    rw [hs.rem l _ (Or.inr (by omega))] at hk
    rw [hs.scan_compatP]
    have hle := hi.rem_le l md.currBLit l3 (by omega)
    exact prefixPerm_forall_take (hs.alt_pp l) (le_refl _)
      (fun r => md.compatP md.currBLit l ((md.altBindings md.currBLit).getD a default) r = false)
      (fun k2 h1 _ => l4 k2 h1) k hk (by rw [prefixPerm_length (hs.alt_pp l)]; omega)


theorem InvAt.getIntersectInfo_eq {md : MatchingData} {u : Nat} (h : InvAt md u) (j i : Nat)
    (hj : md.isInitialized j = true) (hi : md.isInitialized i = true) :
    md.getIntersectInfo j i = intersectInfo (md.varsP j) (md.varsP i) := by
  simp [MatchingData.getIntersectInfo, h.init_vars j hj, h.init_vars i hi]

theorem findAlt_spec (maxAlt : Nat) :
    ∀ (fuel : Nat) (md : MatchingData), InvAt md md.currBLit →
      md.isInitialized md.currBLit = true →
      maxAlt = md.remaining md.currBLit md.currBLit →
      maxAlt - md.nextAlts md.currBLit ≤ fuel →
      FindAltPost maxAlt md (findAlt maxAlt fuel md) := by
  intro fuel
  induction fuel with
  | zero =>
      intro md hinv hinit hmax hfuel
      have hle := hinv.next_le _ (le_refl _) hinit
      refine ⟨ScanRel.scan_refl _, hinv, by simp only [findAlt]; omega, ?_, ?_⟩
      · intro h; simp only [findAlt] at h; omega
      · intro a h1 h2; simp only [findAlt] at h2; omega
  | succ fuel ih =>
      intro md hinv hinit hmax hfuel
      have hle := hinv.next_le _ (le_refl _) hinit
      unfold findAlt
      by_cases hlt : md.nextAlts md.currBLit < maxAlt
      · rw [if_pos hlt]
        by_cases hcl : md.matchRecord (md.getAltRecordIndex md.currBLit (md.nextAlts md.currBLit))
            < md.currBLit
        · rw [if_pos hcl]
          have hs1 := scanRel_incr md _ rfl
          have hinv1 := InvAt.of_scanRel hinv hinit hs1 (by simp; omega)
          obtain ⟨g1, g2, g3, g4, g5⟩ := ih _ hinv1 hinit hmax (by simp; omega)
          refine ⟨hs1.scan_trans g1, g2, g3, g4, ?_⟩
          intro a h1 h2
          by_cases e : a = md.nextAlts md.currBLit
          · subst e
            exact Dead.transfer hinv (hs1.scan_trans g1) _ (Or.inl hcl)
          · exact g5 a (by simp; omega) h2
        · rw [if_neg hcl]
          have hb : BindAltPost md.currBLit
              ((md.altBindings md.currBLit).getD (md.nextAlts md.currBLit) default)
              (md.currBLit + 1) md (md.bindAlt md.currBLit (md.nextAlts md.currBLit)) :=
            bindAltLoop_spec md.currBLit
              ((md.altBindings md.currBLit).getD (md.nextAlts md.currBLit) default)
              (md.len - (md.currBLit + 1)) (md.currBLit + 1) md (by omega) (by omega)
              hinv.init_down (fun l hl hli => hinv.rem_le l _ hli (by omega))
          generalize md.bindAlt md.currBLit (md.nextAlts md.currBLit) = r at hb ⊢
          have hs0 := scanRel_bindAlt hb
          have hinv0 := InvAt.of_scanRel hinv hinit hs0 (by rw [hb.1.nextAlts]; omega)
          have hgi : ∀ l, md.currBLit < l → md.isInitialized l = true →
              md.getIntersectInfo md.currBLit l
                = intersectInfo (md.varsP md.currBLit) (md.varsP l) :=
            fun l _ hl => hinv.getIntersectInfo_eq _ _ hinit hl
          have hn0 : r.2.nextAlts r.2.currBLit = md.nextAlts md.currBLit := by
            rw [hs0.currBLit, hb.1.nextAlts]
          have hr0 : r.2.remaining r.2.currBLit r.2.currBLit
              = md.remaining md.currBLit md.currBLit := by
            rw [hs0.currBLit, hs0.rem _ _ (Or.inl (le_refl _))]
          by_cases hok : r.1 = true
          · rw [if_pos hok]
            refine ⟨hs0, hinv0, by omega, ?_, ?_⟩
            · intro _
              obtain ⟨f1, f2, f3, f4, f5, f6, f7⟩ := hb
              refine ⟨?_, ?_⟩
              · rw [hs0.currBLit, hs0.matchRecord, f1.nextAlts]
                simp only [getAltRecordIndex] at hcl ⊢
                rw [hs0.alt_le _ (le_refl _)]
                exact hcl
              · intro l hl1 hl2 hl3
                rw [hs0.currBLit] at hl1 ⊢
                rw [hs0.len] at hl2
                rw [hs0.scan_isInitialized] at hl3
                have := f6 hok l (by omega) hl2 hl3
                rw [hgi l hl1 hl3] at this
                rw [hs0.rem l md.currBLit (Or.inr (by omega)), f1.nextAlts,
                  hs0.alt_le _ (le_refl _), hs0.scan_compatP]
                exact this
            · intro a h1 h2
              omega
          · rw [if_neg hok]
            have hok2 : r.1 = false := by simpa using hok
            have hinit0 := (hs0.scan_isInitialized md.currBLit).trans hinit
            rw [← hs0.currBLit] at hinit0
            have hs1 := scanRel_incr r.2 _ rfl
            have hinv1 := InvAt.of_scanRel hinv0 hinit0 hs1 (by simp; omega)
            obtain ⟨g1, g2, g3, g4, g5⟩ := ih _ hinv1 hinit0 (by simp; omega) (by simp; omega)
            refine ⟨hs0.scan_trans (hs1.scan_trans g1), g2, g3, g4, ?_⟩
            intro a h1 h2
            by_cases e : a = md.nextAlts md.currBLit
            · subst e
              apply Dead.transfer hinv (hs0.scan_trans (hs1.scan_trans g1))
              obtain ⟨l, l1, l2, l3, l4⟩ := hb.2.2.2.2.2.2 hok2
              refine Or.inr ⟨l, by omega, l2, l3, ?_⟩
              intro k hk
              have := l4 k hk
              rw [hgi l (by omega) l3] at this
              exact this
            · exact g5 a (by simp; omega) h2
      · rw [if_neg hlt]
        refine ⟨ScanRel.scan_refl _, hinv, by omega, ?_, ?_⟩
        · intro h; omega
        · intro a h1 h2; omega

end MatchingData

end Kernel

namespace Kernel

namespace MatchingData

theorem InitRel.initRel_refl (c : Nat) (md : MatchingData) : InitRel c md md :=
  { len := rfl, nextAlts := rfl, eqLit := rfl, bases := rfl, alts := rfl, inst := rfl,
    matchRecord := rfl, currBLit := rfl, other_bv := fun _ _ => rfl, other_vc := fun _ _ => rfl,
    other_alt := fun _ _ => rfl, other_rem := fun _ _ _ => rfl }

/-- Transfer of the invariant to the state in which the current level has just
been initialised. -/
theorem InvAt.init_transfer {md md2 : MatchingData} (h : InvAt md md.currBLit)
    (hun : md.isInitialized md.currBLit = false) (hr : InitRel md.currBLit md md2)
    (hc_vars : md2.boundVarNums md.currBLit = some (md.varsP md.currBLit))
    (hc_cnt : md2.varCnts md.currBLit = (md.varsP md.currBLit).length)
    (hc_rows : (md2.altBindings md.currBLit).Perm (md.rowsP md.currBLit))
    (hc_zero : md2.remaining md.currBLit 0 = (md2.altBindings md.currBLit).length)
    (hc_mono : ∀ k, k < md.currBLit →
      md2.remaining md.currBLit (k + 1) ≤ md2.remaining md.currBLit k)
    (hc_sound : ∀ k a j, k ≤ md.currBLit → a < md2.remaining md.currBLit k → j < k →
      j ≠ md.eqLitForDemodulation →
      md.compatP j md.currBLit (md.selRow j) ((md2.altBindings md.currBLit).getD a default) = true)
    (hc_compl : ∀ k a, k ≤ md.currBLit → md2.remaining md.currBLit k ≤ a →
      a < (md2.altBindings md.currBLit).length →
      ∃ j, j < k ∧ j ≠ md.eqLitForDemodulation ∧
        md.compatP j md.currBLit (md.selRow j) ((md2.altBindings md.currBLit).getD a default)
          = false) :
    InvAt md2 md2.currBLit := by
  have hcur := hr.currBLit
  have hI : ∀ i, md2.isInitialized i = true ↔ (i = md.currBLit ∨ md.isInitialized i = true) := by
    intro i
    by_cases e : i = md.currBLit
    · subst e; simp [isInitialized, hc_vars]
    · simp [isInitialized, hr.other_bv i e, e]
  have hlt : ∀ i, md.isInitialized i = true → i < md.currBLit := by
    intro i hi
    by_contra hge
    have := h.init_down i md.currBLit hi (by omega)
    rw [hun] at this; cases this
  have hV : ∀ i, md2.varsP i = md.varsP i := by intro i; simp [varsP, hr.bases]
  have hRP : ∀ i, md2.rowsP i = md.rowsP i := by
    intro i; simp [rowsP, hr.bases, hr.alts, hr.inst]
  have hC : ∀ j i, md2.compatP j i = md.compatP j i := by
    intro j i; funext r1 r2; simp [compatP, hV]
  have hS : ∀ j, j < md.currBLit → md2.selRow j = md.selRow j := by
    intro j hj
    simp [selRow, hr.other_alt j (by omega), hr.nextAlts]
  have hn0 : md.nextAlts md.currBLit = 0 := h.cur_fresh hun
  have hanti := antitone_chain (fun k => md2.remaining md.currBLit k) md.currBLit hc_mono
  have hcle : ∀ k, k ≤ md.currBLit →
      md2.remaining md.currBLit k ≤ (md2.altBindings md.currBLit).length := by
    intro k hk
    have := antitone_chain (fun k => md2.remaining md.currBLit k) k
      (fun k2 h2 => hc_mono k2 (by omega)) 0 (Nat.zero_le _)
    simp only at this
    omega
  refine
    { len_le := by rw [hr.len]; exact h.len_le
      cur_lt := by rw [hcur, hr.len]; exact h.cur_lt
      init_lt := ?_
      init_down := ?_
      init_below := ?_
      init_vars := ?_
      init_cnt := ?_
      init_rows := ?_
      rem_zero := ?_
      rem_le := ?_
      rem_mono := ?_
      sound := ?_
      compl := ?_
      sel_pos := fun j hj hje => by
        rw [hcur] at hj
        rw [hr.nextAlts]
        exact h.sel_pos j hj (by rwa [hr.eqLit] at hje)
      next_le := ?_
      sel_rec := fun j hj hje => by
        rw [hcur] at hj
        rw [hr.matchRecord, hS j hj]
        exact h.sel_rec j hj (by rwa [hr.eqLit] at hje)
      rec_exact := fun p j hp hj => by
        rw [hcur] at hj
        rw [hr.matchRecord] at hp
        rw [hr.eqLit, hS j hj]
        exact h.rec_exact p j hp hj
      rec_dom := fun p hp => by
        rw [hr.matchRecord]; exact h.rec_dom p (by rwa [hr.inst] at hp)
      eq_real := fun he => by
        rw [hr.eqLit, hr.bases]; exact h.eq_real (by rwa [hr.eqLit, hcur] at he)
      eq_exh := ?_
      cur_fresh := fun hc => by
        rw [hcur] at hc
        have := (hI md.currBLit).2 (Or.inl rfl)
        rw [this] at hc; cases hc
      eq_dom := by rw [hr.eqLit, hr.len]; exact h.eq_dom
      alts_inst := fun i l hl => by
        rw [hr.inst]; exact h.alts_inst i l (by rwa [hr.alts] at hl) }
  · intro i hi
    rw [hr.len]
    rcases (hI i).1 hi with e | e
    · subst e; exact h.cur_lt
    · exact h.init_lt i e
  · intro i j hi hj
    rw [hI]
    rcases (hI i).1 hi with e | e
    · subst e
      by_cases e2 : j = md.currBLit
      · exact Or.inl e2
      · exact Or.inr (h.init_below j (by omega))
    · exact Or.inr (h.init_down i j e hj)
  · intro j hj
    rw [hcur] at hj
    exact (hI j).2 (Or.inr (h.init_below j hj))
  · intro i hi
    rw [hV]
    rcases (hI i).1 hi with e | e
    · subst e; exact hc_vars
    · have hne : i ≠ md.currBLit := Nat.ne_of_lt (hlt i e)
      rw [hr.other_bv i hne]; exact h.init_vars i e
  · intro i hi
    rw [hV]
    rcases (hI i).1 hi with e | e
    · subst e; exact hc_cnt
    · have hne : i ≠ md.currBLit := Nat.ne_of_lt (hlt i e)
      rw [hr.other_vc i hne]; exact h.init_cnt i e
  · intro i hi
    rw [hRP]
    rcases (hI i).1 hi with e | e
    · subst e; exact hc_rows
    · have hne : i ≠ md.currBLit := Nat.ne_of_lt (hlt i e)
      rw [hr.other_alt i hne]; exact h.init_rows i e
  · intro i hi
    rcases (hI i).1 hi with e | e
    · subst e; exact hc_zero
    · have hne : i ≠ md.currBLit := Nat.ne_of_lt (hlt i e)
      rw [hr.other_alt i hne, hr.other_rem i 0 hne]; exact h.rem_zero i e
  · intro i k hi hk
    rcases (hI i).1 hi with e | e
    · subst e; exact hcle k hk
    · have hne : i ≠ md.currBLit := Nat.ne_of_lt (hlt i e)
      rw [hr.other_alt i hne, hr.other_rem i k hne]; exact h.rem_le i k e hk
  · intro i k hi hk hkc
    rw [hcur] at hkc
    rcases (hI i).1 hi with e | e
    · subst e; exact hc_mono k hkc
    · have hne : i ≠ md.currBLit := Nat.ne_of_lt (hlt i e)
      rw [hr.other_rem i _ hne, hr.other_rem i _ hne]; exact h.rem_mono i k e hk hkc
  · intro i k a j hi hk hkc ha hj hje
    rw [hcur] at hkc
    rw [hr.eqLit] at hje
    rw [hC, hS j (by omega)]
    rcases (hI i).1 hi with e | e
    · subst e; exact hc_sound k a j hkc ha hj hje
    · have hne : i ≠ md.currBLit := Nat.ne_of_lt (hlt i e)
      rw [hr.other_rem i _ hne] at ha
      rw [hr.other_alt i hne]
      exact h.sound i k a j e hk hkc ha hj hje
  · intro i k a hi hk hkc ha hal
    rw [hcur] at hkc
    rw [hr.eqLit]
    rcases (hI i).1 hi with e | e
    · subst e
      obtain ⟨j, j1, j2, j3⟩ := hc_compl k a hkc ha hal
      exact ⟨j, j1, j2, by rw [hC, hS j (by omega)]; exact j3⟩
    · have hne : i ≠ md.currBLit := Nat.ne_of_lt (hlt i e)
      rw [hr.other_rem i _ hne] at ha
      rw [hr.other_alt i hne] at hal ⊢
      obtain ⟨j, j1, j2, j3⟩ := h.compl i k a e hk hkc ha hal
      exact ⟨j, j1, j2, by rw [hC, hS j (by omega)]; exact j3⟩
  · intro j hj hji
    rw [hcur] at hj
    rw [hr.nextAlts]
    rcases (hI j).1 hji with e | e
    · subst e; rw [hn0]; exact Nat.zero_le _
    · have hne : j ≠ md.currBLit := Nat.ne_of_lt (hlt j e)
      rw [hr.other_rem j _ hne]; exact h.next_le j hj e
  · intro j hj hje
    rw [hcur] at hj
    rw [hr.eqLit] at hje
    obtain ⟨a1, a2⟩ := h.eq_exh j hj hje
    have hne : j ≠ md.currBLit := Nat.ne_of_lt (hlt j a1)
    rw [hr.nextAlts, hr.other_rem j _ hne]
    exact ⟨(hI j).2 (Or.inr a1), a2⟩


theorem ensureInit_fresh (md : MatchingData) (b : Nat) (h : md.isInitialized b = false) :
    md.ensureInit b =
      if (md.rowsP b).length = 0 then
        if ((md.bases.getD b default).isEquality && (md.bases.getD b default).isPositive) = true then
          if md.eqLitForDemodulation < b then (InitResult.MUST_BACKTRACK, md.zeroedLevel b)
          else (InitResult.OK, md.zeroedLevel b)
        else (InitResult.NO_ALTERNATIVE, md.freshLevel b)
      else
        if 0 < b ∧ (ensureInitLoop b (md.countedLevel b) b).2 = 0 then
          (InitResult.MUST_BACKTRACK, (ensureInitLoop b (md.countedLevel b) b).1)
        else
          (InitResult.OK, (ensureInitLoop b (md.countedLevel b) b).1) := by
  unfold ensureInit
  rw [if_neg (by simp [h])]
  rfl

theorem initRel_fresh (md : MatchingData) (b : Nat) (rem : Nat → Nat → Nat)
    (hrem : ∀ l k, l ≠ b → rem l k = md.remaining l k) :
    InitRel b md { md.freshLevel b with remaining := rem } :=
  { len := rfl, nextAlts := rfl, eqLit := rfl, bases := rfl, alts := rfl, inst := rfl,
    matchRecord := rfl, currBLit := rfl,
    other_bv := fun l hl => (by simp [freshLevel, Function.update, hl]),
    other_vc := fun l hl => (by simp [freshLevel, Function.update, hl]),
    other_alt := fun l hl => (by simp [freshLevel, Function.update, hl]),
    other_rem := fun l k hl => hrem l k hl }

theorem ensureInit_spec (md : MatchingData) (hinv : InvAt md md.currBLit) :
    EnsureInitSpec md (md.ensureInit md.currBLit) := by
  by_cases hinit : md.isInitialized md.currBLit = true
  · have e : md.ensureInit md.currBLit = (InitResult.OK, md) := by
      unfold ensureInit; rw [if_pos hinit]
    rw [e]
    refine ⟨InitRel.initRel_refl _ _, ?_, ?_, ?_⟩
    · intro h; cases h
    · intro _; exact ⟨hinv, hinit⟩
    · intro h; cases h
  · have hun : md.isInitialized md.currBLit = false := by simpa using hinit
    rw [ensureInit_fresh md _ hun]
    by_cases hz : (md.rowsP md.currBLit).length = 0
    · rw [if_pos hz]
      have hnil : md.rowsP md.currBLit = [] := List.length_eq_zero.1 hz
      by_cases hpe : ((md.bases.getD md.currBLit default).isEquality &&
          (md.bases.getD md.currBLit default).isPositive) = true
      · rw [if_pos hpe]
        have hrel : InitRel md.currBLit md (md.zeroedLevel md.currBLit) :=
          initRel_fresh md md.currBLit _ (fun l k hl => by simp [hl])
        have hI : InvAt (md.zeroedLevel md.currBLit) (md.zeroedLevel md.currBLit).currBLit :=
          InvAt.init_transfer hinv hun hrel (by simp [zeroedLevel, freshLevel])
            (by simp [zeroedLevel, freshLevel]) (by simp [zeroedLevel, freshLevel])
            (by simp [zeroedLevel, freshLevel, hnil])
            (fun k hk => by
              simp [zeroedLevel, show k + 1 ≤ md.currBLit from hk,
                show k ≤ md.currBLit from by omega])
            (fun k a j hk ha => by
              simp [zeroedLevel, hk] at ha)
            (fun k a hk _ hal => by
              simp [zeroedLevel, freshLevel, hnil] at hal)
        have hIn : (md.zeroedLevel md.currBLit).isInitialized md.currBLit = true := by
          simp [zeroedLevel, freshLevel, isInitialized]
        by_cases hlt : md.eqLitForDemodulation < md.currBLit
        · rw [if_pos hlt]
          refine ⟨hrel, ?_, ?_, ?_⟩
          · intro h; cases h
          · intro _; exact ⟨hI, hIn⟩
          · intro _
            refine ⟨hun, by omega, ?_, fun _ => hlt⟩
            simp [zeroedLevel]
        · rw [if_neg hlt]
          refine ⟨hrel, ?_, ?_, ?_⟩
          · intro h; cases h
          · intro _; exact ⟨hI, hIn⟩
          · intro h; cases h
      · rw [if_neg hpe]
        refine ⟨?_, ?_, ?_, ?_⟩
        · exact initRel_fresh md md.currBLit md.remaining (fun _ _ _ => rfl)
        · intro _
          refine ⟨hun, hnil, ?_⟩
          simpa using hpe
        · intro h; exact absurd rfl h
        · intro h; cases h
    · rw [if_neg hz]
      have h0 : (md.countedLevel md.currBLit).remaining md.currBLit 0
          = ((md.countedLevel md.currBLit).altBindings md.currBLit).length := by
        simp [countedLevel, freshLevel, TriangularArray.set]
      obtain ⟨e1, e2, e3, e4, e5, e7, e8, e9⟩ :=
        ensureInitLoop_spec md.currBLit (md.countedLevel md.currBLit) h0 md.currBLit (le_refl _)
      generalize ensureInitLoop md.currBLit (md.countedLevel md.currBLit) md.currBLit = res
        at e1 e2 e3 e4 e5 e7 e8 e9 ⊢
      have hG : ∀ j, j < md.currBLit → (md.countedLevel md.currBLit).getIntersectInfo j md.currBLit
          = intersectInfo (md.varsP j) (md.varsP md.currBLit) := by
        intro j hj
        have hj2 := hinv.init_vars j (hinv.init_below j hj)
        simp [getIntersectInfo, countedLevel, freshLevel, Function.update, Nat.ne_of_lt hj, hj2]
      have hS2 : ∀ j, j < md.currBLit → (md.countedLevel md.currBLit).selRow j = md.selRow j := by
        intro j hj
        simp [selRow, countedLevel, freshLevel, Function.update, Nat.ne_of_lt hj]
      have hrel : InitRel md.currBLit md res.1 :=
        { len := e1.len, nextAlts := e1.nextAlts, eqLit := e1.eqLit, bases := e1.bases,
          alts := e1.alts, inst := e1.inst, matchRecord := e1.matchRecord,
          currBLit := e1.currBLit,
          other_bv := fun l hl => (by
            rw [e1.boundVarNums]; simp [countedLevel, freshLevel, Function.update, hl]),
          other_vc := fun l hl => (by
            rw [e1.varCnts]; simp [countedLevel, freshLevel, Function.update, hl]),
          other_alt := fun l hl => (by
            rw [e2 l hl]; simp [countedLevel, freshLevel, Function.update, hl]),
          other_rem := fun l k hl => (by
            rw [e3 l k (Or.inl hl)]; simp [countedLevel, TriangularArray.set, hl]) }
      have hI : InvAt res.1 res.1.currBLit := by
        refine InvAt.init_transfer hinv hun hrel ?_ ?_ ?_ ?_ e5 ?_ ?_
        · rw [e1.boundVarNums]; simp [countedLevel, freshLevel]
        · rw [e1.varCnts]; simp [countedLevel, freshLevel]
        · have := e4
          simpa [countedLevel, freshLevel] using this
        · rw [e3 _ 0 (Or.inr (Or.inl rfl)), e4.length_eq]
          exact h0
        · intro k a j hk ha hj hje
          have := e7 k a j hk ha hj hje
          rw [hG j (by omega), hS2 j (by omega)] at this
          exact this
        · intro k a hk ha hal
          obtain ⟨j, j1, j2, j3⟩ := e8 k a hk ha hal
          rw [hG j (by omega), hS2 j (by omega)] at j3
          exact ⟨j, j1, j2, j3⟩
      have hIn : res.1.isInitialized md.currBLit = true := by
        simp [isInitialized, e1.boundVarNums, countedLevel, freshLevel]
      by_cases hb : 0 < md.currBLit ∧ res.2 = 0
      · rw [if_pos hb]
        refine ⟨hrel, ?_, ?_, ?_⟩
        · intro h; cases h
        · intro _; exact ⟨hI, hIn⟩
        · intro _
          refine ⟨hun, hb.1, ?_, ?_⟩
          · rw [← e9 hb.1]; exact hb.2
          · intro hnil
            rw [hnil] at hz
            exact absurd rfl hz
      · rw [if_neg hb]
        refine ⟨hrel, ?_, ?_, ?_⟩
        · intro h; cases h
        · intro _; exact ⟨hI, hIn⟩
        · intro h; cases h

end MatchingData

end Kernel

namespace Kernel

theorem rowsOfAlt_pos (baseLit : Literal) (vars : List Nat) (instCl : Clause) (alit : Literal)
    (r : AltRow) (h : r ∈ rowsOfAlt baseLit vars instCl alit) :
    r.pos = instCl.getLiteralPosition alit := by
  unfold rowsOfAlt at h
  simp only at h
  split at h
  · rw [List.mem_append] at h
    rcases h with h | h
    · split at h
      · simp only [List.mem_singleton] at h; rw [h]
      · cases h
    · split at h
      · simp only [List.mem_singleton] at h; rw [h]
      · cases h
  · simp only [List.mem_singleton] at h; rw [h]

theorem mem_createLiteralBindings (baseLit : Literal) (alts : List Literal) (instCl : Clause)
    (r : AltRow) (h : r ∈ (createLiteralBindings baseLit alts instCl).2) :
    ∃ alit, alit ∈ alts ∧ r ∈ rowsOfAlt baseLit (boundVarsOf baseLit) instCl alit := by
  simpa [createLiteralBindings, List.mem_flatMap] using h

namespace MatchingData

theorem InvAt.rowsP_pos_lt {md : MatchingData} {u : Nat} (h : InvAt md u) (i : Nat) (r : AltRow)
    (hr : r ∈ md.rowsP i) : r.pos < md.inst.length := by
  obtain ⟨alit, h1, h2⟩ := mem_createLiteralBindings _ _ _ _ hr
  rw [rowsOfAlt_pos _ _ _ _ _ h2]
  exact List.indexOf_lt_length.2 (h.alts_inst i alit h1)

theorem InvAt.row_pos_lt {md : MatchingData} {u : Nat} (h : InvAt md u) (i a : Nat)
    (hi : md.isInitialized i = true) (ha : a < (md.altBindings i).length) :
    ((md.altBindings i).getD a default).pos < md.inst.length := by
  apply h.rowsP_pos_lt i
  apply (h.init_rows i hi).mem_iff.1
  simp [List.getD_eq_getElem?_getD, List.getElem?_eq_getElem ha]

theorem dec32_succ (n : Nat) : dec32 (n + 1) = n := by
  simp [dec32]

theorem dec32_pos {n : Nat} (h : 0 < n) : dec32 n = n - 1 := by
  simp [dec32]; omega

/-- Going back one level keeps the invariant. -/
theorem InvAt.backtrack {md : MatchingData} (h : InvAt md md.currBLit) (hc : 0 < md.currBLit) :
    InvAt { md with currBLit := dec32 md.currBLit } (dec32 md.currBLit) := by
  rw [dec32_pos hc]
  exact
    { len_le := h.len_le
      cur_lt := (by have := h.cur_lt; show md.currBLit - 1 < md.len; omega)
      init_lt := h.init_lt
      init_down := h.init_down
      init_below := fun j hj => h.init_below j (by omega)
      init_vars := h.init_vars
      init_cnt := h.init_cnt
      init_rows := h.init_rows
      rem_zero := h.rem_zero
      rem_le := h.rem_le
      rem_mono := fun i k hi hk hkc =>
        h.rem_mono i k hi hk (by have : k < md.currBLit - 1 := hkc; omega)
      sound := fun i k a j hi hk hkc ha hj hje =>
        h.sound i k a j hi hk (by have : k ≤ md.currBLit - 1 := hkc; omega) ha hj hje
      compl := fun i k a hi hk hkc ha hal =>
        h.compl i k a hi hk (by have : k ≤ md.currBLit - 1 := hkc; omega) ha hal
      sel_pos := fun j hj hje => h.sel_pos j (by omega) hje
      next_le := fun j hj hji =>
        h.next_le j (by have : j ≤ md.currBLit - 1 := hj; omega) hji
      sel_rec := fun j hj hje => h.sel_rec j (by omega) hje
      rec_exact := fun p j hp hj => h.rec_exact p j hp (by omega)
      rec_dom := h.rec_dom
      eq_real := fun he => h.eq_real (by
        have : md.eqLitForDemodulation < md.currBLit - 1 := he
        omega)
      eq_exh := fun j hj hje =>
        h.eq_exh j (by have : j ≤ md.currBLit - 1 := hj; omega) hje
      cur_fresh := fun hcf => (by
        have : md.isInitialized (md.currBLit - 1) = false := hcf
        rw [h.init_below (md.currBLit - 1) (by omega)] at this
        cases this)
      eq_dom := h.eq_dom
      alts_inst := h.alts_inst }

/-- A matched state is a state at the head of the loop. -/
theorem InvAt.of_matched {md : MatchingData} (h : InvAt md (md.currBLit + 1)) :
    InvAt md md.currBLit :=
  { h with
    init_below := fun j hj => h.init_below j (by omega)
    sel_pos := fun j hj hje => h.sel_pos j (by omega) hje
    sel_rec := fun j hj hje => h.sel_rec j (by omega) hje
    rec_exact := fun p j hp hj => h.rec_exact p j hp (by omega)
    eq_real := fun he => h.eq_real (by omega) }


theorem InvAt.eq_ne_cur {md : MatchingData} (h : InvAt md md.currBLit)
    (hlt : md.nextAlts md.currBLit < md.remaining md.currBLit md.currBLit) :
    md.eqLitForDemodulation ≠ md.currBLit := by
  intro e
  have := (h.eq_exh _ (le_refl _) e).2
  omega

/-- The step to the next level keeps the invariant. -/
theorem InvAt.advance {md : MatchingData} (h : InvAt md (md.currBLit + 1)) (hcol : ColReady md)
    (hlen : md.currBLit + 1 < md.len) : InvAt md.advanced md.advanced.currBLit := by
  have hN : ∀ j, j ≤ md.currBLit → md.advanced.nextAlts j = md.nextAlts j := by
    intro j hj
    simp [advanced, Function.update, show j ≠ md.currBLit + 1 by omega]
  have hS : ∀ j, j ≤ md.currBLit → md.advanced.selRow j = md.selRow j := by
    intro j hj
    simp only [selRow, hN j hj]
    rfl
  have hlenN := h.len_le
  have hE : ∀ j, j < md.len → j ≤ md.currBLit →
      (j ≠ md.advanced.eqLitForDemodulation ↔ j ≠ md.eqLitForDemodulation) := by
    intro j hj hjc
    simp only [advanced]
    split
    · rename_i e
      constructor
      · intro _; omega
      · intro _; omega
    · rfl
  have hE2 : md.advanced.eqLitForDemodulation < md.len →
      md.advanced.eqLitForDemodulation = md.eqLitForDemodulation ∧
      md.eqLitForDemodulation ≠ md.currBLit + 1 := by
    intro hlt
    simp only [advanced] at hlt ⊢
    split at hlt
    · omega
    · rename_i e
      rw [if_neg e]
      exact ⟨rfl, e⟩
  refine
    { len_le := h.len_le
      cur_lt := hlen
      init_lt := h.init_lt
      init_down := h.init_down
      init_below := h.init_below
      init_vars := h.init_vars
      init_cnt := h.init_cnt
      init_rows := h.init_rows
      rem_zero := h.rem_zero
      rem_le := h.rem_le
      rem_mono := ?_
      sound := ?_
      compl := ?_
      sel_pos := ?_
      next_le := ?_
      sel_rec := ?_
      rec_exact := ?_
      rec_dom := h.rec_dom
      eq_real := ?_
      eq_exh := ?_
      cur_fresh := fun _ => (by simp [advanced])
      eq_dom := ?_
      alts_inst := h.alts_inst }
  · intro i k hi hk hkc
    have hkc2 : k < md.currBLit + 1 := hkc
    by_cases e : k = md.currBLit
    · subst e
      exact (hcol i hk hi).1
    · exact h.rem_mono i k hi hk (by omega)
  · intro i k a j hi hk hkc ha hj hje
    have hkc2 : k ≤ md.currBLit + 1 := hkc
    have hil := h.init_lt i hi
    rw [hS j (by omega)]
    have hje2 := (hE j (by omega) (by omega)).1 hje
    by_cases e : k = md.currBLit + 1
    · subst e
      exact (hcol i (by omega) hi).2.1 a j ha hj hje2
    · exact h.sound i k a j hi hk (by omega) ha hj hje2
  · intro i k a hi hk hkc ha hal
    have hkc2 : k ≤ md.currBLit + 1 := hkc
    have hil := h.init_lt i hi
    by_cases e : k = md.currBLit + 1
    · subst e
      obtain ⟨j, j1, j2, j3⟩ := (hcol i (by omega) hi).2.2 a ha hal
      exact ⟨j, j1, (hE j (by omega) (by omega)).2 j2, by rw [hS j (by omega)]; exact j3⟩
    · obtain ⟨j, j1, j2, j3⟩ := h.compl i k a hi hk (by omega) ha hal
      exact ⟨j, j1, (hE j (by omega) (by omega)).2 j2, by rw [hS j (by omega)]; exact j3⟩
  · intro j hj hje
    have hj2 : j < md.currBLit + 1 := hj
    rw [hN j (by omega)]
    exact h.sel_pos j hj2 ((hE j (by omega) (by omega)).1 hje)
  · intro j hj hji
    have hj2 : j ≤ md.currBLit + 1 := hj
    by_cases e : j = md.currBLit + 1
    · subst e; simp [advanced]
    · rw [hN j (by omega)]
      exact h.next_le j (by omega) hji
  · intro j hj hje
    have hj2 : j < md.currBLit + 1 := hj
    rw [hS j (by omega)]
    exact h.sel_rec j hj2 ((hE j (by omega) (by omega)).1 hje)
  · intro p j hp hj
    have hj2 : j < md.currBLit + 1 := hj
    obtain ⟨a1, a2⟩ := h.rec_exact p j hp hj2
    exact ⟨(hE j (by omega) (by omega)).2 a1, by rw [hS j (by omega)]; exact a2⟩
  · intro he
    have he2 : md.advanced.eqLitForDemodulation < md.currBLit + 1 := he
    obtain ⟨a1, _⟩ := hE2 (by omega)
    rw [a1] at he2 ⊢
    exact h.eq_real he2
  · intro j hj hje
    have hj2 : j ≤ md.currBLit + 1 := hj
    obtain ⟨a1, a2⟩ := hE2 (by rw [hje]; omega)
    rw [a1] at hje
    have hjc : j ≤ md.currBLit := by omega
    rw [hN j hjc]
    exact h.eq_exh j hjc hje
  · simp only [advanced]
    split
    · exact Or.inl rfl
    · exact h.eq_dom


/-- Recording the chosen alternative keeps the invariant, now with a choice at
the current level too. -/
theorem InvAt.accept {md : MatchingData} (h : InvAt md md.currBLit)
    (hinit : md.isInitialized md.currBLit = true)
    (hlt : md.nextAlts md.currBLit < md.remaining md.currBLit md.currBLit)
    (hr : Ready md) :
    InvAt md.accepted (md.currBLit + 1) ∧ ColReady md.accepted := by
  have hne := h.eq_ne_cur hlt
  have hcl : md.currBLit < md.len := h.cur_lt
  have hlenN := h.len_le
  have hcur : md.accepted.currBLit = md.currBLit := rfl
  have hcN : md.currBLit ≠ NONE := by omega
  have hN : ∀ j, j ≠ md.currBLit → md.accepted.nextAlts j = md.nextAlts j := by
    intro j hj; simp [accepted, Function.update, hj]
  have hNc : md.accepted.nextAlts md.currBLit = md.nextAlts md.currBLit + 1 := by
    simp [accepted]
  have hS : ∀ j, j ≠ md.currBLit → md.accepted.selRow j = md.selRow j := by
    intro j hj
    simp only [selRow, hN j hj]
    rfl
  have hSc : md.accepted.selRow md.currBLit
      = (md.altBindings md.currBLit).getD (md.nextAlts md.currBLit) default := by
    simp only [selRow, hNc, dec32_succ]
    rfl
  have hrowlen : md.nextAlts md.currBLit < (md.altBindings md.currBLit).length :=
    lt_of_lt_of_le hlt (h.rem_le _ _ hinit (le_refl _))
  have hposlt : ((md.altBindings md.currBLit).getD (md.nextAlts md.currBLit) default).pos
      < md.inst.length := h.row_pos_lt _ _ hinit hrowlen
  have hM : ∀ p, md.accepted.matchRecord p =
      if p = ((md.altBindings md.currBLit).getD (md.nextAlts md.currBLit) default).pos
      then md.currBLit
      else if p < md.inst.length ∧ md.matchRecord p = md.currBLit then NONE
      else md.matchRecord p := by
    intro p
    simp only [accepted, unassign, getAltRecordIndex, Function.update]
    split
    · rename_i e; simp [e]
    · rename_i e; simp [e]
  have hMj : ∀ j, j < md.currBLit → j ≠ md.eqLitForDemodulation →
      md.accepted.matchRecord (md.selRow j).pos = j := by
    intro j hj hje
    have h1 := h.sel_rec j hj hje
    rw [hM]
    have hnp : (md.selRow j).pos
        ≠ ((md.altBindings md.currBLit).getD (md.nextAlts md.currBLit) default).pos := by
      intro e
      apply hr.1
      simp only [getAltRecordIndex]
      rw [← e, h1]; exact hj
    rw [if_neg hnp, if_neg (by rw [h1]; omega)]
    exact h1
  constructor
  · refine
      { len_le := h.len_le
        cur_lt := h.cur_lt
        init_lt := h.init_lt
        init_down := h.init_down
        init_below := ?_
        init_vars := h.init_vars
        init_cnt := h.init_cnt
        init_rows := h.init_rows
        rem_zero := h.rem_zero
        rem_le := h.rem_le
        rem_mono := h.rem_mono
        sound := ?_
        compl := ?_
        sel_pos := ?_
        next_le := ?_
        sel_rec := ?_
        rec_exact := ?_
        rec_dom := ?_
        eq_real := ?_
        eq_exh := ?_
        cur_fresh := fun hc => (by
          have : md.isInitialized md.currBLit = false := hc
          rw [hinit] at this; cases this)
        eq_dom := h.eq_dom
        alts_inst := h.alts_inst }
    · intro j hj
      by_cases e : j = md.currBLit
      · subst e; exact hinit
      · exact h.init_below j (by omega)
    · intro i k a j hi hk hkc ha hj hje
      have hkc2 : k ≤ md.currBLit := hkc
      rw [hS j (by omega)]
      exact h.sound i k a j hi hk hkc ha hj hje
    · intro i k a hi hk hkc ha hal
      have hkc2 : k ≤ md.currBLit := hkc
      obtain ⟨j, j1, j2, j3⟩ := h.compl i k a hi hk hkc ha hal
      exact ⟨j, j1, j2, by rw [hS j (by omega)]; exact j3⟩
    · intro j hj hje
      by_cases e : j = md.currBLit
      · subst e; rw [hNc]; omega
      · rw [hN j e]; exact h.sel_pos j (by omega) hje
    · intro j hj hji
      have hj2 : j ≤ md.currBLit := hj
      by_cases e : j = md.currBLit
      · subst e; rw [hNc]; exact hlt
      · rw [hN j e]; exact h.next_le j hj2 hji
    · intro j hj hje
      by_cases e : j = md.currBLit
      · subst e
        rw [hSc, hM, if_pos rfl]
      · rw [hS j e]
        exact hMj j (by omega) hje
    · intro p j hp hj
      rw [hM] at hp
      split at hp
      · rename_i e
        subst hp
        exact ⟨fun e2 => hne e2.symm, by rw [hSc]; exact e.symm⟩
      · split at hp
        · exact absurd hp.symm (by omega)
        · rename_i e1 e2
          by_cases e : j = md.currBLit
          · subst e
            have : ¬ p < md.inst.length := fun hpl => e2 ⟨hpl, hp⟩
            have := h.rec_dom p (by omega)
            rw [this] at hp
            exact absurd hp hcN.symm
          · obtain ⟨a1, a2⟩ := h.rec_exact p j hp (by omega)
            exact ⟨a1, by rw [hS j e]; exact a2⟩
    · intro p hp
      have hp2 : md.inst.length ≤ p := hp
      rw [hM, if_neg (by omega), if_neg (by omega)]
      exact h.rec_dom p hp2
    · intro he
      have he2 : md.eqLitForDemodulation < md.currBLit + 1 := he
      exact h.eq_real (by omega)
    · intro j hj hje
      have hj2 : j ≤ md.currBLit := hj
      have hje2 : md.eqLitForDemodulation = j := hje
      have e : j ≠ md.currBLit := fun e => hne (hje2.trans e)
      rw [hN j e]
      exact h.eq_exh j hj2 hje2
  · intro l hl hli
    have hl2 : md.currBLit < l := hl
    obtain ⟨r1, r2, r3, r4⟩ := hr.2 l hl2 (h.init_lt l hli) hli
    refine ⟨r2, ?_, ?_⟩
    · intro a j ha hj hje
      have ha2 : a < md.remaining l (md.currBLit + 1) := ha
      have hj2 : j < md.currBLit + 1 := hj
      by_cases e : j = md.currBLit
      · subst e
        rw [hSc]
        exact r3 a ha2
      · rw [hS j e]
        exact h.sound l md.currBLit a j hli (by omega) (le_refl _) (by omega) (by omega) hje
    · intro a ha hal
      have ha2 : md.remaining l (md.currBLit + 1) ≤ a := ha
      by_cases e : md.remaining l md.currBLit ≤ a
      · obtain ⟨j, j1, j2, j3⟩ := h.compl l md.currBLit a hli (by omega) (le_refl _) e hal
        exact ⟨j, by omega, j2, by rw [hS j (by omega)]; exact j3⟩
      · exact ⟨md.currBLit, by omega, fun e2 => hne e2.symm, by
          rw [hSc]; exact r4 a ha2 (by omega)⟩


/-- Selecting the current level as the equality for demodulation keeps the
invariant. -/
theorem InvAt.skip {md : MatchingData} (h : InvAt md md.currBLit)
    (hinit : md.isInitialized md.currBLit = true)
    (hge : ¬ md.nextAlts md.currBLit < md.remaining md.currBLit md.currBLit)
    (heq : md.eqLitForDemodulation > md.currBLit)
    (hpe : (md.bases.getD md.currBLit default).isEquality = true ∧
      (md.bases.getD md.currBLit default).isPositive = true) :
    InvAt md.skipped (md.currBLit + 1) ∧ ColReady md.skipped := by
  have hcl : md.currBLit < md.len := h.cur_lt
  have hlenN := h.len_le
  have hcN : md.currBLit ≠ NONE := by omega
  obtain ⟨f1, f2, f3, f4, f5⟩ : SkipPost md.currBLit (md.currBLit + 1)
      ({ md.unassign with eqLitForDemodulation := md.currBLit } : MatchingData) md.skipped :=
    skipBindingLoop_spec md.currBLit (md.len - (md.currBLit + 1)) (md.currBLit + 1) _
      (by omega) (by show md.len ≤ _; omega) h.init_down
  generalize md.skipped = S at f1 f2 f3 f4 f5 ⊢
  have hlen : S.len = md.len := f1.len
  have hcur : S.currBLit = md.currBLit := f1.currBLit
  have hE : S.eqLitForDemodulation = md.currBLit := f1.eqLit
  have hNA : S.nextAlts = md.nextAlts := f1.nextAlts
  have hI : ∀ i, S.isInitialized i = md.isInitialized i := f1.frame_isInitialized
  have hV : ∀ i, S.varsP i = md.varsP i := f1.frame_varsP
  have hRP : ∀ i, S.rowsP i = md.rowsP i := f1.frame_rowsP
  have hC : ∀ j i, S.compatP j i = md.compatP j i := f1.frame_compatP
  have hAB : S.altBindings = md.altBindings := f2
  have hS : ∀ j, S.selRow j = md.selRow j := by
    intro j; simp only [selRow, hAB, hNA]
  have hR : ∀ l k, k ≠ md.currBLit + 1 → S.remaining l k = md.remaining l k :=
    fun l k hk => f3 l k (Or.inr hk)
  have hRl : ∀ l k, l ≤ md.currBLit → S.remaining l k = md.remaining l k :=
    fun l k hl => f3 l k (Or.inl (by omega))
  have hRc : ∀ l, md.currBLit < l → md.isInitialized l = true →
      S.remaining l (md.currBLit + 1) = md.remaining l md.currBLit :=
    fun l hl hli => f5 l (by omega) (h.init_lt l hli) hli
  have hM : ∀ p, S.matchRecord p =
      if p < md.inst.length ∧ md.matchRecord p = md.currBLit then NONE else md.matchRecord p := by
    intro p; rw [f1.matchRecord]; rfl
  have hJ : ∀ j, j < md.currBLit → j ≠ md.eqLitForDemodulation := by
    intro j hj; omega
  constructor
  · refine
      { len_le := by rw [hlen]; exact h.len_le
        cur_lt := by rw [hcur, hlen]; exact h.cur_lt
        init_lt := fun i hi => by rw [hlen]; exact h.init_lt i (by rwa [hI] at hi)
        init_down := fun i j hi hj => by
          rw [hI] at hi ⊢; exact h.init_down i j hi hj
        init_below := ?_
        init_vars := fun i hi => by
          rw [f1.boundVarNums, hV]; exact h.init_vars i (by rwa [hI] at hi)
        init_cnt := fun i hi => by
          rw [f1.varCnts, hV]; exact h.init_cnt i (by rwa [hI] at hi)
        init_rows := fun i hi => by
          rw [hRP, hAB]; exact h.init_rows i (by rwa [hI] at hi)
        rem_zero := fun i hi => by
          rw [hR i 0 (by omega), hAB]; exact h.rem_zero i (by rwa [hI] at hi)
        rem_le := ?_
        rem_mono := ?_
        sound := ?_
        compl := ?_
        sel_pos := ?_
        next_le := ?_
        sel_rec := ?_
        rec_exact := ?_
        rec_dom := ?_
        eq_real := ?_
        eq_exh := ?_
        cur_fresh := fun hc => (by
          rw [hcur, hI, hinit] at hc; cases hc)
        eq_dom := by rw [hE, hlen]; exact Or.inr hcl
        alts_inst := fun i l hl => by
          rw [f1.inst]; exact h.alts_inst i l (by rwa [f1.alts] at hl) }
    · intro j hj
      rw [hI]
      by_cases e : j = md.currBLit
      · subst e; exact hinit
      · exact h.init_below j (by omega)
    · intro i k hi hk
      rw [hI] at hi
      rw [hAB]
      by_cases e : k = md.currBLit + 1
      · subst e
        rw [hRc i (by omega) hi]
        exact h.rem_le i _ hi (by omega)
      · rw [hR i k e]; exact h.rem_le i k hi hk
    · intro i k hi hk hkc
      rw [hI] at hi
      rw [hcur] at hkc
      rw [hR i (k + 1) (by omega), hR i k (by omega)]
      exact h.rem_mono i k hi hk hkc
    · intro i k a j hi hk hkc ha hj hje
      rw [hI] at hi
      rw [hcur] at hkc
      rw [hR i k (by omega)] at ha
      rw [hC, hS, hAB]
      exact h.sound i k a j hi hk hkc ha hj (hJ j (by omega))
    · intro i k a hi hk hkc ha hal
      rw [hI] at hi
      rw [hcur] at hkc
      rw [hR i k (by omega)] at ha
      rw [hAB] at hal ⊢
      obtain ⟨j, j1, j2, j3⟩ := h.compl i k a hi hk hkc ha hal
      exact ⟨j, j1, by rw [hE]; omega, by rw [hC, hS]; exact j3⟩
    · intro j hj hje
      rw [hE] at hje
      rw [hNA]
      exact h.sel_pos j (by omega) (hJ j (by omega))
    · intro j hj hji
      rw [hcur] at hj
      rw [hI] at hji
      rw [hNA, hRl j j hj]
      exact h.next_le j hj hji
    · intro j hj hje
      rw [hE] at hje
      have hjc : j < md.currBLit := by omega
      have h1 := h.sel_rec j hjc (hJ j hjc)
      rw [hS, hM, if_neg (by rw [h1]; omega)]
      exact h1
    · intro p j hp hj
      rw [hM] at hp
      rw [hE, hS]
      split at hp
      · exact absurd hp.symm (by omega)
      · rename_i e2
        by_cases e : j = md.currBLit
        · subst e
          have : ¬ p < md.inst.length := fun hpl => e2 ⟨hpl, hp⟩
          have := h.rec_dom p (by omega)
          rw [this] at hp
          exact absurd hp hcN.symm
        · obtain ⟨_, a2⟩ := h.rec_exact p j hp (by omega)
          exact ⟨e, a2⟩
    · intro p hp
      rw [f1.inst] at hp
      have hp2 : md.inst.length ≤ p := hp
      rw [hM, if_neg (by omega)]
      exact h.rec_dom p hp2
    · intro _
      rw [hE, f1.bases]
      exact hpe
    · intro j hj hje
      rw [hcur] at hj
      rw [hE] at hje
      subst hje
      rw [hI, hNA, hRl _ _ (le_refl _)]
      exact ⟨hinit, by omega⟩
  · intro l hl hli
    rw [hcur] at hl ⊢
    rw [hI] at hli
    rw [hRc l hl hli, hR l md.currBLit (by omega), hAB]
    refine ⟨le_refl _, ?_, ?_⟩
    · intro a j ha hj hje
      rw [hE] at hje
      rw [hC, hS]
      exact h.sound l md.currBLit a j hli (by omega) (le_refl _) ha (by omega)
        (hJ j (by omega))
    · intro a ha hal
      obtain ⟨j, j1, j2, j3⟩ := h.compl l md.currBLit a hli (by omega) (le_refl _) ha hal
      exact ⟨j, by omega, by rw [hE]; omega, by rw [hC, hS]; exact j3⟩

end MatchingData

end Kernel

namespace Kernel

open MatchingData

theorem advanced_eq_accept (S : MatchingData) :
    (if ({ S with currBLit := S.currBLit + 1,
                  nextAlts := Function.update S.nextAlts (S.currBLit + 1) 0 } :
            MatchingData).eqLitForDemodulation = S.currBLit + 1
      then ({ S with currBLit := S.currBLit + 1,
                     nextAlts := Function.update S.nextAlts (S.currBLit + 1) 0,
                     eqLitForDemodulation := NONE } : MatchingData)
      else { S with currBLit := S.currBLit + 1,
                    nextAlts := Function.update S.nextAlts (S.currBLit + 1) 0 })
      = S.advanced := by
  by_cases e : S.eqLitForDemodulation = S.currBLit + 1
  · simp [advanced, e]
  · simp [advanced, e]

theorem nextMatchRound_cases (md : MatchingData) (h : InvAt md md.currBLit) :
    RoundCase md (nextMatchRound md) := by
  obtain ⟨i1, i2, i3, i4⟩ := ensureInit_spec md h
  have hfix : md.isInitialized md.currBLit = true → (md.ensureInit md.currBLit).2 = md := by
    intro hi
    unfold ensureInit
    rw [if_pos hi]
  unfold nextMatchRound
  dsimp only
  generalize md.ensureInit md.currBLit = ir at i1 i2 i3 i4 hfix ⊢
  obtain ⟨res, md1⟩ := ir
  dsimp only at i1 i2 i3 i4 hfix ⊢
  cases res with
  | MUST_BACKTRACK =>
      obtain ⟨a1, a2⟩ := i3 (by simp)
      obtain ⟨b1, b2, b3, b4⟩ := i4 rfl
      exact RoundCase.initBacktrack md1 i1 hfix a1 a2 b1 b2 b3 b4
  | NO_ALTERNATIVE =>
      obtain ⟨b1, b2, b3⟩ := i2 rfl
      exact RoundCase.initFail md1 i1 hfix b1 b2 b3
  | OK =>
      obtain ⟨a1, a2⟩ := i3 (by simp)
      rw [← i1.currBLit] at a2
      have hfa := findAlt_spec (md1.remaining md1.currBLit md1.currBLit)
        (md1.remaining md1.currBLit md1.currBLit - md1.nextAlts md1.currBLit) md1 a1 a2 rfl
        (le_refl _)
      simp only [getRemainingInCurrent]
      generalize findAlt (md1.remaining md1.currBLit md1.currBLit)
        (md1.remaining md1.currBLit md1.currBLit - md1.nextAlts md1.currBLit) md1 = md2
        at hfa ⊢
      by_cases hlt : md2.nextAlts md2.currBLit < md1.remaining md1.currBLit md1.currBLit
      · rw [if_pos hlt]
        by_cases hlast : md2.currBLit + 1 = md2.len
        · have e : md2.unassign.currBLit + 1 = md2.unassign.len := hlast
          rw [if_pos e]
          exact RoundCase.acceptLast md1 md2 i1 hfix a1 a2 hfa hlt hlast
        · have e : ¬ md2.unassign.currBLit + 1 = md2.unassign.len := hlast
          rw [if_neg e]
          have := @RoundCase.acceptNext md md1 md2 i1 hfix a1 a2 hfa hlt hlast
          rw [← advanced_eq_accept] at this
          exact this
      · rw [if_neg hlt]
        by_cases hsk : md2.eqLitForDemodulation > md2.currBLit ∧
            (md2.bases.getD md2.currBLit default).isEquality = true ∧
            (md2.bases.getD md2.currBLit default).isPositive = true
        · rw [if_pos hsk]
          have hcS : md2.skipped.currBLit = md2.currBLit := by
            have := (skipBindingLoop_spec md2.currBLit (md2.len - (md2.currBLit + 1))
              (md2.currBLit + 1)
              ({ md2.unassign with eqLitForDemodulation := md2.currBLit } : MatchingData)
              (by omega) (by show md2.len ≤ _; omega) hfa.2.1.init_down).1.currBLit
            exact this
          have hlS : md2.skipped.len = md2.len := by
            have := (skipBindingLoop_spec md2.currBLit (md2.len - (md2.currBLit + 1))
              (md2.currBLit + 1)
              ({ md2.unassign with eqLitForDemodulation := md2.currBLit } : MatchingData)
              (by omega) (by show md2.len ≤ _; omega) hfa.2.1.init_down).1.len
            exact this
          have heS : md2.skipped.eqLitForDemodulation = md2.currBLit := by
            have := (skipBindingLoop_spec md2.currBLit (md2.len - (md2.currBLit + 1))
              (md2.currBLit + 1)
              ({ md2.unassign with eqLitForDemodulation := md2.currBLit } : MatchingData)
              (by omega) (by show md2.len ≤ _; omega) hfa.2.1.init_down).1.eqLit
            exact this
          by_cases hlast : md2.currBLit + 1 = md2.len
          · have e : md2.skipped.currBLit + 1 = md2.skipped.len := by rw [hcS, hlS]; exact hlast
            have := @RoundCase.skipLast md md1 md2 i1 hfix a1 a2 hfa hlt hsk.1 hsk.2 hlast
            rw [← hcS] at this
            show RoundCase md (if md2.skipped.currBLit + 1 = md2.skipped.len then _ else _)
            rw [if_pos e]
            exact this
          · have e : ¬ md2.skipped.currBLit + 1 = md2.skipped.len := by
              rw [hcS, hlS]; exact hlast
            have := @RoundCase.skipNext md md1 md2 i1 hfix a1 a2 hfa hlt hsk.1 hsk.2 hlast
            show RoundCase md (if md2.skipped.currBLit + 1 = md2.skipped.len then _ else _)
            rw [if_neg e]
            have e2 : md2.skipped.advanced =
                { md2.skipped with
                  currBLit := md2.skipped.currBLit + 1
                  nextAlts := Function.update md2.skipped.nextAlts (md2.skipped.currBLit + 1) 0 } := by
              simp only [advanced]
              rw [if_neg (by rw [heS, hcS]; omega)]
            rw [e2] at this
            exact this
        · rw [if_neg hsk]
          by_cases hc : md2.currBLit = 0
          · rw [if_pos hc]
            exact RoundCase.backFail md1 md2 i1 hfix a1 a2 hfa hlt hsk hc
          · rw [if_neg hc]
            exact RoundCase.backNext md1 md2 i1 hfix a1 a2 hfa hlt hsk hc


theorem matched_of_accept {md1 md2 : MatchingData}
    (hinit : md1.isInitialized md1.currBLit = true)
    (hfa : FindAltPost (md1.remaining md1.currBLit md1.currBLit) md1 md2)
    (hlt : md2.nextAlts md2.currBLit < md1.remaining md1.currBLit md1.currBLit) :
    InvAt md2.accepted (md2.currBLit + 1) ∧ ColReady md2.accepted := by
  obtain ⟨g1, g2, g3, g4, g5⟩ := hfa
  have hi2 : md2.isInitialized md2.currBLit = true := by
    rw [g1.scan_isInitialized, g1.currBLit]; exact hinit
  have hlt2 : md2.nextAlts md2.currBLit < md2.remaining md2.currBLit md2.currBLit := by
    rw [g1.currBLit, g1.rem _ _ (Or.inl (le_refl _)), ← g1.currBLit]
    rw [g1.currBLit] at hlt ⊢
    exact hlt
  exact InvAt.accept g2 hi2 hlt2 (g4 hlt)

theorem matched_of_skip {md1 md2 : MatchingData}
    (hinit : md1.isInitialized md1.currBLit = true)
    (hfa : FindAltPost (md1.remaining md1.currBLit md1.currBLit) md1 md2)
    (hge : ¬ md2.nextAlts md2.currBLit < md1.remaining md1.currBLit md1.currBLit)
    (heq : md2.eqLitForDemodulation > md2.currBLit)
    (hpe : (md2.bases.getD md2.currBLit default).isEquality = true ∧
      (md2.bases.getD md2.currBLit default).isPositive = true) :
    InvAt md2.skipped (md2.currBLit + 1) ∧ ColReady md2.skipped := by
  obtain ⟨g1, g2, g3, g4, g5⟩ := hfa
  have hi2 : md2.isInitialized md2.currBLit = true := by
    rw [g1.scan_isInitialized, g1.currBLit]; exact hinit
  have hge2 : ¬ md2.nextAlts md2.currBLit < md2.remaining md2.currBLit md2.currBLit := by
    rw [g1.currBLit, g1.rem _ _ (Or.inl (le_refl _)), ← g1.currBLit]
    rw [g1.currBLit] at hge ⊢
    exact hge
  exact InvAt.skip g2 hi2 hge2 heq hpe

theorem skipped_currBLit (md : MatchingData)
    (hdown : ∀ l j, md.isInitialized l = true → j ≤ l → md.isInitialized j = true) :
    md.skipped.currBLit = md.currBLit ∧ md.skipped.len = md.len :=
  have h := (skipBindingLoop_spec md.currBLit (md.len - (md.currBLit + 1))
    (md.currBLit + 1)
    ({ md.unassign with eqLitForDemodulation := md.currBLit } : MatchingData)
    (by omega) (by show md.len ≤ _; omega) hdown).1
  ⟨h.currBLit, h.len⟩

/-- One round of the loop of `nextMatch` keeps the invariant; a round that ends
the loop with a complete match leaves a matched state behind. -/
theorem RoundCase.round_inv {md : MatchingData} {r : Round} (hc : RoundCase md r) : RoundInv r := by
  cases hc with
  | initBacktrack md1 hrel hfix hinv hinit hun hc hz hbt =>
      exact InvAt.backtrack hinv (by rw [hrel.currBLit]; exact hc)
  | initFail md1 hrel hfix hun hnil hnpe => trivial
  | acceptLast md1 md2 hrel hfix hinv hinit hfa hlt hlast =>
      obtain ⟨a1, _⟩ := matched_of_accept hinit hfa hlt
      show Matched { md2.accepted with currBLit := dec32 (md2.currBLit + 1) }
      rw [dec32_succ]
      refine ⟨?_, hlast⟩
      have : md2.accepted.len = md2.currBLit + 1 := hlast.symm
      show InvAt md2.accepted md2.accepted.len
      rw [this]; exact a1
  | acceptNext md1 md2 hrel hfix hinv hinit hfa hlt hlast =>
      obtain ⟨a1, a2⟩ := matched_of_accept hinit hfa hlt
      have := a1.cur_lt
      exact InvAt.advance a1 a2 (by
        show md2.currBLit + 1 < md2.len
        have : md2.currBLit < md2.len := this
        omega)
  | skipLast md1 md2 hrel hfix hinv hinit hfa hge heq hpe hlast =>
      obtain ⟨a1, _⟩ := matched_of_skip hinit hfa hge heq hpe
      obtain ⟨b1, b2⟩ := skipped_currBLit md2 hfa.2.1.init_down
      show Matched { md2.skipped with currBLit := dec32 (md2.currBLit + 1) }
      rw [dec32_succ]
      have e : ({ md2.skipped with currBLit := md2.currBLit } : MatchingData) = md2.skipped := by
        rw [← b1]
      rw [e]
      refine ⟨?_, by rw [b1, b2]; exact hlast⟩
      rw [b2, ← hlast]; exact a1
  | skipNext md1 md2 hrel hfix hinv hinit hfa hge heq hpe hlast =>
      obtain ⟨a1, a2⟩ := matched_of_skip hinit hfa hge heq hpe
      obtain ⟨b1, b2⟩ := skipped_currBLit md2 hfa.2.1.init_down
      have := a1.cur_lt
      rw [← b1] at a1
      exact InvAt.advance a1 a2 (by rw [b1, b2] at *; omega)
  | backFail md1 md2 hrel hfix hinv hinit hfa hge hns hc => trivial
  | backNext md1 md2 hrel hfix hinv hinit hfa hge hns hc =>
      exact InvAt.backtrack hfa.2.1 (Nat.pos_of_ne_zero hc)

theorem nextMatchRound_inv (md : MatchingData) (h : InvAt md md.currBLit) :
    RoundInv (nextMatchRound md) :=
  (nextMatchRound_cases md h).round_inv

/-- A call of `nextMatch` that returns `true` from a state satisfying the
invariant leaves a matched state behind. -/
theorem nextMatchLoop_matched (tl : Nat → Bool) :
    ∀ (fuel t : Nat) (impl impl2 : Impl), InvAt impl.s_matchingData impl.s_matchingData.currBLit →
      nextMatchLoop tl fuel t impl = some (MatchResult.returned true impl2) →
      Matched impl2.s_matchingData := by
  intro fuel
  induction fuel with
  | zero => intro t impl impl2 _ h; simp [nextMatchLoop] at h
  | succ fuel ih =>
      intro t impl impl2 hinv h
      have hr := nextMatchRound_inv impl.s_matchingData hinv
      unfold nextMatchLoop at h
      generalize nextMatchRound impl.s_matchingData = r at hr h
      cases r with
      | backtrackInit md2 =>
          exact ih (t + 1) { impl with s_matchingData := md2 } impl2 hr h
      | fail md2 =>
          simp at h
      | complete md2 =>
          simp only [Option.some.injEq, MatchResult.returned.injEq, true_and] at h
          rw [← h]
          exact hr
      | next md2 =>
          simp only at h
          split at h
          · split at h
            · simp at h
            · exact ih (t + 1) { s_matchingData := md2, s_counter := 0 } impl2 hr h
          · exact ih (t + 1) { s_matchingData := md2, s_counter := impl.s_counter + 1 } impl2 hr h

end Kernel

namespace Kernel

/-! ## The reordering of `initMatchingData` -/

theorem list_ext_getD {α : Type} [Inhabited α] {l1 l2 : List α} (hl : l1.length = l2.length)
    (h : ∀ k, k < l1.length → l1.getD k default = l2.getD k default) : l1 = l2 := by
  apply List.ext_getElem hl
  intro k h1 h2
  have := h k h1
  simpa [List.getD_eq_getElem?_getD, List.getElem?_eq_getElem h1, List.getElem?_eq_getElem h2]
    using this

theorem zip_getD {α β : Type} [Inhabited α] [Inhabited β] (l1 : List α) (l2 : List β) (k : Nat)
    (h1 : k < l1.length) (h2 : k < l2.length) :
    (l1.zip l2).getD k default = (l1.getD k default, l2.getD k default) := by
  have h3 : k < (l1.zip l2).length := by simp; omega
  simp [List.getD_eq_getElem?_getD, List.getElem?_eq_getElem h1, List.getElem?_eq_getElem h2,
    List.getElem?_eq_getElem h3]

theorem zip_swapRows {α β : Type} [Inhabited α] [Inhabited β] (l1 : List α) (l2 : List β)
    (i j : Nat) (hl : l1.length = l2.length) (hi : i < l1.length) (hj : j < l1.length) :
    (swapRows l1 i j).zip (swapRows l2 i j) = swapRows (l1.zip l2) i j := by
  have hz : (l1.zip l2).length = l1.length := by simp; omega
  apply list_ext_getD
  · simp [swapRows_length]
  · intro k hk
    have hk1 : k < l1.length := by
      simp [swapRows_length] at hk; omega
    rw [zip_getD _ _ k (by rw [swapRows_length]; exact hk1)
      (by rw [swapRows_length]; omega)]
    rw [swapRows_getD l1 i j k hi hj, swapRows_getD l2 i j k (by omega) (by omega),
      swapRows_getD (l1.zip l2) i j k (by omega) (by omega)]
    by_cases e1 : k = j
    · rw [if_pos e1, if_pos e1, if_pos e1, zip_getD l1 l2 i hi (by omega)]
    · rw [if_neg e1, if_neg e1, if_neg e1]
      by_cases e2 : k = i
      · rw [if_pos e2, if_pos e2, if_pos e2, zip_getD l1 l2 j hj (by omega)]
      · rw [if_neg e2, if_neg e2, if_neg e2, zip_getD l1 l2 k hk1 (by omega)]

theorem ReorderInv.swapLits_inv {baseLits0 : List Literal} {alts : List (List Literal)}
    {s : ReorderState} {i : Nat} (h : ReorderInv baseLits0 alts s i) (a b : Nat)
    (ha : a < baseLits0.length) (hb : b < baseLits0.length) :
    ((s.swapLits a b).s_baseLits.zip (s.swapLits a b).s_altsArr).Perm (baseLits0.zip alts) ∧
    (s.swapLits a b).s_baseLits.length = baseLits0.length ∧
    (s.swapLits a b).s_altsArr.length = baseLits0.length := by
  refine ⟨?_, by simp [ReorderState.swapLits, swapRows_length, h.len_b],
    by simp [ReorderState.swapLits, swapRows_length, h.len_a]⟩
  simp only [ReorderState.swapLits]
  rw [zip_swapRows _ _ _ _ (by rw [h.len_b, h.len_a]) (by rw [h.len_b]; exact ha)
    (by rw [h.len_b]; exact hb)]
  exact (swapRows_perm _ a b (by simp [h.len_b, h.len_a]; exact ha)
    (by simp [h.len_b, h.len_a]; exact hb)).trans h.perm

theorem ReorderInv.step_inv {baseLits0 : List Literal} {alts : List (List Literal)}
    {s : ReorderState} {i : Nat} (h : ReorderInv baseLits0 alts s i)
    (hi : i < baseLits0.length) : ReorderInv baseLits0 alts (s.step i) (i + 1) := by
  have h1 := h.zero_le
  have h2 := h.single_le
  have h3 := h.most
  unfold ReorderState.step
  dsimp only
  split
  · -- no alternative
    split
    · -- zeroAlts ≠ i
      split
      · -- singleAlts ≠ zeroAlts
        obtain ⟨p1, p2, p3⟩ := h.swapLits_inv s.singleAlts s.zeroAlts (by omega) (by omega)
        have h' : ReorderInv baseLits0 alts (s.swapLits s.singleAlts s.zeroAlts) i :=
          ⟨h1, h2, h3, p2, p3, p1⟩
        obtain ⟨q1, q2, q3⟩ := h'.swapLits_inv i s.zeroAlts hi (by omega)
        split
        · exact ⟨by simp [ReorderState.swapLits]; omega, by simp [ReorderState.swapLits]; omega,
            Or.inr (by simp), q2, q3, q1⟩
        · exact ⟨by simp [ReorderState.swapLits]; omega, by simp [ReorderState.swapLits]; omega,
            by simp [ReorderState.swapLits]; omega, q2, q3, q1⟩
      · obtain ⟨q1, q2, q3⟩ := h.swapLits_inv i s.zeroAlts hi (by omega)
        split
        · exact ⟨by simp [ReorderState.swapLits]; omega, by simp [ReorderState.swapLits]; omega,
            Or.inr (by simp), q2, q3, q1⟩
        · exact ⟨by simp [ReorderState.swapLits]; omega, by simp [ReorderState.swapLits]; omega,
            by simp [ReorderState.swapLits]; omega, q2, q3, q1⟩
    · exact ⟨by simp; omega, by simp; omega, by simp; omega, h.len_b, h.len_a, h.perm⟩
  · split
    · -- one alternative
      split
      · obtain ⟨q1, q2, q3⟩ := h.swapLits_inv i s.singleAlts hi (by omega)
        split
        · exact ⟨by simp [ReorderState.swapLits]; omega, by simp [ReorderState.swapLits]; omega,
            Or.inr (by simp), q2, q3, q1⟩
        · exact ⟨by simp [ReorderState.swapLits]; omega, by simp [ReorderState.swapLits]; omega,
            by simp [ReorderState.swapLits]; omega, q2, q3, q1⟩
      · exact ⟨by simp; omega, by simp; omega, by simp; omega, h.len_b, h.len_a, h.perm⟩
    · split
      · exact ⟨h1, by simp; omega, Or.inr (by simp), h.len_b, h.len_a, h.perm⟩
      · exact ⟨h1, by omega, by omega, h.len_b, h.len_a, h.perm⟩

theorem ReorderInv.run_inv {baseLits0 : List Literal} {alts : List (List Literal)}
    {s : ReorderState} (h : ReorderInv baseLits0 alts s 0) :
    ∀ n, n ≤ baseLits0.length → ReorderInv baseLits0 alts (s.run n) n := by
  intro n
  induction n with
  | zero => intro _; exact h
  | succ n ih =>
      intro hn
      exact (ih (by omega)).step_inv (by omega)

/-- The reordering permutes the pairs of a base literal and its list of
alternatives. -/
theorem reorder_perm (baseLits0 : List Literal) (alts : List (List Literal)) (first : Literal)
    (hlen : alts.length = baseLits0.length) :
    ((reorder baseLits0 alts first).s_baseLits.zip (reorder baseLits0 alts first).s_altsArr).Perm
      (baseLits0.zip alts) ∧
    (reorder baseLits0 alts first).s_baseLits.length = baseLits0.length ∧
    (reorder baseLits0 alts first).s_altsArr.length = baseLits0.length := by
  have h0 : ReorderInv baseLits0 alts
      { s_baseLits := baseLits0, s_altsArr := alts, zeroAlts := 0, singleAlts := 0,
        mostDistVarsLit := 0, mostDistVarsCnt := first.getDistinctVars } 0 :=
    ⟨le_refl _, le_refl _, Or.inl rfl, rfl, hlen, List.Perm.refl _⟩
  have h := h0.run_inv baseLits0.length (le_refl _)
  unfold reorder
  dsimp only
  split
  · rename_i hgt
    have hm := h.most
    have hs := h.single_le
    exact h.swapLits_inv _ _ (by omega) (by omega)
  · exact ⟨h.perm, h.len_b, h.len_a⟩

end Kernel

namespace Kernel

open MatchingData

theorem mem_zip_getD {α β : Type} [Inhabited α] [Inhabited β] (l1 : List α) (l2 : List β)
    (k : Nat) (h1 : k < l1.length) (h2 : k < l2.length) :
    (l1.getD k default, l2.getD k default) ∈ l1.zip l2 := by
  have h3 : k < (l1.zip l2).length := by simp; omega
  refine List.mem_iff_getElem.2 ⟨k, h3, ?_⟩
  simp [List.getD_eq_getElem?_getD, List.getElem?_eq_getElem h1, List.getElem?_eq_getElem h2]

theorem exists_getD_of_mem_zip {α β : Type} [Inhabited α] [Inhabited β] (l1 : List α)
    (l2 : List β) (p : α × β) (h : p ∈ l1.zip l2) :
    ∃ k, k < l1.length ∧ k < l2.length ∧ l1.getD k default = p.1 ∧ l2.getD k default = p.2 := by
  obtain ⟨k, hk, e⟩ := List.mem_iff_getElem.1 h
  have hk2 : k < l1.length ∧ k < l2.length := by simpa using hk
  refine ⟨k, hk2.1, hk2.2, ?_, ?_⟩
  · rw [← e]
    simp [List.getD_eq_getElem?_getD, List.getElem?_eq_getElem hk2.1]
  · rw [← e]
    simp [List.getD_eq_getElem?_getD, List.getElem?_eq_getElem hk2.2]

/-- What `initMatchingData` returns. -/
theorem initMatchingData_eq {baseLits : List Literal} {inst : Clause}
    {alts : List (List Literal)} {md : MatchingData}
    (h : initMatchingData baseLits inst alts = some md) :
    ∃ first, baseLits[0]? = some first ∧
      md.len = baseLits.length ∧ md.boundVarNums = (fun _ => none) ∧
      md.nextAlts = (fun _ => 0) ∧ md.eqLitForDemodulation = NONE ∧
      md.bases = (reorder baseLits alts first).s_baseLits ∧
      md.alts = (reorder baseLits alts first).s_altsArr ∧
      md.inst = inst ∧ md.matchRecord = (fun _ => NONE) ∧ md.currBLit = 0 := by
  unfold initMatchingData at h
  split at h
  · cases h
  · rename_i first hf
    simp only [Option.some.injEq] at h
    subst h
    exact ⟨first, hf, rfl, rfl, rfl, rfl, rfl, rfl, rfl, rfl, rfl⟩

/-- After `init`, every pair of a base literal and its alternatives held by the
matcher is one of the pairs given to `init`, and conversely. -/
theorem init_pairs {baseLits : List Literal} {inst : Clause} {alts : List (List Literal)}
    {md : MatchingData} (hlen : alts.length = baseLits.length)
    (h : initMatchingData baseLits inst alts = some md) :
    (∀ k, k < md.len → (md.bases.getD k default, md.alts.getD k []) ∈ baseLits.zip alts) ∧
    (∀ p, p ∈ baseLits.zip alts →
      ∃ k, k < md.len ∧ md.bases.getD k default = p.1 ∧ md.alts.getD k [] = p.2) ∧
    (∀ k, md.len ≤ k → md.alts.getD k [] = []) := by
  obtain ⟨first, _, h1, _, _, _, h5, h6, _, _, _⟩ := initMatchingData_eq h
  obtain ⟨p1, p2, p3⟩ := reorder_perm baseLits alts first hlen
  rw [← h5] at p1 p2
  rw [← h6] at p1 p3
  refine ⟨?_, ?_, ?_⟩
  · intro k hk
    exact p1.mem_iff.1 (mem_zip_getD md.bases md.alts k (by omega) (by omega))
  · intro p hp
    obtain ⟨k, k1, k2, k3, k4⟩ := exists_getD_of_mem_zip md.bases md.alts p (p1.mem_iff.2 hp)
    exact ⟨k, by omega, k3, k4⟩
  · intro k hk
    simp [List.getD_eq_getElem?_getD, List.getElem?_eq_none (by omega : md.alts.length ≤ k)]

theorem init_inv {baseLits : List Literal} {inst : Clause} {alts : List (List Literal)}
    (hwf : WellFormed baseLits inst alts) {md : MatchingData}
    (h : initMatchingData baseLits inst alts = some md) : InvAt md md.currBLit := by
  obtain ⟨q1, _, q3⟩ := init_pairs hwf.alts_len h
  obtain ⟨first, h0, h1, h2, h3, h4, h5, h6, h7, h8, h9⟩ := initMatchingData_eq h
  have hpos : 0 < baseLits.length := by
    cases baseLits with
    | nil => simp at h0
    | cons a t => simp
  have hNI : ∀ i, md.isInitialized i = false := by
    intro i; simp [isInitialized, h2]
  have hlenN := hwf.len_le
  rw [h9]
  exact
    { len_le := (by rw [h1]; exact hwf.len_le)
      cur_lt := (by rw [h9, h1]; exact hpos)
      init_lt := fun i hi => (by rw [hNI] at hi; cases hi)
      init_down := fun i j hi _ => (by rw [hNI] at hi; cases hi)
      init_below := fun j hj => (by omega)
      init_vars := fun i hi => (by rw [hNI] at hi; cases hi)
      init_cnt := fun i hi => (by rw [hNI] at hi; cases hi)
      init_rows := fun i hi => (by rw [hNI] at hi; cases hi)
      rem_zero := fun i hi => (by rw [hNI] at hi; cases hi)
      rem_le := fun i k hi => (by rw [hNI] at hi; cases hi)
      rem_mono := fun i k hi => (by rw [hNI] at hi; cases hi)
      sound := fun i k a j hi => (by rw [hNI] at hi; cases hi)
      compl := fun i k a hi => (by rw [hNI] at hi; cases hi)
      sel_pos := fun j hj => (by omega)
      next_le := fun j _ hi => (by rw [hNI] at hi; cases hi)
      sel_rec := fun j hj => (by omega)
      rec_exact := fun p j _ hj => (by omega)
      rec_dom := fun p _ => (by rw [h8])
      eq_real := fun he => (by omega)
      eq_exh := fun j hj he => (by rw [h4, h9] at *; simp [NONE] at *; omega)
      cur_fresh := fun _ => (by rw [h3])
      eq_dom := Or.inl h4
      alts_inst := fun i l hl => (by
        rw [h7]
        by_cases hi : i < md.len
        · have := q1 i hi
          exact hwf.alts_inst _ (List.of_mem_zip this).2 l hl
        · rw [q3 i (by omega)] at hl
          cases hl) }

/-- The invariant of the search holds in every valid state. -/
theorem ValidState.valid_inv {baseLits : List Literal} {inst : Clause} {alts : List (List Literal)}
    (hwf : WellFormed baseLits inst alts) {impl : Impl}
    (hv : ValidState baseLits inst alts impl) :
    InvAt impl.s_matchingData impl.s_matchingData.currBLit := by
  induction hv with
  | init impl h =>
      unfold Kernel.init at h
      cases hmd : initMatchingData baseLits inst alts with
      | none => rw [hmd] at h; simp at h
      | some md =>
          rw [hmd] at h
          simp only [Option.map_some', Option.some.injEq] at h
          rw [← h]
          exact init_inv hwf hmd
  | next impl impl2 tl fuel hv h ih =>
      have hm := nextMatchLoop_matched tl fuel 0 impl impl2 ih h
      have := hm.1
      rw [← hm.2] at this
      exact InvAt.of_matched this

/-- The state after a call of `nextMatch` that returned `true` is matched. -/
theorem ValidState.matched_of_true {baseLits : List Literal} {inst : Clause}
    {alts : List (List Literal)} (hwf : WellFormed baseLits inst alts) {impl impl2 : Impl}
    (hv : ValidState baseLits inst alts impl) {tl : Nat → Bool} {fuel : Nat}
    (h : nextMatch tl fuel impl = some (MatchResult.returned true impl2)) :
    Matched impl2.s_matchingData :=
  nextMatchLoop_matched tl fuel 0 impl impl2 (hv.valid_inv hwf) h

end Kernel

namespace Kernel

open MatchingData

/-! ## Termination of the search -/

theorem mixedVal_lt_radixProd (r d : Nat → Nat) :
    ∀ n, (∀ i, i < n → d i < r i) → mixedVal r d n < radixProd r n := by
  intro n
  induction n with
  | zero => intro _; simp [mixedVal, radixProd]
  | succ n ih =>
      intro hb
      have h1 := ih (fun i hi => hb i (by omega))
      have h2 := hb n (by omega)
      simp only [mixedVal, radixProd]
      calc mixedVal r d n * r n + d n < mixedVal r d n * r n + r n := by omega
        _ = (mixedVal r d n + 1) * r n := by ring
        _ ≤ radixProd r n * r n := Nat.mul_le_mul_right _ h1

theorem mixedVal_congr (r d d2 : Nat → Nat) :
    ∀ n, (∀ i, i < n → d i = d2 i) → mixedVal r d n = mixedVal r d2 n := by
  intro n
  induction n with
  | zero => intro _; rfl
  | succ n ih =>
      intro h
      simp only [mixedVal]
      rw [ih (fun i hi => h i (by omega)), h n (by omega)]

theorem mixedVal_lt (r d d2 : Nat → Nat) (k : Nat) (hag : ∀ i, i < k → d i = d2 i)
    (hlt : d k < d2 k) :
    ∀ n, k < n → (∀ i, k < i → i < n → d i < r i) → mixedVal r d n < mixedVal r d2 n := by
  intro n
  induction n with
  | zero => intro h; omega
  | succ n ih =>
      intro hk hb
      simp only [mixedVal]
      by_cases hkn : k = n
      · subst hkn
        rw [mixedVal_congr r d d2 k hag]
        omega
      · have h1 := ih (by omega) (fun i h1 h2 => hb i h1 (by omega))
        have h2 := hb n (by omega) (by omega)
        calc mixedVal r d n * r n + d n < mixedVal r d n * r n + r n := by omega
          _ = (mixedVal r d n + 1) * r n := by ring
          _ ≤ mixedVal r d2 n * r n := Nat.mul_le_mul_right _ h1
          _ ≤ mixedVal r d2 n * r n + d2 n := Nat.le_add_right _ _

namespace MatchingData

/-- Under the invariant the number of alternatives passed at a level on the
path of the search is at most the number of rows of the level. -/
theorem InvAt.nextAlts_le {md : MatchingData} {u : Nat} (h : InvAt md u)
    (hu : md.currBLit ≤ u) (i : Nat) (hi : i ≤ md.currBLit) :
    md.nextAlts i ≤ (md.rowsP i).length := by
  by_cases hinit : md.isInitialized i = true
  · have h1 := h.next_le i hi hinit
    have h2 := h.rem_le i i hinit (le_refl _)
    have h3 := (h.init_rows i hinit).length_eq
    omega
  · have hic : i = md.currBLit := by
      by_contra hne
      exact hinit (h.init_below i (by omega))
    have hinit2 : md.isInitialized md.currBLit = false := by
      rw [← hic]; simpa using hinit
    rw [hic, h.cur_fresh hinit2]
    exact Nat.zero_le _

theorem InvAt.digit_lt {md : MatchingData} {u : Nat} (h : InvAt md u)
    (hu : md.currBLit ≤ u) (i : Nat) : md.digit i < md.radix i := by
  unfold digit radix
  by_cases hi : i ≤ md.currBLit
  · rw [if_pos hi]
    have := h.nextAlts_le hu i hi
    split <;> omega
  · rw [if_neg hi]; omega

theorem InvAt.digit_cur_lt {md : MatchingData} {u : Nat} (h : InvAt md u)
    (hu : md.currBLit ≤ u) :
    md.digit md.currBLit < 2 * (md.rowsP md.currBLit).length + 2 := by
  unfold digit
  rw [if_pos (le_refl _)]
  have := h.nextAlts_le hu md.currBLit (le_refl _)
  split <;> omega

theorem InvAt.progress_lt {md : MatchingData} {u : Nat} (h : InvAt md u)
    (hu : md.currBLit ≤ u) : md.progress < md.progressBound :=
  mixedVal_lt_radixProd _ _ _ (fun i _ => h.digit_lt hu i)

end MatchingData

/-- The progress grows when the digits of the levels before the current one stay
and the digit of the current level grows. -/
theorem progress_of_digits {md md2 : MatchingData} (h : InvAt md md.currBLit)
    (hlen : md2.len = md.len) (hb : md2.bases = md.bases) (ha : md2.alts = md.alts)
    (hi : md2.inst = md.inst)
    (hag : ∀ i, i < md.currBLit → md.digit i = md2.digit i)
    (hlt : md.digit md.currBLit < md2.digit md.currBLit) : Progress md md2 := by
  refine ⟨hlen, hb, ha, hi, ?_⟩
  have hr : md2.radix = md.radix := by
    funext i; simp [radix, rowsP, hb, ha, hi]
  unfold progress
  rw [hr, hlen]
  exact mixedVal_lt _ _ _ md.currBLit hag hlt md.len h.cur_lt
    (fun i _ _ => h.digit_lt (le_refl _) i)

theorem digit_eq_of {md md2 : MatchingData} {i : Nat} (h1 : i ≤ md.currBLit)
    (h2 : i ≤ md2.currBLit) (hn : md2.nextAlts i = md.nextAlts i)
    (he : md2.eqLitForDemodulation = i ↔ md.eqLitForDemodulation = i) :
    md.digit i = md2.digit i := by
  unfold digit
  rw [if_pos h1, if_pos h2, hn]
  by_cases e : md.eqLitForDemodulation = i
  · rw [if_pos e, if_pos (he.2 e)]
  · rw [if_neg e, if_neg (fun e2 => e (he.1 e2))]

theorem digit_top {md : MatchingData} {i : Nat} (h : md.currBLit < i) :
    md.digit i = 2 * (md.rowsP i).length + 2 := by
  unfold digit
  rw [if_neg (by omega)]

theorem skipped_frame (md : MatchingData)
    (hdown : ∀ l j, md.isInitialized l = true → j ≤ l → md.isInitialized j = true) :
    Frame ({ md.unassign with eqLitForDemodulation := md.currBLit } : MatchingData) md.skipped :=
  (skipBindingLoop_spec md.currBLit (md.len - (md.currBLit + 1))
    (md.currBLit + 1)
    ({ md.unassign with eqLitForDemodulation := md.currBLit } : MatchingData)
    (by omega) (by show md.len ≤ _; omega) hdown).1

theorem digit_on {md : MatchingData} {i : Nat} (h : i ≤ md.currBLit) :
    md.digit i = 2 * md.nextAlts i + (if md.eqLitForDemodulation = i then 1 else 0) := by
  unfold digit
  rw [if_pos h]

theorem progress_back {md : MatchingData} (h : InvAt md md.currBLit) (md2 : MatchingData)
    (hlen : md2.len = md.len) (hb : md2.bases = md.bases) (ha : md2.alts = md.alts)
    (hi : md2.inst = md.inst) (hc : md2.currBLit + 1 = md.currBLit)
    (hn : ∀ i, i < md.currBLit → md2.nextAlts i = md.nextAlts i)
    (he : md2.eqLitForDemodulation = md.eqLitForDemodulation) : Progress md md2 := by
  refine progress_of_digits h hlen hb ha hi ?_ ?_
  · intro i hi
    exact digit_eq_of (by omega) (by omega) (hn i hi) (by rw [he])
  · rw [@digit_top md2 md.currBLit (by omega)]
    have e : md2.rowsP md.currBLit = md.rowsP md.currBLit := by
      simp [rowsP, hb, ha, hi]
    rw [e]
    exact h.digit_cur_lt (le_refl _)

theorem progress_fwd {md : MatchingData} (h : InvAt md md.currBLit) (md2 : MatchingData)
    (hlen : md2.len = md.len) (hb : md2.bases = md.bases) (ha : md2.alts = md.alts)
    (hi : md2.inst = md.inst) (hc : md2.currBLit = md.currBLit + 1)
    (hn : ∀ i, i < md.currBLit → md2.nextAlts i = md.nextAlts i)
    (he : ∀ i, i < md.currBLit →
      (md2.eqLitForDemodulation = i ↔ md.eqLitForDemodulation = i))
    (hd : 2 * md.nextAlts md.currBLit + (if md.eqLitForDemodulation = md.currBLit then 1 else 0)
      < 2 * md2.nextAlts md.currBLit
        + (if md2.eqLitForDemodulation = md.currBLit then 1 else 0)) : Progress md md2 := by
  refine progress_of_digits h hlen hb ha hi ?_ ?_
  · intro i hi
    exact digit_eq_of (by omega) (by omega) (hn i hi) (he i hi)
  · rw [@digit_on md md.currBLit (le_refl _), @digit_on md2 md.currBLit (by omega)]
    exact hd

/-- Every round of the loop of `nextMatch` that does not end the loop makes
progress. -/
theorem RoundCase.round_progress {md : MatchingData} {r : Round} (hc : RoundCase md r)
    (h : InvAt md md.currBLit) : RoundProgress md r := by
  have hlenN := h.len_le
  have hcl := h.cur_lt
  cases hc with
  | initBacktrack md1 hrel hfix hinv hinit hun hc hz hbt =>
      refine progress_back h _ hrel.len hrel.bases hrel.alts hrel.inst ?_ ?_ hrel.eqLit
      · show dec32 md1.currBLit + 1 = md.currBLit
        rw [hrel.currBLit, dec32_pos hc]; omega
      · intro i _
        show md1.nextAlts i = _
        rw [hrel.nextAlts]
  | initFail md1 hrel hfix hun hnil hnpe => trivial
  | acceptLast md1 md2 hrel hfix hinv hinit hfa hlt hlast => trivial
  | acceptNext md1 md2 hrel hfix hinv hinit hfa hlt hlast =>
      obtain ⟨g1, g2, g3, g4, g5⟩ := hfa
      have c2 : md2.currBLit = md.currBLit := g1.currBLit.trans hrel.currBLit
      have e2 : md.nextAlts md.currBLit ≤ md2.nextAlts md2.currBLit := by
        have := g1.next_ge
        rw [hrel.nextAlts, hrel.currBLit, ← c2] at this
        rw [← c2]; exact this
      have en : md2.accepted.advanced.nextAlts
          = Function.update (Function.update md2.nextAlts md2.currBLit
              (md2.nextAlts md2.currBLit + 1)) (md2.currBLit + 1) 0 := rfl
      have ee : md2.accepted.advanced.eqLitForDemodulation
          = if md2.eqLitForDemodulation = md2.currBLit + 1 then NONE
            else md2.eqLitForDemodulation := rfl
      refine progress_fwd h _ (g1.len.trans hrel.len) (g1.bases.trans hrel.bases)
        (g1.alts.trans hrel.alts) (g1.inst.trans hrel.inst) ?_ ?_ ?_ ?_
      · show md2.currBLit + 1 = _
        omega
      · intro i hi
        rw [en, Function.update_noteq (by omega), Function.update_noteq (by omega),
          g1.next_ne i (by rw [hrel.currBLit]; omega), hrel.nextAlts]
      · intro i hi
        rw [ee, g1.eqLit, hrel.eqLit]
        split
        · constructor
          · intro e; omega
          · intro e; omega
        · exact Iff.rfl
      · have e1 : md2.accepted.advanced.nextAlts md.currBLit = md2.nextAlts md2.currBLit + 1 := by
          rw [en, Function.update_noteq (by omega), ← c2, Function.update_same]
        rw [e1]
        split <;> split <;> omega
  | skipLast md1 md2 hrel hfix hinv hinit hfa hge heq hpe hlast => trivial
  | skipNext md1 md2 hrel hfix hinv hinit hfa hge heq hpe hlast =>
      obtain ⟨g1, g2, g3, g4, g5⟩ := hfa
      have c2 : md2.currBLit = md.currBLit := g1.currBLit.trans hrel.currBLit
      have f := skipped_frame md2 g2.init_down
      have fc : md2.skipped.currBLit = md2.currBLit := f.currBLit
      have fe : md2.skipped.eqLitForDemodulation = md2.currBLit := f.eqLit
      have fn : md2.skipped.nextAlts = md2.nextAlts := f.nextAlts
      have heq0 : md.eqLitForDemodulation > md.currBLit := by
        rw [← hrel.eqLit, ← g1.eqLit, ← c2]; exact heq
      have e2 : md.nextAlts md.currBLit ≤ md2.nextAlts md2.currBLit := by
        have := g1.next_ge
        rw [hrel.nextAlts, hrel.currBLit, ← c2] at this
        rw [← c2]; exact this
      have en : md2.skipped.advanced.nextAlts
          = Function.update md2.skipped.nextAlts (md2.skipped.currBLit + 1) 0 := rfl
      have ee : md2.skipped.advanced.eqLitForDemodulation = md.currBLit := by
        show (if md2.skipped.eqLitForDemodulation = md2.skipped.currBLit + 1 then NONE
            else md2.skipped.eqLitForDemodulation) = _
        rw [fe, fc, if_neg (by omega), c2]
      refine progress_fwd h _ ((f.len.trans g1.len).trans hrel.len)
        ((f.bases.trans g1.bases).trans hrel.bases)
        ((f.alts.trans g1.alts).trans hrel.alts) ((f.inst.trans g1.inst).trans hrel.inst)
        ?_ ?_ ?_ ?_
      · show md2.skipped.currBLit + 1 = _
        omega
      · intro i hi
        rw [en, Function.update_noteq (by omega), fn,
          g1.next_ne i (by rw [hrel.currBLit]; omega), hrel.nextAlts]
      · intro i hi
        rw [ee]
        constructor
        · intro e; omega
        · intro e; omega
      · have e1 : md2.skipped.advanced.nextAlts md.currBLit = md2.nextAlts md2.currBLit := by
          rw [en, Function.update_noteq (by omega), fn, c2]
        rw [e1, ee, if_pos rfl, if_neg (by omega)]
        omega
  | backFail md1 md2 hrel hfix hinv hinit hfa hge hns hc => trivial
  | backNext md1 md2 hrel hfix hinv hinit hfa hge hns hc =>
      obtain ⟨g1, g2, g3, g4, g5⟩ := hfa
      have c2 : md2.currBLit = md.currBLit := g1.currBLit.trans hrel.currBLit
      refine progress_back h _ (g1.len.trans hrel.len) (g1.bases.trans hrel.bases)
        (g1.alts.trans hrel.alts) (g1.inst.trans hrel.inst) ?_ ?_ (g1.eqLit.trans hrel.eqLit)
      · show dec32 md2.currBLit + 1 = md.currBLit
        rw [dec32_pos (Nat.pos_of_ne_zero hc)]; omega
      · intro i hi
        show md2.nextAlts i = _
        rw [g1.next_ne i (by rw [hrel.currBLit]; omega), hrel.nextAlts]

theorem nextMatchRound_progress (md : MatchingData) (h : InvAt md md.currBLit) :
    RoundProgress md (nextMatchRound md) :=
  (nextMatchRound_cases md h).round_progress h

theorem progress_bound_eq {md md2 : MatchingData} (h : Progress md md2) :
    md2.progressBound = md.progressBound := by
  obtain ⟨h1, h2, h3, h4, _⟩ := h
  have hr : md2.radix = md.radix := by
    funext i; simp [radix, rowsP, h2, h3, h4]
  unfold progressBound
  rw [hr, h1]

/-- With enough rounds allowed, a call of `nextMatch` from a state satisfying
the invariant comes to an end. -/
theorem nextMatchLoop_terminates (tl : Nat → Bool) :
    ∀ (fuel t : Nat) (impl : Impl), InvAt impl.s_matchingData impl.s_matchingData.currBLit →
      impl.s_matchingData.progressBound - impl.s_matchingData.progress ≤ fuel →
      ∃ r, nextMatchLoop tl fuel t impl = some r := by
  intro fuel
  induction fuel with
  | zero =>
      intro t impl hinv hb
      have := hinv.progress_lt (le_refl _)
      omega
  | succ fuel ih =>
      intro t impl hinv hb
      have hr := nextMatchRound_inv impl.s_matchingData hinv
      have hp := nextMatchRound_progress impl.s_matchingData hinv
      have hlt := hinv.progress_lt (le_refl _)
      unfold nextMatchLoop
      generalize nextMatchRound impl.s_matchingData = r at hr hp
      cases r with
      | backtrackInit md2 =>
          have hp2 : Progress impl.s_matchingData md2 := hp
          exact ih (t + 1) { impl with s_matchingData := md2 } hr (by
            show md2.progressBound - md2.progress ≤ fuel
            rw [progress_bound_eq hp2]
            have := hp2.2.2.2.2
            omega)
      | fail md2 => exact ⟨_, rfl⟩
      | complete md2 => exact ⟨_, rfl⟩
      | next md2 =>
          have hp2 : Progress impl.s_matchingData md2 := hp
          have hb2 : md2.progressBound - md2.progress ≤ fuel := by
            rw [progress_bound_eq hp2]
            have := hp2.2.2.2.2
            omega
          simp only
          split
          · split
            · exact ⟨_, rfl⟩
            · exact ih (t + 1) { s_matchingData := md2, s_counter := 0 } hr hb2
          · exact ih (t + 1) { s_matchingData := md2, s_counter := impl.s_counter + 1 } hr hb2

/-- More rounds allowed do not change the result of a call. -/
theorem nextMatchLoop_mono (tl : Nat → Bool) :
    ∀ (fuel t : Nat) (impl : Impl) (r : MatchResult),
      nextMatchLoop tl fuel t impl = some r →
      ∀ fuel2, fuel ≤ fuel2 → nextMatchLoop tl fuel2 t impl = some r := by
  intro fuel
  induction fuel with
  | zero => intro t impl r h; simp [nextMatchLoop] at h
  | succ fuel ih =>
      intro t impl r h fuel2 hle
      obtain ⟨f2, rfl⟩ : ∃ f2, fuel2 = f2 + 1 := ⟨fuel2 - 1, by omega⟩
      unfold nextMatchLoop at h ⊢
      generalize nextMatchRound impl.s_matchingData = rd at h ⊢
      cases rd with
      | backtrackInit md2 => exact ih _ _ _ h f2 (by omega)
      | fail md2 => exact h
      | complete md2 => exact h
      | next md2 =>
          simp only at h ⊢
          split
          · rename_i hc
            rw [if_pos hc] at h
            split
            · rename_i ht
              rw [if_pos ht] at h
              exact h
            · rename_i ht
              rw [if_neg ht] at h
              exact ih _ _ _ h f2 (by omega)
          · rename_i hc
            rw [if_neg hc] at h
            exact ih _ _ _ h f2 (by omega)

/-- When the time limit is never reached, a call of `nextMatch` that ends
returns a value. -/
theorem nextMatchLoop_noTimeLimit :
    ∀ (fuel t : Nat) (impl : Impl) (r : MatchResult),
      nextMatchLoop noTimeLimit fuel t impl = some r →
      ∃ b impl2, r = MatchResult.returned b impl2 := by
  intro fuel
  induction fuel with
  | zero => intro t impl r h; simp [nextMatchLoop] at h
  | succ fuel ih =>
      intro t impl r h
      unfold nextMatchLoop at h
      generalize nextMatchRound impl.s_matchingData = rd at h
      cases rd with
      | backtrackInit md2 => exact ih _ _ _ h
      | fail md2 =>
          simp only [Option.some.injEq] at h
          exact ⟨_, _, h.symm⟩
      | complete md2 =>
          simp only [Option.some.injEq] at h
          exact ⟨_, _, h.symm⟩
      | next md2 =>
          simp only [noTimeLimit] at h
          split at h
          · simp only [Bool.false_eq_true, if_false] at h
            exact ih _ _ _ h
          · exact ih _ _ _ h

/-- From a state satisfying the invariant, a call of `nextMatch` under no time
limit returns `true` or `false`. -/
theorem nextMatch_returns (impl : Impl)
    (hinv : InvAt impl.s_matchingData impl.s_matchingData.currBLit) :
    ∃ b impl2, nextMatch noTimeLimit impl.s_matchingData.progressBound impl
      = some (MatchResult.returned b impl2) := by
  obtain ⟨r, hr⟩ := nextMatchLoop_terminates noTimeLimit
    impl.s_matchingData.progressBound 0 impl hinv (Nat.sub_le _ _)
  obtain ⟨b, impl2, e⟩ := nextMatchLoop_noTimeLimit _ _ _ _ hr
  exact ⟨b, impl2, by rw [← e]; exact hr⟩

end Kernel

namespace Kernel

open MatchingData

/-! ## The problem stays the same -/

theorem SameProblem.rowsP_eq {md md2 : MatchingData} (h : SameProblem md md2) (i : Nat) :
    md2.rowsP i = md.rowsP i := by
  obtain ⟨_, h2, h3, h4⟩ := h
  simp [rowsP, h2, h3, h4]

theorem SameProblem.varsP_eq {md md2 : MatchingData} (h : SameProblem md md2) (i : Nat) :
    md2.varsP i = md.varsP i := by
  obtain ⟨_, h2, _, _⟩ := h
  simp [varsP, h2]

theorem sameProblem_trans {m1 m2 m3 : MatchingData} (h1 : SameProblem m1 m2)
    (h2 : SameProblem m2 m3) : SameProblem m1 m3 :=
  ⟨h2.1.trans h1.1, h2.2.1.trans h1.2.1, h2.2.2.1.trans h1.2.2.1, h2.2.2.2.trans h1.2.2.2⟩

/-- A round of the loop of `nextMatch` leaves the problem as it is. -/
theorem RoundCase.round_same {md : MatchingData} {r : Round} (hc : RoundCase md r)
    (h : InvAt md md.currBLit) : SameProblem md r.state := by
  have hp := hc.round_progress h
  cases hc with
  | initBacktrack md1 hrel hfix hinv hinit hun hc hz hbt => exact ⟨hp.1, hp.2.1, hp.2.2.1, hp.2.2.2.1⟩
  | initFail md1 hrel hfix hun hnil hnpe => exact ⟨hrel.len, hrel.bases, hrel.alts, hrel.inst⟩
  | acceptLast md1 md2 hrel hfix hinv hinit hfa hlt hlast =>
      obtain ⟨g1, g2, g3, g4, g5⟩ := hfa
      exact ⟨g1.len.trans hrel.len, g1.bases.trans hrel.bases, g1.alts.trans hrel.alts,
        g1.inst.trans hrel.inst⟩
  | acceptNext md1 md2 hrel hfix hinv hinit hfa hlt hlast =>
      exact ⟨hp.1, hp.2.1, hp.2.2.1, hp.2.2.2.1⟩
  | skipLast md1 md2 hrel hfix hinv hinit hfa hge heq hpe hlast =>
      obtain ⟨g1, g2, g3, g4, g5⟩ := hfa
      have f := skipped_frame md2 g2.init_down
      exact ⟨(f.len.trans g1.len).trans hrel.len, (f.bases.trans g1.bases).trans hrel.bases,
        (f.alts.trans g1.alts).trans hrel.alts, (f.inst.trans g1.inst).trans hrel.inst⟩
  | skipNext md1 md2 hrel hfix hinv hinit hfa hge heq hpe hlast =>
      exact ⟨hp.1, hp.2.1, hp.2.2.1, hp.2.2.2.1⟩
  | backFail md1 md2 hrel hfix hinv hinit hfa hge hns hc =>
      obtain ⟨g1, g2, g3, g4, g5⟩ := hfa
      exact ⟨g1.len.trans hrel.len, g1.bases.trans hrel.bases, g1.alts.trans hrel.alts,
        g1.inst.trans hrel.inst⟩
  | backNext md1 md2 hrel hfix hinv hinit hfa hge hns hc =>
      exact ⟨hp.1, hp.2.1, hp.2.2.1, hp.2.2.2.1⟩

theorem nextMatchRound_same (md : MatchingData) (h : InvAt md md.currBLit) :
    SameProblem md (nextMatchRound md).state :=
  (nextMatchRound_cases md h).round_same h

/-- A call of `nextMatch` leaves the problem as it is. -/
theorem nextMatchLoop_same (tl : Nat → Bool) :
    ∀ (fuel t : Nat) (impl : Impl) (r : MatchResult),
      InvAt impl.s_matchingData impl.s_matchingData.currBLit →
      nextMatchLoop tl fuel t impl = some r →
      SameProblem impl.s_matchingData r.impl.s_matchingData := by
  intro fuel
  induction fuel with
  | zero => intro t impl r _ h; simp [nextMatchLoop] at h
  | succ fuel ih =>
      intro t impl r hinv h
      have hr := nextMatchRound_inv impl.s_matchingData hinv
      have hs := nextMatchRound_same impl.s_matchingData hinv
      unfold nextMatchLoop at h
      generalize nextMatchRound impl.s_matchingData = rd at hr hs h
      cases rd with
      | backtrackInit md2 =>
          exact sameProblem_trans hs (ih (t + 1) { impl with s_matchingData := md2 } r hr h)
      | fail md2 =>
          simp only [Option.some.injEq] at h
          rw [← h]; exact hs
      | complete md2 =>
          simp only [Option.some.injEq] at h
          rw [← h]; exact hs
      | next md2 =>
          simp only at h
          split at h
          · split at h
            · simp only [Option.some.injEq] at h
              rw [← h]; exact hs
            · exact sameProblem_trans hs
                (ih (t + 1) { s_matchingData := md2, s_counter := 0 } r hr h)
          · exact sameProblem_trans hs
              (ih (t + 1) { s_matchingData := md2, s_counter := impl.s_counter + 1 } r hr h)

/-- In a valid state the matcher holds the problem `init` has stored. -/
theorem ValidState.problem {baseLits : List Literal} {inst : Clause}
    {alts : List (List Literal)} (hwf : WellFormed baseLits inst alts) {impl : Impl}
    (hv : ValidState baseLits inst alts impl) :
    ∃ md0, initMatchingData baseLits inst alts = some md0 ∧
      SameProblem md0 impl.s_matchingData := by
  induction hv with
  | init impl h =>
      unfold Kernel.init at h
      cases hmd : initMatchingData baseLits inst alts with
      | none => rw [hmd] at h; simp at h
      | some md =>
          rw [hmd] at h
          simp only [Option.map_some', Option.some.injEq] at h
          rw [← h]
          exact ⟨md, rfl, rfl, rfl, rfl, rfl⟩
  | next impl impl2 tl fuel hv h ih =>
      obtain ⟨md0, h0, hs⟩ := ih
      exact ⟨md0, h0, sameProblem_trans hs
        (nextMatchLoop_same tl fuel 0 impl _ (hv.valid_inv hwf) h)⟩

/-- The pairs of a base literal and its alternatives the matcher holds in a
valid state are the pairs given to `init`. -/
theorem ValidState.pairs {baseLits : List Literal} {inst : Clause}
    {alts : List (List Literal)} (hwf : WellFormed baseLits inst alts) {impl : Impl}
    (hv : ValidState baseLits inst alts impl) :
    impl.s_matchingData.len = baseLits.length ∧ impl.s_matchingData.inst = inst ∧
    (∀ k, k < impl.s_matchingData.len →
      (impl.s_matchingData.bases.getD k default, impl.s_matchingData.alts.getD k [])
        ∈ baseLits.zip alts) ∧
    (∀ p, p ∈ baseLits.zip alts →
      ∃ k, k < impl.s_matchingData.len ∧ impl.s_matchingData.bases.getD k default = p.1 ∧
        impl.s_matchingData.alts.getD k [] = p.2) := by
  obtain ⟨md0, h0, hs1, hs2, hs3, hs4⟩ := hv.problem hwf
  obtain ⟨p1, p2, _⟩ := init_pairs hwf.alts_len h0
  obtain ⟨first, _, h1, _, _, _, _, _, h7, _, _⟩ := initMatchingData_eq h0
  rw [hs1, hs2, hs3, hs4]
  exact ⟨h1, h7, p1, p2⟩

/-- With at least one base literal `init` has a result. -/
theorem init_some (baseLits : List Literal) (inst : Clause) (alts : List (List Literal))
    (h : 0 < baseLits.length) : ∃ impl0, init baseLits inst alts = some impl0 := by
  cases baseLits with
  | nil => simp at h
  | cons b bs => simp [init, initMatchingData]

end Kernel

namespace Kernel

open MatchingData

/-! ## The matched state -/

namespace MatchingData

/-- In a matched state the row selected at a level that is not skipped is one
of the rows of the level. -/
theorem Matched.sel_mem {md : MatchingData} (h : Matched md) (j : Nat) (hj : j < md.len)
    (hje : j ≠ md.eqLitForDemodulation) : md.selRow j ∈ md.rowsP j := by
  obtain ⟨hm, hc⟩ := h
  have hi := hm.init_below j hj
  have h1 := hm.sel_pos j hj hje
  have h2 := hm.next_le j (by omega) hi
  have h3 := hm.rem_le j j hi (le_refl _)
  apply (hm.init_rows j hi).mem_iff.1
  have hlt : dec32 (md.nextAlts j) < (md.altBindings j).length := by
    rw [dec32_pos h1]; omega
  unfold selRow
  rw [List.getD_eq_getElem?_getD, List.getElem?_eq_getElem hlt]
  exact List.getElem_mem _

/-- In a matched state a level without rows is the level selected for
demodulation. -/
theorem Matched.eq_of_no_rows {md : MatchingData} (h : Matched md) (j : Nat) (hj : j < md.len)
    (hn : md.rowsP j = []) : j = md.eqLitForDemodulation := by
  by_contra hje
  have := h.sel_mem j hj hje
  rw [hn] at this
  cases this

/-- In a matched state the level selected for demodulation, if there is one,
holds a positive equality. -/
theorem Matched.eq_posEq {md : MatchingData} (h : Matched md)
    (he : md.eqLitForDemodulation < md.len) :
    (md.bases.getD md.eqLitForDemodulation default).isEquality = true ∧
    (md.bases.getD md.eqLitForDemodulation default).isPositive = true :=
  h.1.eq_real he

/-- In a matched state two levels that are not skipped claim different
positions of the instance. -/
theorem Matched.pos_inj {md : MatchingData} (h : Matched md) (i j : Nat) (hi : i < md.len)
    (hj : j < md.len) (hie : i ≠ md.eqLitForDemodulation) (hje : j ≠ md.eqLitForDemodulation)
    (he : (md.selRow i).pos = (md.selRow j).pos) : i = j := by
  have h1 := h.1.sel_rec i hi hie
  have h2 := h.1.sel_rec j hj hje
  rw [he] at h1
  exact h1.symm.trans h2

end MatchingData

theorem rowsP_nil_of_alts {md : MatchingData} {i : Nat} (h : md.alts.getD i [] = []) :
    md.rowsP i = [] := by
  unfold rowsP createLiteralBindings
  simp only
  rw [h]
  rfl

/-- The position of a row of level `i` is the position of one of the
alternatives of the level. -/
theorem rowsP_pos_mem {md : MatchingData} {i : Nat} {r : AltRow} (h : r ∈ md.rowsP i) :
    ∃ a, a ∈ md.alts.getD i [] ∧ r.pos = md.inst.getLiteralPosition a := by
  obtain ⟨a, h1, h2⟩ := mem_createLiteralBindings _ _ _ _ h
  exact ⟨a, h1, rowsOfAlt_pos _ _ _ _ _ h2⟩

/-- A call of `nextMatch` from a valid state under no time limit returns. -/
theorem ValidState.returns {baseLits : List Literal} {inst : Clause}
    {alts : List (List Literal)} (hwf : WellFormed baseLits inst alts) {impl : Impl}
    (hv : ValidState baseLits inst alts impl) :
    ∃ fuel b impl2, nextMatch noTimeLimit fuel impl = some (MatchResult.returned b impl2) :=
  ⟨_, nextMatch_returns impl (hv.valid_inv hwf)⟩

/-- A call of `nextMatch` from a valid state that cannot return `true` returns
`false`. -/
theorem ValidState.returns_false {baseLits : List Literal} {inst : Clause}
    {alts : List (List Literal)} (hwf : WellFormed baseLits inst alts) {impl : Impl}
    (hv : ValidState baseLits inst alts impl)
    (hno : ∀ fuel impl2, nextMatch noTimeLimit fuel impl ≠ some (MatchResult.returned true impl2)) :
    ∃ fuel impl2, nextMatch noTimeLimit fuel impl = some (MatchResult.returned false impl2) := by
  obtain ⟨fuel, b, impl2, h⟩ := hv.returns hwf
  cases b with
  | true => exact absurd h (hno fuel impl2)
  | false => exact ⟨fuel, impl2, h⟩

/-- A function that is injective on `0 .. n-1` and takes its values in a list
needs `n` distinct members of the list. -/
theorem length_le_of_injOn (n : Nat) (f : Nat → Nat) (L : List Nat)
    (hmem : ∀ i, i < n → f i ∈ L)
    (hinj : ∀ i j, i < n → j < n → f i = f j → i = j) : n ≤ L.dedup.length := by
  have h1 : ((List.range n).map f).Nodup := by
    apply List.Nodup.map_on
    · intro a ha b hb e
      exact hinj a b (List.mem_range.1 ha) (List.mem_range.1 hb) e
    · exact List.nodup_range n
  have h2 : (List.range n).map f ⊆ L.dedup := by
    intro x hx
    obtain ⟨i, hi, rfl⟩ := List.mem_map.1 hx
    exact List.mem_dedup.2 (hmem i (List.mem_range.1 hi))
  have h3 := (List.subperm_of_subset h1 h2).length_le
  simpa using h3

end Kernel

namespace Kernel

/-! ## Matching of terms -/

mutual
theorem Term.subst_congr (σ τ : Nat → Term) :
    ∀ (t : Term), (∀ v, v ∈ t.vars → σ v = τ v) → Term.subst σ t = Term.subst τ t
  | .var v, h => by
      simp only [Term.subst]
      exact h v (by simp [Term.vars])
  | .app f as, h => by
      simp only [Term.subst]
      rw [Term.substList_congr σ τ as (fun v hv => h v (by simpa [Term.vars] using hv))]
theorem Term.substList_congr (σ τ : Nat → Term) :
    ∀ (ts : List Term), (∀ v, v ∈ Term.varsList ts → σ v = τ v) →
      Term.substList σ ts = Term.substList τ ts
  | [], _ => rfl
  | a :: as, h => by
      simp only [Term.substList]
      rw [Term.subst_congr σ τ a (fun v hv => h v (by simp [Term.varsList, hv])),
        Term.substList_congr σ τ as (fun v hv => h v (by simp [Term.varsList, hv]))]
end

theorem getD_set_self (arr : List Term) (p : Nat) (x : Term) (h : p < arr.length) :
    (arr.set p x).getD p default = x := by
  simp [List.getD_eq_getElem?_getD, List.getElem?_set, h]

theorem getD_set_other (arr : List Term) (p q : Nat) (x : Term) (h : p ≠ q) :
    (arr.set p x).getD q default = arr.getD q default := by
  simp [List.getD_eq_getElem?_getD, List.getElem?_set, h]

mutual
/-- Matching a term onto its instance under `ArrayStoringBinder` succeeds and
stores the image of every variable of the term at its position. -/
theorem asb_matchTerms (pos : Nat → Nat) (σ : Nat → Term) (P : Nat → Prop)
    (hinj : ∀ v w, P v → P w → pos v = pos w → v = w) :
    ∀ (t : Term) (arr : List Term), (∀ v, v ∈ t.vars → P v ∧ pos v < arr.length) →
      ∃ arr2, MatchingUtils.matchTerms (ArrayStoringBinder.bind pos) t (t.subst σ) arr
          = (true, arr2) ∧ arr2.length = arr.length ∧
        ∀ v, P v → arr2.getD (pos v) default
          = if v ∈ t.vars then σ v else arr.getD (pos v) default
  | .var v, arr, h => by
      have hv := h v (by simp [Term.vars])
      refine ⟨arr.set (pos v) (σ v), ?_, by simp, ?_⟩
      · simp [MatchingUtils.matchTerms, ArrayStoringBinder.bind, Term.subst]
      · intro w hw
        by_cases e : w = v
        · subst e
          simp only [Term.vars, List.mem_singleton, if_true]
          exact getD_set_self _ _ _ hv.2
        · have : pos v ≠ pos w := fun e2 => e (hinj w v hw hv.1 e2.symm)
          simp only [Term.vars, List.mem_singleton, e, if_false]
          exact getD_set_other _ _ _ _ this
  | .app f as, arr, h => by
      obtain ⟨arr2, h1, h2, h3⟩ := asb_matchTermList pos σ P hinj as arr
        (fun v hv => h v (by simpa [Term.vars] using hv))
      refine ⟨arr2, ?_, h2, ?_⟩
      · simp only [Term.subst, MatchingUtils.matchTerms, if_true]
        exact h1
      · intro v hv
        simpa [Term.vars] using h3 v hv
/-- Matching an argument list onto its instance under `ArrayStoringBinder`. -/
theorem asb_matchTermList (pos : Nat → Nat) (σ : Nat → Term) (P : Nat → Prop)
    (hinj : ∀ v w, P v → P w → pos v = pos w → v = w) :
    ∀ (ts : List Term) (arr : List Term),
      (∀ v, v ∈ Term.varsList ts → P v ∧ pos v < arr.length) →
      ∃ arr2, MatchingUtils.matchTermList (ArrayStoringBinder.bind pos) ts
          (Term.substList σ ts) arr = (true, arr2) ∧ arr2.length = arr.length ∧
        ∀ v, P v → arr2.getD (pos v) default
          = if v ∈ Term.varsList ts then σ v else arr.getD (pos v) default
  | [], arr, _ => ⟨arr, by simp [MatchingUtils.matchTermList, Term.substList], rfl,
      fun v _ => by simp [Term.varsList]⟩
  | a :: as, arr, h => by
      obtain ⟨arr1, a1, a2, a3⟩ := asb_matchTerms pos σ P hinj a arr
        (fun v hv => h v (by simp [Term.varsList, hv]))
      obtain ⟨arr2, b1, b2, b3⟩ := asb_matchTermList pos σ P hinj as arr1
        (fun v hv => by rw [a2]; exact h v (by simp [Term.varsList, hv]))
      refine ⟨arr2, ?_, b2.trans a2, ?_⟩
      · simp only [Term.substList, MatchingUtils.matchTermList, a1]
        exact b1
      · intro v hv
        rw [b3 v hv, a3 v hv]
        simp only [Term.varsList, List.mem_append]
        by_cases e1 : v ∈ Term.varsList as
        · simp [e1]
        · simp [e1]
end

theorem mapExt_refl (m : List (Nat × Term)) : MapExt m m := fun _ _ h => h

theorem mapExt_trans {m1 m2 m3 : List (Nat × Term)} (h1 : MapExt m1 m2) (h2 : MapExt m2 m3) :
    MapExt m1 m3 := fun v u h => h2 v u (h1 v u h)

theorem mapSubst_of_ext {m1 m2 : List (Nat × Term)} (h : MapExt m1 m2) (v : Nat)
    (hv : (m1.lookup v).isSome = true) : mapSubst m2 v = mapSubst m1 v := by
  obtain ⟨u, hu⟩ := Option.isSome_iff_exists.1 hv
  simp [mapSubst, hu, h v u hu]

mutual
/-- A successful match under `MapBinder` yields a map whose substitution takes
the base term to the instance term. -/
theorem mb_matchTerms :
    ∀ (t s : Term) (m0 m : List (Nat × Term)),
      MatchingUtils.matchTerms MapBinder.bind t s m0 = (true, m) →
      MapExt m0 m ∧ (∀ v, v ∈ t.vars → (m.lookup v).isSome = true) ∧
        t.subst (mapSubst m) = s
  | .var v, s, m0, m, h => by
      simp only [MatchingUtils.matchTerms, MapBinder.bind] at h
      cases hl : m0.lookup v with
      | some u =>
          rw [hl] at h
          simp only [Prod.mk.injEq, decide_eq_true_eq] at h
          obtain ⟨h1, h2⟩ := h
          subst h2
          refine ⟨mapExt_refl _, ?_, ?_⟩
          · intro w hw
            simp only [Term.vars, List.mem_singleton] at hw
            rw [hw, hl]; rfl
          · simp [Term.subst, mapSubst, hl, h1]
      | none =>
          rw [hl] at h
          simp only [Prod.mk.injEq, true_and] at h
          subst h
          refine ⟨?_, ?_, ?_⟩
          · intro w u hw
            have : w ≠ v := fun e => by rw [e, hl] at hw; cases hw
            have hb : (w == v) = false := by simpa using this
            simp [List.lookup_cons, hb, hw]
          · intro w hw
            simp only [Term.vars, List.mem_singleton] at hw
            simp [List.lookup_cons, hw]
          · simp [Term.subst, mapSubst, List.lookup_cons]
  | .app f as, .app g bs, m0, m, h => by
      simp only [MatchingUtils.matchTerms] at h
      by_cases e : f = g
      · rw [if_pos e] at h
        obtain ⟨h1, h2, h3⟩ := mb_matchTermList as bs m0 m h
        refine ⟨h1, fun v hv => h2 v (by simpa [Term.vars] using hv), ?_⟩
        simp only [Term.subst]
        rw [h3, e]
      · rw [if_neg e] at h
        simp at h
  | .app f as, .var w, m0, m, h => by
      simp [MatchingUtils.matchTerms] at h
/-- A successful match of argument lists under `MapBinder`. -/
theorem mb_matchTermList :
    ∀ (ts ss : List Term) (m0 m : List (Nat × Term)),
      MatchingUtils.matchTermList MapBinder.bind ts ss m0 = (true, m) →
      MapExt m0 m ∧ (∀ v, v ∈ Term.varsList ts → (m.lookup v).isSome = true) ∧
        Term.substList (mapSubst m) ts = ss
  | [], [], m0, m, h => by
      simp only [MatchingUtils.matchTermList, Prod.mk.injEq, true_and] at h
      subst h
      exact ⟨mapExt_refl _, fun v hv => by simp [Term.varsList] at hv, rfl⟩
  | a :: as, c :: cs, m0, m, h => by
      simp only [MatchingUtils.matchTermList] at h
      cases hr : MatchingUtils.matchTerms MapBinder.bind a c m0 with
      | mk b m1 =>
          rw [hr] at h
          cases b with
          | false => simp at h
          | true =>
              simp only at h
              obtain ⟨a1, a2, a3⟩ := mb_matchTerms a c m0 m1 hr
              obtain ⟨b1, b2, b3⟩ := mb_matchTermList as cs m1 m h
              refine ⟨mapExt_trans a1 b1, ?_, ?_⟩
              · intro v hv
                simp only [Term.varsList, List.mem_append] at hv
                rcases hv with hv | hv
                · obtain ⟨u, hu⟩ := Option.isSome_iff_exists.1 (a2 v hv)
                  rw [b1 v u hu]; rfl
                · exact b2 v hv
              · simp only [Term.substList]
                rw [b3, Term.subst_congr (mapSubst m) (mapSubst m1) a
                  (fun v hv => mapSubst_of_ext b1 v (a2 v hv)), a3]
  | [], _ :: _, m0, m, h => by simp [MatchingUtils.matchTermList] at h
  | _ :: _, [], m0, m, h => by simp [MatchingUtils.matchTermList] at h
end

end Kernel

namespace Kernel

/-! ## The variables of a base literal -/

theorem foldl_insert_sorted (l : List Nat) :
    ∀ acc : List Nat, acc.Sorted (· ≤ ·) →
      (l.foldl BinaryHeap.insert acc).Sorted (· ≤ ·) ∧ (l.foldl BinaryHeap.insert acc).Perm (acc ++ l) := by
  induction l with
  | nil => intro acc h; exact ⟨h, by simp⟩
  | cons x l ih =>
      intro acc h
      obtain ⟨h1, h2⟩ := ih (acc.orderedInsert (· ≤ ·) x) (h.orderedInsert x acc)
      refine ⟨h1, h2.trans ?_⟩
      have := List.perm_orderedInsert (· ≤ ·) x acc
      exact (this.append_right l).trans (by simpa using List.perm_middle.symm)

theorem dropWhile_eq_gt (v : Nat) (rest : List Nat) (hs : (v :: rest).Sorted (· ≤ ·)) :
    ∀ x, x ∈ rest.dropWhile (fun w => w == v) → v < x := by
  induction rest with
  | nil => intro x hx; simp at hx
  | cons w r ih =>
      intro x hx
      have hvw : v ≤ w := List.rel_of_sorted_cons hs w (List.mem_cons_self _ _)
      have hs2 : (w :: r).Sorted (· ≤ ·) := hs.of_cons
      by_cases e : w = v
      · subst e
        simp only [List.dropWhile_cons, beq_self_eq_true, if_true] at hx
        exact ih hs2 x hx
      · have hb : (w == v) = false := by simpa using e
        simp only [List.dropWhile_cons, hb] at hx
        have hx2 : x ∈ w :: r := by simpa using hx
        rcases List.mem_cons.1 hx2 with rfl | hx3
        · omega
        · have := List.rel_of_sorted_cons hs2 x hx3
          omega

theorem dedup_sorted_cons (v : Nat) (rest : List Nat) (hs : (v :: rest).Sorted (· ≤ ·)) :
    (v :: rest).dedup = v :: (rest.dropWhile (fun w => w == v)).dedup := by
  induction rest with
  | nil => simp
  | cons w r ih =>
      have hvw : v ≤ w := List.rel_of_sorted_cons hs w (List.mem_cons_self _ _)
      have hs2 : (w :: r).Sorted (· ≤ ·) := hs.of_cons
      by_cases e : w = v
      · subst e
        rw [List.dedup_cons_of_mem (List.mem_cons_self _ _), ih hs2]
        simp
      · have hb : (w == v) = false := by simpa using e
        have hn : v ∉ w :: r := by
          intro hm
          rcases List.mem_cons.1 hm with h1 | h1
          · exact e h1.symm
          · have := List.rel_of_sorted_cons hs2 v h1
            omega
        rw [List.dedup_cons_of_not_mem hn]
        simp [List.dropWhile_cons, hb]

theorem popVarNums_eq :
    ∀ (n : Nat) (h acc : List Nat), h.length ≤ n → h.Sorted (· ≤ ·) →
      (∀ a, a ∈ acc → ∀ x, x ∈ h → a < x) → popVarNums n h acc = acc ++ h.dedup := by
  intro n
  induction n with
  | zero =>
      intro h acc hl _ _
      have : h = [] := List.length_eq_zero.1 (by omega)
      subst this
      simp [popVarNums]
  | succ n ih =>
      intro h acc hl hs hlt
      cases h with
      | nil => simp [popVarNums]
      | cons v rest =>
          have hnc : acc.contains v = false := by
            rw [Bool.eq_false_iff]
            intro hc
            have hm : v ∈ acc := by simpa using hc
            have := hlt v hm v (List.mem_cons_self _ _)
            omega
          have hsub : ∀ x, x ∈ rest.dropWhile (fun w => w == v) → x ∈ rest :=
            fun x hx => (List.dropWhile_suffix _).subset hx
          have hl2 : (rest.dropWhile (fun w => w == v)).length ≤ n := by
            have := (List.dropWhile_suffix (fun w => w == v) (l := rest)).length_le
            simp only [List.length_cons] at hl
            omega
          have hs2 : (rest.dropWhile (fun w => w == v)).Sorted (· ≤ ·) :=
            hs.of_cons.sublist (List.dropWhile_suffix _).sublist
          simp only [popVarNums, hnc]
          rw [ih (rest.dropWhile (fun w => w == v)) (acc ++ [v]) hl2 hs2 (by
            intro a ha x hx
            rcases List.mem_append.1 ha with h1 | h1
            · exact hlt a h1 x (List.mem_cons_of_mem _ (hsub x hx))
            · simp only [List.mem_singleton] at h1
              subst h1
              exact dropWhile_eq_gt a rest hs x hx)]
          rw [dedup_sorted_cons v rest hs]
          simp

theorem boundVarsOf_eq (b : Literal) : boundVarsOf b = (collectVarNums b).dedup := by
  unfold boundVarsOf
  simp only
  rw [popVarNums_eq _ (collectVarNums b) [] (le_refl _)
    (foldl_insert_sorted b.vars [] List.sorted_nil).1 (by intro a ha; cases ha)]
  rfl

theorem mem_boundVarsOf (b : Literal) (v : Nat) : v ∈ boundVarsOf b ↔ v ∈ b.vars := by
  rw [boundVarsOf_eq, List.mem_dedup]
  have := (foldl_insert_sorted b.vars [] List.sorted_nil).2
  simpa using this.mem_iff

theorem boundVarsOf_nodup (b : Literal) : (boundVarsOf b).Nodup := by
  rw [boundVarsOf_eq]; exact List.nodup_dedup _

theorem boundVarsOf_sorted (b : Literal) : (boundVarsOf b).Sorted (· < ·) := by
  have h1 : (boundVarsOf b).Sorted (· ≤ ·) := by
    rw [boundVarsOf_eq]
    exact (foldl_insert_sorted b.vars [] List.sorted_nil).1.sublist (List.dedup_sublist _)
  exact h1.lt_of_le (boundVarsOf_nodup b)

end Kernel

namespace Kernel

/-! ## The rows of an alternative -/

theorem substList_length (σ : Nat → Term) : ∀ ts : List Term,
    (Term.substList σ ts).length = ts.length
  | [] => rfl
  | a :: as => by simp [Term.substList, substList_length σ as]

theorem indexOf_inj_on (vars : List Nat) :
    ∀ v w, v ∈ vars → w ∈ vars → vars.indexOf v = vars.indexOf w → v = w :=
  fun _ _ hv hw e => (List.indexOf_inj hv hw).1 e

/-- What an instance shares with its base literal. -/
theorem instanceOf_header {b a : Literal} (h : Literal.instanceOf b a) :
    a.functor = b.functor ∧ a.positive = b.positive ∧
    (b.isEquality = true → b.args.length = 2 → a.args.length = 2) := by
  obtain ⟨σ, hs⟩ := h
  rcases hs with hs | ⟨_, _, hs⟩
  · rw [← hs]
    exact ⟨rfl, rfl, fun _ h2 => by simp [Literal.subst, substList_length, h2]⟩
  · rw [hs]
    exact ⟨rfl, rfl, fun _ _ => rfl⟩

theorem two_args {l : Literal} (h : l.args.length = 2) :
    l.args = [l.nthArgument 0, l.nthArgument 1] := by
  unfold Literal.nthArgument
  match hl : l.args, h with
  | [x, y], _ => rfl

theorem same_of_args {b a : Literal} {ρ : Nat → Term} (hf : a.functor = b.functor)
    (hp : a.positive = b.positive) (h : Term.substList ρ b.args = a.args) :
    Literal.same (b.subst ρ) a := by
  left
  cases a
  cases b
  simp only [Literal.subst] at *
  rw [h, hf, hp]

/-- The row stored for a direct match stands for a substitution that takes the
base literal to the alternative. -/
theorem direct_row_sound (b a : Literal) (p : Nat) (σ : Nat → Term)
    (h : Term.substList σ b.args = a.args) :
    Term.substList (rowSubst (boundVarsOf b)
      (AltRow.mk (MatchingUtils.matchTermList
        (ArrayStoringBinder.bind (fun v => (boundVarsOf b).indexOf v)) b.args a.args
        (List.replicate (boundVarsOf b).length default)).2 p)) b.args = a.args := by
  obtain ⟨arr2, h1, _, h3⟩ := asb_matchTermList (fun v => (boundVarsOf b).indexOf v) σ
    (fun v => v ∈ boundVarsOf b) (indexOf_inj_on _) b.args
    (List.replicate (boundVarsOf b).length default)
    (fun v hv => by
      have hm : v ∈ boundVarsOf b := (mem_boundVarsOf b v).2 hv
      exact ⟨hm, by simpa using List.indexOf_lt_length.2 hm⟩)
  rw [h] at h1
  rw [h1, ← h]
  apply Term.substList_congr
  intro v hv
  have := h3 v ((mem_boundVarsOf b v).2 hv)
  rw [if_pos hv] at this
  exact this

/-- The row stored for a reversed match stands for a substitution that takes
the two arguments of the base literal to the arguments of the alternative in
the other order. -/
theorem reversed_row_sound (b : Literal) (p : Nat) (hb : b.args.length = 2) (a0 a1 : Term)
    (σ : Nat → Term) (h0 : Term.subst σ (b.nthArgument 0) = a1)
    (h1 : Term.subst σ (b.nthArgument 1) = a0) :
    Term.substList (rowSubst (boundVarsOf b)
      (AltRow.mk (MatchingUtils.matchTerms
        (ArrayStoringBinder.bind (fun v => (boundVarsOf b).indexOf v)) (b.nthArgument 1) a0
        (MatchingUtils.matchTerms
          (ArrayStoringBinder.bind (fun v => (boundVarsOf b).indexOf v)) (b.nthArgument 0) a1
          (List.replicate (boundVarsOf b).length default)).2).2 p)) b.args = [a1, a0] := by
  have hargs := two_args hb
  have hv0 : ∀ v, v ∈ (b.nthArgument 0).vars → v ∈ b.vars := by
    intro v hv
    unfold Literal.vars
    rw [hargs]
    simp [Term.varsList, hv]
  have hv1 : ∀ v, v ∈ (b.nthArgument 1).vars → v ∈ b.vars := by
    intro v hv
    unfold Literal.vars
    rw [hargs]
    simp [Term.varsList, hv]
  obtain ⟨arr1, c1, c2, c3⟩ := asb_matchTerms (fun v => (boundVarsOf b).indexOf v) σ
    (fun v => v ∈ boundVarsOf b) (indexOf_inj_on _) (b.nthArgument 0)
    (List.replicate (boundVarsOf b).length default)
    (fun v hv => by
      have hm : v ∈ boundVarsOf b := (mem_boundVarsOf b v).2 (hv0 v hv)
      exact ⟨hm, by simpa using List.indexOf_lt_length.2 hm⟩)
  obtain ⟨arr2, d1, d2, d3⟩ := asb_matchTerms (fun v => (boundVarsOf b).indexOf v) σ
    (fun v => v ∈ boundVarsOf b) (indexOf_inj_on _) (b.nthArgument 1) arr1
    (fun v hv => by
      have hm : v ∈ boundVarsOf b := (mem_boundVarsOf b v).2 (hv1 v hv)
      exact ⟨hm, by rw [c2]; simpa using List.indexOf_lt_length.2 hm⟩)
  rw [h0] at c1
  rw [h1] at d1
  rw [c1, d1]
  have e0 : ∀ v, v ∈ (b.nthArgument 0).vars → rowSubst (boundVarsOf b) (AltRow.mk arr2 p) v = σ v := by
    intro v hv
    have hm : v ∈ boundVarsOf b := (mem_boundVarsOf b v).2 (hv0 v hv)
    show arr2.getD ((boundVarsOf b).indexOf v) default = σ v
    have := d3 v hm
    have := c3 v hm
    simp only at *
    split at * <;> simp_all
  have e1 : ∀ v, v ∈ (b.nthArgument 1).vars → rowSubst (boundVarsOf b) (AltRow.mk arr2 p) v = σ v := by
    intro v hv
    have hm : v ∈ boundVarsOf b := (mem_boundVarsOf b v).2 (hv1 v hv)
    show arr2.getD ((boundVarsOf b).indexOf v) default = σ v
    have := d3 v hm
    rw [if_pos hv] at this
    exact this
  rw [hargs]
  simp only [Term.substList]
  rw [Term.subst_congr _ σ _ e0, Term.subst_congr _ σ _ e1, h0, h1]

/-- Every row stored for an alternative that is an instance of the base literal
stands for a substitution that takes the base literal to the alternative. -/
theorem rowsOfAlt_sound (b a : Literal) (instCl : Clause)
    (hbin : b.isEquality = true → b.args.length = 2) (hinst : Literal.instanceOf b a)
    (r : AltRow) (hr : r ∈ rowsOfAlt b (boundVarsOf b) instCl a) :
    Literal.same (b.subst (rowSubst (boundVarsOf b) r)) a := by
  obtain ⟨hf, hp, hlen⟩ := instanceOf_header hinst
  unfold rowsOfAlt at hr
  simp only at hr
  by_cases he : a.isEquality = true
  · rw [if_pos he] at hr
    have hbe : b.isEquality = true := by
      unfold Literal.isEquality at he ⊢
      rw [← hf]; exact he
    have hb2 := hbin hbe
    have ha2 := hlen hbe hb2
    rcases List.mem_append.1 hr with h | h
    · by_cases hm : MatchingUtils.matchArgs b a = true
      · rw [if_pos hm, List.mem_singleton] at h
        unfold MatchingUtils.matchArgs at hm
        cases hres : MatchingUtils.matchTermList MapBinder.bind b.args a.args [] with
        | mk ok m =>
            rw [hres] at hm
            simp only at hm
            subst hm
            obtain ⟨_, _, h3⟩ := mb_matchTermList _ _ _ _ hres
            rw [h]
            exact same_of_args hf hp (direct_row_sound b a _ (mapSubst m) h3)
      · rw [if_neg hm] at h
        cases h
    · by_cases hm : MatchingUtils.matchReversedArgs b a = true
      · rw [if_pos hm, List.mem_singleton] at h
        unfold MatchingUtils.matchReversedArgs at hm
        cases hres : MatchingUtils.matchTerms MapBinder.bind (b.nthArgument 0)
            (a.nthArgument 1) [] with
        | mk ok m1 =>
            rw [hres] at hm
            cases ok with
            | false => simp at hm
            | true =>
                simp only at hm
                cases hres2 : MatchingUtils.matchTerms MapBinder.bind (b.nthArgument 1)
                    (a.nthArgument 0) m1 with
                | mk ok2 m =>
                    rw [hres2] at hm
                    simp only at hm
                    subst hm
                    obtain ⟨_, c2, c3⟩ := mb_matchTerms _ _ _ _ hres
                    obtain ⟨d1, _, d3⟩ := mb_matchTerms _ _ _ _ hres2
                    have c4 : Term.subst (mapSubst m) (b.nthArgument 0) = a.nthArgument 1 := by
                      rw [Term.subst_congr (mapSubst m) (mapSubst m1) _
                        (fun v hv => mapSubst_of_ext d1 v (c2 v hv)), c3]
                    have hrow := reversed_row_sound b (instCl.getLiteralPosition a) hb2
                      (a.nthArgument 0) (a.nthArgument 1) (mapSubst m) c4 d3
                    rw [← h] at hrow
                    right
                    refine ⟨?_, ?_, ?_⟩
                    · exact hbe
                    · show (Term.substList _ b.args).length = 2
                      rw [substList_length]; exact hb2
                    · have ha := two_args ha2
                      cases a with
                      | mk af ap aargs =>
                          simp only at ha hf hp
                          simp only [Literal.swapArgs, Literal.subst, Literal.nthArgument]
                          rw [hrow]
                          simp only [Literal.nthArgument] at ha ⊢
                          simp only [List.getD_cons_zero, List.getD_cons_succ]
                          rw [← ha, hf, hp]
      · rw [if_neg hm] at h
        cases h
  · rw [if_neg he, List.mem_singleton] at hr
    obtain ⟨σ, hs⟩ := hinst
    have hsub : Term.substList σ b.args = a.args := by
      rcases hs with hs | ⟨h1, _, hs⟩
      · rw [← hs]; rfl
      · exfalso
        apply he
        rw [hs]
        exact h1
    by_cases hn : (boundVarsOf b).length ≠ 0
    · rw [if_pos hn] at hr
      rw [hr]
      exact same_of_args hf hp (direct_row_sound b a _ σ hsub)
    · rw [if_neg hn] at hr
      have hnil : boundVarsOf b = [] := List.length_eq_zero.1 (by omega)
      apply same_of_args hf hp
      rw [← hsub]
      apply Term.substList_congr
      intro v hv
      have : v ∈ boundVarsOf b := (mem_boundVarsOf b v).2 hv
      rw [hnil] at this
      cases this

end Kernel

namespace Kernel

open MatchingData

/-! ## The variables two base literals share -/

theorem sorted_getD_lt (l : List Nat) (hs : l.Sorted (· < ·)) :
    ∀ i j, i < j → j < l.length → l.getD i 0 < l.getD j 0 := by
  intro i j hij hj
  have hi : i < l.length := by omega
  rw [List.getD_eq_getElem?_getD, List.getD_eq_getElem?_getD, List.getElem?_eq_getElem hi,
    List.getElem?_eq_getElem hj]
  exact (List.pairwise_iff_getElem.1 hs) i j hi hj hij

theorem sorted_getD_inj (l : List Nat) (hs : l.Sorted (· < ·)) :
    ∀ i j, i < l.length → j < l.length → l.getD i 0 = l.getD j 0 → i = j := by
  intro i j hi hj e
  rcases Nat.lt_trichotomy i j with h | h | h
  · have := sorted_getD_lt l hs i j h hj; omega
  · exact h
  · have := sorted_getD_lt l hs j i h hi; omega

theorem skip_spec (p : Nat → Bool) (l : List Nat) :
    (l.takeWhile p).length ≤ l.length ∧
    (∀ k, k < (l.takeWhile p).length → p (l.getD k 0) = true) ∧
    ((l.takeWhile p).length < l.length → p (l.getD (l.takeWhile p).length 0) = false) := by
  induction l with
  | nil => simp
  | cons a l ih =>
      by_cases h : p a = true
      · rw [List.takeWhile_cons_of_pos h]
        obtain ⟨h1, h2, h3⟩ := ih
        refine ⟨by simp; omega, ?_, ?_⟩
        · intro k hk
          cases k with
          | zero => simpa using h
          | succ k => exact h2 k (by simpa using hk)
        · intro hk
          exact h3 (by simpa using hk)
      · rw [List.takeWhile_cons_of_neg h]
        refine ⟨by simp, by intro k hk; simp at hk, ?_⟩
        intro _
        simpa using h

theorem getD_drop_nat (l : List Nat) (s k : Nat) : (l.drop s).getD k 0 = l.getD (s + k) 0 := by
  simp [List.getD_eq_getElem?_getD, List.getElem?_drop]

theorem drop_eq_cons {l : List Nat} {s v : Nat} {rest : List Nat} (h : l.drop s = v :: rest) :
    s < l.length ∧ l.getD s 0 = v ∧ rest = l.drop (s + 1) ∧ rest.length = l.length - s - 1 := by
  have hlen : (l.drop s).length = rest.length + 1 := by rw [h]; rfl
  rw [List.length_drop] at hlen
  refine ⟨by omega, ?_, ?_, by omega⟩
  · have := getD_drop_nat l s 0
    rw [h] at this
    simpa using this.symm
  · have : l.drop (s + 1) = (l.drop s).drop 1 := by rw [List.drop_drop]
    rw [this, h]; rfl

/-- The loop of `getIntersectInfo` lists every pair of positions at which the
two ascending variable arrays hold the same variable. -/
theorem intersectLoop_complete :
    ∀ (fuel : Nat) (l1 : List Nat) (i1 : Nat) (l2 : List Nat) (i2 : Nat)
      (acc : List (Nat × Nat)),
      l1.Sorted (· < ·) → l2.Sorted (· < ·) → l1.length + l2.length < fuel →
      (∀ p, p ∈ acc → p ∈ intersectLoop fuel l1 i1 l2 i2 acc) ∧
      ∀ k1 k2, k1 < l1.length → k2 < l2.length → l1.getD k1 0 = l2.getD k2 0 →
        (i1 + k1, i2 + k2) ∈ intersectLoop fuel l1 i1 l2 i2 acc := by
  intro fuel
  induction fuel with
  | zero => intro l1 i1 l2 i2 acc _ _ h; omega
  | succ fuel ih =>
      intro l1 i1 l2 i2 acc hs1 hs2 hfuel
      obtain ⟨a1, a2, a3⟩ := skip_spec (fun v => decide (v < l2.headD 0)) l1
      have hhead : l2.headD 0 = l2.getD 0 0 := by cases l2 <;> rfl
      -- no element of `l1` before the stop position has a partner
      have hlow1 : ∀ k1 k2, k1 < (l1.takeWhile (fun v => decide (v < l2.headD 0))).length →
          k2 < l2.length → l1.getD k1 0 ≠ l2.getD k2 0 := by
        intro k1 k2 h1 h2 e
        have h3 := a2 k1 h1
        simp only [decide_eq_true_eq] at h3
        rw [hhead] at h3
        rcases Nat.eq_zero_or_pos k2 with hz | hz
        · subst hz; omega
        · have := sorted_getD_lt l2 hs2 0 k2 hz h2
          omega
      unfold intersectLoop
      simp only
      generalize hs1e : (l1.takeWhile (fun v => decide (v < l2.headD 0))).length = s1
        at a1 a2 a3 hlow1
      cases hd1 : l1.drop s1 with
      | nil =>
          simp only
          refine ⟨fun p hp => hp, ?_⟩
          intro k1 k2 h1 h2 e
          have : l1.length ≤ s1 := by
            have := congrArg List.length hd1
            simp at this; omega
          exact absurd e (hlow1 k1 k2 (by omega) h2)
      | cons v1 rest1 =>
          simp only
          obtain ⟨b1, b2, b3, b4⟩ := drop_eq_cons hd1
          obtain ⟨c1, c2, c3⟩ := skip_spec (fun w => decide (v1 > w)) l2
          generalize hs2e : (l2.takeWhile (fun w => decide (v1 > w))).length = s2
            at c1 c2 c3
          -- elements of `l1` from the stop position on are at least `v1`
          have hge1 : ∀ k1, s1 ≤ k1 → k1 < l1.length → v1 ≤ l1.getD k1 0 := by
            intro k1 h1 h2
            rcases Nat.eq_or_lt_of_le h1 with h | h
            · rw [← h, b2]
            · have := sorted_getD_lt l1 hs1 s1 k1 h h2
              omega
          have hlow2 : ∀ k1 k2, k1 < l1.length → k2 < s2 → l1.getD k1 0 ≠ l2.getD k2 0 := by
            intro k1 k2 h1 h2 e
            have h3 := c2 k2 h2
            simp only [gt_iff_lt, decide_eq_true_eq] at h3
            by_cases hk : k1 < s1
            · exact hlow1 k1 k2 hk (by omega) e
            · have := hge1 k1 (by omega) h1
              omega
          cases hd2 : l2.drop s2 with
          | nil =>
              simp only
              refine ⟨fun p hp => hp, ?_⟩
              intro k1 k2 h1 h2 e
              have : l2.length ≤ s2 := by
                have := congrArg List.length hd2
                simp at this; omega
              exact absurd e (hlow2 k1 k2 h1 (by omega))
          | cons v2 rest2 =>
              simp only
              obtain ⟨d1, d2, d3, d4⟩ := drop_eq_cons hd2
              have hsr1 : rest1.Sorted (· < ·) := by
                rw [b3]; exact hs1.sublist (List.drop_sublist _ _)
              have hsr2 : rest2.Sorted (· < ·) := by
                rw [d3]; exact hs2.sublist (List.drop_sublist _ _)
              by_cases hv : v1 = v2
              · rw [if_pos hv]
                -- the pairs other than the one found lie in the two rests
                have hrest : ∀ k1 k2, k1 < l1.length → k2 < l2.length →
                    l1.getD k1 0 = l2.getD k2 0 → (k1 = s1 ∧ k2 = s2) ∨ (s1 < k1 ∧ s2 < k2) := by
                  intro k1 k2 h1 h2 e
                  have g1 : s1 ≤ k1 := by
                    by_contra hc
                    exact hlow1 k1 k2 (by omega) h2 e
                  have g2 : s2 ≤ k2 := by
                    by_contra hc
                    exact hlow2 k1 k2 h1 (by omega) e
                  rcases Nat.eq_or_lt_of_le g1 with h | h
                  · left
                    refine ⟨h.symm, ?_⟩
                    have : l2.getD k2 0 = l2.getD s2 0 := by rw [← e, ← h, b2, d2, hv]
                    exact sorted_getD_inj l2 hs2 k2 s2 h2 d1 this
                  · rcases Nat.eq_or_lt_of_le g2 with h' | h'
                    · exfalso
                      have : l1.getD k1 0 = l1.getD s1 0 := by rw [e, ← h', d2, b2, hv]
                      have := sorted_getD_inj l1 hs1 k1 s1 h1 b1 this
                      omega
                    · right; exact ⟨h, h'⟩
                by_cases hemp : (rest1.isEmpty || rest2.isEmpty) = true
                · rw [if_pos hemp]
                  refine ⟨fun p hp => List.mem_append_left _ hp, ?_⟩
                  intro k1 k2 h1 h2 e
                  rcases hrest k1 k2 h1 h2 e with ⟨e1, e2⟩ | ⟨e1, e2⟩
                  · rw [e1, e2]; simp
                  · exfalso
                    simp only [Bool.or_eq_true, List.isEmpty_iff] at hemp
                    rcases hemp with h | h
                    · rw [h] at b4; simp at b4; omega
                    · rw [h] at d4; simp at d4; omega
                · rw [if_neg hemp]
                  obtain ⟨e1, e2⟩ := ih rest1 (i1 + s1 + 1) rest2 (i2 + s2 + 1)
                    (acc ++ [(i1 + s1, i2 + s2)]) hsr1 hsr2 (by omega)
                  refine ⟨fun p hp => e1 p (List.mem_append_left _ hp), ?_⟩
                  intro k1 k2 h1 h2 e
                  rcases hrest k1 k2 h1 h2 e with ⟨f1, f2⟩ | ⟨f1, f2⟩
                  · rw [f1, f2]; exact e1 _ (by simp)
                  · have := e2 (k1 - s1 - 1) (k2 - s2 - 1) (by omega) (by omega) (by
                      rw [b3, d3, getD_drop_nat, getD_drop_nat]
                      rw [show s1 + 1 + (k1 - s1 - 1) = k1 by omega,
                        show s2 + 1 + (k2 - s2 - 1) = k2 by omega]
                      exact e)
                    rw [show i1 + s1 + 1 + (k1 - s1 - 1) = i1 + k1 by omega,
                      show i2 + s2 + 1 + (k2 - s2 - 1) = i2 + k2 by omega] at this
                    exact this
              · rw [if_neg hv]
                have hprog : 0 < s1 + s2 := by
                  by_contra hc
                  have z1 : s1 = 0 := by omega
                  have z2 : s2 = 0 := by omega
                  have n1 := a3 (by omega)
                  have n2 := c3 (by omega)
                  simp only [decide_eq_false_iff_not, not_lt, gt_iff_lt] at n1 n2
                  rw [hhead] at n1
                  rw [z1] at n1 b2
                  rw [z2] at n2 d2
                  omega
                have hsd1 : (v1 :: rest1).Sorted (· < ·) := by
                  rw [← hd1]; exact hs1.sublist (List.drop_sublist _ _)
                have hsd2 : (v2 :: rest2).Sorted (· < ·) := by
                  rw [← hd2]; exact hs2.sublist (List.drop_sublist _ _)
                obtain ⟨e1, e2⟩ := ih (v1 :: rest1) (i1 + s1) (v2 :: rest2) (i2 + s2) acc
                  hsd1 hsd2 (by simp only [List.length_cons]; omega)
                refine ⟨e1, ?_⟩
                intro k1 k2 h1 h2 e
                have g1 : s1 ≤ k1 := by
                  by_contra hc
                  exact hlow1 k1 k2 (by omega) h2 e
                have g2 : s2 ≤ k2 := by
                  by_contra hc
                  exact hlow2 k1 k2 h1 (by omega) e
                have := e2 (k1 - s1) (k2 - s2) (by simp only [List.length_cons]; omega)
                  (by simp only [List.length_cons]; omega) (by
                    rw [← hd1, ← hd2, getD_drop_nat, getD_drop_nat]
                    rw [show s1 + (k1 - s1) = k1 by omega, show s2 + (k2 - s2) = k2 by omega]
                    exact e)
                rw [show i1 + s1 + (k1 - s1) = i1 + k1 by omega,
                  show i2 + s2 + (k2 - s2) = i2 + k2 by omega] at this
                exact this

end Kernel

namespace Kernel

open MatchingData

/-! ## The bindings of a match -/

theorem getD_indexOf_nat (l : List Nat) (v : Nat) (h : v ∈ l) : l.getD (l.indexOf v) 0 = v := by
  have hlt := List.indexOf_lt_length.2 h
  rw [List.getD_eq_getElem?_getD, List.getElem?_eq_getElem hlt]
  simp

theorem indexOf_getD_nat (l : List Nat) (hn : l.Nodup) (k : Nat) (h : k < l.length) :
    l.indexOf (l.getD k 0) = k := by
  rw [List.getD_eq_getElem?_getD, List.getElem?_eq_getElem h]
  simpa using List.indexOf_getElem hn k h

/-- Two compatible rows bind every variable their base literals share to the
same term. -/
theorem compatP_agree (md : MatchingData) (j i : Nat) (r1 r2 : AltRow)
    (h : md.compatP j i r1 r2 = true) (v : Nat) (hv1 : v ∈ md.varsP j) (hv2 : v ∈ md.varsP i) :
    rowSubst (md.varsP j) r1 v = rowSubst (md.varsP i) r2 v := by
  unfold compatP compatibleRows at h
  rw [List.all_eq_true] at h
  have hmem := (intersectLoop_complete ((md.varsP j).length + (md.varsP i).length + 1)
    (md.varsP j) 0 (md.varsP i) 0 [] (boundVarsOf_sorted _) (boundVarsOf_sorted _)
    (by omega)).2 ((md.varsP j).indexOf v) ((md.varsP i).indexOf v)
    (List.indexOf_lt_length.2 hv1) (List.indexOf_lt_length.2 hv2)
    (by rw [getD_indexOf_nat _ _ hv1, getD_indexOf_nat _ _ hv2])
  have := h _ hmem
  simpa [rowSubst] using this

theorem insertBinding_lookup (out : List (Nat × Term)) (var : Nat) (trm : Term) (v : Nat) :
    (insertBinding out var trm).lookup v
      = if (out.lookup v).isSome then out.lookup v
        else if v = var then some trm else none := by
  unfold insertBinding
  by_cases h : (out.lookup var).isSome = true
  · rw [if_pos h]
    by_cases h2 : (out.lookup v).isSome = true
    · rw [if_pos h2]
    · rw [if_neg h2]
      have hne : v ≠ var := fun e => h2 (by rw [e]; exact h)
      rw [if_neg hne]
      exact Option.not_isSome_iff_eq_none.1 h2
  · rw [if_neg h, List.lookup_append]
    by_cases h2 : (out.lookup v).isSome = true
    · rw [if_pos h2]
      obtain ⟨u, hu⟩ := Option.isSome_iff_exists.1 h2
      rw [hu]; rfl
    · rw [if_neg h2]
      have hn : out.lookup v = none := Option.not_isSome_iff_eq_none.1 h2
      rw [hn]
      by_cases e : v = var
      · rw [if_pos e, e]; simp
      · rw [if_neg e]
        have hb : (v == var) = false := by simpa using e
        simp [List.lookup_cons, hb]

/-- What the inner loop of `getBindings` does to the map. -/
theorem bindingsOfLevel_spec (md : MatchingData) (bi alti : Nat) (out : List (Nat × Term)) :
    ∀ n,
      (∀ v t, out.lookup v = some t → (bindingsOfLevel md bi alti out n).lookup v = some t) ∧
      (∀ v t, (bindingsOfLevel md bi alti out n).lookup v = some t →
        out.lookup v = some t ∨
        ∃ k, k < n ∧ ((md.boundVarNums bi).getD []).getD k 0 = v ∧
          t = ((md.altBindings bi).getD alti default).binds.getD k default) ∧
      (∀ k, k < n →
        ((bindingsOfLevel md bi alti out n).lookup
          (((md.boundVarNums bi).getD []).getD k 0)).isSome = true) := by
  intro n
  induction n with
  | zero =>
      refine ⟨fun v t h => h, fun v t h => Or.inl h, fun k hk => by omega⟩
  | succ n ih =>
      obtain ⟨h1, h2, h3⟩ := ih
      refine ⟨?_, ?_, ?_⟩
      · intro v t h
        have := h1 v t h
        simp only [bindingsOfLevel, insertBinding_lookup, this, Option.isSome_some, if_true]
      · intro v t h
        simp only [bindingsOfLevel, insertBinding_lookup] at h
        split at h
        · rcases h2 v t h with g | ⟨k, k1, k2, k3⟩
          · exact Or.inl g
          · exact Or.inr ⟨k, by omega, k2, k3⟩
        · split at h
          · rename_i hv
            simp only [Option.some.injEq] at h
            exact Or.inr ⟨n, by omega, hv.symm, h.symm⟩
          · cases h
      · intro k hk
        simp only [bindingsOfLevel, insertBinding_lookup]
        split
        · assumption
        · rename_i hns
          by_cases e : k = n
          · subst e
            simp
          · exact absurd (h3 k (by omega)) hns

/-- What the outer loop of `getBindings` does to the map. -/
theorem bindingsLoop_spec (md : MatchingData) :
    ∀ n,
      (∀ v t, (bindingsLoop md n).lookup v = some t →
        ∃ j, j < n ∧ j ≠ md.eqLitForDemodulation ∧ ∃ k, k < md.varCnts j ∧
          ((md.boundVarNums j).getD []).getD k 0 = v ∧ t = (md.selRow j).binds.getD k default) ∧
      (∀ j k, j < n → j ≠ md.eqLitForDemodulation → k < md.varCnts j →
        ((bindingsLoop md n).lookup (((md.boundVarNums j).getD []).getD k 0)).isSome = true) := by
  intro n
  induction n with
  | zero =>
      refine ⟨fun v t h => by simp [bindingsLoop] at h, fun j k hj => by omega⟩
  | succ n ih =>
      obtain ⟨h1, h2⟩ := ih
      by_cases he : n ≠ md.eqLitForDemodulation
      · obtain ⟨a1, a2, a3⟩ := bindingsOfLevel_spec md n (dec32 (md.nextAlts n))
          (bindingsLoop md n) (md.varCnts n)
        have hE : bindingsLoop md (n + 1)
            = bindingsOfLevel md n (dec32 (md.nextAlts n)) (bindingsLoop md n) (md.varCnts n) := by
          simp only [bindingsLoop, if_pos he]
        rw [hE]
        refine ⟨?_, ?_⟩
        · intro v t h
          rcases a2 v t h with g | ⟨k, k1, k2, k3⟩
          · obtain ⟨j, j1, j2, j3⟩ := h1 v t g
            exact ⟨j, by omega, j2, j3⟩
          · exact ⟨n, by omega, he, k, k1, k2, k3⟩
        · intro j k hj hje hk
          by_cases e : j = n
          · subst e
            exact a3 k hk
          · obtain ⟨u, hu⟩ := Option.isSome_iff_exists.1 (h2 j k (by omega) hje hk)
            rw [a1 _ u hu]; rfl
      · have hE : bindingsLoop md (n + 1) = bindingsLoop md n := by
          simp only [bindingsLoop, if_neg he]
        rw [hE]
        refine ⟨?_, ?_⟩
        · intro v t h
          obtain ⟨j, j1, j2, j3⟩ := h1 v t h
          exact ⟨j, by omega, j2, j3⟩
        · intro j k hj hje hk
          have : j ≠ n := fun e => by
            rw [e] at hje
            exact he hje
          exact h2 j k (by omega) hje hk

namespace MatchingData

/-- In a matched state the rows selected at two levels that are not skipped are
compatible. -/
theorem Matched.sel_compat {md : MatchingData} (h : Matched md) (j i : Nat) (hji : j < i)
    (hi : i < md.len) (hje : j ≠ md.eqLitForDemodulation) (hie : i ≠ md.eqLitForDemodulation) :
    md.compatP j i (md.selRow j) (md.selRow i) = true := by
  obtain ⟨hm, hc⟩ := h
  have hinit := hm.init_below i hi
  have h1 := hm.sel_pos i hi hie
  have h2 := hm.next_le i (by omega) hinit
  exact hm.sound i i (dec32 (md.nextAlts i)) j hinit (le_refl _) (by omega)
    (by rw [dec32_pos h1]; omega) hji hje

/-- In a matched state the substitution of `getBindings` agrees, on the
variables of a base literal that is not skipped, with the substitution of the
row selected for that literal. -/
theorem Matched.bindings_agree {md : MatchingData} (h : Matched md) (i : Nat) (hi : i < md.len)
    (hie : i ≠ md.eqLitForDemodulation) (v : Nat) (hv : v ∈ md.varsP i) :
    bindingsSubst (bindingsLoop md md.len) v = rowSubst (md.varsP i) (md.selRow i) v := by
  obtain ⟨g1, g2⟩ := bindingsLoop_spec md md.len
  have hm := h.1
  have hbv : ∀ j, j < md.len → (md.boundVarNums j).getD [] = md.varsP j := by
    intro j hj
    rw [hm.init_vars j (hm.init_below j hj)]; rfl
  have hvc : ∀ j, j < md.len → md.varCnts j = (md.varsP j).length :=
    fun j hj => hm.init_cnt j (hm.init_below j hj)
  have hk := List.indexOf_lt_length.2 hv
  have hsome := g2 i ((md.varsP i).indexOf v) hi hie (by rw [hvc i hi]; exact hk)
  rw [hbv i hi, getD_indexOf_nat _ _ hv] at hsome
  obtain ⟨t, ht⟩ := Option.isSome_iff_exists.1 hsome
  obtain ⟨j, j1, j2, k, k1, k2, k3⟩ := g1 v t ht
  rw [hbv j j1] at k2
  rw [hvc j j1] at k1
  have hvj : v ∈ md.varsP j := by
    rw [← k2, List.getD_eq_getElem?_getD, List.getElem?_eq_getElem k1]
    exact List.getElem_mem _
  have hidx : (md.varsP j).indexOf v = k := by
    rw [← k2]; exact indexOf_getD_nat _ (boundVarsOf_nodup _) k k1
  have ht2 : t = rowSubst (md.varsP j) (md.selRow j) v := by
    rw [k3]; unfold rowSubst; rw [hidx]
  have hσ : bindingsSubst (bindingsLoop md md.len) v = t := by
    simp [bindingsSubst, ht]
  rw [hσ, ht2]
  rcases Nat.lt_trichotomy j i with hlt | heq | hgt
  · exact compatP_agree md j i _ _ (h.sel_compat j i hlt hi j2 hie) v hvj hv
  · rw [heq]
  · exact (compatP_agree md i j _ _ (h.sel_compat i j hgt j1 hie j2) v hv hvj).symm

end MatchingData

end Kernel

namespace Kernel

open MatchingData

/-! ## A base of one literal -/

theorem init_oneLevel (b : Literal) (inst : Clause) (a : Literal) (ha : a.isEquality = true) :
    init [b] inst [[a]] = some { s_matchingData := oneLevel b inst a, s_counter := 0 } := by
  simp [init, initMatchingData, reorder, ReorderState.run, ReorderState.step, currAltCnt,
    Literal.commutative, ha, oneLevel]

theorem ensureInit_oneLevel (b : Literal) (inst : Clause) (a : Literal)
    (h : (createLiteralBindings b [a] inst).2 ≠ []) :
    (oneLevel b inst a).ensureInit 0
      = (InitResult.OK, oneLevelAt b inst a (fun _ => 0) (fun _ => NONE)) := by
  have hl : (createLiteralBindings b [a] inst).2.length ≠ 0 := by
    intro e; exact h (List.length_eq_zero.1 e)
  unfold ensureInit
  rw [if_neg (by simp [isInitialized, oneLevel])]
  simp only [oneLevel, List.getD_cons_zero]
  rw [if_neg hl]
  simp only [ensureInitLoop, lt_self_iff_false, false_and, if_false]
  rfl

theorem ensureInit_oneLevelAt (b : Literal) (inst : Clause) (a : Literal) (na : Nat → Nat)
    (rcd : Nat → Nat) :
    (oneLevelAt b inst a na rcd).ensureInit 0 = (InitResult.OK, oneLevelAt b inst a na rcd) := by
  unfold ensureInit
  rw [if_pos (by simp [isInitialized, oneLevelAt])]

/-- The round of the loop of `nextMatch` for a problem of one level in which
the next alternative of the level is accepted. -/
theorem round_of_ensureInit (md S : MatchingData)
    (hE : md.ensureInit md.currBLit = (InitResult.OK, S))
    (hc : S.currBLit = 0) (hlen : S.len = 1)
    (hn : S.nextAlts 0 < S.remaining 0 0) :
    nextMatchRound md
      = Round.complete
          { S with
            matchRecord := Function.update S.unassign.matchRecord
              (S.getAltRecordIndex 0 (S.nextAlts 0)) 0
            nextAlts := Function.update S.nextAlts 0 (S.nextAlts 0 + 1)
            currBLit := 1 } := by
  obtain ⟨k, hk⟩ : ∃ k, S.remaining 0 0 - S.nextAlts 0 = k + 1 :=
    ⟨S.remaining 0 0 - S.nextAlts 0 - 1, by omega⟩
  have hfa : findAlt (S.remaining 0 0) (k + 1) S = S := by
    unfold findAlt
    rw [hc, if_pos hn, if_neg (by omega)]
    have hb : S.bindAlt 0 (S.nextAlts 0) = (true, S) := by
      unfold bindAlt
      rw [hlen]
      rfl
    simp only [hb, if_true]
  unfold nextMatchRound
  dsimp only
  rw [hE]
  dsimp only
  unfold getRemainingInCurrent
  rw [hc, hk, hfa, hc, if_pos hn]
  dsimp only [unassign]
  rw [hc, hlen, if_pos (by rfl)]
  rfl

theorem nextMatch_of_complete (tl : Nat → Bool) (impl : Impl) (md : MatchingData)
    (h : nextMatchRound impl.s_matchingData = Round.complete md) :
    nextMatch tl 1 impl = some (MatchResult.returned true
      { impl with s_matchingData := { md with currBLit := dec32 md.currBLit } }) := by
  unfold nextMatch nextMatchLoop
  rw [h]

/-- The rows of an equality with one alternative that it matches in both
orientations: the direct row, then the reversed row. -/
theorem rows_both (b : Literal) (inst : Clause) (a : Literal) (ha : a.isEquality = true)
    (hm1 : MatchingUtils.matchArgs b a = true)
    (hm2 : MatchingUtils.matchReversedArgs b a = true) :
    createLiteralBindings b [a] inst
      = (boundVarsOf b, [directRow b inst a, reversedRow b inst a]) := by
  simp [createLiteralBindings, rowsOfAlt, ha, hm1, hm2, directRow, reversedRow]

theorem matchArgs_sound (b a : Literal) (h : MatchingUtils.matchArgs b a = true) :
    ∃ σ : Nat → Term, Term.substList σ b.args = a.args := by
  unfold MatchingUtils.matchArgs at h
  cases hres : MatchingUtils.matchTermList MapBinder.bind b.args a.args [] with
  | mk ok m =>
      rw [hres] at h
      simp only at h
      subst h
      exact ⟨mapSubst m, (mb_matchTermList _ _ _ _ hres).2.2⟩

theorem matchReversedArgs_sound (b a : Literal)
    (h : MatchingUtils.matchReversedArgs b a = true) :
    ∃ σ : Nat → Term, Term.subst σ (b.nthArgument 0) = a.nthArgument 1 ∧
      Term.subst σ (b.nthArgument 1) = a.nthArgument 0 := by
  unfold MatchingUtils.matchReversedArgs at h
  cases hres : MatchingUtils.matchTerms MapBinder.bind (b.nthArgument 0) (a.nthArgument 1) [] with
  | mk ok m1 =>
      rw [hres] at h
      cases ok with
      | false => simp at h
      | true =>
          simp only at h
          cases hres2 : MatchingUtils.matchTerms MapBinder.bind (b.nthArgument 1)
              (a.nthArgument 0) m1 with
          | mk ok2 m =>
              rw [hres2] at h
              simp only at h
              subst h
              obtain ⟨_, c2, c3⟩ := mb_matchTerms _ _ _ _ hres
              obtain ⟨d1, _, d3⟩ := mb_matchTerms _ _ _ _ hres2
              refine ⟨mapSubst m, ?_, d3⟩
              rw [Term.subst_congr (mapSubst m) (mapSubst m1) _
                (fun v hv => mapSubst_of_ext d1 v (c2 v hv)), c3]

/-- The bindings `getBindings` returns for a problem of one level are those of
the row selected at the level. -/
theorem bindings_oneLevelAt (b : Literal) (inst : Clause) (a : Literal) (na rcd : Nat → Nat)
    (v : Nat) (hv : v ∈ boundVarsOf b) :
    bindingsSubst (bindingsLoop (oneLevelAt b inst a na rcd) 1) v
      = rowSubst (boundVarsOf b)
          ((createLiteralBindings b [a] inst).2.getD (dec32 (na 0)) default) v := by
  have hE : bindingsLoop (oneLevelAt b inst a na rcd) 1
      = bindingsOfLevel (oneLevelAt b inst a na rcd) 0 (dec32 (na 0)) [] (boundVarsOf b).length := by
    simp [bindingsLoop, oneLevelAt, NONE, createLiteralBindings]
  obtain ⟨_, h2, h3⟩ := bindingsOfLevel_spec (oneLevelAt b inst a na rcd) 0 (dec32 (na 0)) []
    (boundVarsOf b).length
  have hbv : ((oneLevelAt b inst a na rcd).boundVarNums 0).getD [] = boundVarsOf b := by
    simp [oneLevelAt, createLiteralBindings]
  have hrow : ((oneLevelAt b inst a na rcd).altBindings 0).getD (dec32 (na 0)) default
      = (createLiteralBindings b [a] inst).2.getD (dec32 (na 0)) default := by
    simp [oneLevelAt]
  rw [hbv] at h2 h3
  rw [hrow] at h2
  have hk := List.indexOf_lt_length.2 hv
  have hsome := h3 _ hk
  rw [getD_indexOf_nat _ _ hv, ← hE] at hsome
  obtain ⟨t, ht⟩ := Option.isSome_iff_exists.1 hsome
  rw [← hE] at h2
  rcases h2 v t ht with g | ⟨k, k1, k2, k3⟩
  · simp at g
  · have hidx : (boundVarsOf b).indexOf v = k := by
      rw [← k2]; exact indexOf_getD_nat _ (boundVarsOf_nodup _) k k1
    simp only [bindingsSubst, ht, Option.getD_some, rowSubst, hidx]
    exact k3

theorem subst_eq_of_agree (b : Literal) (σ ρ : Nat → Term) (args : List Term)
    (hag : ∀ v, v ∈ boundVarsOf b → σ v = ρ v) (hsub : Term.substList ρ b.args = args) :
    b.subst σ = ⟨b.functor, b.positive, args⟩ := by
  unfold Literal.subst
  rw [Term.substList_congr σ ρ b.args (fun v hv => hag v ((mem_boundVarsOf b v).2 hv)), hsub]

end Kernel

namespace Kernel

open MatchingData

/-! ## The control of the search -/

theorem hlt_of_scan {md1 md2 : MatchingData}
    (hfa : FindAltPost (md1.remaining md1.currBLit md1.currBLit) md1 md2)
    (hlt : md2.nextAlts md2.currBLit < md1.remaining md1.currBLit md1.currBLit) :
    md2.nextAlts md2.currBLit < md2.remaining md2.currBLit md2.currBLit := by
  obtain ⟨g1, g2, g3, g4, g5⟩ := hfa
  rw [g1.currBLit, g1.rem _ _ (Or.inl (le_refl _)), ← g1.currBLit]
  rw [g1.currBLit] at hlt ⊢
  exact hlt

/-- Every round of the loop of `nextMatch` goes back one level or goes on to
the next level, accepting an alternative or selecting the level for
demodulation. -/
theorem RoundCase.round_ctl {md : MatchingData} {r : Round} (hc : RoundCase md r)
    (h : InvAt md md.currBLit) : RoundCtl md r := by
  have hlenN := h.len_le
  have hcl := h.cur_lt
  cases hc with
  | initBacktrack md1 hrel hfix hinv hinit hun hc hz hbt =>
      refine ⟨?_, ?_, hrel.eqLit⟩
      · show dec32 md1.currBLit + 1 = md.currBLit
        rw [hrel.currBLit, dec32_pos hc]; omega
      · intro i _
        show md1.nextAlts i = _
        rw [hrel.nextAlts]
  | initFail md1 hrel hfix hun hnil hnpe => trivial
  | acceptLast md1 md2 hrel hfix hinv hinit hfa hlt hlast =>
      have hlt2 := hlt_of_scan hfa hlt
      obtain ⟨g1, g2, g3, g4, g5⟩ := hfa
      have c2 : md2.currBLit = md.currBLit := g1.currBLit.trans hrel.currBLit
      have hne := g2.eq_ne_cur hlt2
      have e2 : md.nextAlts md.currBLit ≤ md2.nextAlts md2.currBLit := by
        have := g1.next_ge
        rw [hrel.nextAlts, hrel.currBLit, ← c2] at this
        rw [← c2]; exact this
      refine ⟨by show md2.currBLit + 1 = _; omega, Or.inl ⟨?_, ?_, ?_, ?_⟩⟩
      · intro i hi
        show Function.update md2.nextAlts md2.currBLit (md2.nextAlts md2.currBLit + 1) i = _
        rw [Function.update_noteq (by omega),
          g1.next_ne i (by rw [hrel.currBLit]; omega), hrel.nextAlts]
      · show _ < Function.update md2.nextAlts md2.currBLit (md2.nextAlts md2.currBLit + 1)
          md.currBLit
        rw [← c2, Function.update_same]
        rw [c2] at e2 ⊢
        omega
      · rw [← hrel.eqLit, ← g1.eqLit, ← c2]; exact hne
      · intro j _
        show md2.eqLitForDemodulation = j ↔ _
        rw [g1.eqLit, hrel.eqLit]
  | acceptNext md1 md2 hrel hfix hinv hinit hfa hlt hlast =>
      have hlt2 := hlt_of_scan hfa hlt
      obtain ⟨g1, g2, g3, g4, g5⟩ := hfa
      have c2 : md2.currBLit = md.currBLit := g1.currBLit.trans hrel.currBLit
      have hne := g2.eq_ne_cur hlt2
      have e2 : md.nextAlts md.currBLit ≤ md2.nextAlts md2.currBLit := by
        have := g1.next_ge
        rw [hrel.nextAlts, hrel.currBLit, ← c2] at this
        rw [← c2]; exact this
      have en : md2.accepted.advanced.nextAlts
          = Function.update (Function.update md2.nextAlts md2.currBLit
              (md2.nextAlts md2.currBLit + 1)) (md2.currBLit + 1) 0 := rfl
      have ee : md2.accepted.advanced.eqLitForDemodulation
          = if md2.eqLitForDemodulation = md2.currBLit + 1 then NONE
            else md2.eqLitForDemodulation := rfl
      refine Or.inr ⟨by show md2.currBLit + 1 = _; omega, Or.inl ⟨?_, ?_, ?_, ?_⟩⟩
      · intro i hi
        rw [en, Function.update_noteq (by omega), Function.update_noteq (by omega),
          g1.next_ne i (by rw [hrel.currBLit]; omega), hrel.nextAlts]
      · rw [en, Function.update_noteq (by omega), ← c2, Function.update_same]
        rw [c2] at e2 ⊢
        omega
      · rw [← hrel.eqLit, ← g1.eqLit, ← c2]; exact hne
      · intro j hj
        rw [ee, g1.eqLit, hrel.eqLit]
        split
        · constructor
          · intro e; omega
          · intro e; omega
        · exact Iff.rfl
  | skipLast md1 md2 hrel hfix hinv hinit hfa hge heq hpe hlast =>
      obtain ⟨g1, g2, g3, g4, g5⟩ := hfa
      have c2 : md2.currBLit = md.currBLit := g1.currBLit.trans hrel.currBLit
      have f := skipped_frame md2 g2.init_down
      have fc : md2.skipped.currBLit = md2.currBLit := f.currBLit
      have fe : md2.skipped.eqLitForDemodulation = md2.currBLit := f.eqLit
      have fn : md2.skipped.nextAlts = md2.nextAlts := f.nextAlts
      have heq0 : md.eqLitForDemodulation > md.currBLit := by
        rw [← hrel.eqLit, ← g1.eqLit, ← c2]; exact heq
      refine ⟨by show md2.currBLit + 1 = _; omega, Or.inr ⟨?_, heq0, ?_⟩⟩
      · intro i hi
        show md2.skipped.nextAlts i = _
        rw [fn, g1.next_ne i (by rw [hrel.currBLit]; omega), hrel.nextAlts]
      · show md2.skipped.eqLitForDemodulation = _
        rw [fe, c2]
  | skipNext md1 md2 hrel hfix hinv hinit hfa hge heq hpe hlast =>
      obtain ⟨g1, g2, g3, g4, g5⟩ := hfa
      have c2 : md2.currBLit = md.currBLit := g1.currBLit.trans hrel.currBLit
      have f := skipped_frame md2 g2.init_down
      have fc : md2.skipped.currBLit = md2.currBLit := f.currBLit
      have fe : md2.skipped.eqLitForDemodulation = md2.currBLit := f.eqLit
      have fn : md2.skipped.nextAlts = md2.nextAlts := f.nextAlts
      have heq0 : md.eqLitForDemodulation > md.currBLit := by
        rw [← hrel.eqLit, ← g1.eqLit, ← c2]; exact heq
      have en : md2.skipped.advanced.nextAlts
          = Function.update md2.skipped.nextAlts (md2.skipped.currBLit + 1) 0 := rfl
      have ee : md2.skipped.advanced.eqLitForDemodulation = md.currBLit := by
        show (if md2.skipped.eqLitForDemodulation = md2.skipped.currBLit + 1 then NONE
            else md2.skipped.eqLitForDemodulation) = _
        rw [fe, fc, if_neg (by omega), c2]
      refine Or.inr ⟨by show md2.skipped.currBLit + 1 = _; omega, Or.inr ⟨?_, heq0, ee⟩⟩
      intro i hi
      rw [en, Function.update_noteq (by omega), fn,
        g1.next_ne i (by rw [hrel.currBLit]; omega), hrel.nextAlts]
  | backFail md1 md2 hrel hfix hinv hinit hfa hge hns hc => trivial
  | backNext md1 md2 hrel hfix hinv hinit hfa hge hns hc =>
      obtain ⟨g1, g2, g3, g4, g5⟩ := hfa
      have c2 : md2.currBLit = md.currBLit := g1.currBLit.trans hrel.currBLit
      refine Or.inl ⟨?_, ?_, g1.eqLit.trans hrel.eqLit⟩
      · show dec32 md2.currBLit + 1 = md.currBLit
        rw [dec32_pos (Nat.pos_of_ne_zero hc)]; omega
      · intro i hi
        show md2.nextAlts i = _
        rw [g1.next_ne i (by rw [hrel.currBLit]; omega), hrel.nextAlts]

theorem nextMatchRound_ctl (md : MatchingData) (h : InvAt md md.currBLit) :
    RoundCtl md (nextMatchRound md) :=
  (nextMatchRound_cases md h).round_ctl h

/-! ## Two consecutive matches -/

theorem resumed_back {oldN : Nat → Nat} {oldE : Nat} {md md2 : MatchingData}
    (hR : Resumed oldN oldE md) (hs : StepBack md md2) : Resumed oldN oldE md2 := by
  obtain ⟨s1, s2, s3⟩ := hs
  rcases hR with ⟨p1, p2, p3⟩ | ⟨d, d1, d2, d3, d4⟩
  · left
    refine ⟨?_, ?_, ?_⟩
    · intro j hj
      rw [s2 j (by omega), s3]
      exact p1 j (by omega)
    · rw [s2 _ (by omega)]
      exact le_of_eq (p1 md2.currBLit (by omega)).1.symm
    · rw [s3]
      exact (p1 md2.currBLit (by omega)).2
  · by_cases hd : d ≤ md2.currBLit
    · right
      refine ⟨d, hd, ?_, d3, ?_⟩
      · intro j hj
        rw [s2 j (by omega), s3]
        exact d2 j hj
      · rw [s3, s2 d (by omega)]
        exact d4
    · left
      have hdc : d = md.currBLit := by omega
      subst hdc
      refine ⟨?_, ?_, ?_⟩
      · intro j hj
        rw [s2 j (by omega), s3]
        exact d2 j (by omega)
      · rw [s2 _ (by omega)]
        exact le_of_eq (d2 md2.currBLit (by omega)).1.symm
      · rw [s3]
        exact (d2 md2.currBLit (by omega)).2

theorem diverged_fwd {oldN : Nat → Nat} {oldE : Nat} {md md2 : MatchingData}
    (hR : Resumed oldN oldE md) (hs : StepFwd md md2) :
    ∃ d, d ≤ md.currBLit ∧ SameBelow oldN oldE md2 d ∧ Strict oldN oldE md2 d := by
  obtain ⟨hc, hs⟩ := hs
  rcases hs with ⟨a1, a2, a3, a4⟩ | ⟨b1, b2, b3⟩
  · -- an alternative of the current level is accepted
    rcases hR with ⟨p1, p2, p3⟩ | ⟨d, d1, d2, d3, d4⟩
    · refine ⟨md.currBLit, le_refl _, ?_, ?_, ?_⟩
      · intro j hj
        rw [a1 j hj, a4 j (by omega)]
        exact p1 j hj
      · exact fun e => a3 (p3.2 e)
      · exact Or.inl ⟨fun e => a3 ((a4 _ (le_refl _)).1 e), by omega⟩
    · refine ⟨d, d1, ?_, d3, ?_⟩
      · intro j hj
        rw [a1 j (by omega), a4 j (by omega)]
        exact d2 j hj
      · rcases Nat.eq_or_lt_of_le d1 with hd | hd
        · subst hd
          rcases d4 with ⟨_, d5⟩ | d5
          · exact Or.inl ⟨fun e => a3 ((a4 _ (le_refl _)).1 e), by omega⟩
          · exact absurd d5 a3
        · rw [a1 d hd]
          rcases d4 with ⟨d5, d6⟩ | d5
          · exact Or.inl ⟨fun e => d5 ((a4 d d1).1 e), d6⟩
          · exact Or.inr ((a4 d d1).2 d5)
  · -- the current level is selected for demodulation
    rcases hR with ⟨p1, p2, p3⟩ | ⟨d, d1, d2, d3, d4⟩
    · refine ⟨md.currBLit, le_refl _, ?_, ?_, Or.inr b3⟩
      · intro j hj
        rw [b1 j hj, b3]
        refine ⟨(p1 j hj).1, ?_⟩
        constructor
        · intro e; omega
        · intro e
          have := (p1 j hj).2.2 e
          omega
      · intro e
        have := p3.2 e
        omega
    · rcases Nat.eq_or_lt_of_le d1 with hd | hd
      · subst hd
        refine ⟨md.currBLit, le_refl _, ?_, d3, Or.inr b3⟩
        intro j hj
        rw [b1 j hj, b3]
        refine ⟨(d2 j hj).1, ?_⟩
        constructor
        · intro e; omega
        · intro e
          have := (d2 j hj).2.2 e
          omega
      · refine ⟨d, d1, ?_, d3, ?_⟩
        · intro j hj
          rw [b1 j (by omega), b3]
          refine ⟨(d2 j hj).1, ?_⟩
          constructor
          · intro e; omega
          · intro e
            have := (d2 j hj).2.2 e
            omega
        · rw [b1 d hd, b3]
          rcases d4 with ⟨d5, d6⟩ | d5
          · exact Or.inl ⟨by omega, d6⟩
          · omega

theorem round_resumed {oldN : Nat → Nat} {oldE : Nat} {md : MatchingData} {r : Round}
    (hR : Resumed oldN oldE md) (hc : RoundCtl md r) : RoundResumed oldN oldE r := by
  cases r with
  | backtrackInit md2 => exact resumed_back hR hc
  | next md2 =>
      rcases hc with hc | hc
      · exact resumed_back hR hc
      · obtain ⟨d, d1, d2, d3⟩ := diverged_fwd hR hc
        exact Or.inr ⟨d, by rw [hc.1]; omega, d2, d3⟩
  | complete md2 =>
      obtain ⟨d, d1, d2, d3⟩ := diverged_fwd hR hc
      refine ⟨d, ?_, d2, d3⟩
      show d ≤ dec32 md2.currBLit
      rw [hc.1, dec32_succ]
      exact d1
  | fail md2 => trivial

/-- A call of `nextMatch` that follows a match and returns `true` has left the
choices of that match at some level. -/
theorem nextMatchLoop_diverged (tl : Nat → Bool) (oldN : Nat → Nat) (oldE : Nat) :
    ∀ (fuel t : Nat) (impl impl2 : Impl),
      InvAt impl.s_matchingData impl.s_matchingData.currBLit →
      Resumed oldN oldE impl.s_matchingData →
      nextMatchLoop tl fuel t impl = some (MatchResult.returned true impl2) →
      Diverged oldN oldE impl2.s_matchingData := by
  intro fuel
  induction fuel with
  | zero => intro t impl impl2 _ _ h; simp [nextMatchLoop] at h
  | succ fuel ih =>
      intro t impl impl2 hinv hR h
      have hr := nextMatchRound_inv impl.s_matchingData hinv
      have hq := round_resumed hR (nextMatchRound_ctl impl.s_matchingData hinv)
      unfold nextMatchLoop at h
      generalize nextMatchRound impl.s_matchingData = r at hr hq h
      cases r with
      | backtrackInit md2 =>
          exact ih (t + 1) { impl with s_matchingData := md2 } impl2 hr hq h
      | fail md2 =>
          simp at h
      | complete md2 =>
          simp only [Option.some.injEq, MatchResult.returned.injEq, true_and] at h
          rw [← h]
          exact hq
      | next md2 =>
          simp only at h
          split at h
          · split at h
            · simp at h
            · exact ih (t + 1) { s_matchingData := md2, s_counter := 0 } impl2 hr hq h
          · exact ih (t + 1) { s_matchingData := md2, s_counter := impl.s_counter + 1 } impl2
              hr hq h

theorem resumed_self (md : MatchingData) :
    Resumed md.nextAlts md.eqLitForDemodulation md :=
  Or.inl ⟨fun _ _ => ⟨rfl, Iff.rfl⟩, le_refl _, Iff.rfl⟩

end Kernel

namespace Kernel

open MatchingData

/-! ## The choices of rows -/

theorem mem_tuples {α : Type} : ∀ (L : List (List α)) (t : List α),
    t ∈ tuples L ↔ List.Forall₂ (fun a l => a ∈ l) t L
  | [], t => by
      simp only [tuples, List.mem_singleton]
      constructor
      · intro h; rw [h]; exact List.Forall₂.nil
      · intro h; cases h; rfl
  | l :: ls, t => by
      simp only [tuples, List.mem_flatMap, List.mem_map]
      constructor
      · rintro ⟨a, ha, s, hs, rfl⟩
        exact List.Forall₂.cons ha ((mem_tuples ls s).1 hs)
      · intro h
        cases h with
        | cons ha hs => exact ⟨_, ha, _, (mem_tuples ls _).2 hs, rfl⟩

theorem mem_tuplesFrom {md : MatchingData} {d n : Nat} {s : List (Literal × AltRow)}
    (h : s ∈ md.tuplesFrom d n) :
    s.length = n ∧ ∀ i, i < n → ∃ r, r ∈ md.rowsP (d + i) ∧
      s.getD i default = (md.bases.getD (d + i) default, r) := by
  induction n generalizing d s with
  | zero =>
      simp only [tuplesFrom, List.range'_zero, List.map_nil, tuples, List.mem_singleton] at h
      subst h
      exact ⟨rfl, fun i hi => by omega⟩
  | succ n ih =>
      simp only [tuplesFrom, List.range'_succ, List.map_cons, tuples, List.mem_flatMap,
        List.mem_map] at h
      obtain ⟨a, ha, t, ht, rfl⟩ := h
      obtain ⟨h1, h2⟩ := ih ht
      refine ⟨by simp [h1], ?_⟩
      intro i hi
      cases i with
      | zero =>
          simp only [levelRows, List.mem_map] at ha
          obtain ⟨r, hr, rfl⟩ := ha
          exact ⟨r, hr, rfl⟩
      | succ i =>
          obtain ⟨r, hr, e⟩ := h2 i (by omega)
          refine ⟨r, ?_, ?_⟩
          · rw [show d + (i + 1) = d + 1 + i by omega]; exact hr
          · rw [show d + (i + 1) = d + 1 + i by omega, ← e]; rfl

theorem mem_ext {md : MatchingData} {p t : List (Literal × AltRow)} (h : t ∈ md.ext p) :
    t.Pairwise RowsAgree ∧ ∃ s, t = p ++ s ∧ s ∈ md.tuplesFrom p.length (md.len - p.length) := by
  simp only [ext, List.mem_filter, List.mem_map, decide_eq_true_eq] at h
  obtain ⟨⟨s, hs, rfl⟩, hp⟩ := h
  exact ⟨hp, s, rfl, hs⟩

/-- The valid choices that begin with `p` are found by choosing a row of the
next level and going on from there. -/
theorem ext_step (md : MatchingData) (p : List (Literal × AltRow)) (h : p.length < md.len) :
    md.ext p = (md.levelRows p.length).flatMap (fun x => md.ext (p ++ [x])) := by
  obtain ⟨n, hn⟩ : ∃ n, md.len - p.length = n + 1 := ⟨md.len - p.length - 1, by omega⟩
  have hn2 : md.len - (p.length + 1) = n := by omega
  unfold ext
  rw [hn]
  simp only [tuplesFrom, List.range'_succ, List.map_cons, tuples, List.length_append,
    List.length_singleton, hn2]
  rw [List.map_flatMap, List.filter_flatMap]
  congr 1
  funext a
  rw [List.map_map]
  congr 2
  funext t
  simp

theorem ext_full (md : MatchingData) (p : List (Literal × AltRow)) (h : p.length = md.len) :
    md.ext p = if p.Pairwise RowsAgree then [p] else [] := by
  unfold ext
  rw [h, Nat.sub_self]
  simp only [tuplesFrom, List.range'_zero, List.map_nil, tuples, List.map_cons,
    List.append_nil]
  by_cases hp : p.Pairwise RowsAgree
  · simp [hp]
  · simp [hp]

theorem ext_nil_of_not_pairwise (md : MatchingData) (p : List (Literal × AltRow))
    (h : ¬ p.Pairwise RowsAgree) : md.ext p = [] := by
  rw [List.eq_nil_iff_forall_not_mem]
  intro t ht
  obtain ⟨h1, s, rfl, _⟩ := mem_ext ht
  exact h (List.pairwise_append.1 h1).1

/-- No valid choice begins with `p` when every row of some later level
disagrees with a member of `p`. -/
theorem ext_nil_of_level (md : MatchingData) (p : List (Literal × AltRow)) (l : Nat)
    (h1 : p.length ≤ l) (h2 : l < md.len)
    (h : ∀ r, r ∈ md.rowsP l → ∃ x, x ∈ p ∧ ¬ RowsAgree x (md.bases.getD l default, r)) :
    md.ext p = [] := by
  rw [List.eq_nil_iff_forall_not_mem]
  intro t ht
  obtain ⟨hp, s, rfl, hs⟩ := mem_ext ht
  obtain ⟨g1, g2⟩ := mem_tuplesFrom hs
  obtain ⟨r, hr, e⟩ := g2 (l - p.length) (by omega)
  rw [show p.length + (l - p.length) = l by omega] at hr e
  obtain ⟨x, hx, hna⟩ := h r hr
  apply hna
  have hmem : (md.bases.getD l default, r) ∈ s := by
    rw [← e, List.getD_eq_getElem?_getD,
      List.getElem?_eq_getElem (show l - p.length < s.length by omega)]
    exact List.getElem_mem _
  exact (List.pairwise_append.1 hp).2.2 x hx _ hmem

theorem ext_congr {md md2 : MatchingData} (h : SameProblem md md2)
    (p : List (Literal × AltRow)) : md2.ext p = md.ext p := by
  obtain ⟨h1, h2, h3, h4⟩ := h
  have hl : md2.levelRows = md.levelRows := by
    funext i
    simp [levelRows, rowsP, h2, h3, h4]
  unfold ext tuplesFrom
  rw [hl, h1]

theorem rowsAgree_symm {x y : Literal × AltRow} (h : RowsAgree x y) : RowsAgree y x :=
  ⟨fun v h1 h2 => (h.1 v h2 h1).symm, fun e => h.2 e.symm⟩

end Kernel

namespace Kernel

open MatchingData

/-! ## Compatible rows and rows that agree -/

/-- Every pair the loop of `getIntersectInfo` lists is a pair of positions at
which the two variable arrays hold the same variable. -/
theorem intersectLoop_sound :
    ∀ (fuel : Nat) (l1 : List Nat) (i1 : Nat) (l2 : List Nat) (i2 : Nat)
      (acc : List (Nat × Nat)) (p : Nat × Nat),
      p ∈ intersectLoop fuel l1 i1 l2 i2 acc →
      p ∈ acc ∨ ∃ k1 k2, p = (i1 + k1, i2 + k2) ∧ k1 < l1.length ∧ k2 < l2.length ∧
        l1.getD k1 0 = l2.getD k2 0 := by
  intro fuel
  induction fuel with
  | zero => intro l1 i1 l2 i2 acc p h; exact Or.inl h
  | succ fuel ih =>
      intro l1 i1 l2 i2 acc p h
      unfold intersectLoop at h
      simp only at h
      generalize (l1.takeWhile (fun v => decide (v < l2.headD 0))).length = s1 at h
      cases hd1 : l1.drop s1 with
      | nil => rw [hd1] at h; exact Or.inl h
      | cons v1 rest1 =>
          rw [hd1] at h
          simp only at h
          obtain ⟨b1, b2, b3, b4⟩ := drop_eq_cons hd1
          generalize (l2.takeWhile (fun w => decide (v1 > w))).length = s2 at h
          cases hd2 : l2.drop s2 with
          | nil => rw [hd2] at h; exact Or.inl h
          | cons v2 rest2 =>
              rw [hd2] at h
              simp only at h
              obtain ⟨d1, d2, d3, d4⟩ := drop_eq_cons hd2
              have hpair : ∀ q, q ∈ acc ++ [(i1 + s1, i2 + s2)] → v1 = v2 →
                  q ∈ acc ∨ ∃ k1 k2, q = (i1 + k1, i2 + k2) ∧ k1 < l1.length ∧ k2 < l2.length ∧
                    l1.getD k1 0 = l2.getD k2 0 := by
                intro q hq hv
                rcases List.mem_append.1 hq with hq | hq
                · exact Or.inl hq
                · simp only [List.mem_singleton] at hq
                  exact Or.inr ⟨s1, s2, hq, b1, d1, by rw [b2, d2, hv]⟩
              by_cases hv : v1 = v2
              · rw [if_pos hv] at h
                by_cases hemp : (rest1.isEmpty || rest2.isEmpty) = true
                · rw [if_pos hemp] at h
                  exact hpair p h hv
                · rw [if_neg hemp] at h
                  rcases ih _ _ _ _ _ _ h with g | ⟨k1, k2, g1, g2, g3, g4⟩
                  · exact hpair p g hv
                  · refine Or.inr ⟨s1 + 1 + k1, s2 + 1 + k2, ?_, by omega, by omega, ?_⟩
                    · rw [g1]; congr 1 <;> omega
                    · rw [b3, d3, getD_drop_nat, getD_drop_nat] at g4
                      exact g4
              · rw [if_neg hv] at h
                rcases ih _ _ _ _ _ _ h with g | ⟨k1, k2, g1, g2, g3, g4⟩
                · exact Or.inl g
                · simp only [List.length_cons] at g2 g3
                  refine Or.inr ⟨s1 + k1, s2 + k2, ?_, by omega, by omega, ?_⟩
                  · rw [g1]; congr 1 <;> omega
                  · rw [← hd1, ← hd2, getD_drop_nat, getD_drop_nat] at g4
                    exact g4

/-- Two rows that bind every shared variable to the same term pass the test of
`compatible`. -/
theorem compatP_of_agree (md : MatchingData) (j i : Nat) (r1 r2 : AltRow)
    (h : ∀ v, v ∈ md.varsP j → v ∈ md.varsP i →
      rowSubst (md.varsP j) r1 v = rowSubst (md.varsP i) r2 v) :
    md.compatP j i r1 r2 = true := by
  unfold compatP compatibleRows
  rw [List.all_eq_true]
  intro pq hpq
  rcases intersectLoop_sound _ _ _ _ _ _ _ hpq with g | ⟨k1, k2, g1, g2, g3, g4⟩
  · cases g
  · have hv1 : (md.varsP j).getD k1 0 ∈ md.varsP j := by
      rw [List.getD_eq_getElem?_getD, List.getElem?_eq_getElem g2]
      exact List.getElem_mem _
    have hv2 : (md.varsP j).getD k1 0 ∈ md.varsP i := by
      rw [g4, List.getD_eq_getElem?_getD, List.getElem?_eq_getElem g3]
      exact List.getElem_mem _
    have := h _ hv1 hv2
    unfold rowSubst at this
    have e1 : (md.varsP j).indexOf ((md.varsP j).getD k1 0) = k1 :=
      indexOf_getD_nat _ (boundVarsOf_nodup _) k1 g2
    have e2 : (md.varsP i).indexOf ((md.varsP j).getD k1 0) = k2 := by
      rw [g4]; exact indexOf_getD_nat _ (boundVarsOf_nodup _) k2 g3
    rw [e1, e2] at this
    rw [g1]
    simpa using this

theorem not_agree_of_incompat (md : MatchingData) {j i : Nat} {r1 r2 : AltRow}
    (h : md.compatP j i r1 r2 = false) :
    ¬ RowsAgree (md.bases.getD j default, r1) (md.bases.getD i default, r2) := by
  intro ha
  have := compatP_of_agree md j i r1 r2 (fun v h1 h2 =>
    ha.1 v ((mem_boundVarsOf _ v).1 h1) ((mem_boundVarsOf _ v).1 h2))
  rw [h] at this
  cases this

theorem agree_of_compat (md : MatchingData) {j i : Nat} {r1 r2 : AltRow}
    (h : md.compatP j i r1 r2 = true) (hp : r1.pos ≠ r2.pos) :
    RowsAgree (md.bases.getD j default, r1) (md.bases.getD i default, r2) :=
  ⟨fun v h1 h2 => compatP_agree md j i r1 r2 h v ((mem_boundVarsOf _ v).2 h1)
    ((mem_boundVarsOf _ v).2 h2), hp⟩

theorem mem_prefixSel (md : MatchingData) {j d : Nat} (h : j < d) :
    (md.bases.getD j default, md.selRow j) ∈ md.prefixSel d :=
  List.mem_map.2 ⟨j, List.mem_range.2 h, rfl⟩

theorem prefixSel_length (md : MatchingData) (d : Nat) : (md.prefixSel d).length = d := by
  simp [prefixSel]

theorem prefixSel_succ (md : MatchingData) (d : Nat) :
    md.prefixSel (d + 1) = md.prefixSel d ++ [(md.bases.getD d default, md.selRow d)] := by
  simp [prefixSel, List.range_succ]

theorem not_pairwise_append_singleton {p : List (Literal × AltRow)} {x y : Literal × AltRow}
    (hx : x ∈ p) (h : ¬ RowsAgree x y) : ¬ (p ++ [y]).Pairwise RowsAgree := by
  intro hp
  exact h ((List.pairwise_append.1 hp).2.2 x hx y (List.mem_singleton_self _))

namespace MatchingData

/-- No valid choice takes, after the choices made before the current level, a
row of the current level that is not among the remaining ones. -/
theorem InvAt.ext_nil_of_excluded {md : MatchingData} {u : Nat} (h : InvAt md u)
    (hinit : md.isInitialized md.currBLit = true) (a : Nat)
    (h1 : md.remaining md.currBLit md.currBLit ≤ a)
    (h2 : a < (md.altBindings md.currBLit).length) :
    md.ext (md.prefixSel md.currBLit
      ++ [(md.bases.getD md.currBLit default, (md.altBindings md.currBLit).getD a default)])
      = [] := by
  obtain ⟨j, j1, j2, j3⟩ := h.compl md.currBLit md.currBLit a hinit (le_refl _) (le_refl _) h1 h2
  exact ext_nil_of_not_pairwise _ _
    (not_pairwise_append_singleton (mem_prefixSel md j1) (not_agree_of_incompat md j3))

/-- No valid choice takes, after the choices made before the current level, an
alternative of the current level that the scan has passed over. -/
theorem InvAt.ext_nil_of_dead {md : MatchingData} (h : InvAt md md.currBLit) (a : Nat)
    (hd : Dead md a) :
    md.ext (md.prefixSel md.currBLit
      ++ [(md.bases.getD md.currBLit default, (md.altBindings md.currBLit).getD a default)])
      = [] := by
  rcases hd with hd | ⟨l, l1, l2, l3, l4⟩
  · obtain ⟨_, e⟩ := h.rec_exact _ _ rfl hd
    refine ext_nil_of_not_pairwise _ _
      (not_pairwise_append_singleton (mem_prefixSel md hd) (fun ha => ha.2 ?_))
    exact e
  · refine ext_nil_of_level md _ l (by simp [prefixSel_length]; omega) l2 ?_
    intro r hr
    have hr2 : r ∈ md.altBindings l := (h.init_rows l l3).mem_iff.2 hr
    obtain ⟨k, hk, e⟩ := List.mem_iff_getElem.1 hr2
    have eD : (md.altBindings l).getD k default = r := by
      rw [List.getD_eq_getElem?_getD, List.getElem?_eq_getElem hk]; simpa using e
    by_cases hkr : k < md.remaining l md.currBLit
    · refine ⟨_, List.mem_append_right _ (List.mem_singleton_self _), ?_⟩
      rw [← eD]
      exact not_agree_of_incompat md (l4 k hkr)
    · obtain ⟨j, j1, j2, j3⟩ := h.compl l md.currBLit k l3 (by omega) (le_refl _) (by omega) hk
      refine ⟨_, List.mem_append_left _ (mem_prefixSel md j1), ?_⟩
      rw [← eD]
      exact not_agree_of_incompat md j3

end MatchingData

end Kernel

namespace Kernel

open MatchingData

/-! ## The choices ahead of the search -/

theorem flatMap_drop_of_nil {β : Type} (l : List AltRow) (f : AltRow → List β) :
    ∀ (k n1 n2 : Nat), n2 = n1 + k →
      (∀ a, n1 ≤ a → a < n2 → a < l.length → f (l.getD a default) = []) →
      (l.drop n1).flatMap f = (l.drop n2).flatMap f := by
  intro k
  induction k with
  | zero => intro n1 n2 h _; rw [h]; rfl
  | succ k ih =>
      intro n1 n2 h hf
      by_cases hl : n1 < l.length
      · rw [List.drop_eq_getElem_cons hl, List.flatMap_cons]
        have e := hf n1 (le_refl _) (by omega) hl
        rw [List.getD_eq_getElem?_getD, List.getElem?_eq_getElem hl] at e
        simp only [Option.getD_some] at e
        rw [e, List.nil_append]
        exact ih (n1 + 1) n2 (by omega) (fun a h1 h2 h3 => hf a (by omega) h2 h3)
      · rw [List.drop_eq_nil_of_le (by omega), List.drop_eq_nil_of_le (by omega)]

theorem flatMap_drop_nil {β : Type} (l : List AltRow) (f : AltRow → List β) (n : Nat)
    (h : ∀ a, n ≤ a → a < l.length → f (l.getD a default) = []) :
    (l.drop n).flatMap f = [] := by
  by_cases hn : n ≤ l.length
  · rw [flatMap_drop_of_nil l f (l.length - n) n l.length (by omega)
      (fun a h1 _ h3 => h a h1 h3)]
    simp
  · rw [List.drop_eq_nil_of_le (by omega)]
    rfl

theorem selRow_eq_of_agreeBelow {md md2 : MatchingData} {n : Nat} (h : AgreeBelow md md2 n)
    {j : Nat} (hj : j < n) : md2.selRow j = md.selRow j := by
  unfold selRow
  rw [(h j hj).1, (h j hj).2.1]

theorem prefixSel_eq_of_agreeBelow {md md2 : MatchingData} {n : Nat}
    (hs : SameProblem md md2) (h : AgreeBelow md md2 n) :
    ∀ d, d ≤ n → md2.prefixSel d = md.prefixSel d := by
  intro d hd
  unfold prefixSel
  apply List.map_congr_left
  intro j hj
  rw [selRow_eq_of_agreeBelow h (by have := List.mem_range.1 hj; omega), hs.2.1]

theorem rowsCur_eq_of_agreeBelow {md md2 : MatchingData} {n : Nat}
    (hs : SameProblem md md2) (h : AgreeBelow md md2 n) {d : Nat} (hd : d < n) :
    md2.rowsCur d = md.rowsCur d := by
  unfold rowsCur
  rw [(h d hd).1, (h d hd).2.2, hs.rowsP_eq]

theorem futTerm_eq_of_agreeBelow {md md2 : MatchingData} {n : Nat}
    (hs : SameProblem md md2) (h : AgreeBelow md md2 n) {d : Nat} (hd : d < n) :
    md2.futTerm d = md.futTerm d := by
  unfold futTerm
  rw [rowsCur_eq_of_agreeBelow hs h hd, (h d hd).2.1,
    prefixSel_eq_of_agreeBelow hs h d (by omega), hs.2.1]
  congr 1
  funext r
  exact ext_congr hs _

theorem fut_eq_of_agreeBelow {md md2 : MatchingData} (hs : SameProblem md md2) :
    ∀ n, AgreeBelow md md2 n → md2.fut n = md.fut n := by
  intro n
  induction n with
  | zero => intro _; rfl
  | succ n ih =>
      intro h
      simp only [fut]
      rw [ih (fun j hj => h j (by omega)), futTerm_eq_of_agreeBelow hs h (Nat.lt_succ_self n)]

theorem futTerm_nil_of {md : MatchingData} {d : Nat}
    (h : ∀ a, md.nextAlts d ≤ a → a < (md.rowsCur d).length →
      md.ext (md.prefixSel d ++ [(md.bases.getD d default, (md.rowsCur d).getD a default)]) = []) :
    md.futTerm d = [] :=
  flatMap_drop_nil _ _ _ h

theorem rowsCur_of_init {md : MatchingData} {d : Nat} (h : md.isInitialized d = true) :
    md.rowsCur d = md.altBindings d := by
  unfold rowsCur
  rw [if_pos h]

theorem rowsCur_of_uninit {md : MatchingData} {d : Nat} (h : md.isInitialized d = false) :
    md.rowsCur d = md.rowsP d := by
  unfold rowsCur
  rw [if_neg (by simp [h])]

namespace MatchingData

theorem InvAt.rowsCur_perm {md : MatchingData} {u : Nat} (h : InvAt md u) (d : Nat) :
    (md.rowsCur d).Perm (md.rowsP d) := by
  by_cases hi : md.isInitialized d = true
  · rw [rowsCur_of_init hi]; exact h.init_rows d hi
  · rw [rowsCur_of_uninit (by simpa using hi)]

/-- When the alternatives of the current level are used up, no valid choice
that agrees with the choices made before is ahead at this level. -/
theorem InvAt.futTerm_nil_of_exhausted {md : MatchingData} {u : Nat} (h : InvAt md u)
    (hinit : md.isInitialized md.currBLit = true)
    (hge : ¬ md.nextAlts md.currBLit < md.remaining md.currBLit md.currBLit) :
    md.futTerm md.currBLit = [] := by
  apply futTerm_nil_of
  intro a h1 h2
  rw [rowsCur_of_init hinit] at h2 ⊢
  exact h.ext_nil_of_excluded hinit a (by omega) h2

end MatchingData

/-- All valid choices that begin with the choices made before level `d` are
found by taking any row of level `d`. -/
theorem flatMap_rowsCur_ext {md : MatchingData} {u : Nat} (h : InvAt md u) (d : Nat)
    (hd : d < md.len) :
    ((md.rowsCur d).flatMap
      (fun r => md.ext (md.prefixSel d ++ [(md.bases.getD d default, r)]))).Perm
      (md.ext (md.prefixSel d)) := by
  rw [ext_step md (md.prefixSel d) (by rw [prefixSel_length]; exact hd), prefixSel_length]
  unfold levelRows
  rw [List.flatMap_map]
  exact List.Perm.flatMap_right _ (h.rowsCur_perm d)

end Kernel

namespace Kernel

open MatchingData

/-! ## The enumeration invariant through one round -/

theorem initRel_same {c : Nat} {md md1 : MatchingData} (h : InitRel c md md1) :
    SameProblem md md1 :=
  ⟨h.len, h.bases, h.alts, h.inst⟩

theorem initRel_agreeBelow {c : Nat} {md md1 : MatchingData} (h : InitRel c md md1) :
    AgreeBelow md md1 c := by
  intro j hj
  have hne : j ≠ c := by omega
  refine ⟨h.other_alt j hne, by rw [h.nextAlts], ?_⟩
  simp [MatchingData.isInitialized, h.other_bv j hne]

theorem scanRel_same {md md2 : MatchingData} (h : ScanRel md md2) : SameProblem md md2 :=
  ⟨h.len, h.bases, h.alts, h.inst⟩

theorem scanRel_agreeBelow {md md2 : MatchingData} (h : ScanRel md md2) :
    AgreeBelow md md2 md.currBLit := by
  intro j hj
  exact ⟨h.alt_le j (by omega), h.next_ne j (by omega), h.scan_isInitialized j⟩

/-- The choices ahead do not depend on the current level. -/
theorem fut_currBLit (md : MatchingData) (x n : Nat) :
    ({ md with currBLit := x } : MatchingData).fut n = md.fut n :=
  @fut_eq_of_agreeBelow md { md with currBLit := x } ⟨rfl, rfl, rfl, rfl⟩ n
    (fun _ _ => ⟨rfl, rfl, rfl⟩)

/-- Initialising the current level keeps the choices ahead, up to their
order. -/
theorem fut_ensureInit {md md1 : MatchingData} (h : InvAt md md.currBLit)
    (hrel : InitRel md.currBLit md md1)
    (hfix : md.isInitialized md.currBLit = true → md1 = md)
    (hinv : InvAt md1 md1.currBLit)
    (hinit : md1.isInitialized md.currBLit = true) :
    (md1.fut (md.currBLit + 1)).Perm (md.fut (md.currBLit + 1)) := by
  by_cases hi : md.isInitialized md.currBLit = true
  · rw [hfix hi]
  · have hi2 : md.isInitialized md.currBLit = false := by simpa using hi
    have hs := initRel_same hrel
    have ha := initRel_agreeBelow hrel
    simp only [fut]
    rw [fut_eq_of_agreeBelow hs _ ha]
    apply List.Perm.append_left
    unfold futTerm
    rw [hrel.nextAlts, h.cur_fresh hi2, List.drop_zero, List.drop_zero,
      prefixSel_eq_of_agreeBelow hs ha _ (le_refl _), hrel.bases]
    have hf : (fun r => md1.ext (md.prefixSel md.currBLit
          ++ [(md.bases.getD md.currBLit default, r)]))
        = (fun r => md.ext (md.prefixSel md.currBLit
          ++ [(md.bases.getD md.currBLit default, r)])) := by
      funext r
      exact ext_congr hs _
    rw [hf]
    apply List.Perm.flatMap_right
    rw [rowsCur_of_init hinit, rowsCur_of_uninit hi2, ← hs.rowsP_eq]
    exact hinv.init_rows _ hinit

/-- The scan of the alternatives keeps the choices ahead: no valid choice takes
an alternative the scan has passed over. -/
theorem fut_scan {maxAlt : Nat} {md1 md2 : MatchingData}
    (hinit : md1.isInitialized md1.currBLit = true)
    (hfa : FindAltPost maxAlt md1 md2) :
    md2.fut (md1.currBLit + 1) = md1.fut (md1.currBLit + 1) := by
  obtain ⟨g1, g2, g3, g4, g5⟩ := hfa
  have hs := scanRel_same g1
  have ha := scanRel_agreeBelow g1
  have hi2 : md2.isInitialized md1.currBLit = true := by
    rw [g1.scan_isInitialized]; exact hinit
  simp only [fut]
  rw [fut_eq_of_agreeBelow hs _ ha]
  congr 1
  have hrows : md2.rowsCur md1.currBLit = md1.rowsCur md1.currBLit := by
    rw [rowsCur_of_init hi2, rowsCur_of_init hinit, g1.alt_le _ (le_refl _)]
  have hf : (fun r => md2.ext (md2.prefixSel md1.currBLit
        ++ [(md2.bases.getD md1.currBLit default, r)]))
      = (fun r => md1.ext (md1.prefixSel md1.currBLit
        ++ [(md1.bases.getD md1.currBLit default, r)])) := by
    funext r
    rw [prefixSel_eq_of_agreeBelow hs ha _ (le_refl _), g1.bases]
    exact ext_congr hs _
  unfold futTerm
  rw [hrows, hf]
  symm
  refine flatMap_drop_of_nil _ _ (md2.nextAlts md1.currBLit - md1.nextAlts md1.currBLit) _ _
    (by have := g1.next_ge; omega) ?_
  intro a h1 h2 h3
  have hd := g2.ext_nil_of_dead a (g5 a h1 (by rw [g1.currBLit]; exact h2))
  rw [g1.currBLit, prefixSel_eq_of_agreeBelow hs ha _ (le_refl _), g1.bases,
    g1.alt_le _ (le_refl _), ext_congr hs] at hd
  rw [rowsCur_of_init hinit]
  exact hd

theorem accepted_agreeBelow (md : MatchingData) : AgreeBelow md md.accepted md.currBLit := by
  intro j hj
  refine ⟨rfl, ?_, rfl⟩
  simp [accepted, Function.update, show j ≠ md.currBLit by omega]

/-- Accepting the alternative `nextAlts[currBLit]` splits the choices ahead at
the current level into those that take this alternative and those that take a
later one. -/
theorem futTerm_accept {md : MatchingData} (h : InvAt md md.currBLit)
    (hinit : md.isInitialized md.currBLit = true)
    (hlt : md.nextAlts md.currBLit < md.remaining md.currBLit md.currBLit) :
    md.futTerm md.currBLit
      = md.ext (md.accepted.prefixSel (md.currBLit + 1)) ++ md.accepted.futTerm md.currBLit ∧
    md.accepted.fut md.currBLit = md.fut md.currBLit := by
  have hs : SameProblem md md.accepted := ⟨rfl, rfl, rfl, rfl⟩
  have ha := accepted_agreeBelow md
  refine ⟨?_, fut_eq_of_agreeBelow hs _ ha⟩
  have hN : md.accepted.nextAlts md.currBLit = md.nextAlts md.currBLit + 1 := by
    simp [accepted]
  have hlen : md.nextAlts md.currBLit < (md.altBindings md.currBLit).length := by
    have := h.rem_le md.currBLit md.currBLit hinit (le_refl _)
    omega
  have hsel : md.accepted.selRow md.currBLit
      = (md.altBindings md.currBLit)[md.nextAlts md.currBLit] := by
    unfold selRow
    rw [hN, dec32_succ]
    show (md.altBindings md.currBLit).getD (md.nextAlts md.currBLit) default = _
    rw [List.getD_eq_getElem?_getD, List.getElem?_eq_getElem hlen]
    rfl
  have hia : md.accepted.isInitialized md.currBLit = true := hinit
  unfold futTerm
  rw [rowsCur_of_init hinit, rowsCur_of_init hia, hN, prefixSel_succ,
    prefixSel_eq_of_agreeBelow hs ha _ (le_refl _), hsel]
  show _ = _ ++ ((md.altBindings md.currBLit).drop (md.nextAlts md.currBLit + 1)).flatMap
    (fun r => md.ext (md.prefixSel md.currBLit ++ [(md.bases.getD md.currBLit default, r)]))
  rw [List.drop_eq_getElem_cons hlen, List.flatMap_cons]
  rfl

theorem advanced_agreeBelow (md : MatchingData) :
    AgreeBelow md md.advanced (md.currBLit + 1) := by
  intro j hj
  refine ⟨rfl, ?_, rfl⟩
  simp [advanced, Function.update, show j ≠ md.currBLit + 1 by omega]

/-- After the step to the next level the choices ahead are those that were ahead
before and all valid choices that begin with the choices made so far. -/
theorem fut_advance {md : MatchingData} (h : InvAt md.advanced md.advanced.currBLit)
    (hlen : md.currBLit + 1 < md.len) :
    (md.advanced.fut (md.currBLit + 1 + 1)).Perm
      (md.fut (md.currBLit + 1) ++ md.ext (md.prefixSel (md.currBLit + 1))) := by
  have hs : SameProblem md md.advanced := ⟨rfl, rfl, rfl, rfl⟩
  have ha := advanced_agreeBelow md
  rw [fut, fut_eq_of_agreeBelow hs _ ha]
  apply List.Perm.append_left
  have hN : md.advanced.nextAlts (md.currBLit + 1) = 0 := by simp [advanced]
  have hp := flatMap_rowsCur_ext h (md.currBLit + 1) hlen
  rw [prefixSel_eq_of_agreeBelow hs ha _ (le_refl _), ext_congr hs] at hp
  unfold futTerm
  rw [hN, List.drop_zero, prefixSel_eq_of_agreeBelow hs ha _ (le_refl _)]
  exact hp

/-- In a matched state without a skipped level the selected rows go together
pairwise. -/
theorem prefixSel_pairwise {md : MatchingData} (h : Matched md)
    (he : md.eqLitForDemodulation = NONE) : (md.prefixSel md.len).Pairwise RowsAgree := by
  have hN : ∀ i, i < md.len → i ≠ md.eqLitForDemodulation := by
    intro i hi
    have := h.1.len_le
    omega
  unfold prefixSel
  rw [List.pairwise_map]
  refine List.Pairwise.imp_of_mem ?_ (List.pairwise_lt_range md.len)
  intro i j hi hj hij
  have hi2 := List.mem_range.1 hi
  have hj2 := List.mem_range.1 hj
  refine agree_of_compat md (h.sel_compat i j hij hj2 (hN i hi2) (hN j hj2)) ?_
  intro hp
  have := h.pos_inj i j hi2 hj2 (hN i hi2) (hN j hj2) hp
  omega

/-- When the current level has no rows, no valid choice is ahead. -/
theorem fut_nil_of_no_rows {md : MatchingData} (hlt : md.currBLit < md.len)
    (hun : md.isInitialized md.currBLit = false) (hnil : md.rowsP md.currBLit = []) :
    md.fut (md.currBLit + 1) = [] ∧ md.ext [] = [] := by
  have hext : ∀ p : List (Literal × AltRow), p.length ≤ md.currBLit → md.ext p = [] := by
    intro p hp
    refine ext_nil_of_level md p md.currBLit hp hlt ?_
    intro r hr
    rw [hnil] at hr
    cases hr
  refine ⟨?_, hext [] (Nat.zero_le _)⟩
  have hfut : ∀ n, n ≤ md.currBLit → md.fut n = [] := by
    intro n
    induction n with
    | zero => intro _; rfl
    | succ n ih =>
        intro hn
        rw [fut, ih (by omega), List.nil_append]
        apply futTerm_nil_of
        intro a _ _
        exact hext _ (by simp [prefixSel_length]; omega)
  rw [fut, hfut _ (le_refl _), List.nil_append]
  unfold futTerm
  rw [rowsCur_of_uninit hun, hnil]
  simp

end Kernel

namespace Kernel

open MatchingData

/-- The state after initialisation and scan has the same choices ahead as the
state at the head of the round. -/
theorem fut_round_head {maxAlt : Nat} {md md1 md2 : MatchingData} (h : InvAt md md.currBLit)
    (hrel : InitRel md.currBLit md md1)
    (hfix : md.isInitialized md.currBLit = true → md1 = md)
    (hinv : InvAt md1 md1.currBLit)
    (hinit : md1.isInitialized md1.currBLit = true)
    (hfa : FindAltPost maxAlt md1 md2) :
    (md2.fut (md2.currBLit + 1)).Perm (md.fut (md.currBLit + 1)) ∧ SameProblem md md2 ∧
    md2.currBLit = md.currBLit ∧ md2.eqLitForDemodulation = md.eqLitForDemodulation ∧
    md2.isInitialized md2.currBLit = true ∧ InvAt md2 md2.currBLit ∧
    md2.remaining md2.currBLit md2.currBLit = md1.remaining md1.currBLit md1.currBLit := by
  have p2 := fut_scan hinit hfa
  obtain ⟨g1, g2, g3, g4, g5⟩ := hfa
  have hc2 : md2.currBLit = md.currBLit := g1.currBLit.trans hrel.currBLit
  have p1 := fut_ensureInit h hrel hfix hinv (by rw [← hrel.currBLit]; exact hinit)
  refine ⟨?_, sameProblem_trans (initRel_same hrel) (scanRel_same g1), hc2,
    g1.eqLit.trans hrel.eqLit, ?_, g2, ?_⟩
  · rw [g1.currBLit, p2, hrel.currBLit]
    exact p1
  · rw [g1.scan_isInitialized, g1.currBLit]; exact hinit
  · rw [g1.currBLit, g1.rem _ _ (Or.inl (le_refl _))]

/-- One round of the loop of `nextMatch` keeps the invariant of the
enumeration when no base literal is a positive equality. -/
theorem RoundCase.round_enum {md : MatchingData} {r : Round} (hc : RoundCase md r)
    (h : InvAt md md.currBLit) (hn : NoPosEq md) (rep : List (List (Literal × AltRow)))
    (he : EnumInv rep md) : RoundEnum rep md r := by
  have hri := hc.round_inv
  obtain ⟨he1, he2⟩ := he
  cases hc with
  | initBacktrack md1 hrel hfix hinv hinit hun hc hz hbt =>
      have p1 := fut_ensureInit h hrel hfix hinv hinit
      have hi1 : md1.isInitialized md1.currBLit = true := by rw [hrel.currBLit]; exact hinit
      have hnil := hinv.futTerm_nil_of_exhausted hi1
        (by rw [hrel.currBLit, hz]; omega)
      rw [hrel.currBLit] at hnil
      rw [fut, hnil, List.append_nil] at p1
      refine ⟨hrel.eqLit.trans he1, ?_⟩
      show (rep ++ ({ md1 with currBLit := dec32 md1.currBLit } : MatchingData).fut
        (dec32 md1.currBLit + 1)).Perm (md1.ext [])
      rw [fut_currBLit, hrel.currBLit, dec32_pos hc, Nat.sub_add_cancel hc,
        ext_congr (initRel_same hrel)]
      exact (List.Perm.append_left rep p1).trans he2
  | initFail md1 hrel hfix hun hnil hnpe =>
      obtain ⟨f1, f2⟩ := fut_nil_of_no_rows h.cur_lt hun hnil
      rw [f1, List.append_nil] at he2
      exact he2
  | acceptLast md1 md2 hrel hfix hinv hinit hfa hlt hlast =>
      obtain ⟨q1, q2, q3, q4, q5, q6, q7⟩ := fut_round_head h hrel hfix hinv hinit hfa
      obtain ⟨a1, a2⟩ := futTerm_accept q6 q5 (by rw [q7]; exact hlt)
      obtain ⟨m1, _⟩ := matched_of_accept hinit hfa hlt
      have hM : Matched md2.accepted := by
        refine ⟨?_, hlast⟩
        have : md2.accepted.len = md2.currBLit + 1 := hlast.symm
        rw [this]; exact m1
      have hE : md2.accepted.eqLitForDemodulation = NONE := q4.trans he1
      have hpw := prefixSel_pairwise hM hE
      have hfull : md2.ext (md2.accepted.prefixSel (md2.currBLit + 1))
          = [md2.accepted.prefixSel (md2.currBLit + 1)] := by
        rw [ext_full md2 _ (by rw [prefixSel_length]; exact hlast)]
        have : md2.accepted.len = md2.currBLit + 1 := hlast.symm
        rw [this] at hpw
        rw [if_pos hpw]
      refine ⟨hE, ?_⟩
      show ((rep ++ [md2.accepted.prefixSel md2.accepted.len])
        ++ ({ md2.accepted with currBLit := dec32 (md2.currBLit + 1) } : MatchingData).fut
          (dec32 (md2.currBLit + 1) + 1)).Perm (md2.ext [])
      rw [fut_currBLit, dec32_succ, ext_congr q2, fut, a2]
      have hl : md2.accepted.len = md2.currBLit + 1 := hlast.symm
      rw [hl]
      rw [fut, a1, hfull] at q1
      refine List.Perm.trans ?_ ((List.Perm.append_left rep q1).trans he2)
      rw [List.append_assoc]
      apply List.Perm.append_left
      simp only [List.singleton_append]
      exact List.perm_middle.symm
  | acceptNext md1 md2 hrel hfix hinv hinit hfa hlt hlast =>
      obtain ⟨q1, q2, q3, q4, q5, q6, q7⟩ := fut_round_head h hrel hfix hinv hinit hfa
      obtain ⟨a1, a2⟩ := futTerm_accept q6 q5 (by rw [q7]; exact hlt)
      have hE : md2.accepted.eqLitForDemodulation = NONE := q4.trans he1
      have hlen : md2.accepted.currBLit + 1 < md2.accepted.len := by
        have := q6.cur_lt
        show md2.currBLit + 1 < md2.len
        omega
      have p5 := fut_advance (show InvAt md2.accepted.advanced md2.accepted.advanced.currBLit
        from hri) hlen
      refine ⟨by simp [advanced, hE], ?_⟩
      show (rep ++ md2.accepted.advanced.fut (md2.accepted.currBLit + 1 + 1)).Perm
        (md2.ext [])
      rw [ext_congr q2]
      rw [fut, a1] at q1
      refine List.Perm.trans (List.Perm.append_left rep (p5.trans ?_))
        ((List.Perm.append_left rep q1).trans he2)
      show (md2.accepted.fut (md2.currBLit + 1)
        ++ md2.ext (md2.accepted.prefixSel (md2.currBLit + 1))).Perm _
      rw [fut, a2, List.append_assoc]
      apply List.Perm.append_left
      exact List.perm_append_comm
  | skipLast md1 md2 hrel hfix hinv hinit hfa hge heq hpe hlast =>
      obtain ⟨q1, q2, q3, q4, q5, q6, q7⟩ := fut_round_head h hrel hfix hinv hinit hfa
      rw [q2.2.1, q3] at hpe
      exact absurd hpe (hn _ h.cur_lt)
  | skipNext md1 md2 hrel hfix hinv hinit hfa hge heq hpe hlast =>
      obtain ⟨q1, q2, q3, q4, q5, q6, q7⟩ := fut_round_head h hrel hfix hinv hinit hfa
      rw [q2.2.1, q3] at hpe
      exact absurd hpe (hn _ h.cur_lt)
  | backFail md1 md2 hrel hfix hinv hinit hfa hge hns hc =>
      obtain ⟨q1, q2, q3, q4, q5, q6, q7⟩ := fut_round_head h hrel hfix hinv hinit hfa
      have hnil := q6.futTerm_nil_of_exhausted q5 (by rw [q7]; exact hge)
      rw [fut, hnil, List.append_nil, hc] at q1
      have q1x : ([] : List (List (Literal × AltRow))).Perm (md.fut (md.currBLit + 1)) := q1
      have := (List.Perm.append_left rep q1x).trans he2
      simpa using this
  | backNext md1 md2 hrel hfix hinv hinit hfa hge hns hc =>
      obtain ⟨q1, q2, q3, q4, q5, q6, q7⟩ := fut_round_head h hrel hfix hinv hinit hfa
      have hnil := q6.futTerm_nil_of_exhausted q5 (by rw [q7]; exact hge)
      rw [fut, hnil, List.append_nil] at q1
      refine ⟨q4.trans he1, ?_⟩
      show (rep ++ ({ md2 with currBLit := dec32 md2.currBLit } : MatchingData).fut
        (dec32 md2.currBLit + 1)).Perm (md2.ext [])
      rw [fut_currBLit, dec32_pos (Nat.pos_of_ne_zero hc),
        Nat.sub_add_cancel (Nat.pos_of_ne_zero hc), ext_congr q2]
      exact (List.Perm.append_left rep q1).trans he2

theorem nextMatchRound_enum (md : MatchingData) (h : InvAt md md.currBLit) (hn : NoPosEq md)
    (rep : List (List (Literal × AltRow))) (he : EnumInv rep md) :
    RoundEnum rep md (nextMatchRound md) :=
  (nextMatchRound_cases md h).round_enum h hn rep he

end Kernel

namespace Kernel

open MatchingData

theorem noPosEq_of_same {md md2 : MatchingData} (hs : SameProblem md md2) (hn : NoPosEq md) :
    NoPosEq md2 := by
  intro i hi
  rw [hs.2.1]
  exact hn i (by rw [← hs.1]; exact hi)

/-- A call of `nextMatch` keeps the invariant of the enumeration: a call that
returns `true` adds the choice it reports to the choices reported so far, and
when a call returns `false` the choices reported so far are all valid
choices. -/
theorem nextMatchLoop_enum (tl : Nat → Bool) :
    ∀ (fuel t : Nat) (impl : Impl) (r : MatchResult),
      InvAt impl.s_matchingData impl.s_matchingData.currBLit →
      NoPosEq impl.s_matchingData →
      ∀ rep : List (List (Literal × AltRow)), EnumInv rep impl.s_matchingData →
      nextMatchLoop tl fuel t impl = some r →
      (∀ impl2, r = MatchResult.returned true impl2 →
        EnumInv (rep ++ [reportedChoice impl2]) impl2.s_matchingData) ∧
      (∀ impl2, r = MatchResult.returned false impl2 →
        rep.Perm (impl.s_matchingData.ext [])) := by
  intro fuel
  induction fuel with
  | zero => intro t impl r _ _ _ _ h; simp [nextMatchLoop] at h
  | succ fuel ih =>
      intro t impl r hinv hn rep he h
      have hr := nextMatchRound_inv impl.s_matchingData hinv
      have hs := nextMatchRound_same impl.s_matchingData hinv
      have hen := nextMatchRound_enum impl.s_matchingData hinv hn rep he
      unfold nextMatchLoop at h
      generalize nextMatchRound impl.s_matchingData = rd at hr hs hen h
      cases rd with
      | backtrackInit md2 =>
          obtain ⟨i1, i2⟩ := ih (t + 1) { impl with s_matchingData := md2 } r hr
            (noPosEq_of_same hs hn) rep hen h
          refine ⟨i1, fun impl2 e => ?_⟩
          have := i2 impl2 e
          rw [← ext_congr hs]
          exact this
      | fail md2 =>
          simp only [Option.some.injEq] at h
          subst h
          refine ⟨fun impl2 e => (by cases e), fun impl2 _ => hen⟩
      | complete md2 =>
          simp only [Option.some.injEq] at h
          subst h
          refine ⟨fun impl2 e => ?_, fun impl2 e => (by cases e)⟩
          cases e
          exact hen
      | next md2 =>
          simp only at h
          split at h
          · split at h
            · simp only [Option.some.injEq] at h
              subst h
              exact ⟨fun impl2 e => (by cases e), fun impl2 e => (by cases e)⟩
            · obtain ⟨i1, i2⟩ := ih (t + 1) { s_matchingData := md2, s_counter := 0 } r hr
                (noPosEq_of_same hs hn) rep hen h
              refine ⟨i1, fun impl2 e => ?_⟩
              have := i2 impl2 e
              rw [← ext_congr hs]
              exact this
          · obtain ⟨i1, i2⟩ := ih (t + 1)
              { s_matchingData := md2, s_counter := impl.s_counter + 1 } r hr
              (noPosEq_of_same hs hn) rep hen h
            refine ⟨i1, fun impl2 e => ?_⟩
            have := i2 impl2 e
            rw [← ext_congr hs]
            exact this

/-- From a state that satisfies the invariant of the enumeration, calls of
`nextMatch` return `true` a number of times and then `false`, and the choices
reported by then are, with those reported before, all valid choices. -/
theorem calls_enum : ∀ (k : Nat) (impl : Impl) (rep : List (List (Literal × AltRow))),
    InvAt impl.s_matchingData impl.s_matchingData.currBLit →
    NoPosEq impl.s_matchingData →
    EnumInv rep impl.s_matchingData →
    (impl.s_matchingData.ext []).length - rep.length ≤ k →
    ∃ ms implN fuel implF, Calls impl ms implN ∧
      nextMatch noTimeLimit fuel implN = some (MatchResult.returned false implF) ∧
      (rep ++ ms.map reportedChoice).Perm (impl.s_matchingData.ext []) := by
  intro k
  induction k with
  | zero =>
      intro impl rep hinv hn he hk
      obtain ⟨b, impl2, hr⟩ := nextMatch_returns impl hinv
      obtain ⟨e1, e2⟩ := nextMatchLoop_enum noTimeLimit _ 0 impl _ hinv hn rep he hr
      cases b with
      | false =>
          exact ⟨[], impl, _, impl2, Calls.nil impl, hr, by simpa using e2 impl2 rfl⟩
      | true =>
          exfalso
          have hp := (e1 impl2 rfl).2
          have hl := hp.length_eq
          have hsame : SameProblem impl.s_matchingData impl2.s_matchingData :=
            nextMatchLoop_same noTimeLimit _ 0 impl _ hinv hr
          rw [ext_congr hsame] at hl
          simp only [List.length_append, List.length_singleton] at hl
          omega
  | succ k ih =>
      intro impl rep hinv hn he hk
      obtain ⟨b, impl2, hr⟩ := nextMatch_returns impl hinv
      obtain ⟨e1, e2⟩ := nextMatchLoop_enum noTimeLimit _ 0 impl _ hinv hn rep he hr
      cases b with
      | false =>
          exact ⟨[], impl, _, impl2, Calls.nil impl, hr, by simpa using e2 impl2 rfl⟩
      | true =>
          have he2 := e1 impl2 rfl
          have hsame : SameProblem impl.s_matchingData impl2.s_matchingData :=
            nextMatchLoop_same noTimeLimit _ 0 impl _ hinv hr
          have hm := nextMatchLoop_matched noTimeLimit _ 0 impl impl2 hinv hr
          have hinv2 : InvAt impl2.s_matchingData impl2.s_matchingData.currBLit := by
            have := hm.1
            rw [← hm.2] at this
            exact InvAt.of_matched this
          have hl := he2.2.length_eq
          simp only [List.length_append, List.length_singleton] at hl
          obtain ⟨ms, implN, fuel, implF, c1, c2, c3⟩ := ih impl2
            (rep ++ [reportedChoice impl2]) hinv2 (noPosEq_of_same hsame hn) he2
            (by
              rw [ext_congr hsame]
              simp only [List.length_append, List.length_singleton]
              omega)
          refine ⟨impl2 :: ms, implN, fuel, implF, Calls.cons impl impl2 implN ms _ hr c1, c2, ?_⟩
          rw [ext_congr hsame] at c3
          simpa using c3

/-- The state after `init` satisfies the invariant of the enumeration with no
choice reported. -/
theorem init_enum {md : MatchingData} (h : InvAt md md.currBLit) (hc : md.currBLit = 0)
    (hn0 : md.nextAlts 0 = 0) (he : md.eqLitForDemodulation = NONE) : EnumInv [] md := by
  refine ⟨he, ?_⟩
  rw [hc, List.nil_append]
  show (md.fut 0 ++ md.futTerm 0).Perm _
  rw [fut, List.nil_append]
  have hp := flatMap_rowsCur_ext h 0 (by have := h.cur_lt; omega)
  unfold futTerm
  rw [hn0, List.drop_zero]
  exact hp

end Kernel

namespace Kernel

open MatchingData

/-! ## The valid choices do not depend on the order of the base literals -/

/-- The choices of one member from each list are, as multisets, the sections of
the lists taken as multisets. -/
theorem tuples_sections {α : Type} (L : List (List α)) :
    Multiset.ofList ((tuples L).map Multiset.ofList)
      = Multiset.Sections (Multiset.ofList (L.map Multiset.ofList)) := by
  induction L with
  | nil => simp [tuples]
  | cons l L ih =>
      rw [List.map_cons, ← Multiset.cons_coe, Multiset.sections_cons, ← ih]
      simp only [tuples, Multiset.map_coe, List.map_map]
      rw [Multiset.coe_bind]
      simp only [List.map_flatMap, List.map_map]
      rfl

/-- The valid choices, each taken as a multiset, do not depend on the order of
the lists the members are chosen from. -/
theorem validTuples_perm {α : Type} (R : α → α → Prop) [DecidableRel R] (hR : Symmetric R)
    {L L2 : List (List α)} (h : L.Perm L2) :
    (((tuples L).filter (fun t => decide (t.Pairwise R))).map Multiset.ofList).Perm
      (((tuples L2).filter (fun t => decide (t.Pairwise R))).map Multiset.ofList) := by
  classical
  have key : ∀ K : List (List α),
      Multiset.ofList (((tuples K).filter (fun t => decide (t.Pairwise R))).map Multiset.ofList)
        = Multiset.filter (fun m => Multiset.Pairwise R m)
            (Multiset.Sections (Multiset.ofList (K.map Multiset.ofList))) := by
    intro K
    have e1 : Multiset.ofList ((tuples K).map Multiset.ofList)
        = Multiset.map Multiset.ofList (Multiset.ofList (tuples K)) :=
      (Multiset.map_coe _ _).symm
    have e2 : Multiset.ofList
          (((tuples K).filter (fun t => decide (t.Pairwise R))).map Multiset.ofList)
        = Multiset.map Multiset.ofList
            (Multiset.filter (fun t => t.Pairwise R) (Multiset.ofList (tuples K))) := by
      rw [Multiset.filter_coe, Multiset.map_coe]
    rw [← tuples_sections, e1, Multiset.filter_map, e2]
    congr 1
    apply Multiset.filter_congr
    intro t _
    simp only [Function.comp, decide_eq_true_eq]
    exact (Multiset.pairwise_coe_iff_pairwise hR).symm
  rw [← Multiset.coe_eq_coe, key L, key L2]
  have : Multiset.ofList (L.map Multiset.ofList) = Multiset.ofList (L2.map Multiset.ofList) :=
    Multiset.coe_eq_coe.2 (h.map _)
  rw [this]

theorem rowsAgree_symmetric : Symmetric RowsAgree := fun _ _ h => rowsAgree_symm h

/-- The valid choices of the matcher are the valid choices of its rows level by
level. -/
theorem ext_nil_eq (md : MatchingData) :
    md.ext [] = (tuples ((List.range md.len).map md.levelRows)).filter
      (fun t => decide (t.Pairwise RowsAgree)) := by
  unfold ext tuplesFrom
  simp only [List.length_nil, Nat.sub_zero, List.nil_append, List.map_id', List.range_eq_range']

/-- The rows of the levels are the rows of the pairs of base literal and
alternatives the matcher holds. -/
theorem levelRows_eq_rowChoices (md : MatchingData) (hb : md.bases.length = md.len)
    (ha : md.alts.length = md.len) :
    (List.range md.len).map md.levelRows = (md.bases.zip md.alts).map (rowChoices md.inst) := by
  apply List.ext_getElem
  · simp [hb, ha]
  · intro k h1 h2
    have hk : k < md.len := by simpa using h1
    simp only [List.getElem_map, List.getElem_range, List.getElem_zip]
    unfold levelRows rowChoices rowsP
    simp only [List.getD_eq_getElem?_getD,
      List.getElem?_eq_getElem (show k < md.bases.length by omega),
      List.getElem?_eq_getElem (show k < md.alts.length by omega), Option.getD_some]

end Kernel

namespace Kernel

open MatchingData

/-- A call of `nextMatch` has one result, whatever bound on the number of
rounds lets it end. -/
theorem nextMatch_det {tl : Nat → Bool} {fuel1 fuel2 : Nat} {impl : Impl} {r1 r2 : MatchResult}
    (h1 : nextMatch tl fuel1 impl = some r1) (h2 : nextMatch tl fuel2 impl = some r2) :
    r1 = r2 := by
  have a := nextMatchLoop_mono tl fuel1 0 impl r1 h1 (max fuel1 fuel2) (le_max_left _ _)
  have b := nextMatchLoop_mono tl fuel2 0 impl r2 h2 (max fuel1 fuel2) (le_max_right _ _)
  rw [a] at b
  exact Option.some.inj b

/-- The calls that return `true` before the first call that returns `false` are
determined by the state they start from. -/
theorem calls_unique {impl implN : Impl} {ms : List Impl} (hc : Calls impl ms implN)
    (hf : ∃ fuel implF, nextMatch noTimeLimit fuel implN
      = some (MatchResult.returned false implF)) :
    ∀ (ms2 : List Impl) (implN2 : Impl), Calls impl ms2 implN2 →
      (∃ fuel implF, nextMatch noTimeLimit fuel implN2
        = some (MatchResult.returned false implF)) → ms2 = ms := by
  induction hc with
  | nil impl =>
      intro ms2 implN2 hc2 _
      cases hc2 with
      | nil => rfl
      | cons _ impl1 _ ms3 fuel h hs =>
          obtain ⟨f, implF, hf2⟩ := hf
          have := nextMatch_det h hf2
          cases this
  | cons impl impl1 implN ms fuel h hs ih =>
      intro ms2 implN2 hc2 hf2
      cases hc2 with
      | nil =>
          obtain ⟨f, implF, hf3⟩ := hf2
          have := nextMatch_det h hf3
          cases this
      | cons _ impl1b _ ms3 fuel2 h2 hs2 =>
          have e := nextMatch_det h h2
          simp only [MatchResult.returned.injEq, true_and] at e
          subst e
          rw [ih hf ms3 implN2 hs2 hf2]

end Kernel

namespace Kernel

open MatchingData

/-! ## A match that leaves out one positive equality is found -/

theorem compatP_of_rowsAgree (md : MatchingData) {j i : Nat} {r1 r2 : AltRow}
    (h : RowsAgree (md.bases.getD j default, r1) (md.bases.getD i default, r2)) :
    md.compatP j i r1 r2 = true := by
  cases hc : md.compatP j i r1 r2 with
  | true => rfl
  | false => exact absurd h (not_agree_of_incompat md hc)

theorem target_of_same {md md2 : MatchingData} {p : Nat} {χ : Nat → AltRow}
    (hs : SameProblem md md2) (h : Target md p χ) : Target md2 p χ :=
  { p_lt := by rw [hs.1]; exact h.p_lt
    p_rows := by rw [hs.rowsP_eq]; exact h.p_rows
    p_eq := by rw [hs.2.1]; exact h.p_eq
    mem := fun l hl hlp => by rw [hs.rowsP_eq]; exact h.mem l (by rw [← hs.1]; exact hl) hlp
    agree := fun i j hi hj hip hjp hij => by
      rw [hs.2.1]
      exact h.agree i j (by rw [← hs.1]; exact hi) (by rw [← hs.1]; exact hj) hip hjp hij
    single := fun j hj => by rw [hs.rowsP_eq]; exact h.single j hj }

theorem agreeBelow_mono {md md2 : MatchingData} {n m : Nat} (h : AgreeBelow md md2 n)
    (hm : m ≤ n) : AgreeBelow md md2 m :=
  fun j hj => h j (by omega)

theorem agreeBelow_trans {m1 m2 m3 : MatchingData} {n : Nat} (h1 : AgreeBelow m1 m2 n)
    (h2 : AgreeBelow m2 m3 n) : AgreeBelow m1 m3 n :=
  fun j hj => ⟨(h2 j hj).1.trans (h1 j hj).1, (h2 j hj).2.1.trans (h1 j hj).2.1,
    (h2 j hj).2.2.trans (h1 j hj).2.2⟩

theorem exists_index_of_mem {l : List AltRow} {r : AltRow} (h : r ∈ l) :
    ∃ a, a < l.length ∧ l.getD a default = r := by
  obtain ⟨a, ha, e⟩ := List.mem_iff_getElem.1 h
  refine ⟨a, ha, ?_⟩
  rw [List.getD_eq_getElem?_getD, List.getElem?_eq_getElem ha]
  exact e

namespace MatchingData

/-- The row of the match `χ` at an initialised level is among the rows that
remain after the filtering against the rows chosen before. -/
theorem InvAt.target_remaining {md : MatchingData} {u p d : Nat} {χ : Nat → AltRow}
    (h : InvAt md u) (ht : Target md p χ)
    (hsel : ∀ j, j < d → j ≠ p → md.selRow j = χ j)
    (hp : p < d → md.eqLitForDemodulation = p)
    {l k a : Nat} (hl : l < md.len) (hlp : l ≠ p) (hinit : md.isInitialized l = true)
    (hkl : k ≤ l) (hkc : k ≤ md.currBLit) (hkd : k ≤ d)
    (ha : a < (md.altBindings l).length) (hr : (md.altBindings l).getD a default = χ l) :
    a < md.remaining l k := by
  by_contra hge
  obtain ⟨j, j1, j2, j3⟩ := h.compl l k a hinit hkl hkc (by omega) ha
  have hjp : j ≠ p := by
    intro e
    apply j2
    rw [e, hp (by omega)]
  have hjl : j < md.len := by omega
  rw [hsel j (by omega) hjp, hr] at j3
  have := compatP_of_rowsAgree md (ht.agree j l hjl hl hjp hlp (by omega))
  rw [this] at j3
  cases j3

/-- The row of the match `χ` at the current level is not passed over by the
scan. -/
theorem InvAt.target_not_dead {md : MatchingData} {p : Nat} {χ : Nat → AltRow}
    (h : InvAt md md.currBLit) (ht : Target md p χ)
    (hsel : ∀ j, j < md.currBLit → j ≠ p → md.selRow j = χ j)
    (hp : p < md.currBLit → md.eqLitForDemodulation = p)
    (hun : md.currBLit < p → md.isInitialized p = false)
    (hcp : md.currBLit ≠ p) {a : Nat}
    (hr : (md.altBindings md.currBLit).getD a default = χ md.currBLit) : ¬ Dead md a := by
  have hc := h.cur_lt
  rintro (hd | ⟨l, l1, l2, l3, l4⟩)
  · obtain ⟨e1, e2⟩ := h.rec_exact _ _ rfl hd
    rw [hr] at hd e1 e2
    generalize md.matchRecord (χ md.currBLit).pos = j at hd e1 e2
    have hjp : j ≠ p := by
      intro e
      apply e1
      rw [e, hp (by omega)]
    rw [hsel j hd hjp] at e2
    exact (ht.agree j md.currBLit (by omega) hc hjp hcp (by omega)).2 e2
  · have hlp : l ≠ p := by
      intro e
      rw [e] at l1 l3
      rw [hun l1] at l3
      cases l3
    have hmem : χ l ∈ md.altBindings l := (h.init_rows l l3).mem_iff.2 (ht.mem l l2 hlp)
    obtain ⟨k, hk, ek⟩ := exists_index_of_mem hmem
    have hrem := h.target_remaining ht hsel hp l2 hlp l3 (show md.currBLit ≤ l by omega)
      (le_refl _) (le_refl _) hk ek
    have := l4 k hrem
    rw [hr, ek, compatP_of_rowsAgree md (ht.agree md.currBLit l hc l2 hcp hlp (by omega))] at this
    cases this

end MatchingData

theorem skipped_facts (md : MatchingData)
    (hdown : ∀ l j, md.isInitialized l = true → j ≤ l → md.isInitialized j = true) :
    md.skipped.nextAlts = md.nextAlts ∧ md.skipped.eqLitForDemodulation = md.currBLit ∧
    md.skipped.altBindings = md.altBindings ∧ md.skipped.boundVarNums = md.boundVarNums ∧
    md.skipped.currBLit = md.currBLit ∧ SameProblem md md.skipped := by
  obtain ⟨f1, f2, _⟩ := skipBindingLoop_spec md.currBLit (md.len - (md.currBLit + 1))
    (md.currBLit + 1)
    ({ md.unassign with eqLitForDemodulation := md.currBLit } : MatchingData)
    (by omega) (by show md.len ≤ _; omega) hdown
  exact ⟨f1.nextAlts, f1.eqLit, f2, f1.boundVarNums, f1.currBLit,
    f1.len, f1.bases, f1.alts, f1.inst⟩

/-- The match is ahead in a state that agrees with a state in which it is ahead
on the levels up to the level at which the two part. -/
theorem ahead_transfer {md md2 : MatchingData} {p d : Nat} {χ : Nat → AltRow}
    (hs : SameProblem md md2) (hag : AgreeBelow md md2 (d + 1))
    (hd2 : d ≤ md2.currBLit)
    (h1 : d ≤ p → d = md2.currBLit ∧ md2.eqLitForDemodulation = NONE ∧
      (md2.currBLit < p → md2.isInitialized p = false))
    (h2 : p < d → md2.eqLitForDemodulation = p)
    (hsel : ∀ j, j < d → j ≠ p → md.selRow j = χ j)
    (hrow : d ≠ p → ∃ a, md.nextAlts d ≤ a ∧ a < (md.rowsCur d).length ∧
      (md.rowsCur d).getD a default = χ d) : Ahead p χ md2 := by
  refine ⟨d, hd2, h1, h2, ?_, ?_⟩
  · intro j hj hjp
    rw [selRow_eq_of_agreeBelow hag (by omega)]
    exact hsel j hj hjp
  · intro hdp
    rw [rowsCur_eq_of_agreeBelow hs hag (Nat.lt_succ_self d), (hag d (Nat.lt_succ_self d)).2.1]
    exact hrow hdp

end Kernel

namespace Kernel

open MatchingData

theorem agreeBelow_currBLit (md : MatchingData) (x n : Nat) :
    AgreeBelow md ({ md with currBLit := x } : MatchingData) n :=
  fun _ _ => ⟨rfl, rfl, rfl⟩

theorem acc_adv_agreeBelow (md : MatchingData) :
    AgreeBelow md md.accepted.advanced md.currBLit :=
  agreeBelow_trans (accepted_agreeBelow md)
    (agreeBelow_mono (advanced_agreeBelow md.accepted) (Nat.le_succ _))

theorem skip_adv_agreeBelow (md : MatchingData)
    (hdown : ∀ l j, md.isInitialized l = true → j ≤ l → md.isInitialized j = true) :
    AgreeBelow md md.skipped.advanced md.currBLit := by
  obtain ⟨f1, f2, f3, f4, f5, f6⟩ := skipped_facts md hdown
  have h1 : AgreeBelow md md.skipped md.currBLit := by
    intro j _
    refine ⟨by rw [f3], by rw [f1], ?_⟩
    simp [MatchingData.isInitialized, f4]
  have h2 := advanced_agreeBelow md.skipped
  rw [f5] at h2
  exact agreeBelow_trans h1 (agreeBelow_mono h2 (Nat.le_succ _))

/-- The row of the match `χ` at the level the search has arrived at is one of
the rows of the level, whatever their order. -/
theorem target_at_arrival {md : MatchingData} {p : Nat} {χ : Nat → AltRow} {l : Nat}
    (h : InvAt md md.currBLit) (ht : Target md p χ) (hl : l < md.len) (hlp : l ≠ p)
    (hn : md.nextAlts l = 0) :
    ∃ a, md.nextAlts l ≤ a ∧ a < (md.rowsCur l).length ∧ (md.rowsCur l).getD a default = χ l := by
  have hmem : χ l ∈ md.rowsCur l := (h.rowsCur_perm l).mem_iff.2 (ht.mem l hl hlp)
  obtain ⟨a, ha, e⟩ := exists_index_of_mem hmem
  exact ⟨a, by omega, ha, e⟩

/-- After the initialisation of the current level the row of the match `χ` is
still not passed. -/
theorem target_after_init {md md1 : MatchingData} {p : Nat} {χ : Nat → AltRow}
    (h : InvAt md md.currBLit) (ht : Target md p χ)
    (hrel : InitRel md.currBLit md md1)
    (hfix : md.isInitialized md.currBLit = true → md1 = md)
    (hinv : InvAt md1 md1.currBLit)
    (hinit : md1.isInitialized md.currBLit = true)
    (hcp : md.currBLit ≠ p)
    (hrow : ∃ a, md.nextAlts md.currBLit ≤ a ∧ a < (md.rowsCur md.currBLit).length ∧
      (md.rowsCur md.currBLit).getD a default = χ md.currBLit) :
    ∃ a, md1.nextAlts md.currBLit ≤ a ∧ a < (md1.altBindings md.currBLit).length ∧
      (md1.altBindings md.currBLit).getD a default = χ md.currBLit := by
  by_cases hi : md.isInitialized md.currBLit = true
  · rw [hfix hi]
    rw [rowsCur_of_init hi] at hrow
    exact hrow
  · have hi2 : md.isInitialized md.currBLit = false := by simpa using hi
    have hmem : χ md.currBLit ∈ md1.altBindings md.currBLit := by
      apply (hinv.init_rows _ hinit).mem_iff.2
      rw [(initRel_same hrel).rowsP_eq]
      exact ht.mem _ h.cur_lt hcp
    obtain ⟨a, ha, e⟩ := exists_index_of_mem hmem
    refine ⟨a, ?_, ha, e⟩
    rw [hrel.nextAlts, h.cur_fresh hi2]
    omega

/-- A round of the loop of `nextMatch` while the match `χ` has parted from the
search at a level below the current one. -/
theorem round_ahead_below {md : MatchingData} {r : Round} (hc : RoundCase md r)
    (h : InvAt md md.currBLit) {p : Nat} {χ : Nat → AltRow} (ht : Target md p χ) {d : Nat}
    (hd : d < md.currBLit) (hpd : p < d) (he : md.eqLitForDemodulation = p)
    (hsel : ∀ j, j < d → j ≠ p → md.selRow j = χ j)
    (hrow : ∃ a, md.nextAlts d ≤ a ∧ a < (md.rowsCur d).length ∧
      (md.rowsCur d).getD a default = χ d) : RoundAhead p χ r := by
  have hcl := h.cur_lt
  cases hc with
  | initBacktrack md1 hrel hfix hinv hinit hun hc hz hbt =>
      show Ahead p χ { md1 with currBLit := dec32 md1.currBLit }
      refine @ahead_transfer md { md1 with currBLit := dec32 md1.currBLit } p d χ
        ⟨hrel.len, hrel.bases, hrel.alts, hrel.inst⟩
        (fun j hj => initRel_agreeBelow hrel j (by omega)) ?_ (fun hh => by omega)
        (fun _ => hrel.eqLit.trans he) hsel (fun _ => hrow)
      show d ≤ dec32 md1.currBLit
      rw [hrel.currBLit, dec32_pos hc]
      omega
  | initFail md1 hrel hfix hun hnil hnpe =>
      have := ht.mem md.currBLit hcl (by omega)
      rw [hnil] at this
      cases this
  | acceptLast md1 md2 hrel hfix hinv hinit hfa hlt hlast => trivial
  | acceptNext md1 md2 hrel hfix hinv hinit hfa hlt hlast =>
      obtain ⟨g1, g2, g3, g4, g5⟩ := hfa
      have hc2 : md2.currBLit = md.currBLit := g1.currBLit.trans hrel.currBLit
      have hag : AgreeBelow md md2.accepted.advanced md.currBLit := by
        have a1 := initRel_agreeBelow hrel
        have a2 := scanRel_agreeBelow g1
        have a3 := acc_adv_agreeBelow md2
        rw [hrel.currBLit] at a2
        rw [hc2] at a3
        exact agreeBelow_trans (agreeBelow_trans a1 a2) a3
      have he2 : md2.eqLitForDemodulation = p := (g1.eqLit.trans hrel.eqLit).trans he
      have hs2 : SameProblem md md2 := sameProblem_trans (initRel_same hrel) (scanRel_same g1)
      refine @ahead_transfer md md2.accepted.advanced p d χ
        ⟨hs2.1, hs2.2.1, hs2.2.2.1, hs2.2.2.2⟩
        (agreeBelow_mono hag (by omega)) ?_ (fun hh => by omega) (fun _ => ?_) hsel
        (fun _ => hrow)
      · show d ≤ md2.currBLit + 1
        omega
      · show (if md2.eqLitForDemodulation = md2.currBLit + 1 then NONE
          else md2.eqLitForDemodulation) = p
        rw [if_neg (by omega), he2]
  | skipLast md1 md2 hrel hfix hinv hinit hfa hge heq hpe hlast => trivial
  | skipNext md1 md2 hrel hfix hinv hinit hfa hge heq hpe hlast =>
      obtain ⟨g1, g2, g3, g4, g5⟩ := hfa
      have hc2 : md2.currBLit = md.currBLit := g1.currBLit.trans hrel.currBLit
      have he2 : md2.eqLitForDemodulation = p := (g1.eqLit.trans hrel.eqLit).trans he
      omega
  | backFail md1 md2 hrel hfix hinv hinit hfa hge hns hc =>
      obtain ⟨g1, g2, g3, g4, g5⟩ := hfa
      have hc2 : md2.currBLit = md.currBLit := g1.currBLit.trans hrel.currBLit
      omega
  | backNext md1 md2 hrel hfix hinv hinit hfa hge hns hc =>
      obtain ⟨g1, g2, g3, g4, g5⟩ := hfa
      have hc2 : md2.currBLit = md.currBLit := g1.currBLit.trans hrel.currBLit
      have hag : AgreeBelow md md2 md.currBLit := by
        have a1 := initRel_agreeBelow hrel
        have a2 := scanRel_agreeBelow g1
        rw [hrel.currBLit] at a2
        exact agreeBelow_trans a1 a2
      show Ahead p χ { md2 with currBLit := dec32 md2.currBLit }
      have hs2 : SameProblem md md2 := sameProblem_trans (initRel_same hrel) (scanRel_same g1)
      refine @ahead_transfer md { md2 with currBLit := dec32 md2.currBLit } p d χ
        ⟨hs2.1, hs2.2.1, hs2.2.2.1, hs2.2.2.2⟩
        (fun j hj => hag j (by omega)) ?_ (fun hh => by omega)
        (fun _ => (g1.eqLit.trans hrel.eqLit).trans he) hsel (fun _ => hrow)
      show d ≤ dec32 md2.currBLit
      rw [hc2, dec32_pos (by omega)]
      omega

/-- A round of the loop of `nextMatch` at the level of the equality that the
match `χ` leaves out: the level is skipped. -/
theorem round_ahead_skip {md : MatchingData} {r : Round} (hc : RoundCase md r)
    (h : InvAt md md.currBLit) {p : Nat} {χ : Nat → AltRow} (ht : Target md p χ)
    (hcp : md.currBLit = p) (he : md.eqLitForDemodulation = NONE)
    (hsel : ∀ j, j < p → j ≠ p → md.selRow j = χ j) : RoundAhead p χ r := by
  have hri := hc.round_inv
  have hcl := h.cur_lt
  have hlenN := h.len_le
  have hrows0 : ∀ md1 : MatchingData, InitRel md.currBLit md md1 →
      InvAt md1 md1.currBLit → md1.isInitialized md1.currBLit = true →
      md1.remaining md1.currBLit md1.currBLit = 0 := by
    intro md1 hrel hinv hinit
    have h1 := hinv.rem_le md1.currBLit md1.currBLit hinit (le_refl _)
    have h2 := (hinv.init_rows md1.currBLit hinit).length_eq
    rw [(initRel_same hrel).rowsP_eq, hrel.currBLit, hcp, ht.p_rows] at h2
    rw [hrel.currBLit, hcp] at h1 ⊢
    simp only [List.length_nil] at h2
    omega
  cases hc with
  | initBacktrack md1 hrel hfix hinv hinit hun hc hz hbt =>
      have := hbt (by rw [hcp]; exact ht.p_rows)
      rw [he] at this
      omega
  | initFail md1 hrel hfix hun hnil hnpe =>
      rw [hcp] at hnpe
      exact hnpe ht.p_eq
  | acceptLast md1 md2 hrel hfix hinv hinit hfa hlt hlast =>
      have := hrows0 md1 hrel hinv hinit
      omega
  | acceptNext md1 md2 hrel hfix hinv hinit hfa hlt hlast =>
      have := hrows0 md1 hrel hinv hinit
      omega
  | skipLast md1 md2 hrel hfix hinv hinit hfa hge heq hpe hlast => trivial
  | skipNext md1 md2 hrel hfix hinv hinit hfa hge heq hpe hlast =>
      obtain ⟨g1, g2, g3, g4, g5⟩ := hfa
      have hc2 : md2.currBLit = p := (g1.currBLit.trans hrel.currBLit).trans hcp
      obtain ⟨f1, f2, f3, f4, f5, f6⟩ := skipped_facts md2 g2.init_down
      have hs : SameProblem md md2.skipped.advanced :=
        sameProblem_trans (sameProblem_trans (initRel_same hrel) (scanRel_same g1)) f6
      have hag : AgreeBelow md md2.skipped.advanced p := by
        have a1 := initRel_agreeBelow hrel
        have a2 := scanRel_agreeBelow g1
        have a3 := skip_adv_agreeBelow md2 g2.init_down
        rw [hrel.currBLit, hcp] at a2
        rw [hcp] at a1
        rw [hc2] at a3
        exact agreeBelow_trans (agreeBelow_trans a1 a2) a3
      have hI : InvAt md2.skipped.advanced md2.skipped.advanced.currBLit := hri
      have hRc : md2.skipped.advanced.currBLit = p + 1 := by
        show md2.skipped.currBLit + 1 = p + 1
        rw [f5, hc2]
      have hlen2 : p + 1 < md.len := by
        have := g2.cur_lt
        have hl : md2.len = md.len := g1.len.trans hrel.len
        omega
      refine ⟨p + 1, by rw [hRc], fun hh => by omega, fun _ => ?_, ?_, fun _ => ?_⟩
      · show (if md2.skipped.eqLitForDemodulation = md2.skipped.currBLit + 1 then NONE
          else md2.skipped.eqLitForDemodulation) = p
        rw [f2, f5, if_neg (by omega), hc2]
      · intro j hj hjp
        rw [selRow_eq_of_agreeBelow hag (by omega)]
        exact hsel j (by omega) hjp
      · have hn0 : md2.skipped.advanced.nextAlts (p + 1) = 0 := by
          show Function.update md2.skipped.nextAlts (md2.skipped.currBLit + 1) 0 (p + 1) = 0
          rw [f5, hc2, Function.update_same]
        exact target_at_arrival hI (target_of_same hs ht) (by rw [hs.1]; exact hlen2)
          (by omega) hn0
  | backFail md1 md2 hrel hfix hinv hinit hfa hge hns hc =>
      obtain ⟨g1, g2, g3, g4, g5⟩ := hfa
      have hc2 : md2.currBLit = p := (g1.currBLit.trans hrel.currBLit).trans hcp
      have he2 : md2.eqLitForDemodulation = NONE := (g1.eqLit.trans hrel.eqLit).trans he
      exfalso
      apply hns
      refine ⟨by rw [he2, hc2]; omega, ?_⟩
      rw [g1.bases, hrel.bases, hc2]
      exact ht.p_eq
  | backNext md1 md2 hrel hfix hinv hinit hfa hge hns hc =>
      obtain ⟨g1, g2, g3, g4, g5⟩ := hfa
      have hc2 : md2.currBLit = p := (g1.currBLit.trans hrel.currBLit).trans hcp
      have he2 : md2.eqLitForDemodulation = NONE := (g1.eqLit.trans hrel.eqLit).trans he
      exfalso
      apply hns
      refine ⟨by rw [he2, hc2]; omega, ?_⟩
      rw [g1.bases, hrel.bases, hc2]
      exact ht.p_eq

end Kernel

namespace Kernel

open MatchingData

/-- The scan of the alternatives of the current level stops at the row of the
match `χ` at the latest, and that row is among the remaining ones. -/
theorem scan_target {md1 md2 : MatchingData} {p : Nat} {χ : Nat → AltRow}
    (hinv : InvAt md1 md1.currBLit) (hinit : md1.isInitialized md1.currBLit = true)
    (hfa : FindAltPost (md1.remaining md1.currBLit md1.currBLit) md1 md2)
    (ht : Target md1 p χ) (hcp : md1.currBLit ≠ p)
    (hsel : ∀ j, j < md1.currBLit → j ≠ p → md1.selRow j = χ j)
    (hp : p < md1.currBLit → md1.eqLitForDemodulation = p)
    (hun : md1.currBLit < p → md1.isInitialized p = false)
    {a : Nat} (ha1 : md1.nextAlts md1.currBLit ≤ a)
    (ha2 : a < (md1.altBindings md1.currBLit).length)
    (ha3 : (md1.altBindings md1.currBLit).getD a default = χ md1.currBLit) :
    md2.nextAlts md2.currBLit ≤ a ∧ a < md1.remaining md1.currBLit md1.currBLit := by
  obtain ⟨g1, g2, g3, g4, g5⟩ := hfa
  have hs := scanRel_same g1
  have hag := scanRel_agreeBelow g1
  refine ⟨?_, hinv.target_remaining ht hsel hp hinv.cur_lt hcp hinit (le_refl _) (le_refl _)
    (le_refl _) ha2 ha3⟩
  by_contra hlt
  have hdead := g5 a ha1 (by omega)
  refine g2.target_not_dead (target_of_same hs ht) ?_ ?_ ?_ ?_ ?_ hdead
  · intro j hj hjp
    rw [g1.currBLit] at hj
    rw [selRow_eq_of_agreeBelow hag hj]
    exact hsel j hj hjp
  · intro h
    rw [g1.currBLit] at h
    rw [g1.eqLit]
    exact hp h
  · intro h
    rw [g1.currBLit] at h
    rw [g1.scan_isInitialized]
    exact hun h
  · rw [g1.currBLit]; exact hcp
  · rw [g1.currBLit, g1.alt_le _ (le_refl _)]
    exact ha3

/-- A round of the loop of `nextMatch` at a level at which the row of the match
`χ` has not been passed yet. -/
theorem round_ahead_here {md : MatchingData} {r : Round} (hc : RoundCase md r)
    (h : InvAt md md.currBLit) {p : Nat} {χ : Nat → AltRow} (ht : Target md p χ)
    (hcp : md.currBLit ≠ p)
    (h1 : md.currBLit < p → md.eqLitForDemodulation = NONE ∧ md.isInitialized p = false)
    (h2 : p < md.currBLit → md.eqLitForDemodulation = p)
    (hsel : ∀ j, j < md.currBLit → j ≠ p → md.selRow j = χ j)
    (hrow : ∃ a, md.nextAlts md.currBLit ≤ a ∧ a < (md.rowsCur md.currBLit).length ∧
      (md.rowsCur md.currBLit).getD a default = χ md.currBLit) : RoundAhead p χ r := by
  have hri := hc.round_inv
  have hcl := h.cur_lt
  have hlenN := h.len_le
  -- what holds after the initialisation of the level
  have hpre : ∀ md1 : MatchingData, InitRel md.currBLit md md1 →
      (md.isInitialized md.currBLit = true → md1 = md) →
      InvAt md1 md1.currBLit → md1.isInitialized md1.currBLit = true →
      Target md1 p χ ∧ md1.currBLit ≠ p ∧
      (∀ j, j < md1.currBLit → j ≠ p → md1.selRow j = χ j) ∧
      (p < md1.currBLit → md1.eqLitForDemodulation = p) ∧
      (md1.currBLit < p → md1.isInitialized p = false) ∧
      ∃ a, md1.nextAlts md1.currBLit ≤ a ∧ a < (md1.altBindings md1.currBLit).length ∧
        (md1.altBindings md1.currBLit).getD a default = χ md1.currBLit := by
    intro md1 hrel hfix hinv hinit
    have hc1 := hrel.currBLit
    refine ⟨target_of_same (initRel_same hrel) ht, by rw [hc1]; exact hcp, ?_, ?_, ?_, ?_⟩
    · intro j hj hjp
      rw [hc1] at hj
      rw [selRow_eq_of_agreeBelow (initRel_agreeBelow hrel) hj]
      exact hsel j hj hjp
    · intro hh
      rw [hc1] at hh
      rw [hrel.eqLit]
      exact h2 hh
    · intro hh
      rw [hc1] at hh
      have : md1.isInitialized p = md.isInitialized p := by
        simp [MatchingData.isInitialized, hrel.other_bv p (by omega)]
      rw [this]
      exact (h1 hh).2
    · rw [hc1]
      exact target_after_init h ht hrel hfix hinv (by rw [← hc1]; exact hinit) hcp hrow
  cases hc with
  | initBacktrack md1 hrel hfix hinv hinit hun hc hz hbt =>
      exfalso
      have hi1 : md1.isInitialized md1.currBLit = true := by rw [hrel.currBLit]; exact hinit
      obtain ⟨t1, t2, t3, t4, t5, a, a1, a2, a3⟩ := hpre md1 hrel hfix hinv hi1
      have := hinv.target_remaining t1 t3 t4 hinv.cur_lt t2 hi1 (le_refl _) (le_refl _)
        (le_refl _) a2 a3
      rw [hrel.currBLit, hz] at this
      omega
  | initFail md1 hrel hfix hun hnil hnpe =>
      have := ht.mem md.currBLit hcl hcp
      rw [hnil] at this
      cases this
  | acceptLast md1 md2 hrel hfix hinv hinit hfa hlt hlast => trivial
  | acceptNext md1 md2 hrel hfix hinv hinit hfa hlt hlast =>
      obtain ⟨t1, t2, t3, t4, t5, a, a1, a2, a3⟩ := hpre md1 hrel hfix hinv hinit
      obtain ⟨s1, s2⟩ := scan_target hinv hinit hfa t1 t2 t3 t4 t5 a1 a2 a3
      obtain ⟨g1, g2, g3, g4, g5⟩ := hfa
      have hc1 := hrel.currBLit
      have hc2 : md2.currBLit = md.currBLit := g1.currBLit.trans hrel.currBLit
      have hs2 : SameProblem md md2 := sameProblem_trans (initRel_same hrel) (scanRel_same g1)
      have hsR : SameProblem md md2.accepted.advanced := ⟨hs2.1, hs2.2.1, hs2.2.2.1, hs2.2.2.2⟩
      have hag : AgreeBelow md md2.accepted.advanced md.currBLit := by
        have b1 := initRel_agreeBelow hrel
        have b2 := scanRel_agreeBelow g1
        have b3 := acc_adv_agreeBelow md2
        rw [hrel.currBLit] at b2
        rw [hc2] at b3
        exact agreeBelow_trans (agreeBelow_trans b1 b2) b3
      have hI : InvAt md2.accepted.advanced md2.accepted.advanced.currBLit := hri
      have he2 : md2.eqLitForDemodulation = md.eqLitForDemodulation :=
        g1.eqLit.trans hrel.eqLit
      have hRe : md2.accepted.advanced.eqLitForDemodulation
          = if md2.eqLitForDemodulation = md2.currBLit + 1 then NONE
            else md2.eqLitForDemodulation := rfl
      have hRc : md2.accepted.advanced.currBLit = md.currBLit + 1 := by
        show md2.currBLit + 1 = _
        rw [hc2]
      have hRn : md2.accepted.advanced.nextAlts md.currBLit = md2.nextAlts md2.currBLit + 1 := by
        show Function.update (Function.update md2.nextAlts md2.currBLit
          (md2.nextAlts md2.currBLit + 1)) (md2.currBLit + 1) 0 md.currBLit = _
        rw [hc2, Function.update_noteq (by omega), Function.update_same]
      have hRa : md2.accepted.advanced.altBindings md.currBLit = md1.altBindings md1.currBLit := by
        show md2.altBindings md.currBLit = _
        rw [hc1, ← hc1, g1.alt_le _ (le_refl _)]
      have hRi : md2.accepted.advanced.isInitialized md.currBLit = true := by
        show md2.isInitialized md.currBLit = true
        rw [g1.scan_isInitialized, ← hc1]
        exact hinit
      have hlen2 : md.currBLit + 1 < md.len := by
        have := g2.cur_lt
        have hl : md2.len = md.len := hs2.1
        omega
      by_cases hea : a = md2.nextAlts md2.currBLit
      · -- the row of the match is accepted
        refine ⟨md.currBLit + 1, by rw [hRc], ?_, ?_, ?_, ?_⟩
        · intro hh
          have hlt2 : md.currBLit < p := by omega
          refine ⟨hRc.symm, ?_, ?_⟩
          · rw [hRe, he2, (h1 hlt2).1]
            simp
          · intro _
            show md2.isInitialized p = false
            rw [g1.scan_isInitialized]
            have : md1.isInitialized p = md.isInitialized p := by
              simp [MatchingData.isInitialized, hrel.other_bv p (by omega)]
            rw [this]
            exact (h1 hlt2).2
        · intro hh
          have hlt2 : p < md.currBLit := by omega
          rw [hRe, he2, h2 hlt2, if_neg (by omega)]
        · intro j hj hjp
          by_cases hjc : j = md.currBLit
          · subst hjc
            unfold selRow
            rw [hRn, dec32_succ, hRa, ← hea, a3, hc1]
          · rw [selRow_eq_of_agreeBelow hag (by omega)]
            exact hsel j (by omega) hjp
        · intro hnp
          have hn0 : md2.accepted.advanced.nextAlts (md.currBLit + 1) = 0 := by
            show Function.update (Function.update md2.nextAlts md2.currBLit
              (md2.nextAlts md2.currBLit + 1)) (md2.currBLit + 1) 0 (md.currBLit + 1) = 0
            rw [hc2, Function.update_same]
          exact target_at_arrival hI (target_of_same hsR ht) (by rw [hsR.1]; exact hlen2)
            hnp hn0
      · -- another row is accepted: this happens beyond the level of the equality only
        have hpc : p < md.currBLit := by
          by_contra hge
          have hlt2 : md.currBLit < p := by omega
          have hlen1 := ht.single md.currBLit hlt2
          have hperm := (hinv.init_rows md1.currBLit hinit).length_eq
          rw [(initRel_same hrel).rowsP_eq, hc1] at hperm
          rw [hc1] at a2
          omega
        refine ⟨md.currBLit, by rw [hRc]; omega, fun hh => by omega, fun _ => ?_, ?_, fun _ => ?_⟩
        · rw [hRe, he2, h2 hpc, if_neg (by omega)]
        · intro j hj hjp
          rw [selRow_eq_of_agreeBelow hag hj]
          exact hsel j hj hjp
        · refine ⟨a, ?_, ?_, ?_⟩
          · rw [hRn]; omega
          · rw [rowsCur_of_init hRi, hRa]; exact a2
          · rw [rowsCur_of_init hRi, hRa, a3, hc1]
  | skipLast md1 md2 hrel hfix hinv hinit hfa hge heq hpe hlast => trivial
  | skipNext md1 md2 hrel hfix hinv hinit hfa hge heq hpe hlast =>
      exfalso
      obtain ⟨t1, t2, t3, t4, t5, a, a1, a2, a3⟩ := hpre md1 hrel hfix hinv hinit
      obtain ⟨s1, s2⟩ := scan_target hinv hinit hfa t1 t2 t3 t4 t5 a1 a2 a3
      omega
  | backFail md1 md2 hrel hfix hinv hinit hfa hge hns hc =>
      obtain ⟨t1, t2, t3, t4, t5, a, a1, a2, a3⟩ := hpre md1 hrel hfix hinv hinit
      obtain ⟨s1, s2⟩ := scan_target hinv hinit hfa t1 t2 t3 t4 t5 a1 a2 a3
      omega
  | backNext md1 md2 hrel hfix hinv hinit hfa hge hns hc =>
      exfalso
      obtain ⟨t1, t2, t3, t4, t5, a, a1, a2, a3⟩ := hpre md1 hrel hfix hinv hinit
      obtain ⟨s1, s2⟩ := scan_target hinv hinit hfa t1 t2 t3 t4 t5 a1 a2 a3
      omega

/-- A round of the loop of `nextMatch` keeps a match that leaves out one
positive equality ahead of the search, unless the round completes a match. -/
theorem RoundCase.round_ahead {md : MatchingData} {r : Round} (hc : RoundCase md r)
    (h : InvAt md md.currBLit) {p : Nat} {χ : Nat → AltRow} (ht : Target md p χ)
    (ha : Ahead p χ md) : RoundAhead p χ r := by
  obtain ⟨d, hd, k1, k2, k3, k4⟩ := ha
  by_cases hdc : d = md.currBLit
  · subst hdc
    by_cases hcp : md.currBLit = p
    · exact round_ahead_skip hc h ht hcp (k1 (by omega)).2.1
        (fun j hj hjp => k3 j (by omega) hjp)
    · refine round_ahead_here hc h ht hcp ?_ ?_ k3 (k4 hcp)
      · intro hh
        obtain ⟨_, q2, q3⟩ := k1 (by omega)
        exact ⟨q2, q3 hh⟩
      · intro hh
        exact k2 hh
  · have hlt : d < md.currBLit := by omega
    have hpd : p < d := by
      by_contra hge
      exact hdc (k1 (by omega)).1
    exact round_ahead_below hc h ht hlt hpd (k2 hpd) k3 (k4 (by omega))

theorem nextMatchRound_ahead (md : MatchingData) (h : InvAt md md.currBLit) {p : Nat}
    {χ : Nat → AltRow} (ht : Target md p χ) (ha : Ahead p χ md) :
    RoundAhead p χ (nextMatchRound md) :=
  (nextMatchRound_cases md h).round_ahead h ht ha

end Kernel

namespace Kernel

open MatchingData

/-- While a match that leaves out one positive equality is ahead, a call of
`nextMatch` does not return `false`. -/
theorem nextMatchLoop_ahead (tl : Nat → Bool) {p : Nat} {χ : Nat → AltRow} :
    ∀ (fuel t : Nat) (impl : Impl) (r : MatchResult),
      InvAt impl.s_matchingData impl.s_matchingData.currBLit →
      Target impl.s_matchingData p χ → Ahead p χ impl.s_matchingData →
      nextMatchLoop tl fuel t impl = some r →
      ∀ impl2, r ≠ MatchResult.returned false impl2 := by
  intro fuel
  induction fuel with
  | zero => intro t impl r _ _ _ h; simp [nextMatchLoop] at h
  | succ fuel ih =>
      intro t impl r hinv ht ha h
      have hr := nextMatchRound_inv impl.s_matchingData hinv
      have hs := nextMatchRound_same impl.s_matchingData hinv
      have hah := nextMatchRound_ahead impl.s_matchingData hinv ht ha
      unfold nextMatchLoop at h
      generalize nextMatchRound impl.s_matchingData = rd at hr hs hah h
      cases rd with
      | backtrackInit md2 =>
          exact ih (t + 1) { impl with s_matchingData := md2 } r hr (target_of_same hs ht) hah h
      | fail md2 => exact absurd hah (by simp [RoundAhead])
      | complete md2 =>
          simp only [Option.some.injEq] at h
          subst h
          intro impl2 e
          cases e
      | next md2 =>
          simp only at h
          split at h
          · split at h
            · simp only [Option.some.injEq] at h
              subst h
              intro impl2 e
              cases e
            · exact ih (t + 1) { s_matchingData := md2, s_counter := 0 } r hr
                (target_of_same hs ht) hah h
          · exact ih (t + 1) { s_matchingData := md2, s_counter := impl.s_counter + 1 } r hr
              (target_of_same hs ht) hah h

/-! ## The number of rows of a level and the count of `initMatchingData` -/

theorem currAltCnt_foldl (as : List Literal) : ∀ n : Nat,
    as.foldl (fun n a => if a.commutative then n + 2 else n + 1) n
      = n + currAltCnt as := by
  induction as with
  | nil => intro n; simp [currAltCnt]
  | cons a as ih =>
      intro n
      unfold currAltCnt
      simp only [List.foldl_cons]
      cases hc : a.commutative with
      | true =>
          simp only [if_true]
          rw [ih (n + 2), ih (0 + 2)]
          omega
      | false =>
          simp only [Bool.false_eq_true, if_false]
          rw [ih (n + 1), ih (0 + 1)]
          omega

theorem currAltCnt_cons (a : Literal) (as : List Literal) :
    currAltCnt (a :: as) = (if a.commutative then 2 else 1) + currAltCnt as := by
  have h := currAltCnt_foldl as (if a.commutative then 0 + 2 else 0 + 1)
  unfold currAltCnt at h ⊢
  simp only [List.foldl_cons]
  rw [h]

theorem rowsOfAlt_length_le (baseLit : Literal) (vars : List Nat) (instCl : Clause)
    (alit : Literal) :
    (rowsOfAlt baseLit vars instCl alit).length ≤ (if alit.commutative then 2 else 1) := by
  unfold rowsOfAlt Literal.commutative
  simp only
  split
  · rw [List.length_append]
    split <;> split <;> simp
  · simp

/-- A level has at most as many rows as `initMatchingData` counts for its list
of alternatives. -/
theorem rows_length_le_cnt (baseLit : Literal) (as : List Literal) (instCl : Clause) :
    (createLiteralBindings baseLit as instCl).2.length ≤ currAltCnt as := by
  unfold createLiteralBindings
  simp only
  induction as with
  | nil => simp [currAltCnt]
  | cons a as ih =>
      rw [List.flatMap_cons, List.length_append, currAltCnt_cons]
      have := rowsOfAlt_length_le baseLit (boundVarsOf baseLit) instCl a
      omega

end Kernel

namespace Kernel

open MatchingData

/-! ## The bitmap of the matched alternatives -/

theorem getD_set_true (out : List Bool) (i p : Nat) :
    (out.set i true).getD p false = true ↔ (p = i ∧ i < out.length) ∨ out.getD p false = true := by
  simp only [List.getD_eq_getElem?_getD, List.getElem?_set]
  by_cases e : i = p
  · subst e
    by_cases hl : i < out.length
    · simp [hl]
    · simp [hl, List.getElem?_eq_none (by omega : out.length ≤ i)]
  · simp only [if_neg e]
    constructor
    · intro h; exact Or.inr h
    · rintro (⟨h, _⟩ | h)
      · exact absurd h.symm e
      · exact h

/-- What `getMatchedAltsBitmap` computes: after the rounds for the levels before
`n` the vector has one entry per literal of the instance, and the entry `p`
is set exactly when one of these levels, other than the one selected for
demodulation, points to the position `p`. -/
theorem matchedAltsBitmapLoop_spec (md : MatchingData) :
    ∀ n, (matchedAltsBitmapLoop md n).length = md.inst.length ∧
      ∀ p, (matchedAltsBitmapLoop md n).getD p false = true ↔
        (p < md.inst.length ∧ ∃ bi, bi < n ∧ bi ≠ md.eqLitForDemodulation ∧
          md.getAltRecordIndex bi (dec32 (md.nextAlts bi)) = p) := by
  intro n
  induction n with
  | zero =>
      refine ⟨by simp [matchedAltsBitmapLoop], ?_⟩
      intro p
      simp only [matchedAltsBitmapLoop, List.getD_eq_getElem?_getD, List.getElem?_replicate]
      split <;> simp
  | succ n ih =>
      obtain ⟨h1, h2⟩ := ih
      by_cases he : n ≠ md.eqLitForDemodulation
      · have hE : matchedAltsBitmapLoop md (n + 1)
            = (matchedAltsBitmapLoop md n).set
                (md.getAltRecordIndex n (dec32 (md.nextAlts n))) true := by
          simp only [matchedAltsBitmapLoop, if_pos he]
        rw [hE]
        refine ⟨by simp [h1], ?_⟩
        intro p
        rw [getD_set_true, h2 p, h1]
        constructor
        · rintro (⟨e1, e2⟩ | ⟨e1, bi, b1, b2, b3⟩)
          · exact ⟨by omega, n, by omega, he, e1.symm⟩
          · exact ⟨e1, bi, by omega, b2, b3⟩
        · rintro ⟨e1, bi, b1, b2, b3⟩
          by_cases hb : bi = n
          · subst hb
            exact Or.inl ⟨b3.symm, by omega⟩
          · exact Or.inr ⟨e1, bi, by omega, b2, b3⟩
      · have hE : matchedAltsBitmapLoop md (n + 1) = matchedAltsBitmapLoop md n := by
          simp only [matchedAltsBitmapLoop, if_neg he]
        rw [hE]
        refine ⟨h1, ?_⟩
        intro p
        rw [h2 p]
        constructor
        · rintro ⟨e1, bi, b1, b2, b3⟩
          exact ⟨e1, bi, by omega, b2, b3⟩
        · rintro ⟨e1, bi, b1, b2, b3⟩
          have : bi ≠ n := fun e => by
            rw [e] at b2
            exact he b2
          exact ⟨e1, bi, by omega, b2, b3⟩

namespace MatchingData

/-- In a matched state the position a level that is not skipped points to is a
position of the instance. -/
theorem Matched.sel_pos_lt {md : MatchingData} (h : Matched md) (j : Nat) (hj : j < md.len)
    (hje : j ≠ md.eqLitForDemodulation) : (md.selRow j).pos < md.inst.length :=
  h.1.rowsP_pos_lt j _ (h.sel_mem j hj hje)

end MatchingData

/-- The exception of `nextMatch` is thrown only in a round that reaches the end
of the loop body with the counter at 50000 and the time limit reached. -/
theorem nextMatchLoop_exception (tl : Nat → Bool) :
    ∀ (fuel t : Nat) (impl impl2 : Impl),
      nextMatchLoop tl fuel t impl = some (MatchResult.timeLimitExceeded impl2) →
      ∃ (t2 : Nat) (impl1 : Impl) (md2 : MatchingData), t ≤ t2 ∧
        nextMatchRound impl1.s_matchingData = Round.next md2 ∧
        impl1.s_counter + 1 = 50000 ∧ tl t2 = true ∧
        impl2 = { s_matchingData := md2, s_counter := 0 } := by
  intro fuel
  induction fuel with
  | zero => intro t impl impl2 h; simp [nextMatchLoop] at h
  | succ fuel ih =>
      intro t impl impl2 h
      unfold nextMatchLoop at h
      cases hr : nextMatchRound impl.s_matchingData with
      | backtrackInit md2 =>
          rw [hr] at h
          obtain ⟨t2, impl1, md3, g1, g2⟩ := ih _ _ _ h
          exact ⟨t2, impl1, md3, by omega, g2⟩
      | fail md2 => rw [hr] at h; simp at h
      | complete md2 => rw [hr] at h; simp at h
      | next md2 =>
          rw [hr] at h
          simp only at h
          by_cases hc : impl.s_counter + 1 = 50000
          · rw [if_pos hc] at h
            by_cases ht : tl t = true
            · rw [if_pos ht] at h
              simp only [Option.some.injEq, MatchResult.timeLimitExceeded.injEq] at h
              exact ⟨t, impl, md2, le_refl _, hr, hc, ht, h.symm⟩
            · rw [if_neg ht] at h
              obtain ⟨t2, impl1, md3, g1, g2⟩ := ih _ _ _ h
              exact ⟨t2, impl1, md3, by omega, g2⟩
          · rw [if_neg hc] at h
            obtain ⟨t2, impl1, md3, g1, g2⟩ := ih _ _ _ h
            exact ⟨t2, impl1, md3, by omega, g2⟩

end Kernel

namespace Kernel

/-! ## The reordering puts the lists counted at most once first -/

theorem cnt_swap (A : List (List Literal)) (a b k : Nat) (ha : a < A.length)
    (hb : b < A.length) :
    currAltCnt ((swapRows A a b).getD k [])
      = if k = b then currAltCnt (A.getD a [])
        else if k = a then currAltCnt (A.getD b []) else currAltCnt (A.getD k []) := by
  have h := swapRows_getD A a b k ha hb
  have e : (default : List Literal) = [] := rfl
  rw [e] at h
  rw [h]
  split
  · rfl
  · split <;> rfl

theorem smallFirst_swap {A : List (List Literal)} {s i : Nat} (hs : SmallFirst A s i)
    (_hsi : s ≠ i) (hle : s ≤ i) (hi : i < A.length) (hc : currAltCnt (A.getD i []) ≤ 1) :
    SmallFirst (swapRows A i s) (s + 1) (i + 1) := by
  obtain ⟨hsm, hmu⟩ := hs
  constructor
  · intro j hj
    rw [cnt_swap A i s j hi (by omega)]
    by_cases e1 : j = s
    · rw [if_pos e1]; exact hc
    · rw [if_neg e1, if_neg (by omega)]
      exact hsm j (by omega)
  · intro j h1 h2
    rw [cnt_swap A i s j hi (by omega), if_neg (by omega)]
    by_cases e1 : j = i
    · rw [if_pos e1]; exact hmu s (le_refl _) (by omega)
    · rw [if_neg e1]; exact hmu j (by omega) (by omega)

theorem smallFirst_keep {A : List (List Literal)} {s i : Nat} (hs : SmallFirst A s i)
    (hsi : s = i) (hc : currAltCnt (A.getD i []) ≤ 1) : SmallFirst A (s + 1) (i + 1) := by
  obtain ⟨hsm, hmu⟩ := hs
  constructor
  · intro j hj
    by_cases e1 : j = i
    · rw [e1]; exact hc
    · exact hsm j (by omega)
  · intro j h1 h2
    omega

theorem smallFirst_multi {A : List (List Literal)} {s i : Nat} (hs : SmallFirst A s i)
    (hc : 2 ≤ currAltCnt (A.getD i [])) : SmallFirst A s (i + 1) := by
  obtain ⟨hsm, hmu⟩ := hs
  refine ⟨hsm, ?_⟩
  intro j h1 h2
  by_cases e1 : j = i
  · rw [e1]; exact hc
  · exact hmu j h1 (by omega)

theorem smallFirst_two_swaps {A : List (List Literal)} {s z i : Nat} (hs : SmallFirst A s i)
    (hz : z ≤ s) (hle : s ≤ i) (hi : i < A.length) (hsz : s ≠ z) (hzi : z ≠ i)
    (hc : currAltCnt (A.getD i []) = 0) :
    SmallFirst (swapRows (swapRows A s z) i z) (s + 1) (i + 1) := by
  obtain ⟨hsm, hmu⟩ := hs
  have hl : (swapRows A s z).length = A.length := swapRows_length A s z
  have c2 : ∀ k, currAltCnt ((swapRows A s z).getD k [])
      = if k = z then currAltCnt (A.getD s [])
        else if k = s then currAltCnt (A.getD z []) else currAltCnt (A.getD k []) :=
    fun k => cnt_swap A s z k (by omega) (by omega)
  have c3 : ∀ k, currAltCnt ((swapRows (swapRows A s z) i z).getD k [])
      = if k = z then currAltCnt ((swapRows A s z).getD i [])
        else if k = i then currAltCnt ((swapRows A s z).getD z [])
        else currAltCnt ((swapRows A s z).getD k []) :=
    fun k => cnt_swap (swapRows A s z) i z k (by omega) (by omega)
  have hzs : z < s := by omega
  by_cases hsi : s = i
  · -- the two exchanges cancel
    constructor
    · intro j hj
      rw [c3 j]
      by_cases e1 : j = z
      · rw [if_pos e1, c2 i, if_neg (by omega), if_pos hsi.symm]
        exact hsm z hzs
      · rw [if_neg e1]
        by_cases e2 : j = i
        · rw [if_pos e2, c2 z, if_pos rfl, hsi, hc]
          omega
        · rw [if_neg e2, c2 j, if_neg e1, if_neg (by omega)]
          exact hsm j (by omega)
    · intro j h1 h2
      omega
  · have hlt : s < i := by omega
    constructor
    · intro j hj
      rw [c3 j]
      by_cases e1 : j = z
      · rw [if_pos e1, c2 i, if_neg (by omega), if_neg (by omega), hc]
        omega
      · rw [if_neg e1, if_neg (by omega), c2 j, if_neg e1]
        by_cases e2 : j = s
        · rw [if_pos e2]; exact hsm z hzs
        · rw [if_neg e2]; exact hsm j (by omega)
    · intro j h1 h2
      rw [c3 j, if_neg (by omega)]
      by_cases e2 : j = i
      · rw [if_pos e2, c2 z, if_pos rfl]
        exact hmu s (le_refl _) hlt
      · rw [if_neg e2, c2 j, if_neg (by omega), if_neg (by omega)]
        exact hmu j (by omega) (by omega)

theorem smallFirst_final {A : List (List Literal)} {s m : Nat} (hs : SmallFirst A s A.length)
    (hsm2 : s < m) (hm : m < A.length) : SmallFirst (swapRows A m s) s A.length := by
  obtain ⟨hsm, hmu⟩ := hs
  constructor
  · intro j hj
    rw [cnt_swap A m s j hm (by omega), if_neg (by omega), if_neg (by omega)]
    exact hsm j hj
  · intro j h1 h2
    rw [cnt_swap A m s j hm (by omega)]
    by_cases e1 : j = s
    · rw [if_pos e1]; exact hmu m (by omega) hm
    · rw [if_neg e1]
      by_cases e2 : j = m
      · rw [if_pos e2]; exact hmu s (le_refl _) (by omega)
      · rw [if_neg e2]; exact hmu j h1 h2

/-- One round of the reordering loop keeps the small lists first. -/
theorem smallFirst_step {baseLits0 : List Literal} {alts : List (List Literal)}
    {s : ReorderState} {i : Nat} (h : ReorderInv baseLits0 alts s i)
    (hs : SmallFirst s.s_altsArr s.singleAlts i) (hi : i < baseLits0.length) :
    SmallFirst (s.step i).s_altsArr (s.step i).singleAlts (i + 1) := by
  have h1 := h.zero_le
  have h2 := h.single_le
  have hl := h.len_a
  unfold ReorderState.step
  dsimp only
  split
  · rename_i hc0
    split
    · rename_i hzi
      split
      · rename_i hsz
        split
        · exact smallFirst_two_swaps hs h1 h2 (by omega) hsz hzi hc0
        · exact smallFirst_two_swaps hs h1 h2 (by omega) hsz hzi hc0
      · rename_i hsz
        have e : s.singleAlts = s.zeroAlts := by
          by_contra hne; exact hsz hne
        split
        · simp only [ReorderState.swapLits]
          rw [← e]
          exact smallFirst_swap hs (by omega) h2 (by omega) (by omega)
        · simp only [ReorderState.swapLits]
          rw [← e]
          exact smallFirst_swap hs (by omega) h2 (by omega) (by omega)
    · rename_i hzi
      dsimp only
      exact smallFirst_keep hs (by omega) (by omega)
  · rename_i hc0
    split
    · rename_i hc1
      split
      · rename_i hsi
        split
        · exact smallFirst_swap hs hsi h2 (by omega) (by omega)
        · exact smallFirst_swap hs hsi h2 (by omega) (by omega)
      · rename_i hsi
        dsimp only
        exact smallFirst_keep hs (by omega) (by omega)
    · rename_i hc1
      split
      · dsimp only
        exact smallFirst_multi hs (by omega)
      · exact smallFirst_multi hs (by omega)

theorem smallFirst_run {baseLits0 : List Literal} {alts : List (List Literal)}
    {s : ReorderState} (h : ReorderInv baseLits0 alts s 0) :
    ∀ n, n ≤ baseLits0.length → SmallFirst (s.run n).s_altsArr (s.run n).singleAlts n := by
  intro n
  induction n with
  | zero =>
      intro _
      have := h.single_le
      show SmallFirst s.s_altsArr s.singleAlts 0
      exact ⟨fun j hj => by omega, fun j h1 h2 => by omega⟩
  | succ n ih =>
      intro hn
      exact smallFirst_step (h.run_inv n (by omega)) (ih (by omega)) (by omega)

/-- After the reordering the lists of alternatives counted at most once come
before the others. -/
theorem reorder_small (baseLits0 : List Literal) (alts : List (List Literal)) (first : Literal)
    (hlen : alts.length = baseLits0.length) :
    ∃ single, SmallFirst (reorder baseLits0 alts first).s_altsArr single baseLits0.length := by
  have h0 : ReorderInv baseLits0 alts
      { s_baseLits := baseLits0, s_altsArr := alts, zeroAlts := 0, singleAlts := 0,
        mostDistVarsLit := 0, mostDistVarsCnt := first.getDistinctVars } 0 :=
    ⟨le_refl _, le_refl _, Or.inl rfl, rfl, hlen, List.Perm.refl _⟩
  have h := h0.run_inv baseLits0.length (le_refl _)
  have hs := smallFirst_run h0 baseLits0.length (le_refl _)
  unfold reorder
  dsimp only
  generalize ReorderState.run _ baseLits0.length = r at h hs
  refine ⟨r.singleAlts, ?_⟩
  split
  · rename_i hgt
    have hm := h.most
    have hla := h.len_a
    simp only [ReorderState.swapLits]
    rw [← hla] at hs ⊢
    exact smallFirst_final hs hgt (by omega)
  · exact hs

end Kernel

namespace Kernel

open MatchingData

/-! ## A match of the other base literals, in the order of the matcher -/

theorem getElem?_skip {α : Type} (l₁ l₂ : List α) (x : α) (l : Nat) (hl : l ≠ l₁.length) :
    (l₁ ++ l₂)[if l < l₁.length then l else l - 1]? = (l₁ ++ x :: l₂)[l]? := by
  by_cases h : l < l₁.length
  · rw [if_pos h, List.getElem?_append_left h, List.getElem?_append_left h]
  · rw [if_neg h, List.getElem?_append_right (by omega), List.getElem?_append_right (by omega)]
    have e : l - l₁.length = (l - 1 - l₁.length) + 1 := by omega
    rw [e, List.getElem?_cons_succ]

theorem zip_getElem?_getD {α β : Type} [Inhabited α] [Inhabited β] (l1 : List α) (l2 : List β)
    (k : Nat) (h1 : k < l1.length) (h2 : k < l2.length) :
    (l1.zip l2)[k]? = some (l1.getD k default, l2.getD k default) := by
  have h3 : k < (l1.zip l2).length := by simp; omega
  rw [List.getElem?_eq_getElem h3]
  simp [List.getD_eq_getElem?_getD, List.getElem?_eq_getElem h1, List.getElem?_eq_getElem h2]

/-- Removing the first occurrence of a member does not depend on which lawful
test of equality is used. -/
theorem erase_beq_congr {α : Type} (i1 i2 : BEq α) (w1 : @LawfulBEq α i1) (w2 : @LawfulBEq α i2)
    (a : α) : ∀ l : List α, @List.erase α i1 l a = @List.erase α i2 l a
  | [] => rfl
  | x :: l => by
      have hb : @BEq.beq α i1 x a = @BEq.beq α i2 x a := by
        cases h1 : @BEq.beq α i1 x a with
        | true =>
            have := @LawfulBEq.eq_of_beq α i1 w1 _ _ h1
            rw [this]
            exact (@LawfulBEq.rfl α i2 w2 a).symm
        | false =>
            cases h2 : @BEq.beq α i2 x a with
            | false => rfl
            | true =>
                have := @LawfulBEq.eq_of_beq α i2 w2 _ _ h2
                rw [this, @LawfulBEq.rfl α i1 w1 a] at h1
                cases h1
      show (match @BEq.beq α i1 x a with
          | true => l
          | false => x :: @List.erase α i1 l a)
        = (match @BEq.beq α i2 x a with
          | true => l
          | false => x :: @List.erase α i2 l a)
      rw [hb, erase_beq_congr i1 i2 w1 w2 a l]

theorem erase_eq_decEq {α : Type} [DecidableEq α] [i1 : BEq α] [w1 : LawfulBEq α] (a : α)
    (l : List α) : l.erase a = @List.erase α instBEqOfDecidableEq l a :=
  erase_beq_congr i1 instBEqOfDecidableEq w1 inferInstance a l

/-- A member of the tuples has one component from each list. -/
theorem tuples_getElem {α : Type} {L : List (List α)} {t : List α} (h : t ∈ tuples L) :
    t.length = L.length ∧
    ∀ k (hk : k < t.length) (l : List α), L[k]? = some l → t[k] ∈ l := by
  rw [mem_tuples] at h
  induction h with
  | nil => exact ⟨rfl, fun k hk => by simp at hk⟩
  | cons hab _ ih =>
      obtain ⟨i1, i2⟩ := ih
      refine ⟨by simp [i1], ?_⟩
      intro k hk l hl
      cases k with
      | zero =>
          simp only [List.getElem?_cons_zero, Option.some.injEq] at hl
          subst hl
          exact hab
      | succ k =>
          simp only [List.getElem?_cons_succ] at hl
          exact i2 k (by simpa using hk) l hl

/-- After `init` of a problem in which the other base literals have a match,
the matcher holds that match: a level with the equality and no rows, and a row
for every other level. -/
theorem target_exists {baseLits : List Literal} {inst : Clause} {alts : List (List Literal)}
    (hwf : WellFormed baseLits inst alts) {md : MatchingData}
    (hmd : initMatchingData baseLits inst alts = some md) {e : Literal}
    (he : e.isEquality = true ∧ e.isPositive = true)
    (hmem : (e, ([] : List Literal)) ∈ baseLits.zip alts)
    (ho : othersChoices baseLits inst alts e ≠ []) :
    ∃ p χ, Target md p χ ∧ md.bases.getD p default = e := by
  obtain ⟨first, _, h1, _, _, _, h5, h6, h7, _, _⟩ := initMatchingData_eq hmd
  obtain ⟨p1, p2, p3⟩ := reorder_perm baseLits alts first hwf.alts_len
  obtain ⟨s, hs⟩ := reorder_small baseLits alts first hwf.alts_len
  rw [← h5] at p1 p2
  rw [← h6] at p1 p3 hs
  rw [← h1] at p2 p3 hs
  have hmemZ : (e, ([] : List Literal)) ∈ md.bases.zip md.alts := p1.mem_iff.2 hmem
  obtain ⟨l₁, l₂, _, hZ, hEr⟩ : ∃ l₁ l₂, (e, ([] : List Literal)) ∉ l₁ ∧
      md.bases.zip md.alts = l₁ ++ (e, []) :: l₂ ∧
      (md.bases.zip md.alts).erase (e, []) = l₁ ++ l₂ := List.exists_erase_eq hmemZ
  have hperm : ((md.bases.zip md.alts).erase (e, [])).Perm
      ((baseLits.zip alts).erase (e, [])) := by
    rw [erase_eq_decEq (e, []) (md.bases.zip md.alts),
      erase_eq_decEq (e, []) (baseLits.zip alts)]
    exact List.Perm.erase _ p1
  have hv : (((tuples (((md.bases.zip md.alts).erase (e, [])).map (rowChoices inst))).filter
        (fun t => decide (t.Pairwise RowsAgree))).map Multiset.ofList).Perm
      ((othersChoices baseLits inst alts e).map Multiset.ofList) :=
    validTuples_perm RowsAgree rowsAgree_symmetric (hperm.map (rowChoices inst))
  have hne : (tuples (((md.bases.zip md.alts).erase (e, [])).map (rowChoices inst))).filter
      (fun t => decide (t.Pairwise RowsAgree)) ≠ [] := by
    intro hnil
    have hl := hv.length_eq
    rw [List.length_map, List.length_map, hnil] at hl
    exact ho (List.length_eq_zero.1 hl.symm)
  obtain ⟨t, htm⟩ := List.exists_mem_of_ne_nil _ hne
  rw [List.mem_filter] at htm
  obtain ⟨ht, hpw⟩ := htm
  have hpw : t.Pairwise RowsAgree := by simpa using hpw
  rw [hEr] at ht
  obtain ⟨tl, tg⟩ := tuples_getElem ht
  have hZlen : (md.bases.zip md.alts).length = md.len := by simp [p2, p3]
  have hn : l₁.length + 1 + l₂.length = md.len := by
    rw [← hZlen, hZ]; simp; omega
  have htl : t.length + 1 = md.len := by
    rw [tl]; simp; omega
  have hZp : (md.bases.getD l₁.length default, md.alts.getD l₁.length default)
      = (e, ([] : List Literal)) := by
    have a1 := zip_getElem?_getD md.bases md.alts l₁.length (by omega) (by omega)
    rw [hZ, List.getElem?_append_right (le_refl _), Nat.sub_self, List.getElem?_cons_zero] at a1
    exact (Option.some.inj a1).symm
  have hbp : md.bases.getD l₁.length default = e := congrArg Prod.fst hZp
  have hap : md.alts.getD l₁.length [] = [] := congrArg Prod.snd hZp
  -- the component of the tuple for a level other than that of the equality
  have hkey : ∀ l, l < md.len → l ≠ l₁.length →
      ∃ hk : (if l < l₁.length then l else l - 1) < t.length,
        (t[if l < l₁.length then l else l - 1]).2 ∈ md.rowsP l ∧
        t[if l < l₁.length then l else l - 1]
          = (md.bases.getD l default, (t[if l < l₁.length then l else l - 1]).2) := by
    intro l hl hlp
    have hk : (if l < l₁.length then l else l - 1) < t.length := by
      split <;> omega
    refine ⟨hk, ?_⟩
    have a1 := zip_getElem?_getD md.bases md.alts l (by omega) (by omega)
    rw [hZ, ← getElem?_skip l₁ l₂ (e, []) l hlp] at a1
    have a2 := tg _ hk (rowChoices inst (md.bases.getD l default, md.alts.getD l default))
      (by rw [List.getElem?_map, a1]; rfl)
    unfold rowChoices at a2
    rw [List.mem_map] at a2
    obtain ⟨r, r1, r2⟩ := a2
    have r3 : r ∈ md.rowsP l := by
      unfold rowsP
      rw [h7]
      exact r1
    rw [← r2]
    exact ⟨r3, rfl⟩
  refine ⟨l₁.length, fun l => (t.getD (if l < l₁.length then l else l - 1) default).2, ?_, hbp⟩
  have hχ : ∀ l, l < md.len → l ≠ l₁.length →
      ∃ hk : (if l < l₁.length then l else l - 1) < t.length,
        t.getD (if l < l₁.length then l else l - 1) default
          = t[if l < l₁.length then l else l - 1] := by
    intro l hl hlp
    obtain ⟨hk, _⟩ := hkey l hl hlp
    exact ⟨hk, by rw [List.getD_eq_getElem?_getD, List.getElem?_eq_getElem hk]; rfl⟩
  refine
    { p_lt := by omega
      p_rows := rowsP_nil_of_alts hap
      p_eq := by rw [hbp]; exact he
      mem := ?_
      agree := ?_
      single := ?_ }
  · intro l hl hlp
    obtain ⟨hk, e1⟩ := hχ l hl hlp
    obtain ⟨_, k1, _⟩ := hkey l hl hlp
    show (t.getD (if l < l₁.length then l else l - 1) default).2 ∈ md.rowsP l
    rw [e1]
    exact k1
  · intro i j hi hj hip hjp hij
    obtain ⟨hki, ei⟩ := hχ i hi hip
    obtain ⟨_, _, ki⟩ := hkey i hi hip
    obtain ⟨hkj, ej⟩ := hχ j hj hjp
    obtain ⟨_, _, kj⟩ := hkey j hj hjp
    show RowsAgree (md.bases.getD i default,
        (t.getD (if i < l₁.length then i else i - 1) default).2)
      (md.bases.getD j default, (t.getD (if j < l₁.length then j else j - 1) default).2)
    rw [ei, ej, ← ki, ← kj]
    have hne2 : (if i < l₁.length then i else i - 1) ≠ (if j < l₁.length then j else j - 1) := by
      split <;> split <;> omega
    rw [List.pairwise_iff_getElem] at hpw
    rcases Nat.lt_or_gt_of_ne hne2 with hlt | hgt
    · exact hpw _ _ hki hkj hlt
    · exact rowsAgree_symm (hpw _ _ hkj hki hgt)
  · intro j hj
    have hps : l₁.length < s := by
      by_contra hge
      have := hs.2 l₁.length (by omega) (by omega)
      rw [hap] at this
      simp [currAltCnt] at this
    have hc := hs.1 j (by omega)
    have := rows_length_le_cnt (md.bases.getD j default) (md.alts.getD j []) md.inst
    unfold rowsP
    omega

end Kernel

namespace Kernel

open MatchingData

/-! ## The first call when one positive equality has no alternatives -/

/-- After `init` of a problem in which the other base literals have a match,
that match is ahead of the search. -/
theorem init_ahead {baseLits : List Literal} {inst : Clause} {alts : List (List Literal)}
    (hwf : WellFormed baseLits inst alts) {md : MatchingData}
    (hmd : initMatchingData baseLits inst alts = some md) {p : Nat} {χ : Nat → AltRow}
    (ht : Target md p χ) : Ahead p χ md := by
  have hinv := init_inv hwf hmd
  obtain ⟨first, _, _, h2, h3, h4, _, _, _, _, h9⟩ := initMatchingData_eq hmd
  refine ⟨0, by omega, ?_, ?_, ?_, ?_⟩
  · intro _
    exact ⟨h9.symm, h4, fun _ => by simp [isInitialized, h2]⟩
  · intro h
    omega
  · intro j hj
    omega
  · intro h0p
    exact target_at_arrival hinv ht (by have := ht.p_lt; omega) h0p (by rw [h3])

/-- When one positive equality has no alternatives and the other base literals
have a match, no call of `nextMatch` after `init` returns `false`, and the call
under no time limit returns `true` with the equality selected for
demodulation. -/
theorem first_call_skips {baseLits : List Literal} {inst : Clause} {alts : List (List Literal)}
    (hwf : WellFormed baseLits inst alts) {impl0 : Impl}
    (h0 : init baseLits inst alts = some impl0) {e : Literal}
    (he : e.isEquality = true ∧ e.isPositive = true)
    (hmem : (e, ([] : List Literal)) ∈ baseLits.zip alts)
    (ho : othersChoices baseLits inst alts e ≠ []) :
    (∀ (tl : Nat → Bool) (fuel : Nat) (r : MatchResult), nextMatch tl fuel impl0 = some r →
      ∀ impl2, r ≠ MatchResult.returned false impl2) ∧
    ∃ fuel impl1, nextMatch noTimeLimit fuel impl0 = some (MatchResult.returned true impl1) ∧
      impl1.s_matchingData.eqLitForDemodulation < impl1.s_matchingData.len ∧
      impl1.s_matchingData.bases.getD impl1.s_matchingData.eqLitForDemodulation default = e := by
  have hv := ValidState.init impl0 h0
  have hinv := hv.valid_inv hwf
  obtain ⟨p, χ, ht, hb⟩ : ∃ p χ, Target impl0.s_matchingData p χ ∧
      impl0.s_matchingData.bases.getD p default = e ∧ Ahead p χ impl0.s_matchingData := by
    unfold Kernel.init at h0
    cases hmd : initMatchingData baseLits inst alts with
    | none => rw [hmd] at h0; simp at h0
    | some md =>
        rw [hmd] at h0
        simp only [Option.map_some', Option.some.injEq] at h0
        subst h0
        obtain ⟨p, χ, ht, hb⟩ := target_exists hwf hmd he hmem ho
        exact ⟨p, χ, ht, hb, init_ahead hwf hmd ht⟩
  obtain ⟨hb, ha⟩ := hb
  have hno : ∀ (tl : Nat → Bool) (fuel : Nat) (r : MatchResult),
      nextMatch tl fuel impl0 = some r → ∀ impl2, r ≠ MatchResult.returned false impl2 :=
    fun tl fuel r hr => nextMatchLoop_ahead tl fuel 0 impl0 r hinv ht ha hr
  refine ⟨hno, ?_⟩
  obtain ⟨b, impl1, hr⟩ := nextMatch_returns impl0 hinv
  cases b with
  | false => exact absurd rfl (hno _ _ _ hr impl1)
  | true =>
      have hm := hv.matched_of_true hwf hr
      have hs : SameProblem impl0.s_matchingData impl1.s_matchingData :=
        nextMatchLoop_same noTimeLimit _ 0 impl0 _ hinv hr
      have ht2 := target_of_same hs ht
      have heq := hm.eq_of_no_rows p ht2.p_lt ht2.p_rows
      refine ⟨_, impl1, hr, ?_, ?_⟩
      · rw [← heq]; exact ht2.p_lt
      · rw [← heq, hs.2.1]; exact hb

end Kernel

namespace Indexing

open IndexManager

/-- What a successful `create` changes: the world gains objects at fresh
addresses, the registry and the flags are untouched, nothing is deleted. -/
theorem create_spec (m : IndexManager) (t : IndexType) (p : Nat) (m1 : IndexManager)
    (h : m.create t = Except.ok (p, m1)) :
    m1._store = m._store ∧ m1._alg = m._alg ∧
    m1._equalSimpContainers = m._equalSimpContainers ∧
    m1.world.deleted = m.world.deleted ∧
    m.world.nextPtr ≤ p ∧ p < m1.world.nextPtr := by
  unfold IndexManager.create at h
  cases t <;> cases ha : m._alg <;> simp only [ha] at h <;> cases h <;>
    simp [IndexManager.createOver, IndexManager.createPlain, World.alloc,
      World.attachContainer, ha]

/-- With an algorithm present, `create` succeeds on each kind of its `switch`. -/
theorem create_ok (m : IndexManager) (t : IndexType) (alg : SaturationAlgorithm)
    (ha : m._alg = some alg) (ht : ∀ n, t ≠ IndexType.OTHER n) :
    ∃ p m1, m.create t = Except.ok (p, m1) := by
  unfold IndexManager.create
  cases t <;> simp only [ha] <;> first
    | exact ⟨_, _, rfl⟩
    | exact absurd rfl (ht _)

/-- The effect of `request` when the registry holds an entry for the kind. -/
theorem request_of_entry (m : IndexManager) (t : IndexType) (e : Entry)
    (h : m._store (m.aliased t) = some e) :
    m.request t
      = Except.ok (e.index, m.storeSet (m.aliased t) ⟨e.index, e.refCnt + 1⟩) := by
  unfold IndexManager.request
  simp only [h]

/-- The effect of `request` when the registry holds no entry for the kind. -/
theorem request_of_none (m : IndexManager) (t : IndexType)
    (h : m._store (m.aliased t) = none) :
    m.request t
      = (m.create (m.aliased t)).map (fun r => (r.1, r.2.storeSet (m.aliased t) ⟨r.1, 1⟩)) := by
  unfold IndexManager.request
  simp only [h]
  cases m.create (m.aliased t) <;> rfl

/-- What a successful `request` changes. -/
theorem request_spec (m : IndexManager) (t : IndexType) (p : Nat) (m1 : IndexManager)
    (h : m.request t = Except.ok (p, m1)) :
    m1._equalSimpContainers = m._equalSimpContainers ∧ m1._alg = m._alg ∧
    (∀ t2, t2 ≠ m.aliased t → m1._store t2 = m._store t2) ∧
    m.world.nextPtr ≤ m1.world.nextPtr ∧
    m1.world.deleted = m.world.deleted ∧
    ((∃ e, m._store (m.aliased t) = some e ∧
        m1._store (m.aliased t) = some { index := e.index, refCnt := e.refCnt + 1 } ∧
        p = e.index) ∨
      (m._store (m.aliased t) = none ∧
        m1._store (m.aliased t) = some { index := p, refCnt := 1 } ∧
        m.world.nextPtr ≤ p)) := by
  cases hs : m._store (m.aliased t) with
  | some e =>
      rw [request_of_entry m t e hs] at h
      simp only [Except.ok.injEq, Prod.mk.injEq] at h
      obtain ⟨rfl, rfl⟩ := h
      refine ⟨rfl, rfl, ?_, le_refl _, rfl, Or.inl ⟨e, rfl, ?_, rfl⟩⟩
      · intro t2 h2
        simp [IndexManager.storeSet, Function.update_noteq h2]
      · simp [IndexManager.storeSet]
  | none =>
      rw [request_of_none m t hs] at h
      cases hc : m.create (m.aliased t) with
      | error err => rw [hc] at h; simp [Except.map] at h
      | ok r =>
          obtain ⟨q, m2⟩ := r
          rw [hc] at h
          simp only [Except.map, Except.ok.injEq, Prod.mk.injEq] at h
          obtain ⟨rfl, rfl⟩ := h
          obtain ⟨c1, c2, c3, c4, c5, c6⟩ := create_spec m _ _ _ hc
          refine ⟨c3, c2, ?_, ?_, c4, Or.inr ⟨rfl, by simp [IndexManager.storeSet], c5⟩⟩
          · intro t2 h2
            simp [IndexManager.storeSet, Function.update_noteq h2, c1]
          · show m.world.nextPtr ≤ m2.world.nextPtr
            omega

/-- The call `request` succeeds when the kind has an entry, and when an
algorithm is present and the kind is one `create` supports. -/
theorem request_ok (m : IndexManager) (t : IndexType)
    (h : (∃ e, m._store (m.aliased t) = some e) ∨
      ((∃ alg, m._alg = some alg) ∧ ∀ n, m.aliased t ≠ IndexType.OTHER n)) :
    ∃ p m1, m.request t = Except.ok (p, m1) := by
  cases hs : m._store (m.aliased t) with
  | some e => exact ⟨_, _, request_of_entry m t e hs⟩
  | none =>
      rcases h with ⟨e, he⟩ | ⟨⟨alg, ha⟩, hk⟩
      · rw [hs] at he; exact absurd he (by simp)
      · obtain ⟨p, m1, hc⟩ := create_ok m _ alg ha hk
        rw [request_of_none m t hs, hc]
        exact ⟨_, _, rfl⟩

/-- The effect of `release` on an entry whose count is one. -/
theorem release_of_one (m : IndexManager) (t : IndexType) (e : Entry)
    (h : m._store (m.aliased t) = some e) (h1 : e.refCnt = 1) :
    ∃ m1, m.release t = Except.ok m1 ∧
      m1._store = Function.update m._store (m.aliased t) none ∧
      m1.world.deleted = e.index :: m.world.deleted ∧
      m1.world.heap = m.world.heap ∧ m1.world.nextPtr = m.world.nextPtr ∧
      m1._alg = m._alg ∧ m1._equalSimpContainers = m._equalSimpContainers := by
  unfold IndexManager.release
  simp only [h, h1, sub_self, if_true]
  refine ⟨_, rfl, ?_⟩
  by_cases hg : m.aliased t = IndexType.GENERATING_SUBST_TREE
  · simp [hg, World.delete, IndexManager.storeRemove]
  · simp [hg, World.delete, IndexManager.storeRemove]

/-- The effect of `release` on an entry whose count is not one. -/
theorem release_of_more (m : IndexManager) (t : IndexType) (e : Entry)
    (h : m._store (m.aliased t) = some e) (h1 : e.refCnt ≠ 1) :
    m.release t = Except.ok (m.storeSet (m.aliased t) ⟨e.index, e.refCnt - 1⟩) := by
  unfold IndexManager.release
  have : ¬ (e.refCnt - 1 = 0) := by omega
  simp only [h, this, if_false]

/-- What a successful `release` changes. -/
theorem release_spec (m : IndexManager) (t : IndexType) (m1 : IndexManager)
    (h : m.release t = Except.ok m1) :
    m1._equalSimpContainers = m._equalSimpContainers ∧ m1._alg = m._alg ∧
    (∀ t2, t2 ≠ m.aliased t → m1._store t2 = m._store t2) ∧
    m1.world.nextPtr = m.world.nextPtr ∧
    ∃ e, m._store (m.aliased t) = some e ∧
      ((e.refCnt = 1 ∧ m1._store (m.aliased t) = none ∧
          m1.world.deleted = e.index :: m.world.deleted) ∨
        (e.refCnt ≠ 1 ∧
          m1._store (m.aliased t) = some { index := e.index, refCnt := e.refCnt - 1 } ∧
          m1.world.deleted = m.world.deleted)) := by
  cases hs : m._store (m.aliased t) with
  | none =>
      unfold IndexManager.release at h
      simp [hs] at h
  | some e =>
      by_cases h1 : e.refCnt = 1
      · obtain ⟨m2, r1, r2, r3, r4, r5, r6, r7⟩ := release_of_one m t e hs h1
        rw [r1] at h
        simp only [Except.ok.injEq] at h
        subst h
        refine ⟨r7, r6, ?_, r5, e, rfl, Or.inl ⟨h1, by rw [r2]; simp, r3⟩⟩
        intro t2 h2
        rw [r2, Function.update_noteq h2]
      · rw [release_of_more m t e hs h1] at h
        simp only [Except.ok.injEq] at h
        subst h
        refine ⟨rfl, rfl, ?_, rfl, e, rfl, Or.inr ⟨h1, by simp [IndexManager.storeSet], rfl⟩⟩
        intro t2 h2
        simp [IndexManager.storeSet, Function.update_noteq h2]

/-- The call `release` succeeds when the kind has an entry. -/
theorem release_ok (m : IndexManager) (t : IndexType) (e : Entry)
    (h : m._store (m.aliased t) = some e) : ∃ m1, m.release t = Except.ok m1 := by
  by_cases h1 : e.refCnt = 1
  · obtain ⟨m2, r1, _⟩ := release_of_one m t e h h1
    exact ⟨m2, r1⟩
  · exact ⟨_, release_of_more m t e h h1⟩

/-- The aliased kind depends on the flag `_equalSimpContainers` only. -/
theorem aliased_congr (m m1 : IndexManager) (t : IndexType)
    (h : m1._equalSimpContainers = m._equalSimpContainers) : m1.aliased t = m.aliased t := by
  unfold IndexManager.aliased
  rw [h]

/-- One call keeps the flag `_equalSimpContainers` and the algorithm. -/
theorem step_flags (m m1 : IndexManager) (o : Op) (h : m.step o = Except.ok m1) :
    m1._equalSimpContainers = m._equalSimpContainers ∧ m1._alg = m._alg := by
  cases o with
  | request t =>
      simp only [IndexManager.step] at h
      cases hr : m.request t with
      | error err => rw [hr] at h; simp at h
      | ok r =>
          obtain ⟨p, m2⟩ := r
          rw [hr] at h
          simp only [Except.ok.injEq] at h
          subst h
          obtain ⟨a, b, _⟩ := request_spec m t p m2 hr
          exact ⟨a, b⟩
  | release t =>
      simp only [IndexManager.step] at h
      obtain ⟨a, b, _⟩ := release_spec m t m1 h
      exact ⟨a, b⟩
  | provideIndex t i =>
      simp only [IndexManager.step, Except.ok.injEq] at h
      subst h
      exact ⟨rfl, rfl⟩

/-- A sequence of calls keeps the flag `_equalSimpContainers` and the
algorithm. -/
theorem run_flags (os : List Op) : ∀ (m m1 : IndexManager), IndexManager.run os m = Except.ok m1 →
    m1._equalSimpContainers = m._equalSimpContainers ∧ m1._alg = m._alg := by
  induction os with
  | nil =>
      intro m m1 h
      simp only [IndexManager.run, Except.ok.injEq] at h
      subst h
      exact ⟨rfl, rfl⟩
  | cons o os ih =>
      intro m m1 h
      simp only [IndexManager.run] at h
      cases hs : m.step o with
      | error err => rw [hs] at h; simp at h
      | ok m2 =>
          rw [hs] at h
          obtain ⟨a, b⟩ := step_flags m m2 o hs
          obtain ⟨c, d⟩ := ih m2 m1 h
          exact ⟨c.trans a, d.trans b⟩

/-- One call keeps the registry invariant. -/
theorem step_counted (m m1 : IndexManager) (o : Op) (hc : m.Counted)
    (h : m.step o = Except.ok m1) : m1.Counted := by
  intro t2 e2 he2
  cases o with
  | request t =>
      simp only [IndexManager.step] at h
      cases hr : m.request t with
      | error err => rw [hr] at h; simp at h
      | ok r =>
          obtain ⟨p, m2⟩ := r
          rw [hr] at h
          simp only [Except.ok.injEq] at h
          subst h
          obtain ⟨_, _, s3, _, _, s6⟩ := request_spec m t p m2 hr
          by_cases ht : t2 = m.aliased t
          · subst ht
            rcases s6 with ⟨e, e1, e2x, _⟩ | ⟨_, e2x, _⟩
            · rw [e2x] at he2
              simp only [Option.some.injEq] at he2
              subst he2
              have := hc _ e e1
              simp only
              omega
            · rw [e2x] at he2
              simp only [Option.some.injEq] at he2
              subst he2
              simp
          · rw [s3 t2 ht] at he2
            exact hc t2 e2 he2
  | release t =>
      simp only [IndexManager.step] at h
      obtain ⟨_, _, s3, _, e, e1, s5⟩ := release_spec m t m1 h
      by_cases ht : t2 = m.aliased t
      · subst ht
        rcases s5 with ⟨_, e2x, _⟩ | ⟨n1, e2x, _⟩
        · rw [e2x] at he2; exact absurd he2 (by simp)
        · rw [e2x] at he2
          simp only [Option.some.injEq] at he2
          subst he2
          have := hc _ e e1
          simp only
          omega
      · rw [s3 t2 ht] at he2
        exact hc t2 e2 he2
  | provideIndex t i =>
      simp only [IndexManager.step, Except.ok.injEq] at h
      subst h
      by_cases ht : t2 = t
      · subst ht
        simp only [IndexManager.provideIndex, IndexManager.storeSet, Function.update_same,
          Option.some.injEq] at he2
        subst he2
        simp
      · simp only [IndexManager.provideIndex, IndexManager.storeSet,
          Function.update_noteq ht] at he2
        exact hc t2 e2 he2

/-- A sequence of calls keeps the registry invariant. -/
theorem run_counted (os : List Op) : ∀ (m m1 : IndexManager), m.Counted →
    IndexManager.run os m = Except.ok m1 → m1.Counted := by
  induction os with
  | nil =>
      intro m m1 hc h
      simp only [IndexManager.run, Except.ok.injEq] at h
      subst h
      exact hc
  | cons o os ih =>
      intro m m1 hc h
      simp only [IndexManager.run] at h
      cases hs : m.step o with
      | error err => rw [hs] at h; simp at h
      | ok m2 =>
          rw [hs] at h
          exact ih m2 m1 (step_counted m m2 o hc hs) h

/-- The constructor succeeds; it sets the flag `_equalSimpContainers` when an
algorithm is given whose simplifying and to-be-simplified containers are one
container, and the registry it leaves satisfies the invariant. -/
theorem new_spec (alg : Option SaturationAlgorithm) (w : World) :
    ∃ m, IndexManager.new alg w = Except.ok m ∧ m.Counted ∧ m._alg = alg ∧
      (m._equalSimpContainers = true ↔ ∃ a, alg = some a ∧
        a.getSimplifyingClauseContainer = a.getToBeSimplifiedClauseContainer) := by
  cases alg with
  | none =>
      refine ⟨_, rfl, ?_, rfl, ?_⟩
      · intro t e he
        simp at he
      · simp
  | some a =>
      obtain ⟨m0, hm0⟩ : ∃ m0 : IndexManager, m0 =
          { _alg := some a, _genLitIndex := 0,
            _equalSimpContainers :=
              decide (a.getSimplifyingClauseContainer = a.getToBeSimplifiedClauseContainer),
            _store := fun _ => none, world := w } := ⟨_, rfl⟩
      simp only [IndexManager.new, IndexManager.attach]
      rw [← hm0]
      obtain ⟨p, m1, hr⟩ := request_ok m0 IndexType.GENERATING_SUBST_TREE
        (Or.inr ⟨⟨a, by rw [hm0]⟩, by intro n; simp [IndexManager.aliased]⟩)
      rw [hr]
      obtain ⟨s1, s2, _⟩ := request_spec m0 _ p m1 hr
      refine ⟨m1, rfl, ?_, ?_, ?_⟩
      · refine step_counted m0 m1 (Op.request IndexType.GENERATING_SUBST_TREE) ?_ ?_
        · intro t e he
          rw [hm0] at he
          simp at he
        · simp only [IndexManager.step, hr]
      · rw [s2, hm0]
      · rw [s1, hm0]
        simp

end Indexing

namespace Indexing

open IndexManager

/-- The reference count of a kind follows the calls: from a state whose count
for `k` is `b`, a sequence of `request(k)` and `release(k)` in which the
releases never exceed the outstanding requests runs to its end, and the count
is `b` plus the requests minus the releases; at zero the entry is gone. -/
theorem run_refcount (k : IndexType) (cs : List RefCall) : ∀ (b : Nat) (m : IndexManager),
    (∃ alg, m._alg = some alg) → (∀ n, m.aliased k ≠ IndexType.OTHER n) →
    (b = 0 → m._store (m.aliased k) = none) →
    (0 < b → ∃ e, m._store (m.aliased k) = some e ∧ e.refCnt = (b : Int)) →
    balanced b cs = true →
    ∃ m1, IndexManager.run (cs.map (RefCall.on k)) m = Except.ok m1 ∧
      releases cs ≤ b + requests cs ∧
      m1._equalSimpContainers = m._equalSimpContainers ∧
      (b + requests cs - releases cs = 0 → m1._store (m.aliased k) = none) ∧
      (0 < b + requests cs - releases cs → ∃ e, m1._store (m.aliased k) = some e ∧
        e.refCnt = ((b + requests cs - releases cs : Nat) : Int)) := by
  induction cs with
  | nil =>
      intro b m _ _ h0 h1 _
      refine ⟨m, rfl, by simp [releases], rfl, ?_, ?_⟩
      · intro hb
        exact h0 (by simpa [requests, releases] using hb)
      · intro hb
        have : b + requests [] - releases [] = b := by simp [requests, releases]
        rw [this] at hb ⊢
        exact h1 hb
  | cons c cs ih =>
      intro b m ha hk h0 h1 hb
      cases c with
      | request =>
          have hb2 : balanced (b + 1) cs = true := by simpa [balanced] using hb
          obtain ⟨p, m2, hr⟩ := request_ok m k (Or.inr ⟨ha, hk⟩)
          obtain ⟨s1, s2, s3, s4, s5, s6⟩ := request_spec m k p m2 hr
          have hal : m2.aliased k = m.aliased k := aliased_congr m m2 k s1
          have hnew : ∃ e, m2._store (m.aliased k) = some e ∧ e.refCnt = ((b + 1 : Nat) : Int) := by
            rcases s6 with ⟨e, e1, e2, _⟩ | ⟨e1, e2, _⟩
            · have hbpos : 0 < b := by
                rcases Nat.eq_zero_or_pos b with hz | hp
                · rw [h0 hz] at e1; exact absurd e1 (by simp)
                · exact hp
              obtain ⟨e3, e4, e5⟩ := h1 hbpos
              rw [e1] at e4
              simp only [Option.some.injEq] at e4
              subst e4
              refine ⟨_, e2, ?_⟩
              simp only [e5]
              push_cast
              ring
            · have hbz : b = 0 := by
                rcases Nat.eq_zero_or_pos b with hz | hp
                · exact hz
                · obtain ⟨e3, e4, _⟩ := h1 hp
                  rw [e1] at e4; exact absurd e4 (by simp)
              refine ⟨_, e2, ?_⟩
              subst hbz
              simp
          obtain ⟨m1, r1, r2, r3, r4, r5⟩ := ih (b + 1) m2
            (by obtain ⟨alg, hg⟩ := ha; exact ⟨alg, by rw [s2, hg]⟩)
            (by rw [hal]; exact hk)
            (by intro hz; omega)
            (by intro _; rw [hal]; exact hnew)
            hb2
          have hq : requests (RefCall.request :: cs) = requests cs + 1 := by
            simp [requests]
          have hl : releases (RefCall.request :: cs) = releases cs := by
            simp [releases]
          rw [hal] at r4 r5
          refine ⟨m1, ?_, ?_, r3.trans s1, ?_, ?_⟩
          · simp only [List.map_cons, IndexManager.run, RefCall.on, IndexManager.step, hr]
            exact r1
          · rw [hq, hl]; omega
          · rw [hq, hl]
            intro hz
            exact r4 (by omega)
          · rw [hq, hl]
            intro hz
            have e : b + (requests cs + 1) - releases cs = b + 1 + requests cs - releases cs := by
              omega
            rw [e]
            exact r5 (by omega)
      | release =>
          have hb1 : 1 ≤ b := by
            simp only [balanced, Bool.and_eq_true, decide_eq_true_eq] at hb
            exact hb.1
          have hb2 : balanced (b - 1) cs = true := by
            simp only [balanced, Bool.and_eq_true, decide_eq_true_eq] at hb
            exact hb.2
          obtain ⟨e, e1, e2⟩ := h1 (by omega)
          obtain ⟨m2, hr⟩ := release_ok m k e e1
          obtain ⟨s1, s2, s3, s4, e3, e4, s5⟩ := release_spec m k m2 hr
          rw [e1] at e4
          simp only [Option.some.injEq] at e4
          subst e4
          have hal : m2.aliased k = m.aliased k := aliased_congr m m2 k s1
          obtain ⟨m1, r1, r2, r3, r4, r5⟩ := ih (b - 1) m2
            (by obtain ⟨alg, hg⟩ := ha; exact ⟨alg, by rw [s2, hg]⟩)
            (by rw [hal]; exact hk)
            (by
              intro hz
              rw [hal]
              rcases s5 with ⟨_, q, _⟩ | ⟨q1, _, _⟩
              · exact q
              · exfalso
                apply q1
                rw [e2]
                have : b = 1 := by omega
                rw [this]
                rfl)
            (by
              intro hp
              rw [hal]
              rcases s5 with ⟨q1, _, _⟩ | ⟨_, q, _⟩
              · exfalso
                rw [e2] at q1
                have : b = 1 := by exact_mod_cast q1
                omega
              · refine ⟨_, q, ?_⟩
                simp only [e2]
                have : ((b - 1 : Nat) : Int) = (b : Int) - 1 := by omega
                rw [this])
            hb2
          have hq : requests (RefCall.release :: cs) = requests cs := by
            simp [requests]
          have hl : releases (RefCall.release :: cs) = releases cs + 1 := by
            simp [releases]
          rw [hal] at r4 r5
          refine ⟨m1, ?_, ?_, r3.trans s1, ?_, ?_⟩
          · simp only [List.map_cons, IndexManager.run, RefCall.on, IndexManager.step, hr]
            exact r1
          · rw [hq, hl]
            clear * - r2 hb1
            omega
          · rw [hq, hl]
            intro hz
            have hz2 : b - 1 + requests cs - releases cs = 0 := by
              clear * - hz hb1
              omega
            exact r4 hz2
          · rw [hq, hl]
            intro hz
            have e : b + requests cs - (releases cs + 1) = b - 1 + requests cs - releases cs := by
              clear * - hb1
              omega
            rw [e]
            have hz2 : 0 < b - 1 + requests cs - releases cs := by
              clear * - hz hb1
              omega
            exact r5 hz2

/-- An entry holding a provided index survives balanced calls: if the registry
holds `idx` under `k`, the entry under the aliased key has a count that exceeds
the outstanding requests whenever it holds `idx`, and `idx` is the address of
an object that already exists, then a sequence of `request(k)` and `release(k)`
in which the releases never exceed the outstanding requests runs to its end,
`idx` is still registered under `k`, and `delete` has not been called on it. -/
theorem run_provided (k : IndexType) (idx : Nat) (cs : List RefCall) :
    ∀ (b : Nat) (m : IndexManager),
    (m._alg = none → m._equalSimpContainers = false) →
    (∃ e, m._store k = some e ∧ e.index = idx ∧ 1 ≤ e.refCnt) →
    (∀ e, m._store (m.aliased k) = some e →
      1 ≤ e.refCnt ∧ (b : Int) ≤ e.refCnt ∧ (e.index = idx → (b : Int) + 1 ≤ e.refCnt)) →
    (m._store (m.aliased k) = none → b = 0) →
    idx < m.world.nextPtr →
    balanced b cs = true →
    ∃ m1, IndexManager.run (cs.map (RefCall.on k)) m = Except.ok m1 ∧
      (∃ e, m1._store k = some e ∧ e.index = idx ∧ 1 ≤ e.refCnt) ∧
      m1.world.deleted.count idx = m.world.deleted.count idx := by
  induction cs with
  | nil =>
      intro b m _ h1 _ _ _ _
      exact ⟨m, rfl, h1, rfl⟩
  | cons c cs ih =>
      intro b m ha h1 h2 h3 h4 hb
      have hkey : m.aliased k ≠ k → (∀ n, m.aliased k ≠ IndexType.OTHER n) ∧
          ∃ alg, m._alg = some alg := by
        intro hne
        unfold IndexManager.aliased at hne ⊢
        by_cases hc : k = IndexType.BW_SIMPLIFICATION_SUBST_TREE ∧ m._equalSimpContainers = true
        · rw [if_pos hc]
          refine ⟨by intro n; simp, ?_⟩
          cases hg : m._alg with
          | none => rw [ha hg] at hc; exact absurd hc.2 (by simp)
          | some alg => exact ⟨alg, rfl⟩
        · rw [if_neg hc] at hne; exact absurd rfl hne
      cases c with
      | request =>
          have hb2 : balanced (b + 1) cs = true := by simpa [balanced] using hb
          obtain ⟨p, m2, hr⟩ := request_ok m k (by
            by_cases hne : m.aliased k = k
            · left
              obtain ⟨e, e1, _⟩ := h1
              exact ⟨e, by rw [hne]; exact e1⟩
            · right
              exact ⟨(hkey hne).2, (hkey hne).1⟩)
          obtain ⟨s1, s2, s3, s4, s5, s6⟩ := request_spec m k p m2 hr
          have hal : m2.aliased k = m.aliased k := aliased_congr m m2 k s1
          obtain ⟨m1, r1, r2, r3⟩ := ih (b + 1) m2
            (by rw [s1, s2]; exact ha)
            (by
              by_cases hne : k = m.aliased k
              · rcases s6 with ⟨e, e1, e2, _⟩ | ⟨e1, _, _⟩
                · obtain ⟨e0, q1, q2, q3⟩ := h1
                  rw [← hne] at e1 e2
                  rw [q1] at e1
                  simp only [Option.some.injEq] at e1
                  subst e1
                  exact ⟨_, e2, q2, by simp only; omega⟩
                · obtain ⟨e0, q1, _⟩ := h1
                  rw [← hne, q1] at e1
                  exact absurd e1 (by simp)
              · rw [s3 k hne]; exact h1)
            (by
              intro e he
              rw [hal] at he
              rcases s6 with ⟨e0, e1, e2, _⟩ | ⟨e1, e2, e3⟩
              · rw [e2] at he
                simp only [Option.some.injEq] at he
                subst he
                obtain ⟨q1, q2, q3⟩ := h2 e0 e1
                refine ⟨by simp only; omega, by simp only; push_cast; omega, ?_⟩
                intro hi
                have := q3 hi
                simp only
                push_cast
                omega
              · rw [e2] at he
                simp only [Option.some.injEq] at he
                subst he
                have hbz := h3 e1
                subst hbz
                refine ⟨by simp, by simp, ?_⟩
                intro hi
                simp only at hi
                omega)
            (by
              intro hn
              rw [hal] at hn
              rcases s6 with ⟨_, _, e2, _⟩ | ⟨_, e2, _⟩ <;>
                (rw [e2] at hn; exact absurd hn (by simp)))
            (by omega)
            hb2
          refine ⟨m1, ?_, r2, by rw [r3, s5]⟩
          simp only [List.map_cons, IndexManager.run, RefCall.on, IndexManager.step, hr]
          exact r1
      | release =>
          have hb1 : 1 ≤ b := by
            simp only [balanced, Bool.and_eq_true, decide_eq_true_eq] at hb
            exact hb.1
          have hb2 : balanced (b - 1) cs = true := by
            simp only [balanced, Bool.and_eq_true, decide_eq_true_eq] at hb
            exact hb.2
          have hex : ∃ e, m._store (m.aliased k) = some e := by
            cases hs : m._store (m.aliased k) with
            | none => have := h3 hs; omega
            | some e => exact ⟨e, rfl⟩
          obtain ⟨e, e1⟩ := hex
          obtain ⟨q1, q2, q3⟩ := h2 e e1
          obtain ⟨m2, hr⟩ := release_ok m k e e1
          obtain ⟨s1, s2, s3, s4, e3, e4, s5⟩ := release_spec m k m2 hr
          rw [e1] at e4
          simp only [Option.some.injEq] at e4
          subst e4
          have hal : m2.aliased k = m.aliased k := aliased_congr m m2 k s1
          have hdel : m2.world.deleted.count idx = m.world.deleted.count idx := by
            rcases s5 with ⟨t1, _, t3⟩ | ⟨_, _, t3⟩
            · rw [t3]
              have hi : e.index ≠ idx := by
                intro hi
                have := q3 hi
                omega
              rw [List.count_cons_of_ne (Ne.symm hi)]
            · rw [t3]
          obtain ⟨m1, r1, r2, r3⟩ := ih (b - 1) m2
            (by rw [s1, s2]; exact ha)
            (by
              by_cases hne : k = m.aliased k
              · obtain ⟨e0, p1, p2, p3⟩ := h1
                rw [← hne] at e1
                rw [p1] at e1
                simp only [Option.some.injEq] at e1
                subst e1
                have := q3 p2
                rcases s5 with ⟨t1, _, _⟩ | ⟨_, t2, _⟩
                · omega
                · rw [← hne] at t2
                  exact ⟨_, t2, p2, by simp only; omega⟩
              · rw [s3 k hne]; exact h1)
            (by
              intro e0 he
              rw [hal] at he
              rcases s5 with ⟨_, t2, _⟩ | ⟨t1, t2, _⟩
              · rw [t2] at he; exact absurd he (by simp)
              · rw [t2] at he
                simp only [Option.some.injEq] at he
                subst he
                refine ⟨by simp only; omega, by simp only; omega, ?_⟩
                intro hi
                have := q3 hi
                simp only
                omega)
            (by
              intro hn
              rw [hal] at hn
              rcases s5 with ⟨t1, _, _⟩ | ⟨_, t2, _⟩
              · omega
              · rw [t2] at hn; exact absurd hn (by simp))
            (by omega)
            hb2
          refine ⟨m1, ?_, r2, by rw [r3, hdel]⟩
          simp only [List.map_cons, IndexManager.run, RefCall.on, IndexManager.step, hr]
          exact r1

end Indexing

namespace Indexing

open IndexManager

/-- With the flag set the backward kind is read as the forward kind. -/
theorem aliased_bw (m : IndexManager) (h : m._equalSimpContainers = true) :
    m.aliased IndexType.BW_SIMPLIFICATION_SUBST_TREE = IndexType.FW_SIMPLIFICATION_SUBST_TREE := by
  simp [IndexManager.aliased, h]

/-- Every kind but the backward one is read as itself. -/
theorem aliased_self (m : IndexManager) (t : IndexType)
    (h : t ≠ IndexType.BW_SIMPLIFICATION_SUBST_TREE) : m.aliased t = t := by
  simp [IndexManager.aliased, h]

/-- The count of the requested kind goes up by one. -/
theorem request_refCount (m : IndexManager) (t : IndexType) (p : Nat) (m1 : IndexManager)
    (h : m.request t = Except.ok (p, m1)) :
    m1.refCount (m.aliased t) = m.refCount (m.aliased t) + 1 ∧
    ∃ e, m1._store (m.aliased t) = some e ∧ e.index = p := by
  obtain ⟨_, _, _, _, _, s6⟩ := request_spec m t p m1 h
  unfold IndexManager.refCount
  rcases s6 with ⟨e, e1, e2, e3⟩ | ⟨e1, e2, _⟩
  · rw [e1, e2]
    exact ⟨rfl, _, rfl, e3.symm⟩
  · rw [e1, e2]
    exact ⟨by simp, _, rfl, rfl⟩

end Indexing

namespace Indexing

open IndexManager

/-! ## The first request of a kind -/

/-- `create` leaves the objects allocated before alone, and attaches the index
it returns to the container the kind designates. -/
theorem create_heap (m : IndexManager) (alg : SaturationAlgorithm) (t : IndexType)
    (role : ContainerRole) (ha : m._alg = some alg) (hd : designatedContainer t = some role) :
    ∃ p m1, m.create t = Except.ok (p, m1) ∧ m.world.nextPtr ≤ p ∧ p < m1.world.nextPtr ∧
      m1.world.containerOf p = some (role.of alg) ∧
      ∀ q, q < m.world.nextPtr → m1.world.containerOf q = m.world.containerOf q := by
  cases t <;> cases hd <;>
    (simp only [IndexManager.create, ha]
     refine ⟨_, _, rfl, ?_, ?_, ?_, ?_⟩
     · simp [IndexManager.createOver, IndexManager.createPlain, World.alloc]
     · simp [IndexManager.createOver, IndexManager.createPlain, World.alloc,
         World.attachContainer]
     · simp [IndexManager.createOver, IndexManager.createPlain, World.alloc,
         World.attachContainer, World.containerOf, ContainerRole.of]
     · intro q hq
       have h1 : q ≠ m.world.nextPtr := by omega
       have h2 : q ≠ m.world.nextPtr + 1 := by omega
       simp [IndexManager.createOver, IndexManager.createPlain, World.alloc,
         World.attachContainer, World.containerOf, Function.update, h1, h2])

/-- The first request of a kind builds a new index, attaches it to the container
the kind designates and registers it with count one; the other entries and the
indices built before stay as they are. -/
theorem request_fresh (m : IndexManager) (alg : SaturationAlgorithm) (t : IndexType)
    (role : ContainerRole) (ha : m._alg = some alg)
    (hd : designatedContainer (m.aliased t) = some role)
    (hs : m._store (m.aliased t) = none) :
    ∃ p m1, m.request t = Except.ok (p, m1) ∧ m.world.nextPtr ≤ p ∧ p < m1.world.nextPtr ∧
      m1.world.containerOf p = some (role.of alg) ∧
      (∀ q, q < m.world.nextPtr → m1.world.containerOf q = m.world.containerOf q) ∧
      m1._store (m.aliased t) = some ⟨p, 1⟩ ∧
      (∀ t2, t2 ≠ m.aliased t → m1._store t2 = m._store t2) ∧
      m1._alg = m._alg ∧ m1._equalSimpContainers = m._equalSimpContainers := by
  obtain ⟨p, m1, c1, c2, c3, c4, c5⟩ := create_heap m alg (m.aliased t) role ha hd
  obtain ⟨d1, d2, d3, _, _, _⟩ := create_spec m _ p m1 c1
  rw [request_of_none m t hs, c1]
  refine ⟨p, _, rfl, c2, c3, c4, c5, ?_, ?_, d2, d3⟩
  · simp [IndexManager.storeSet]
  · intro t2 ht2
    simp [IndexManager.storeSet, Function.update, ht2, d1]

/-- The manager the constructor builds for an algorithm holds that algorithm,
has the flag `_equalSimpContainers` set exactly when the two containers of the
simplifications are one, and has an entry for the generating index only. -/
theorem new_fresh (a : SaturationAlgorithm) (w : World) (m0 : IndexManager)
    (h : IndexManager.new (some a) w = Except.ok m0) :
    m0._alg = some a ∧
    m0._equalSimpContainers
      = decide (a.getSimplifyingClauseContainer = a.getToBeSimplifiedClauseContainer) ∧
    ∀ t, t ≠ IndexType.GENERATING_SUBST_TREE → m0._store t = none := by
  simp only [IndexManager.new, IndexManager.attach] at h
  split at h
  · cases h
  · rename_i p m1 hr
    simp only [Except.ok.injEq] at h
    subst h
    obtain ⟨s1, s2, s3, _⟩ := request_spec _ _ p m1 hr
    refine ⟨by rw [s2], by rw [s1], ?_⟩
    intro t ht
    rw [s3 t (by simpa [IndexManager.aliased] using ht)]

end Indexing

namespace Kernel

open MatchingData

/-! ## Evaluation of the search at concrete inputs -/

/-- A computation that is evaluated together with an observation of its result
has a result with that observation. -/
theorem obs_of_eval {α : Type} (o : Option α) (f : α → Bool) (h : o.map f = some true) :
    ∃ a, o = some a ∧ f a = true := by
  cases o with
  | none => simp at h
  | some a => exact ⟨a, rfl, by simpa using h⟩

/-- A round whose `ensureInit` returns `MUST_BACKTRACK` goes back one level. -/
theorem round_of_must_backtrack (md : MatchingData)
    (h : (md.ensureInit md.currBLit).1 = InitResult.MUST_BACKTRACK) :
    nextMatchRound md = Round.backtrackInit
      { (md.ensureInit md.currBLit).2 with
        currBLit := dec32 (md.ensureInit md.currBLit).2.currBLit } := by
  unfold nextMatchRound
  simp only [h]

/-- A round that calls `skipBinding` goes on with the state `skipBinding`
returns, one level further. -/
theorem round_of_skipBindingCall (md md3 : MatchingData) (h : md.skipBindingCall = some md3) :
    nextMatchRound md =
      (if (md3.skipBinding md3.currBLit).currBLit + 1 = (md3.skipBinding md3.currBLit).len then
        Round.complete { md3.skipBinding md3.currBLit with
          currBLit := (md3.skipBinding md3.currBLit).currBLit + 1 }
       else Round.next { md3.skipBinding md3.currBLit with
          currBLit := (md3.skipBinding md3.currBLit).currBLit + 1,
          nextAlts := Function.update (md3.skipBinding md3.currBLit).nextAlts
            ((md3.skipBinding md3.currBLit).currBLit + 1) 0 }) := by
  unfold skipBindingCall at h
  unfold nextMatchRound
  simp only at h ⊢
  cases hi : (md.ensureInit md.currBLit).1 with
  | MUST_BACKTRACK => rw [hi] at h; cases h
  | NO_ALTERNATIVE => rw [hi] at h; cases h
  | OK =>
      rw [hi] at h
      simp only at h ⊢
      split at h
      · cases h
      · rename_i h1
        split at h
        · rename_i h2
          simp only [Option.some.injEq] at h
          subst h
          rw [if_neg h1, if_pos h2]
        · cases h

end Kernel

namespace Kernel

open MatchingData

/-! ## The order of the intersect info and the stored array -/

/-- The loop of `getIntersectInfo` appends to what it has listed, and lists its
pairs in ascending order of both components. -/
theorem intersectLoop_ordered :
    ∀ (fuel : Nat) (l1 : List Nat) (i1 : Nat) (l2 : List Nat) (i2 : Nat)
      (acc : List (Nat × Nat)),
      ∃ tail, intersectLoop fuel l1 i1 l2 i2 acc = acc ++ tail ∧
        (∀ p, p ∈ tail → i1 ≤ p.1 ∧ i2 ≤ p.2) ∧
        tail.Pairwise (fun x y => x.1 < y.1 ∧ x.2 < y.2) := by
  intro fuel
  induction fuel with
  | zero =>
      intro l1 i1 l2 i2 acc
      exact ⟨[], by simp [intersectLoop], fun p hp => (by cases hp), List.Pairwise.nil⟩
  | succ fuel ih =>
      intro l1 i1 l2 i2 acc
      have hnil : ∃ tail, acc = acc ++ tail ∧ (∀ p, p ∈ tail → i1 ≤ p.1 ∧ i2 ≤ p.2) ∧
          tail.Pairwise (fun x y => x.1 < y.1 ∧ x.2 < y.2) :=
        ⟨[], by simp, fun p hp => (by cases hp), List.Pairwise.nil⟩
      unfold intersectLoop
      simp only
      generalize (l1.takeWhile (fun v => decide (v < l2.headD 0))).length = s1
      cases hd1 : l1.drop s1 with
      | nil => exact hnil
      | cons v1 rest1 =>
          simp only
          generalize (l2.takeWhile (fun w => decide (v1 > w))).length = s2
          cases hd2 : l2.drop s2 with
          | nil => exact hnil
          | cons v2 rest2 =>
              simp only
              by_cases hv : v1 = v2
              · rw [if_pos hv]
                by_cases hemp : (rest1.isEmpty || rest2.isEmpty) = true
                · rw [if_pos hemp]
                  refine ⟨[(i1 + s1, i2 + s2)], rfl, ?_, List.pairwise_singleton _ _⟩
                  intro p hp
                  simp only [List.mem_singleton] at hp
                  subst hp
                  exact ⟨by simp, by simp⟩
                · rw [if_neg hemp]
                  obtain ⟨tail, t1, t2, t3⟩ := ih rest1 (i1 + s1 + 1) rest2 (i2 + s2 + 1)
                    (acc ++ [(i1 + s1, i2 + s2)])
                  refine ⟨(i1 + s1, i2 + s2) :: tail, by rw [t1]; simp, ?_, ?_⟩
                  · intro p hp
                    rcases List.mem_cons.1 hp with hp | hp
                    · subst hp
                      exact ⟨by simp, by simp⟩
                    · have := t2 p hp
                      omega
                  · refine List.Pairwise.cons ?_ t3
                    intro p hp
                    have := t2 p hp
                    simp only
                    omega
              · rw [if_neg hv]
                obtain ⟨tail, t1, t2, t3⟩ := ih (v1 :: rest1) (i1 + s1) (v2 :: rest2) (i2 + s2) acc
                refine ⟨tail, t1, ?_, t3⟩
                intro p hp
                have := t2 p hp
                omega

/-- The pairs `getIntersectInfo` lists for two strictly ascending variable
arrays are exactly the pairs of positions that hold the same variable, and
they are listed in ascending order. -/
theorem intersectInfo_spec (vs1 vs2 : List Nat) (h1 : vs1.Sorted (· < ·))
    (h2 : vs2.Sorted (· < ·)) :
    (∀ p q, (p, q) ∈ intersectInfo vs1 vs2 ↔
      p < vs1.length ∧ q < vs2.length ∧ vs1.getD p 0 = vs2.getD q 0) ∧
    (intersectInfo vs1 vs2).Pairwise (fun x y => x.1 < y.1 ∧ x.2 < y.2) := by
  constructor
  · intro p q
    unfold intersectInfo
    constructor
    · intro h
      rcases intersectLoop_sound _ _ _ _ _ _ _ h with g | ⟨k1, k2, g1, g2, g3, g4⟩
      · cases g
      · simp only [Nat.zero_add, Prod.mk.injEq] at g1
        rw [g1.1, g1.2]
        exact ⟨g2, g3, g4⟩
    · rintro ⟨a1, a2, a3⟩
      have := (intersectLoop_complete (vs1.length + vs2.length + 1) vs1 0 vs2 0 [] h1 h2
        (by omega)).2 p q a1 a2 a3
      simpa using this
  · obtain ⟨tail, t1, _, t3⟩ := intersectLoop_ordered (vs1.length + vs2.length + 1) vs1 0 vs2 0 []
    unfold intersectInfo
    rw [t1]
    simpa using t3

/-- The loop of `compatible` over an array that holds index pairs and then a pair
with first component `-1` performs the test on exactly the index pairs. -/
theorem compatibleScan_append (pairs : List (Nat × Nat)) (rest : List (Int × Int))
    (stale : Int) (r1 r2 : AltRow) :
    compatibleScan (pairs.map (fun pq => ((pq.1 : Int), (pq.2 : Int))) ++ (-1, stale) :: rest)
      r1 r2 = some (compatibleRows pairs r1 r2) := by
  induction pairs with
  | nil => simp [compatibleScan, compatibleRows]
  | cons pq pairs ih =>
      have hne : ¬ ((pq.1 : Int) = -1) := by omega
      have hstep : ∀ tl : List (Int × Int),
          compatibleScan (((pq.1 : Int), (pq.2 : Int)) :: tl) r1 r2
            = if r1.binds.getD pq.1 default ≠ r2.binds.getD pq.2 default then some false
              else compatibleScan tl r1 r2 := by
        intro tl
        rw [compatibleScan]
        simp only [if_neg hne, Int.toNat_ofNat]
      rw [List.map_cons, List.cons_append, hstep, ih]
      unfold compatibleRows
      rw [List.all_cons]
      by_cases he : r1.binds.getD pq.1 default = r2.binds.getD pq.2 default
      · rw [if_neg (not_not.2 he)]
        simp only [he, decide_True, Bool.true_and]
      · rw [if_pos he]
        simp only [he, decide_False, Bool.false_and]

/-- The array `getIntersectInfo` stores ends with the pair whose first component
is `-1`; no pair before it has a negative component, and the loop of
`compatible` over it is the test on the index pairs. -/
theorem intersectArray_spec (vs1 vs2 : List Nat) (stale : Int) :
    (intersectArray vs1 vs2 stale).getLast? = some (-1, stale) ∧
    (intersectArray vs1 vs2 stale).dropLast
      = (intersectInfo vs1 vs2).map (fun pq => ((pq.1 : Int), (pq.2 : Int))) ∧
    (∀ x, x ∈ (intersectArray vs1 vs2 stale).dropLast → 0 ≤ x.1 ∧ 0 ≤ x.2) ∧
    ∀ r1 r2, compatibleScan (intersectArray vs1 vs2 stale) r1 r2
      = some (compatibleRows (intersectInfo vs1 vs2) r1 r2) := by
  unfold intersectArray
  refine ⟨by simp, by simp, ?_, ?_⟩
  · intro x hx
    simp only [List.dropLast_concat, List.mem_map] at hx
    obtain ⟨pq, _, e⟩ := hx
    rw [← e]
    exact ⟨by simp, by simp⟩
  · intro r1 r2
    exact compatibleScan_append _ [] stale r1 r2

end Kernel

namespace Kernel

open MatchingData

/-! ## What `bindAlt` does to the later levels -/

/-- The loop of `bindAlt` leaves the rows and the counts of a level that is not
initialised as they are. -/
theorem bindAltLoop_untouched (b : Nat) (cur : AltRow) :
    ∀ (fuel i : Nat) (md : MatchingData) (l : Nat), md.isInitialized l = false →
      (bindAltLoop b cur fuel i md).2.altBindings l = md.altBindings l ∧
      (∀ k, (bindAltLoop b cur fuel i md).2.remaining l k = md.remaining l k) ∧
      (bindAltLoop b cur fuel i md).2.boundVarNums = md.boundVarNums := by
  intro fuel
  induction fuel with
  | zero =>
      intro i md l _
      exact ⟨rfl, fun _ => rfl, rfl⟩
  | succ fuel ih =>
      intro i md l hl
      unfold bindAltLoop
      by_cases hi : i < md.len
      · rw [if_pos hi]
        by_cases hinit : md.isInitialized i = true
        · simp only [hinit, Bool.not_true, Bool.false_eq_true, if_false]
          have hne : l ≠ i := by
            intro e
            rw [e, hinit] at hl
            cases hl
          generalize (if md.basesHaveVariablesInCommon b i = true then
              filterAlts (compatibleRows (md.getIntersectInfo b i) cur) (md.remaining i b)
                (md.altBindings i) 0 (md.remaining i b)
            else (md.altBindings i, md.remaining i b)) = res
          by_cases hz : res.2 = 0
          · rw [if_pos hz]
            exact ⟨by simp [Function.update, hne], fun _ => rfl, rfl⟩
          · rw [if_neg hz]
            obtain ⟨f1, f2, f3⟩ := ih (i + 1)
              { md with altBindings := Function.update md.altBindings i res.1,
                        remaining := TriangularArray.set md.remaining i (b + 1) res.2 } l hl
            refine ⟨?_, ?_, f3⟩
            · rw [f1]
              simp [Function.update, hne]
            · intro k
              rw [f2 k]
              simp [TriangularArray.set, hne]
        · have hf : md.isInitialized i = false := by simpa using hinit
          rw [hf]
          exact ⟨rfl, fun _ => rfl, rfl⟩
      · rw [if_neg hi]
        exact ⟨rfl, fun _ => rfl, rfl⟩

/-- In a list whose first `n2` members pass a test and whose members from `n2` up
to `n` fail it, the members among the first `n` that pass are the first
`n2`. -/
theorem filter_take_eq (c : AltRow → Bool) (l : List AltRow) (n2 n : Nat) (h1 : n2 ≤ n)
    (ht : ∀ k, k < n2 → c (l.getD k default) = true)
    (hf : ∀ k, n2 ≤ k → k < n → c (l.getD k default) = false) :
    (l.take n).filter c = l.take n2 := by
  have hsplit : l.take n = l.take n2 ++ (l.drop n2).take (n - n2) := by
    have e : n = n2 + (n - n2) := by omega
    conv_lhs => rw [e]
    rw [List.take_add]
  rw [hsplit, List.filter_append]
  have e1 : (l.take n2).filter c = l.take n2 := by
    rw [List.filter_eq_self]
    intro r hr
    obtain ⟨k, k1, _, k3⟩ := exists_getD_of_mem_take hr
    rw [← k3]
    exact ht k k1
  have e2 : ((l.drop n2).take (n - n2)).filter c = [] := by
    rw [List.filter_eq_nil_iff]
    intro r hr
    obtain ⟨k, k1, k2, k3⟩ := exists_getD_of_mem_take hr
    rw [← k3]
    have e : (l.drop n2).getD k default = l.getD (n2 + k) default := by
      simp [List.getD_eq_getElem?_getD, List.getElem?_drop]
    rw [e, hf (n2 + k) (by omega) (by omega)]
    simp
  rw [e1, e2, List.append_nil]

/-- What `bindAlt(b, a)` returns and what it leaves behind, in a state in which
the initialised levels are the first levels and every count of remaining rows
is within the rows of its level. -/
theorem bindAlt_result (md : MatchingData) (b a : Nat)
    (hdown : ∀ l j, md.isInitialized l = true → j ≤ l → md.isInitialized j = true)
    (hrem : ∀ l, b < l → md.isInitialized l = true →
      md.remaining l b ≤ (md.altBindings l).length) :
    ((md.bindAlt b a).1 = true ↔
      ∀ i, b < i → i < md.len → md.isInitialized i = true →
        ∃ k, k < md.remaining i b ∧
          md.compatible b ((md.altBindings b).getD a default) i k = true) ∧
    ((md.bindAlt b a).1 = true →
      ∀ i, b < i → i < md.len → md.isInitialized i = true →
        0 < (md.bindAlt b a).2.remaining i (b + 1) ∧
        (md.bindAlt b a).2.remaining i (b + 1) ≤ md.remaining i b ∧
        (((md.bindAlt b a).2.altBindings i).take ((md.bindAlt b a).2.remaining i (b + 1))).Perm
          (((md.altBindings i).take (md.remaining i b)).filter
            (fun r => compatibleRows (md.getIntersectInfo b i)
              ((md.altBindings b).getD a default) r)) ∧
        ((md.bindAlt b a).2.altBindings i).Perm (md.altBindings i)) ∧
    (∀ i, md.isInitialized i = false →
      (md.bindAlt b a).2.altBindings i = md.altBindings i ∧
      ∀ k, (md.bindAlt b a).2.remaining i k = md.remaining i k) ∧
    (md.bindAlt b a).2.boundVarNums = md.boundVarNums := by
  have hspec := bindAltLoop_spec b ((md.altBindings b).getD a default)
    (md.len - (b + 1)) (b + 1) md (by omega) (by omega) hdown
    (fun l h1 h2 => hrem l (by omega) h2)
  have hunt := bindAltLoop_untouched b ((md.altBindings b).getD a default)
    (md.len - (b + 1)) (b + 1) md
  unfold bindAlt
  generalize bindAltLoop b ((md.altBindings b).getD a default) (md.len - (b + 1)) (b + 1) md
    = res at hspec hunt
  obtain ⟨f1, _, _, f4, _, f6, f7⟩ := hspec
  have htrue : res.1 = true →
      ∀ i, b < i → i < md.len → md.isInitialized i = true →
        0 < res.2.remaining i (b + 1) ∧
        res.2.remaining i (b + 1) ≤ md.remaining i b ∧
        ((res.2.altBindings i).take (res.2.remaining i (b + 1))).Perm
          (((md.altBindings i).take (md.remaining i b)).filter
            (fun r => compatibleRows (md.getIntersectInfo b i)
              ((md.altBindings b).getD a default) r)) ∧
        (res.2.altBindings i).Perm (md.altBindings i) := by
    intro ht i hi1 hi2 hi3
    obtain ⟨g1, g2, g3, g4⟩ := f6 ht i (by omega) hi2 hi3
    have hpp := f4 i
    have hlen := prefixPerm_length hpp
    refine ⟨g1, g2, ?_, hpp.1⟩
    have hfe := filter_take_eq
      (fun r => compatibleRows (md.getIntersectInfo b i) ((md.altBindings b).getD a default) r)
      (res.2.altBindings i) (res.2.remaining i (b + 1)) (md.remaining i b) g2 g3 g4
    rw [← hfe]
    exact (prefixPerm_take hpp (le_refl _)).filter _
  refine ⟨⟨?_, ?_⟩, htrue, fun i hi => ⟨(hunt i hi).1, (hunt i hi).2.1⟩, f1.boundVarNums⟩
  · intro ht i hi1 hi2 hi3
    obtain ⟨g1, g2, g3, _⟩ := htrue ht i hi1 hi2 hi3
    have hlen := prefixPerm_length (f4 i)
    have hlt : 0 < (res.2.altBindings i).length := by
      have := hrem i hi1 hi3
      omega
    have hmem : (res.2.altBindings i).getD 0 default
        ∈ (res.2.altBindings i).take (res.2.remaining i (b + 1)) := getD_mem_take g1 hlt
    have hmem2 := g3.mem_iff.1 hmem
    rw [List.mem_filter] at hmem2
    obtain ⟨k, k1, k2, k3⟩ := exists_getD_of_mem_take hmem2.1
    refine ⟨k, k1, ?_⟩
    unfold compatible
    rw [k3]
    exact hmem2.2
  · intro hall
    cases hr : res.1 with
    | true => rfl
    | false =>
        obtain ⟨l, l1, l2, l3, l4⟩ := f7 hr
        obtain ⟨k, k1, k2⟩ := hall l (by omega) l2 l3
        unfold compatible at k2
        rw [l4 k k1] at k2
        cases k2

end Kernel

namespace Kernel

open MatchingData

/-! ## The data of an initialised level -/

/-- The number of rows `createLiteralBindings` stores for one alternative. -/
theorem rowsOfAlt_length (baseLit : Literal) (vars : List Nat) (instCl : Clause)
    (alit : Literal) :
    (rowsOfAlt baseLit vars instCl alit).length
      = if alit.isEquality = true then
          (if MatchingUtils.matchArgs baseLit alit = true then 1 else 0)
            + (if MatchingUtils.matchReversedArgs baseLit alit = true then 1 else 0)
        else 1 := by
  unfold rowsOfAlt
  simp only
  by_cases he : alit.isEquality = true
  · rw [if_pos he, if_pos he, List.length_append]
    congr 1
    · split <;> rfl
    · split <;> rfl
  · rw [if_neg he, if_neg he]
    rfl

/-- The rows of a list of alternatives are the rows of its members, in list
order. -/
theorem createLiteralBindings_length (baseLit : Literal) (alts : List Literal)
    (instCl : Clause) :
    (createLiteralBindings baseLit alts instCl).2.length
      = (alts.map (fun a => (createLiteralBindings baseLit [a] instCl).2.length)).sum := by
  unfold createLiteralBindings
  simp only [List.length_flatMap, List.flatMap_cons, List.flatMap_nil, List.append_nil]
  rfl

/-- The number of variables `createLiteralBindings` lists is the number of
distinct variables of the base literal. -/
theorem boundVarsOf_length (b : Literal) : (boundVarsOf b).length = b.getDistinctVars := by
  rw [boundVarsOf_eq]
  unfold Literal.getDistinctVars collectVarNums
  have hp := (foldl_insert_sorted b.vars [] List.sorted_nil).2
  rw [List.nil_append] at hp
  exact (hp.dedup).length_eq

/-- What the current level holds after `ensureInit`: the variables of the base
literal, their number, and the rows of `createLiteralBindings` in some
order. -/
theorem ensureInit_level (md : MatchingData) (hinv : InvAt md md.currBLit) :
    (md.ensureInit md.currBLit).2.boundVarNums md.currBLit = some (md.varsP md.currBLit) ∧
    (md.ensureInit md.currBLit).2.varCnts md.currBLit = (md.varsP md.currBLit).length ∧
    ((md.ensureInit md.currBLit).2.altBindings md.currBLit).Perm (md.rowsP md.currBLit) ∧
    (md.ensureInit md.currBLit).2.isInitialized md.currBLit = true := by
  obtain ⟨s1, s2, s3, _⟩ := ensureInit_spec md hinv
  by_cases hno : (md.ensureInit md.currBLit).1 = InitResult.NO_ALTERNATIVE
  · obtain ⟨n1, n2, n3⟩ := s2 hno
    have e : md.ensureInit md.currBLit
        = (InitResult.NO_ALTERNATIVE, md.freshLevel md.currBLit) := by
      rw [ensureInit_fresh md _ n1, if_pos (by rw [n2]; rfl)]
      have hb : ((md.bases.getD md.currBLit default).isEquality
          && (md.bases.getD md.currBLit default).isPositive) ≠ true := by
        intro h
        rw [Bool.and_eq_true] at h
        exact n3 h
      rw [if_neg hb]
    rw [e]
    refine ⟨by simp [freshLevel], by simp [freshLevel], by simp [freshLevel], ?_⟩
    simp [freshLevel, isInitialized]
  · obtain ⟨i1, i2⟩ := s3 hno
    have hsame : SameProblem md (md.ensureInit md.currBLit).2 := ⟨s1.len, s1.bases, s1.alts, s1.inst⟩
    refine ⟨?_, ?_, ?_, i2⟩
    · rw [i1.init_vars _ i2, hsame.varsP_eq]
    · rw [i1.init_cnt _ i2, hsame.varsP_eq]
    · rw [← hsame.rowsP_eq]
      exact i1.init_rows _ i2

mutual
/-- Matching under `ArrayStoringBinder` never changes the size of the row. -/
theorem asb_matchTerms_length (pos : Nat → Nat) :
    ∀ (t u : Term) (arr : List Term),
      (MatchingUtils.matchTerms (ArrayStoringBinder.bind pos) t u arr).2.length = arr.length
  | .var v, u, arr => by
      simp [MatchingUtils.matchTerms, ArrayStoringBinder.bind]
  | .app f as, .app g bs, arr => by
      simp only [MatchingUtils.matchTerms]
      split
      · exact asb_matchTermList_length pos as bs arr
      · rfl
  | .app _ _, .var _, arr => by
      simp [MatchingUtils.matchTerms]
/-- Matching argument lists under `ArrayStoringBinder` never changes the size
of the row. -/
theorem asb_matchTermList_length (pos : Nat → Nat) :
    ∀ (ts us : List Term) (arr : List Term),
      (MatchingUtils.matchTermList (ArrayStoringBinder.bind pos) ts us arr).2.length
        = arr.length
  | [], [], arr => by simp [MatchingUtils.matchTermList]
  | a :: as, c :: cs, arr => by
      have h1 := asb_matchTerms_length pos a c arr
      simp only [MatchingUtils.matchTermList]
      split
      · rename_i b1 hb
        rw [hb] at h1
        rw [asb_matchTermList_length pos as cs b1]
        exact h1
      · rename_i b1 hb
        rw [hb] at h1
        exact h1
  | [], _ :: _, arr => by simp [MatchingUtils.matchTermList]
  | _ :: _, [], arr => by simp [MatchingUtils.matchTermList]
end

/-- Every row stored for an alternative has one cell for each listed variable
of the base literal; the position of the alternative follows them. -/
theorem rowsOfAlt_binds_length (baseLit : Literal) (vars : List Nat) (instCl : Clause)
    (alit : Literal) (r : AltRow) (h : r ∈ rowsOfAlt baseLit vars instCl alit) :
    r.binds.length = vars.length := by
  unfold rowsOfAlt at h
  simp only at h
  split at h
  · rw [List.mem_append] at h
    rcases h with h | h
    · split at h
      · simp only [List.mem_singleton] at h
        rw [h]
        simp [asb_matchTermList_length]
      · cases h
    · split at h
      · simp only [List.mem_singleton] at h
        rw [h]
        simp [asb_matchTerms_length]
      · cases h
  · simp only [List.mem_singleton] at h
    rw [h]
    show (if vars.length ≠ 0 then _ else _ : List Term).length = vars.length
    split
    · simp [asb_matchTermList_length]
    · simp

end Kernel

namespace Kernel

/-! ## The iterator over the function symbols of a term -/

/-- The loop of `hasNext` answers `false` exactly when the stack has no symbol
left to yield; otherwise it stores the first of them in `_next` and leaves a
stack that yields the others. -/
theorem hasNextLoop_spec (it : TermFunIterator) :
    ∀ s : List (List Term),
      (TermFunIterator.stackSymbols s = [] →
        TermFunIterator.hasNextLoop it s = (false, { it with _stack := [] })) ∧
      (∀ x xs, TermFunIterator.stackSymbols s = x :: xs →
        ∃ s2, TermFunIterator.hasNextLoop it s = (true, ⟨s2, true, x⟩) ∧
          TermFunIterator.stackSymbols s2 = xs) := by
  intro s
  refine TermFunIterator.hasNextLoop.induct it
    (fun s => (TermFunIterator.stackSymbols s = [] →
        TermFunIterator.hasNextLoop it s = (false, { it with _stack := [] })) ∧
      (∀ x xs, TermFunIterator.stackSymbols s = x :: xs →
        ∃ s2, TermFunIterator.hasNextLoop it s = (true, ⟨s2, true, x⟩) ∧
          TermFunIterator.stackSymbols s2 = xs)) ?_ ?_ ?_ ?_ s
  · refine ⟨fun _ => by rw [TermFunIterator.hasNextLoop], ?_⟩
    intro x xs h
    simp [TermFunIterator.stackSymbols] at h
  · intro rest ih
    rw [TermFunIterator.hasNextLoop]
    simpa [TermFunIterator.stackSymbols, Term.funSymbolsList] using ih
  · intro v ts rest ih
    rw [TermFunIterator.hasNextLoop]
    simpa [TermFunIterator.stackSymbols, Term.funSymbolsList, Term.funSymbols] using ih
  · intro f as ts rest
    rw [TermFunIterator.hasNextLoop]
    refine ⟨?_, ?_⟩
    · intro h
      simp [TermFunIterator.stackSymbols, Term.funSymbolsList, Term.funSymbols] at h
    · intro x xs h
      simp only [TermFunIterator.stackSymbols, Term.funSymbolsList, Term.funSymbols,
        List.cons_append, List.cons.injEq] at h
      refine ⟨as :: ts :: rest, by rw [h.1], ?_⟩
      rw [← h.2]
      simp [TermFunIterator.stackSymbols, List.append_assoc]

/-- An iterator whose stack is empty and that holds no symbol answers `false`
and stays as it is. -/
theorem hasNext_of_empty (it : TermFunIterator) (hs : it._stack = []) (hn : it._hasNext = false) :
    it.hasNext = (false, it) := by
  unfold TermFunIterator.hasNext
  rw [hn, hs, TermFunIterator.hasNextLoop]
  cases it
  simp only at hs
  subst hs
  rfl

/-- Alternating `hasNext()` and `next()` on an iterator that holds no symbol
yields the symbols its stack has to yield and ends with an empty stack. -/
theorem drain_spec :
    ∀ (fuel : Nat) (it : TermFunIterator), it._hasNext = false →
      (TermFunIterator.stackSymbols it._stack).length < fuel →
      ∃ it2, TermFunIterator.drain fuel it
          = some (TermFunIterator.stackSymbols it._stack, it2) ∧
        it2._stack = [] ∧ it2._hasNext = false := by
  intro fuel
  induction fuel with
  | zero => intro it _ h; omega
  | succ fuel ih =>
      intro it hn hlen
      have hh : it.hasNext = TermFunIterator.hasNextLoop it it._stack := by
        unfold TermFunIterator.hasNext
        rw [hn]
        rfl
      obtain ⟨h1, h2⟩ := hasNextLoop_spec it it._stack
      unfold TermFunIterator.drain
      cases hsym : TermFunIterator.stackSymbols it._stack with
      | nil =>
          rw [hh, h1 hsym]
          exact ⟨_, rfl, rfl, hn⟩
      | cons x xs =>
          obtain ⟨s2, e1, e2⟩ := h2 x xs hsym
          rw [hh, e1]
          rw [hsym] at hlen
          obtain ⟨it2, g1, g2, g3⟩ := ih ⟨s2, false, x⟩ rfl (by
            show (TermFunIterator.stackSymbols s2).length < fuel
            rw [e2]
            simp only [List.length_cons] at hlen
            omega)
          refine ⟨it2, ?_, g2, g3⟩
          simp only [TermFunIterator.next, if_true]
          rw [g1]
          simp only [Option.map_some', e2]

end Kernel

namespace Saturation

/-! ## The to-be-simplified container of `Discott` -/

theorem balanced_append (log : List ContainerEvent) (e : ContainerEvent) (k c : Nat)
    (h : Balanced log k c)
    (h1 : (log ++ [e]).countP (fun x => decide (x = ContainerEvent.removed k c))
      ≤ (log ++ [e]).countP (fun x => decide (x = ContainerEvent.added k c)))
    (h2 : (log ++ [e]).countP (fun x => decide (x = ContainerEvent.added k c))
      ≤ (log ++ [e]).countP (fun x => decide (x = ContainerEvent.removed k c)) + 1) :
    Balanced (log ++ [e]) k c := by
  intro n
  by_cases hn : n ≤ log.length
  · rw [List.take_append_of_le_length hn]
    exact h n
  · rw [List.take_of_length_le (by simp; omega)]
    exact ⟨h1, h2⟩

theorem balanced_full {log : List ContainerEvent} {k c : Nat} (h : Balanced log k c) :
    log.countP (fun x => decide (x = ContainerEvent.removed k c))
      ≤ log.countP (fun x => decide (x = ContainerEvent.added k c)) ∧
    log.countP (fun x => decide (x = ContainerEvent.added k c))
      ≤ log.countP (fun x => decide (x = ContainerEvent.removed k c)) + 1 := by
  have := h log.length
  rwa [List.take_length] at this

/-- A change of the world that fires no event keeps the counts. -/
theorem Discott.Counts.frame {d : Discott} {w w2 : World} {c n : Nat} (h : d.Counts w c n)
    (hf : w2.fired = w.fired) : d.Counts w2 c n := by
  unfold Discott.Counts World.addEvents World.removeEvents at *
  rw [hf]
  exact h

/-- An event of another container or of another clause keeps the counts. -/
theorem Discott.Counts.other {d : Discott} {w w2 : World} {c n : Nat} (h : d.Counts w c n)
    (e : ContainerEvent) (hf : w2.fired = w.fired ++ [e])
    (h1 : e ≠ ContainerEvent.added d._toBeSimplifiedContainer c)
    (h2 : e ≠ ContainerEvent.removed d._toBeSimplifiedContainer c) : d.Counts w2 c n := by
  unfold Discott.Counts World.addEvents World.removeEvents at *
  rw [hf]
  obtain ⟨hb, hc⟩ := h
  have hfull := balanced_full hb
  have e1 : (w.fired ++ [e]).countP
      (fun x => decide (x = ContainerEvent.added d._toBeSimplifiedContainer c))
      = w.fired.countP (fun x => decide (x = ContainerEvent.added d._toBeSimplifiedContainer c)) := by
    simp [List.countP_append, h1]
  have e2 : (w.fired ++ [e]).countP
      (fun x => decide (x = ContainerEvent.removed d._toBeSimplifiedContainer c))
      = w.fired.countP
          (fun x => decide (x = ContainerEvent.removed d._toBeSimplifiedContainer c)) := by
    simp [List.countP_append, h2]
  refine ⟨balanced_append _ _ _ _ hb ?_ ?_, ?_⟩
  · rw [e1, e2]; exact hfull.1
  · rw [e1, e2]; exact hfull.2
  · rw [e1, e2]; exact hc

/-- An added event for a clause whose events are even puts it one ahead. -/
theorem Discott.Counts.add {d : Discott} {w w2 : World} {c : Nat} (h : d.Counts w c 0)
    (hf : w2.fired = w.fired ++ [ContainerEvent.added d._toBeSimplifiedContainer c]) :
    d.Counts w2 c 1 := by
  unfold Discott.Counts World.addEvents World.removeEvents at *
  rw [hf]
  obtain ⟨hb, hc⟩ := h
  have e1 : (w.fired ++ [ContainerEvent.added d._toBeSimplifiedContainer c]).countP
      (fun x => decide (x = ContainerEvent.added d._toBeSimplifiedContainer c))
      = w.fired.countP
          (fun x => decide (x = ContainerEvent.added d._toBeSimplifiedContainer c)) + 1 := by
    simp [List.countP_append]
  have e2 : (w.fired ++ [ContainerEvent.added d._toBeSimplifiedContainer c]).countP
      (fun x => decide (x = ContainerEvent.removed d._toBeSimplifiedContainer c))
      = w.fired.countP
          (fun x => decide (x = ContainerEvent.removed d._toBeSimplifiedContainer c)) := by
    simp [List.countP_append]
  refine ⟨balanced_append _ _ _ _ hb ?_ ?_, ?_⟩
  · rw [e1, e2]; omega
  · rw [e1, e2]; omega
  · rw [e1, e2]; omega

/-- A removed event for a clause that is one ahead makes its events even. -/
theorem Discott.Counts.remove {d : Discott} {w w2 : World} {c : Nat} (h : d.Counts w c 1)
    (hf : w2.fired = w.fired ++ [ContainerEvent.removed d._toBeSimplifiedContainer c]) :
    d.Counts w2 c 0 := by
  unfold Discott.Counts World.addEvents World.removeEvents at *
  rw [hf]
  obtain ⟨hb, hc⟩ := h
  have e1 : (w.fired ++ [ContainerEvent.removed d._toBeSimplifiedContainer c]).countP
      (fun x => decide (x = ContainerEvent.added d._toBeSimplifiedContainer c))
      = w.fired.countP
          (fun x => decide (x = ContainerEvent.added d._toBeSimplifiedContainer c)) := by
    simp [List.countP_append]
  have e2 : (w.fired ++ [ContainerEvent.removed d._toBeSimplifiedContainer c]).countP
      (fun x => decide (x = ContainerEvent.removed d._toBeSimplifiedContainer c))
      = w.fired.countP
          (fun x => decide (x = ContainerEvent.removed d._toBeSimplifiedContainer c)) + 1 := by
    simp [List.countP_append]
  refine ⟨balanced_append _ _ _ _ hb ?_ ?_, ?_⟩
  · rw [e1, e2]; omega
  · rw [e1, e2]; omega
  · rw [e1, e2]; omega

/-- The container tracks Passive and Active exactly when every clause has the
counts of its store. -/
theorem tracks_iff (d : Discott) (w : World) :
    d.Tracks w ↔ ∀ c, d.Counts w c (w.store c).held := by
  unfold Discott.Tracks Discott.Counts
  constructor
  · intro h c
    obtain ⟨h1, h2, h3⟩ := h c
    refine ⟨h1, ?_⟩
    cases hs : w.store c <;> simp only [Store.held] <;> first
      | exact h2 (by simp [hs])
      | exact h3 (by simp [hs])
  · intro h c
    obtain ⟨h1, h2⟩ := h c
    refine ⟨h1, ?_, ?_⟩
    · intro hs
      rcases hs with hs | hs | hs <;> rw [hs] at h2 <;> exact h2
    · intro hs
      rcases hs with hs | hs <;> rw [hs] at h2 <;> exact h2

theorem setStore_fired (w : World) (c : Nat) (st : Store) : (w.setStore c st).fired = w.fired :=
  rfl

theorem setStore_store (w : World) (c : Nat) (st : Store) :
    (w.setStore c st).store = Function.update w.store c st := rfl

theorem addedEvent_fired (w : World) (k c : Nat) :
    (w.addedEvent k c).fired = w.fired ++ [ContainerEvent.added k c] := rfl

theorem addedEvent_store (w : World) (k c : Nat) : (w.addedEvent k c).store = w.store := rfl

theorem removedEvent_fired (w : World) (k c : Nat) :
    (w.removedEvent k c).fired = w.fired ++ [ContainerEvent.removed k c] := rfl

theorem removedEvent_store (w : World) (k c : Nat) : (w.removedEvent k c).store = w.store := rfl

/-- The world after the removed event of the container `a`, other than the
to-be-simplified container, has run the callback `onActiveRemoved` for an
active clause. -/
theorem onActiveRemoved_world (d : Discott) (v : Nat) (w : World) (tr : List Action)
    (hs : w.store v = Store.ACTIVE) :
    (d.onActiveRemoved v { world := w, trace := tr }).world
      = d.base.onActiveRemoved v (w.removedEvent d._toBeSimplifiedContainer v) := by
  unfold Discott.onActiveRemoved
  simp only [hs, if_true, FakeContainer.remove]

theorem onPassiveRemoved_world (d : Discott) (v : Nat) (w : World) (tr : List Action)
    (hs : w.store v = Store.PASSIVE) :
    (d.onPassiveRemoved v { world := w, trace := tr }).world
      = d.base.onPassiveRemoved v (w.removedEvent d._toBeSimplifiedContainer v) := by
  unfold Discott.onPassiveRemoved
  simp only [hs, if_true, FakeContainer.remove]

/-- A removal of a clause `v` that is one ahead: after the removed event and the
base-class callback that takes it to the store `NONE`, every clause has the
counts of its store again. -/
theorem counts_removed (d : Discott) (w w2 : World) (v : Nat)
    (hst : w2.store = Function.update w.store v Store.NONE)
    (hf : w2.fired = w.fired ++ [ContainerEvent.removed d._toBeSimplifiedContainer v])
    (c : Nat) (n : Nat) (h : d.Counts w c n) :
    (c ≠ v → w2.store c = w.store c ∧ d.Counts w2 c n) ∧
    (c = v → n = 1 → d.Counts w2 c (w2.store c).held) := by
  constructor
  · intro hc
    refine ⟨by rw [hst]; simp [Function.update, hc], ?_⟩
    exact h.other _ hf (by simp) (by simp; exact fun e => hc e.symm)
  · intro hc hn
    subst hc
    subst hn
    have : (w2.store c).held = 0 := by rw [hst]; simp [Store.held]
    rw [this]
    exact h.remove hf

/-- A backward simplification leaves a clause that is neither active nor
passive as it is, with its counts. -/
theorem Discott.Simplifies.untouched {d : Discott} (h2 : d.TwoContainers)
    (hb : d.FollowsStateMachine) {w w2 : World} (h : d.Simplifies w w2) :
    ∀ c n, w.store c ≠ Store.ACTIVE → w.store c ≠ Store.PASSIVE → d.Counts w c n →
      w2.store c = w.store c ∧ d.Counts w2 c n := by
  induction h with
  | done w => intro c n _ _ hc; exact ⟨rfl, hc⟩
  | active v w w2 hstore hrest ih =>
      intro c n ha hp hc
      have hv : c ≠ v := fun e => ha (by rw [e]; exact hstore)
      have hw : (d.onActiveRemoved v
          { world := w.removedEvent d.base._active v, trace := [] }).world
          = d.base.onActiveRemoved v
              ((w.removedEvent d.base._active v).removedEvent d._toBeSimplifiedContainer v) :=
        onActiveRemoved_world d v _ [] hstore
      rw [hw] at ih
      have h0 : d.Counts (w.removedEvent d.base._active v) c n :=
        hc.other _ (removedEvent_fired w _ v) (by simp)
          (by simp; exact fun e => absurd e h2)
      obtain ⟨g1, g2⟩ := (counts_removed d (w.removedEvent d.base._active v)
        (d.base.onActiveRemoved v
          ((w.removedEvent d.base._active v).removedEvent d._toBeSimplifiedContainer v)) v
        (hb.activeRemoved_store v _) (by rw [hb.activeRemoved_fired]; rfl) c n h0).1 hv
      obtain ⟨i1, i2⟩ := ih c n (by rw [g1]; exact ha) (by rw [g1]; exact hp) g2
      exact ⟨i1.trans g1, i2⟩
  | passive v k w w2 hk hstore hrest ih =>
      intro c n ha hp hc
      have hv : c ≠ v := fun e => hp (by rw [e]; exact hstore)
      have hw : (d.onPassiveRemoved v { world := w.removedEvent k v, trace := [] }).world
          = d.base.onPassiveRemoved v
              ((w.removedEvent k v).removedEvent d._toBeSimplifiedContainer v) :=
        onPassiveRemoved_world d v _ [] hstore
      rw [hw] at ih
      have h0 : d.Counts (w.removedEvent k v) c n :=
        hc.other _ (removedEvent_fired w _ v) (by simp) (by simp; exact fun e => absurd e hk)
      obtain ⟨g1, g2⟩ := (counts_removed d (w.removedEvent k v)
        (d.base.onPassiveRemoved v
          ((w.removedEvent k v).removedEvent d._toBeSimplifiedContainer v)) v
        (hb.passiveRemoved_store v _) (by rw [hb.passiveRemoved_fired]; rfl) c n h0).1 hv
      obtain ⟨i1, i2⟩ := ih c n (by rw [g1]; exact ha) (by rw [g1]; exact hp) g2
      exact ⟨i1.trans g1, i2⟩

/-- A backward simplification keeps the counts of every clause in line with its
store. -/
theorem Discott.Simplifies.tracked {d : Discott} (h2 : d.TwoContainers)
    (hb : d.FollowsStateMachine) {w w2 : World} (h : d.Simplifies w w2) :
    ∀ c, d.Counts w c (w.store c).held → d.Counts w2 c (w2.store c).held := by
  induction h with
  | done w => intro c hc; exact hc
  | active v w w2 hstore hrest ih =>
      intro c hc
      have hw : (d.onActiveRemoved v
          { world := w.removedEvent d.base._active v, trace := [] }).world
          = d.base.onActiveRemoved v
              ((w.removedEvent d.base._active v).removedEvent d._toBeSimplifiedContainer v) :=
        onActiveRemoved_world d v _ [] hstore
      rw [hw] at ih
      have h0 : d.Counts (w.removedEvent d.base._active v) c (w.store c).held :=
        hc.other _ (removedEvent_fired w _ v) (by simp)
          (by simp; exact fun e => absurd e h2)
      have hr := counts_removed d (w.removedEvent d.base._active v)
        (d.base.onActiveRemoved v
          ((w.removedEvent d.base._active v).removedEvent d._toBeSimplifiedContainer v)) v
        (hb.activeRemoved_store v _) (by rw [hb.activeRemoved_fired]; rfl) c _ h0
      apply ih c
      by_cases hv : c = v
      · exact hr.2 hv (by rw [hv, hstore]; rfl)
      · obtain ⟨g1, g2⟩ := hr.1 hv
        rw [g1]
        exact g2
  | passive v k w w2 hk hstore hrest ih =>
      intro c hc
      have hw : (d.onPassiveRemoved v { world := w.removedEvent k v, trace := [] }).world
          = d.base.onPassiveRemoved v
              ((w.removedEvent k v).removedEvent d._toBeSimplifiedContainer v) :=
        onPassiveRemoved_world d v _ [] hstore
      rw [hw] at ih
      have h0 : d.Counts (w.removedEvent k v) c (w.store c).held :=
        hc.other _ (removedEvent_fired w _ v) (by simp) (by simp; exact fun e => absurd e hk)
      have hr := counts_removed d (w.removedEvent k v)
        (d.base.onPassiveRemoved v
          ((w.removedEvent k v).removedEvent d._toBeSimplifiedContainer v)) v
        (hb.passiveRemoved_store v _) (by rw [hb.passiveRemoved_fired]; rfl) c _ h0
      apply ih c
      by_cases hv : c = v
      · exact hr.2 hv (by rw [hv, hstore]; rfl)
      · obtain ⟨g1, g2⟩ := hr.1 hv
        rw [g1]
        exact g2

/-- A change of the store of one clause within its class, without an event,
keeps every clause in line. -/
theorem counts_same (d : Discott) (w w2 : World) (c : Nat) (st : Store)
    (hf : w2.fired = w.fired) (hst : w2.store = Function.update w.store c st)
    (hh : (w.store c).held = st.held) (h : ∀ x, d.Counts w x (w.store x).held) :
    ∀ x, d.Counts w2 x (w2.store x).held := by
  intro x
  have e : (w2.store x).held = (w.store x).held := by
    rw [hst]
    by_cases hx : x = c
    · subst hx; simp [hh]
    · simp [Function.update, hx]
  rw [e]
  exact (h x).frame hf

/-- An added event for a clause that goes from a store without hold to a store
with hold keeps every clause in line. -/
theorem counts_added (d : Discott) (w w2 : World) (c : Nat) (st : Store)
    (hf : w2.fired = w.fired ++ [ContainerEvent.added d._toBeSimplifiedContainer c])
    (hst : w2.store = Function.update w.store c st)
    (h0 : (w.store c).held = 0) (h1 : st.held = 1) (h : ∀ x, d.Counts w x (w.store x).held) :
    ∀ x, d.Counts w2 x (w2.store x).held := by
  intro x
  by_cases hx : x = c
  · subst hx
    have e : (w2.store x).held = 1 := by rw [hst]; simp [h1]
    rw [e]
    have := h x
    rw [h0] at this
    exact this.add hf
  · have e : (w2.store x).held = (w.store x).held := by
      rw [hst]; simp [Function.update, hx]
    rw [e]
    exact (h x).other _ hf (by simp; exact fun e => hx e.symm) (by simp)

/-- A removed event for a clause that goes from a store with hold to a store
without hold keeps every clause in line. -/
theorem counts_dropped (d : Discott) (w w2 : World) (c : Nat) (st : Store)
    (hf : w2.fired = w.fired ++ [ContainerEvent.removed d._toBeSimplifiedContainer c])
    (hst : w2.store = Function.update w.store c st)
    (h1 : (w.store c).held = 1) (h0 : st.held = 0) (h : ∀ x, d.Counts w x (w.store x).held) :
    ∀ x, d.Counts w2 x (w2.store x).held := by
  intro x
  by_cases hx : x = c
  · subst hx
    have e : (w2.store x).held = 0 := by rw [hst]; simp [h0]
    rw [e]
    have := h x
    rw [h1] at this
    exact this.remove hf
  · have e : (w2.store x).held = (w.store x).held := by
      rw [hst]; simp [Function.update, hx]
    rw [e]
    exact (h x).other _ hf (by simp) (by simp; exact fun e => hx e.symm)

/-- The world `Discott::handleClauseBeforeActivation` leaves. -/
theorem handleClauseBeforeActivation_world (d : Discott) (c : Nat) (s : State) :
    (d.handleClauseBeforeActivation c s).2.world
      = (d.base.backwardSimplify c
          (s.world.removedEvent d._toBeSimplifiedContainer c)).addedEvent
            d._toBeSimplifiedContainer c := rfl

/-- `Discott::handleClauseBeforeActivation` for a selected clause keeps every
clause in line and the clause selected. -/
theorem handleClauseBeforeActivation_counts (d : Discott) (h2 : d.TwoContainers)
    (hb : d.FollowsStateMachine) (c : Nat) (s : State)
    (hs : s.world.store c = Store.SELECTED)
    (h : ∀ x, d.Counts s.world x (s.world.store x).held) :
    (d.handleClauseBeforeActivation c s).2.world.store c = Store.SELECTED ∧
    ∀ x, d.Counts (d.handleClauseBeforeActivation c s).2.world x
      ((d.handleClauseBeforeActivation c s).2.world.store x).held := by
  rw [handleClauseBeforeActivation_world]
  have hsim := hb.backward c (s.world.removedEvent d._toBeSimplifiedContainer c)
  have hc1 : d.Counts (s.world.removedEvent d._toBeSimplifiedContainer c) c 0 := by
    have := h c
    rw [hs] at this
    exact this.remove rfl
  obtain ⟨u1, u2⟩ := hsim.untouched h2 hb c 0
    (by rw [removedEvent_store, hs]; simp) (by rw [removedEvent_store, hs]; simp) hc1
  rw [removedEvent_store, hs] at u1
  refine ⟨by rw [addedEvent_store]; exact u1, ?_⟩
  intro x
  rw [addedEvent_store]
  by_cases hx : x = c
  · subst hx
    rw [u1]
    exact u2.add rfl
  · have hx1 : d.Counts (s.world.removedEvent d._toBeSimplifiedContainer c) x
        ((s.world.removedEvent d._toBeSimplifiedContainer c).store x).held :=
      (h x).other _ rfl (by simp) (by simp; exact fun e => hx e.symm)
    exact (hsim.tracked h2 hb x hx1).other _ rfl (by simp; exact fun e => hx e.symm) (by simp)

/-- Every transition of the state machine keeps the to-be-simplified container
in line with Passive and Active. -/
theorem step_tracks (d : Discott) (h2 : d.TwoContainers) (hb : d.FollowsStateMachine)
    (st : LoopStep) (s : State) (ht : d.Tracks s.world) (hen : st.enabled s.world = true) :
    d.Tracks (d.step st s).world := by
  rw [tracks_iff] at ht ⊢
  cases st with
  | newClause c =>
      simp only [LoopStep.enabled, decide_eq_true_eq] at hen
      exact counts_same d s.world _ c Store.UNPROCESSED rfl rfl (by rw [hen]; rfl) ht
  | deleteUnprocessed c =>
      simp only [LoopStep.enabled, decide_eq_true_eq] at hen
      exact counts_same d s.world _ c Store.NONE rfl rfl (by rw [hen]; rfl) ht
  | popSelected c =>
      simp only [LoopStep.enabled, decide_eq_true_eq] at hen
      exact counts_same d s.world _ c Store.SELECTED rfl rfl (by rw [hen]; rfl) ht
  | addToPassive c =>
      simp only [LoopStep.enabled, decide_eq_true_eq] at hen
      have hst : (d.base.onPassiveAdded c (s.world.setStore c Store.PASSIVE)).store
          = Function.update s.world.store c Store.PASSIVE := hb.passiveAdded_store c _
      have hw : (d.step (LoopStep.addToPassive c) s).world
          = (d.base.onPassiveAdded c (s.world.setStore c Store.PASSIVE)).addedEvent
              d._toBeSimplifiedContainer c := by
        simp only [Discott.step, Discott.onPassiveAdded, State.setStore, hst,
          Function.update_same, if_true, FakeContainer.add]
      rw [hw]
      exact counts_added d s.world _ c Store.PASSIVE
        (by rw [addedEvent_fired, hb.passiveAdded_fired]; rfl)
        (by rw [addedEvent_store]; exact hst) (by rw [hen]; rfl) rfl ht
  | addSOSClause c =>
      simp only [LoopStep.enabled, Bool.or_eq_true, decide_eq_true_eq] at hen
      have hst : (d.base.onSOSClauseAdded c (s.world.setStore c Store.ACTIVE)).store
          = Function.update s.world.store c Store.ACTIVE := hb.sosAdded_store c _
      have hw : (d.step (LoopStep.addSOSClause c) s).world
          = (d.base.onSOSClauseAdded c (s.world.setStore c Store.ACTIVE)).addedEvent
              d._toBeSimplifiedContainer c := rfl
      rw [hw]
      exact counts_added d s.world _ c Store.ACTIVE
        (by rw [addedEvent_fired, hb.sosAdded_fired]; rfl)
        (by rw [addedEvent_store]; exact hst)
        (by rcases hen with e | e <;> rw [e] <;> rfl) rfl ht
  | removePassive c =>
      simp only [LoopStep.enabled, decide_eq_true_eq] at hen
      have hw : (d.step (LoopStep.removePassive c) s).world
          = d.base.onPassiveRemoved c (s.world.removedEvent d._toBeSimplifiedContainer c) :=
        onPassiveRemoved_world d c s.world s.trace hen
      rw [hw]
      exact counts_dropped d s.world _ c Store.NONE
        (by rw [hb.passiveRemoved_fired]; rfl) (hb.passiveRemoved_store c _)
        (by rw [hen]; rfl) rfl ht
  | removeActive c =>
      simp only [LoopStep.enabled, decide_eq_true_eq] at hen
      have hw : (d.step (LoopStep.removeActive c) s).world
          = d.base.onActiveRemoved c (s.world.removedEvent d._toBeSimplifiedContainer c) :=
        onActiveRemoved_world d c s.world s.trace hen
      rw [hw]
      exact counts_dropped d s.world _ c Store.NONE
        (by rw [hb.activeRemoved_fired]; rfl) (hb.activeRemoved_store c _)
        (by rw [hen]; rfl) rfl ht
  | activate c =>
      simp only [LoopStep.enabled, decide_eq_true_eq] at hen
      obtain ⟨g1, g2⟩ := handleClauseBeforeActivation_counts d h2 hb c s hen ht
      exact counts_same d (d.handleClauseBeforeActivation c s).2.world _ c Store.ACTIVE rfl rfl
        (by rw [g1]; rfl) g2
  | failActivation c =>
      simp only [LoopStep.enabled, decide_eq_true_eq] at hen
      obtain ⟨g1, g2⟩ := handleClauseBeforeActivation_counts d h2 hb c s hen ht
      exact counts_dropped d (d.handleClauseBeforeActivation c s).2.world _ c Store.NONE rfl rfl
        (by rw [g1]; rfl) rfl g2

/-- An admissible sequence of transitions keeps the to-be-simplified container
in line with Passive and Active. -/
theorem run_tracks (d : Discott) (h2 : d.TwoContainers) (hb : d.FollowsStateMachine) :
    ∀ (steps : List LoopStep) (s : State), d.Tracks s.world → d.Admissible steps s →
      d.Tracks (d.run steps s).world := by
  intro steps
  induction steps with
  | nil => intro s ht _; exact ht
  | cons st rest ih =>
      intro s ht hadm
      exact ih (d.step st s) (step_tracks d h2 hb st s ht hadm.1) hadm.2

/-- A prefix of an admissible sequence of transitions is admissible. -/
theorem admissible_take (d : Discott) :
    ∀ (steps : List LoopStep) (s : State) (n : Nat), d.Admissible steps s →
      d.Admissible (steps.take n) s := by
  intro steps
  induction steps with
  | nil => intro s n _; simp [Discott.Admissible]
  | cons st rest ih =>
      intro s n hadm
      cases n with
      | zero => simp [Discott.Admissible]
      | succ n => exact ⟨hadm.1, ih _ n hadm.2⟩

end Saturation

namespace Kernel

open MatchingData

/-! ## The rows of an initialised level -/

theorem keepsRows_refl (md : MatchingData) : KeepsRows md md :=
  fun _ hi => ⟨hi, List.Perm.refl _, rfl⟩

theorem keepsRows_trans {m1 m2 m3 : MatchingData} (h1 : KeepsRows m1 m2) (h2 : KeepsRows m2 m3) :
    KeepsRows m1 m3 := by
  intro i hi
  obtain ⟨a1, a2, a3⟩ := h1 i hi
  obtain ⟨b1, b2, b3⟩ := h2 i a1
  exact ⟨b1, b2.trans a2, b3.trans a3⟩

/-- A change that leaves `boundVarNums` alone, permutes the rows of every level
and does not write to column `0` of `remaining` keeps the rows. -/
theorem keepsRows_of_perm {md md2 : MatchingData} (hb : md2.boundVarNums = md.boundVarNums)
    (ha : ∀ l, (md2.altBindings l).Perm (md.altBindings l))
    (hr : ∀ l, md2.remaining l 0 = md.remaining l 0) : KeepsRows md md2 := by
  intro i hi
  refine ⟨?_, ha i, hr i⟩
  unfold isInitialized at hi ⊢
  rw [hb]
  exact hi

/-- `bindAlt` keeps the rows of every initialised level. -/
theorem bindAlt_keepsRows (md : MatchingData) (b a : Nat)
    (hdown : ∀ l j, md.isInitialized l = true → j ≤ l → md.isInitialized j = true)
    (hrem : ∀ l, b < l → md.isInitialized l = true →
      md.remaining l b ≤ (md.altBindings l).length) :
    KeepsRows md (md.bindAlt b a).2 := by
  obtain ⟨f, _, h3, h4, _⟩ := bindAltLoop_spec b ((md.altBindings b).getD a default)
    (md.len - (b + 1)) (b + 1) md (by omega) (by omega) hdown
    (fun l h1 h2 => hrem l (by omega) h2)
  exact keepsRows_of_perm f.boundVarNums (fun l => (h4 l).1)
    (fun l => h3 l 0 (Or.inr (by omega)))

/-- `skipBinding` keeps the rows of every initialised level, in their order. -/
theorem skipBinding_keepsRows (md : MatchingData) (b : Nat)
    (hdown : ∀ l j, md.isInitialized l = true → j ≤ l → md.isInitialized j = true) :
    (md.skipBinding b).altBindings = md.altBindings ∧ KeepsRows md (md.skipBinding b) := by
  obtain ⟨f, h2, h3, _⟩ := skipBindingLoop_spec b (md.len - (b + 1)) (b + 1) md (by omega)
    (by omega) hdown
  refine ⟨h2, keepsRows_of_perm f.boundVarNums (fun l => ?_) (fun l => h3 l 0 (Or.inr (by omega)))⟩
  show ((md.skipBinding b).altBindings l).Perm _
  unfold skipBinding
  rw [h2]

/-- `ensureInit` keeps the rows of every level that was initialised before. -/
theorem MatchingData.InitRel.init_keepsRows {c : Nat} {md md1 : MatchingData} (hrel : InitRel c md md1)
    (hfix : md.isInitialized c = true → md1 = md) : KeepsRows md md1 := by
  intro i hi
  by_cases hc : i = c
  · subst hc
    rw [hfix hi]
    exact ⟨hi, List.Perm.refl _, rfl⟩
  · refine ⟨?_, by rw [hrel.other_alt i hc], hrel.other_rem i 0 hc⟩
    unfold isInitialized at hi ⊢
    rw [hrel.other_bv i hc]
    exact hi

/-- The scan of the alternatives of a level keeps the rows of every initialised
level. -/
theorem MatchingData.ScanRel.scan_keepsRows {md md2 : MatchingData} (h : ScanRel md md2) : KeepsRows md md2 :=
  keepsRows_of_perm h.boundVarNums (fun l => (h.alt_pp l).1)
    (fun l => h.rem l 0 (Or.inr (by omega)))

/-- The selection of a level for demodulation keeps the rows of every
initialised level. -/
theorem skipped_keepsRows (md : MatchingData)
    (hdown : ∀ l j, md.isInitialized l = true → j ≤ l → md.isInitialized j = true) :
    KeepsRows md md.skipped := by
  obtain ⟨f, h2, h3, _⟩ := skipBindingLoop_spec md.currBLit (md.len - (md.currBLit + 1))
    (md.currBLit + 1)
    ({ md.unassign with eqLitForDemodulation := md.currBLit } : MatchingData)
    (by omega) (by show md.len ≤ _; omega) hdown
  refine keepsRows_of_perm f.boundVarNums (fun l => ?_) (fun l => h3 l 0 (Or.inr (by omega)))
  have : md.skipped.altBindings = md.altBindings := h2
  rw [this]

/-- One round of the loop of `nextMatch` keeps the rows of every level that was
initialised before it. -/
theorem RoundCase.round_rows {md : MatchingData} {r : Round} (hc : RoundCase md r) :
    KeepsRows md r.state := by
  cases hc with
  | initBacktrack md1 hrel hfix hinv hinit hun hc hz hbt =>
      exact keepsRows_trans (hrel.init_keepsRows hfix) (keepsRows_of_perm rfl (fun _ => List.Perm.refl _)
        (fun _ => rfl))
  | initFail md1 hrel hfix hun hnil hnpe => exact hrel.init_keepsRows hfix
  | acceptLast md1 md2 hrel hfix hinv hinit hfa hlt hlast =>
      exact keepsRows_trans (hrel.init_keepsRows hfix) (keepsRows_trans hfa.1.scan_keepsRows
        (keepsRows_of_perm rfl (fun _ => List.Perm.refl _) (fun _ => rfl)))
  | acceptNext md1 md2 hrel hfix hinv hinit hfa hlt hlast =>
      exact keepsRows_trans (hrel.init_keepsRows hfix) (keepsRows_trans hfa.1.scan_keepsRows
        (keepsRows_of_perm rfl (fun _ => List.Perm.refl _) (fun _ => rfl)))
  | skipLast md1 md2 hrel hfix hinv hinit hfa hge heq hpe hlast =>
      exact keepsRows_trans (hrel.init_keepsRows hfix) (keepsRows_trans hfa.1.scan_keepsRows
        (keepsRows_trans (skipped_keepsRows md2 hfa.2.1.init_down)
          (keepsRows_of_perm rfl (fun _ => List.Perm.refl _) (fun _ => rfl))))
  | skipNext md1 md2 hrel hfix hinv hinit hfa hge heq hpe hlast =>
      exact keepsRows_trans (hrel.init_keepsRows hfix) (keepsRows_trans hfa.1.scan_keepsRows
        (keepsRows_trans (skipped_keepsRows md2 hfa.2.1.init_down)
          (keepsRows_of_perm rfl (fun _ => List.Perm.refl _) (fun _ => rfl))))
  | backFail md1 md2 hrel hfix hinv hinit hfa hge hns hc =>
      exact keepsRows_trans (hrel.init_keepsRows hfix) hfa.1.scan_keepsRows
  | backNext md1 md2 hrel hfix hinv hinit hfa hge hns hc =>
      exact keepsRows_trans (hrel.init_keepsRows hfix) (keepsRows_trans hfa.1.scan_keepsRows
        (keepsRows_of_perm rfl (fun _ => List.Perm.refl _) (fun _ => rfl)))

/-- A call of `nextMatch` keeps the rows of every level that was initialised
before it, whatever the call ends with. -/
theorem nextMatchLoop_rows (tl : Nat → Bool) :
    ∀ (fuel t : Nat) (impl : Impl) (r : MatchResult),
      InvAt impl.s_matchingData impl.s_matchingData.currBLit →
      nextMatchLoop tl fuel t impl = some r →
      KeepsRows impl.s_matchingData r.impl.s_matchingData := by
  intro fuel
  induction fuel with
  | zero => intro t impl r _ h; simp [nextMatchLoop] at h
  | succ fuel ih =>
      intro t impl r hinv h
      have hr := nextMatchRound_inv impl.s_matchingData hinv
      have hs := (nextMatchRound_cases impl.s_matchingData hinv).round_rows
      unfold nextMatchLoop at h
      generalize nextMatchRound impl.s_matchingData = rd at hr hs h
      cases rd with
      | backtrackInit md2 =>
          exact keepsRows_trans hs (ih (t + 1) { impl with s_matchingData := md2 } r hr h)
      | fail md2 =>
          simp only [Option.some.injEq] at h
          rw [← h]; exact hs
      | complete md2 =>
          simp only [Option.some.injEq] at h
          rw [← h]
          exact keepsRows_trans hs (keepsRows_of_perm rfl (fun _ => List.Perm.refl _)
            (fun _ => rfl))
      | next md2 =>
          simp only at h
          split at h
          · split at h
            · simp only [Option.some.injEq] at h
              rw [← h]; exact hs
            · exact keepsRows_trans hs (ih (t + 1) { s_matchingData := md2, s_counter := 0 } r hr h)
          · exact keepsRows_trans hs
              (ih (t + 1) { s_matchingData := md2, s_counter := impl.s_counter + 1 } r hr h)

end Kernel

namespace Kernel

open MatchingData

/-! ## The match record -/

theorem recRange_unassign {md : MatchingData} (h : RecRange md) : RecRange md.unassign := by
  intro p
  show (if p < md.inst.length ∧ md.matchRecord p = md.currBLit then NONE else md.matchRecord p)
      = NONE ∨
    (if p < md.inst.length ∧ md.matchRecord p = md.currBLit then NONE else md.matchRecord p)
      < md.len
  split
  · exact Or.inl rfl
  · exact h p

theorem recRange_congr {md md2 : MatchingData} (h : RecRange md)
    (hr : md2.matchRecord = md.matchRecord) (hl : md2.len = md.len) : RecRange md2 := by
  intro p
  rw [hr, hl]
  exact h p

theorem recRange_accepted {md : MatchingData} (h : RecRange md) (hc : md.currBLit < md.len) :
    RecRange md.accepted := by
  intro p
  show Function.update md.unassign.matchRecord
      (md.getAltRecordIndex md.currBLit (md.nextAlts md.currBLit)) md.currBLit p = NONE ∨
    Function.update md.unassign.matchRecord
      (md.getAltRecordIndex md.currBLit (md.nextAlts md.currBLit)) md.currBLit p < md.len
  by_cases hp : p = md.getAltRecordIndex md.currBLit (md.nextAlts md.currBLit)
  · subst hp
    rw [Function.update_same]
    exact Or.inr hc
  · rw [Function.update_noteq hp]
    exact recRange_unassign h p

theorem recRange_skipped {md : MatchingData} (h : RecRange md)
    (hdown : ∀ l j, md.isInitialized l = true → j ≤ l → md.isInitialized j = true) :
    RecRange md.skipped := by
  have f := skipped_frame md hdown
  exact recRange_congr (recRange_unassign h) f.matchRecord f.len

/-- One round of the loop of `nextMatch` writes nothing but levels and the
sentinel to the match record. -/
theorem RoundCase.round_rec {md : MatchingData} {r : Round} (hc : RoundCase md r)
    (h : RecRange md) : RecRange r.state := by
  cases hc with
  | initBacktrack md1 hrel hfix hinv hinit hun hc hz hbt =>
      exact recRange_congr h hrel.matchRecord hrel.len
  | initFail md1 hrel hfix hun hnil hnpe => exact recRange_congr h hrel.matchRecord hrel.len
  | acceptLast md1 md2 hrel hfix hinv hinit hfa hlt hlast =>
      have h2 : RecRange md2 := recRange_congr (recRange_congr h hrel.matchRecord hrel.len)
        hfa.1.matchRecord hfa.1.len
      exact recRange_congr (recRange_accepted h2 hfa.2.1.cur_lt) rfl rfl
  | acceptNext md1 md2 hrel hfix hinv hinit hfa hlt hlast =>
      have h2 : RecRange md2 := recRange_congr (recRange_congr h hrel.matchRecord hrel.len)
        hfa.1.matchRecord hfa.1.len
      exact recRange_congr (recRange_accepted h2 hfa.2.1.cur_lt) rfl rfl
  | skipLast md1 md2 hrel hfix hinv hinit hfa hge heq hpe hlast =>
      have h2 : RecRange md2 := recRange_congr (recRange_congr h hrel.matchRecord hrel.len)
        hfa.1.matchRecord hfa.1.len
      exact recRange_congr (recRange_skipped h2 hfa.2.1.init_down) rfl rfl
  | skipNext md1 md2 hrel hfix hinv hinit hfa hge heq hpe hlast =>
      have h2 : RecRange md2 := recRange_congr (recRange_congr h hrel.matchRecord hrel.len)
        hfa.1.matchRecord hfa.1.len
      exact recRange_congr (recRange_skipped h2 hfa.2.1.init_down) rfl rfl
  | backFail md1 md2 hrel hfix hinv hinit hfa hge hns hc =>
      exact recRange_congr (recRange_congr h hrel.matchRecord hrel.len)
        hfa.1.matchRecord hfa.1.len
  | backNext md1 md2 hrel hfix hinv hinit hfa hge hns hc =>
      exact recRange_congr (recRange_congr (recRange_congr h hrel.matchRecord hrel.len)
        hfa.1.matchRecord hfa.1.len) rfl rfl

/-- A call of `nextMatch` writes nothing but levels and the sentinel to the
match record. -/
theorem nextMatchLoop_rec (tl : Nat → Bool) :
    ∀ (fuel t : Nat) (impl : Impl) (r : MatchResult),
      InvAt impl.s_matchingData impl.s_matchingData.currBLit →
      RecRange impl.s_matchingData →
      nextMatchLoop tl fuel t impl = some r → RecRange r.impl.s_matchingData := by
  intro fuel
  induction fuel with
  | zero => intro t impl r _ _ h; simp [nextMatchLoop] at h
  | succ fuel ih =>
      intro t impl r hinv hrec h
      have hr := nextMatchRound_inv impl.s_matchingData hinv
      have hs := (nextMatchRound_cases impl.s_matchingData hinv).round_rec hrec
      unfold nextMatchLoop at h
      generalize nextMatchRound impl.s_matchingData = rd at hr hs h
      cases rd with
      | backtrackInit md2 =>
          exact ih (t + 1) { impl with s_matchingData := md2 } r hr hs h
      | fail md2 =>
          simp only [Option.some.injEq] at h
          rw [← h]; exact hs
      | complete md2 =>
          simp only [Option.some.injEq] at h
          rw [← h]
          exact recRange_congr hs rfl rfl
      | next md2 =>
          simp only at h
          split at h
          · split at h
            · simp only [Option.some.injEq] at h
              rw [← h]; exact hs
            · exact ih (t + 1) { s_matchingData := md2, s_counter := 0 } r hr hs h
          · exact ih (t + 1) { s_matchingData := md2, s_counter := impl.s_counter + 1 } r hr hs h

/-- In a valid state every entry of the match record is a level or the
sentinel. -/
theorem ValidState.rec_range {baseLits : List Literal} {inst : Clause}
    {alts : List (List Literal)} (hwf : WellFormed baseLits inst alts) {impl : Impl}
    (hv : ValidState baseLits inst alts impl) : RecRange impl.s_matchingData := by
  induction hv with
  | init impl h =>
      unfold Kernel.init at h
      cases hmd : initMatchingData baseLits inst alts with
      | none => rw [hmd] at h; simp at h
      | some md =>
          rw [hmd] at h
          simp only [Option.map_some', Option.some.injEq] at h
          rw [← h]
          obtain ⟨first, _, _, _, _, _, _, _, _, h8, _⟩ := initMatchingData_eq hmd
          intro p
          left
          show md.matchRecord p = NONE
          rw [h8]
  | next impl impl2 tl fuel hv h ih =>
      exact nextMatchLoop_rec tl fuel 0 impl _ (hv.valid_inv hwf) ih h

theorem count_set_true (l : List Bool) (i : Nat) (hi : i < l.length)
    (hf : l.getD i false = false) : (l.set i true).count true = l.count true + 1 := by
  induction l generalizing i with
  | nil => simp at hi
  | cons a t ih =>
      cases i with
      | zero =>
          simp only [List.getD_cons_zero] at hf
          subst hf
          simp
      | succ i =>
          simp only [List.getD_cons_succ] at hf
          simp only [List.length_cons, Nat.add_lt_add_iff_right] at hi
          simp only [List.set_cons_succ, List.count_cons, ih i hi hf]
          omega

theorem matchedLevels_eq (md : MatchingData) :
    ∀ n, matchedLevels md n = n - (if md.eqLitForDemodulation < n then 1 else 0) := by
  intro n
  induction n with
  | zero => simp [matchedLevels]
  | succ n ih =>
      unfold matchedLevels
      rw [ih]
      by_cases h1 : md.eqLitForDemodulation < n
      · have h2 : md.eqLitForDemodulation < n + 1 := by omega
        have h3 : n ≠ md.eqLitForDemodulation := by omega
        rw [if_pos h1, if_pos h2, if_pos h3]
        omega
      · by_cases h3 : n = md.eqLitForDemodulation
        · have h2 : md.eqLitForDemodulation < n + 1 := by omega
          rw [if_neg h1, if_pos h2, if_neg (by simpa using h3)]
          omega
        · have h2 : ¬ md.eqLitForDemodulation < n + 1 := by omega
          rw [if_neg h1, if_neg h2, if_pos h3]
          omega

/-- When the levels that are not selected for demodulation point to pairwise
different positions of the instance, the bitmap has one entry set for each of
them. -/
theorem matchedAltsBitmapLoop_count (md : MatchingData)
    (hlt : ∀ bi, bi < md.len → bi ≠ md.eqLitForDemodulation →
      md.getAltRecordIndex bi (dec32 (md.nextAlts bi)) < md.inst.length)
    (hinj : ∀ bi bj, bi < md.len → bj < md.len → bi ≠ md.eqLitForDemodulation →
      bj ≠ md.eqLitForDemodulation →
      md.getAltRecordIndex bi (dec32 (md.nextAlts bi))
        = md.getAltRecordIndex bj (dec32 (md.nextAlts bj)) → bi = bj) :
    ∀ n, n ≤ md.len → (matchedAltsBitmapLoop md n).count true = matchedLevels md n := by
  intro n
  induction n with
  | zero =>
      intro _
      show (List.replicate md.inst.length false).count true = 0
      rw [List.count_replicate]
      simp
  | succ n ih =>
      intro hn
      obtain ⟨s1, s2⟩ := matchedAltsBitmapLoop_spec md n
      unfold matchedAltsBitmapLoop matchedLevels
      simp only
      by_cases he : n ≠ md.eqLitForDemodulation
      · rw [if_pos he, if_pos he]
        rw [count_set_true _ _ (by rw [s1]; exact hlt n (by omega) he) ?_, ih (by omega)]
        cases hb : (matchedAltsBitmapLoop md n).getD
            (md.getAltRecordIndex n (dec32 (md.nextAlts n))) false with
        | false => rfl
        | true =>
            obtain ⟨_, bi, b1, b2, b3⟩ := (s2 _).1 hb
            have := hinj bi n (by omega) (by omega) b2 he b3
            omega
      · rw [if_neg he, if_neg he, ih (by omega)]
        rfl

end Kernel

namespace Kernel

open MatchingData

/-! ## A base of one positive equality -/

theorem init_single (b : Literal) (inst : Clause) (as : List Literal) :
    init [b] inst [as] = some { s_matchingData := singleLevel b inst as, s_counter := 0 } := by
  have hr : (reorder [b] [as] b).s_baseLits = [b] ∧ (reorder [b] [as] b).s_altsArr = [as] := by
    unfold reorder
    simp only [List.length_singleton, ReorderState.run, ReorderState.step]
    split <;> split <;> simp_all
  simp only [init, initMatchingData, List.getElem?_cons_zero, Option.map_some', hr.1, hr.2,
    List.length_singleton, singleLevel]

/-- `ensureInit` of the level of a base of one positive equality gives the rows
of `createLiteralBindings`, none of them passed. -/
theorem ensureInit_single (b : Literal) (inst : Clause) (as : List Literal)
    (hpe : b.isEquality = true ∧ b.isPositive = true) :
    SingleReady b inst as 0 NONE (singleLevel b inst as) := by
  have hf := ensureInit_fresh (singleLevel b inst as) 0 (by simp [isInitialized, singleLevel])
  have hrows : (singleLevel b inst as).rowsP 0 = (createLiteralBindings b as inst).2 := rfl
  have hvars : (singleLevel b inst as).varsP 0 = boundVarsOf b := rfl
  have hbase : (singleLevel b inst as).bases.getD 0 default = b := rfl
  rw [hbase, hpe.1, hpe.2] at hf
  by_cases hz : ((singleLevel b inst as).rowsP 0).length = 0
  · rw [if_pos hz, if_pos (by rfl), if_neg (by simp [singleLevel, NONE])] at hf
    refine ⟨_, hf, ⟨rfl, rfl, rfl, rfl, rfl, ?_, ?_, ?_, ?_, rfl, rfl⟩⟩
    · simp [zeroedLevel, freshLevel, hvars]
    · simp [zeroedLevel, freshLevel, hvars]
    · simp [zeroedLevel, freshLevel, hrows]
    · rw [← hrows, hz]
      simp [zeroedLevel]
  · rw [if_neg hz, if_neg (by omega)] at hf
    refine ⟨_, hf, ⟨rfl, rfl, rfl, rfl, rfl, ?_, ?_, ?_, ?_, rfl, rfl⟩⟩
    · simp [ensureInitLoop, countedLevel, freshLevel, hvars]
    · simp [ensureInitLoop, countedLevel, freshLevel, hvars]
    · simp [ensureInitLoop, countedLevel, freshLevel, hrows]
    · simp [ensureInitLoop, countedLevel, TriangularArray.set, hrows]

/-- In a state in which the level is initialised `ensureInit` does nothing. -/
theorem singleAt_ready {b : Literal} {inst : Clause} {as : List Literal} {k e : Nat}
    {md : MatchingData} (h : SingleAt b inst as k e md) : SingleReady b inst as k e md := by
  refine ⟨md, ?_, h⟩
  unfold ensureInit
  rw [if_pos (by simp [isInitialized, h.cur_eq, h.vars_eq])]

/-- A call of `nextMatch` for a base of one literal that has a row left: the
call returns `true` and the row is passed. -/
theorem single_accept {b : Literal} {inst : Clause} {as : List Literal} {k e : Nat}
    (impl : Impl) (h : SingleReady b inst as k e impl.s_matchingData)
    (hk : k < (createLiteralBindings b as inst).2.length) (fuel : Nat) (hfuel : 0 < fuel) :
    ∃ impl2, nextMatch noTimeLimit fuel impl = some (MatchResult.returned true impl2) ∧
      SingleAt b inst as (k + 1) e impl2.s_matchingData ∧
      impl2.s_matchingData.matchRecord ((createLiteralBindings b as inst).2.getD k default).pos
        = 0 := by
  obtain ⟨S, hE, hS⟩ := h
  have hr := round_of_ensureInit impl.s_matchingData S hE hS.cur_eq hS.len_eq
    (by rw [hS.next_eq, hS.rem_eq]; exact hk)
  have hc := nextMatch_of_complete noTimeLimit impl _ hr
  refine ⟨_, nextMatchLoop_mono noTimeLimit 1 0 impl _ hc fuel (by omega), ?_, ?_⟩
  · exact ⟨hS.len_eq, rfl, hS.bases_eq, hS.alts_eq, hS.inst_eq, hS.vars_eq, hS.cnt_eq, hS.rows_eq,
      hS.rem_eq, by show Function.update S.nextAlts 0 (S.nextAlts 0 + 1) 0 = k + 1
                    rw [Function.update_same, hS.next_eq], hS.eqLit_eq⟩
  · show Function.update S.unassign.matchRecord (S.getAltRecordIndex 0 (S.nextAlts 0)) 0 _ = _
    have hidx : S.getAltRecordIndex 0 (S.nextAlts 0)
        = ((createLiteralBindings b as inst).2.getD k default).pos := by
      unfold getAltRecordIndex
      rw [hS.rows_eq, hS.next_eq]
    rw [hidx, Function.update_same]

/-- The round of the loop of `nextMatch` for a base of one positive equality
all of whose rows have been passed, while no level is selected for
demodulation: the level is selected and the match is complete. -/
theorem single_skip_round {b : Literal} {inst : Clause} {as : List Literal} {e : Nat}
    (md S : MatchingData) (hE : md.ensureInit md.currBLit = (InitResult.OK, S))
    (hS : SingleAt b inst as (createLiteralBindings b as inst).2.length e S)
    (hpe : b.isEquality = true ∧ b.isPositive = true) (he : 0 < e) :
    ∃ M, nextMatchRound md = Round.complete M ∧
      SingleAt b inst as (createLiteralBindings b as inst).2.length 0
        { M with currBLit := dec32 M.currBLit } := by
  have hfa : findAlt (S.remaining 0 0) (S.remaining 0 0 - S.nextAlts 0) S = S := by
    rw [hS.rem_eq, hS.next_eq, Nat.sub_self]
    rfl
  have hb : S.bases.getD 0 default = b := by rw [hS.bases_eq]; rfl
  have hcall : md.skipBindingCall
      = some ({ S.unassign with eqLitForDemodulation := S.unassign.currBLit } : MatchingData) := by
    unfold skipBindingCall
    dsimp only
    rw [hE]
    dsimp only
    unfold getRemainingInCurrent
    rw [hS.cur_eq, hfa, hS.cur_eq, if_neg (by rw [hS.next_eq, hS.rem_eq]; omega)]
    rw [if_pos (by rw [hS.eqLit_eq, hb]; exact ⟨he, hpe.1, hpe.2⟩)]
  have hround := round_of_skipBindingCall md _ hcall
  generalize hT : ({ S.unassign with eqLitForDemodulation := S.unassign.currBLit } : MatchingData)
    = T at hround
  have tlen : T.len = 1 := by rw [← hT]; exact hS.len_eq
  have tcur : T.currBLit = 0 := by rw [← hT]; exact hS.cur_eq
  have tsk : T.skipBinding T.currBLit = T := by
    unfold skipBinding
    rw [tlen, tcur]
    rfl
  rw [tsk, if_pos (by rw [tlen, tcur])] at hround
  refine ⟨_, hround, ?_⟩
  subst hT
  exact ⟨hS.len_eq, by show dec32 (S.currBLit + 1) = 0
                       rw [hS.cur_eq]; rfl, hS.bases_eq, hS.alts_eq, hS.inst_eq,
    hS.vars_eq, hS.cnt_eq, hS.rows_eq, hS.rem_eq, hS.next_eq, hS.cur_eq⟩

/-- The round of the loop of `nextMatch` for a base of one positive equality
that is selected for demodulation: the search fails. -/
theorem single_fail_round {b : Literal} {inst : Clause} {as : List Literal}
    (md S : MatchingData) (hE : md.ensureInit md.currBLit = (InitResult.OK, S))
    (hS : SingleAt b inst as (createLiteralBindings b as inst).2.length 0 S) :
    nextMatchRound md = Round.fail S := by
  have hfa : findAlt (S.remaining 0 0) (S.remaining 0 0 - S.nextAlts 0) S = S := by
    rw [hS.rem_eq, hS.next_eq, Nat.sub_self]
    rfl
  unfold nextMatchRound
  dsimp only
  rw [hE]
  dsimp only
  unfold getRemainingInCurrent
  rw [hS.cur_eq, hfa, hS.cur_eq, if_neg (by rw [hS.next_eq, hS.rem_eq]; omega)]
  rw [if_neg (by rw [hS.eqLit_eq]; simp), if_pos rfl]

/-- A call of `nextMatch` for a base of one positive equality all of whose rows
have been passed, while no level is selected for demodulation: the call
returns `true` with the level selected. -/
theorem single_skip {b : Literal} {inst : Clause} {as : List Literal} {e : Nat}
    (impl : Impl)
    (h : SingleReady b inst as (createLiteralBindings b as inst).2.length e impl.s_matchingData)
    (hpe : b.isEquality = true ∧ b.isPositive = true) (he : 0 < e) (fuel : Nat)
    (hfuel : 0 < fuel) :
    ∃ impl2, nextMatch noTimeLimit fuel impl = some (MatchResult.returned true impl2) ∧
      SingleAt b inst as (createLiteralBindings b as inst).2.length 0 impl2.s_matchingData := by
  obtain ⟨S, hE, hS⟩ := h
  obtain ⟨M, hr, hM⟩ := single_skip_round impl.s_matchingData S hE hS hpe he
  have hc := nextMatch_of_complete noTimeLimit impl _ hr
  exact ⟨_, nextMatchLoop_mono noTimeLimit 1 0 impl _ hc fuel (by omega), hM⟩

/-- A call of `nextMatch` for a base of one positive equality that is selected
for demodulation returns `false`. -/
theorem single_fail {b : Literal} {inst : Clause} {as : List Literal} (impl : Impl)
    (h : SingleReady b inst as (createLiteralBindings b as inst).2.length 0 impl.s_matchingData)
    (fuel : Nat) (hfuel : 0 < fuel) :
    ∃ impl2, nextMatch noTimeLimit fuel impl = some (MatchResult.returned false impl2) := by
  obtain ⟨S, hE, hS⟩ := h
  have hr := single_fail_round impl.s_matchingData S hE hS
  obtain ⟨n, rfl⟩ : ∃ n, fuel = n + 1 := ⟨fuel - 1, by omega⟩
  refine ⟨{ impl with s_matchingData := S }, ?_⟩
  unfold nextMatch nextMatchLoop
  rw [hr]

/-- The bitmap of the matched alternatives for a base of one literal. -/
theorem singleAt_bitmap {b : Literal} {inst : Clause} {as : List Literal} {k e : Nat}
    (impl : Impl) (h : SingleAt b inst as k e impl.s_matchingData) :
    getMatchedAltsBitmap impl
      = if 0 ≠ e then
          (List.replicate inst.length false).set
            ((createLiteralBindings b as inst).2.getD (dec32 k) default).pos true
        else List.replicate inst.length false := by
  unfold getMatchedAltsBitmap
  rw [h.len_eq]
  simp only [matchedAltsBitmapLoop, h.eqLit_eq, h.inst_eq, getAltRecordIndex, h.rows_eq,
    h.next_eq]

/-- The bindings reported for a base of one literal that is selected for
demodulation are empty. -/
theorem singleAt_bindings_skip {b : Literal} {inst : Clause} {as : List Literal} {k : Nat}
    (impl : Impl) (h : SingleAt b inst as k 0 impl.s_matchingData) : getBindings impl = [] := by
  unfold getBindings
  rw [h.len_eq]
  simp only [bindingsLoop, h.eqLit_eq, ne_eq, not_true_eq_false, if_false]

/-- The bindings reported for a base of one literal are those of the row
selected at the level. -/
theorem singleAt_bindings {b : Literal} {inst : Clause} {as : List Literal} {k e : Nat}
    (impl : Impl) (h : SingleAt b inst as k e impl.s_matchingData) (he : 0 ≠ e)
    (v : Nat) (hv : v ∈ boundVarsOf b) :
    bindingsSubst (getBindings impl) v
      = rowSubst (boundVarsOf b)
          ((createLiteralBindings b as inst).2.getD (dec32 k) default) v := by
  have hE : getBindings impl
      = bindingsOfLevel impl.s_matchingData 0 (dec32 k) [] (boundVarsOf b).length := by
    unfold getBindings
    rw [h.len_eq]
    simp only [bindingsLoop, h.eqLit_eq, if_pos he, h.next_eq, h.cnt_eq]
  obtain ⟨_, h2, h3⟩ := bindingsOfLevel_spec impl.s_matchingData 0 (dec32 k) []
    (boundVarsOf b).length
  have hbv : (impl.s_matchingData.boundVarNums 0).getD [] = boundVarsOf b := by
    rw [h.vars_eq]; rfl
  rw [hbv] at h2 h3
  rw [h.rows_eq] at h2
  have hk := List.indexOf_lt_length.2 hv
  have hsome := h3 _ hk
  rw [getD_indexOf_nat _ _ hv, ← hE] at hsome
  obtain ⟨t, ht⟩ := Option.isSome_iff_exists.1 hsome
  rw [← hE] at h2
  rcases h2 v t ht with g | ⟨i, k1, k2, k3⟩
  · simp at g
  · have hidx : (boundVarsOf b).indexOf v = i := by
      rw [← k2]; exact indexOf_getD_nat _ (boundVarsOf_nodup _) i k1
    simp only [bindingsSubst, ht, Option.getD_some, rowSubst, hidx]
    exact k3

/-- The first calls of `nextMatch` for a base of one positive equality pass the
rows one by one. -/
theorem single_calls (b : Literal) (inst : Clause) (as : List Literal)
    (hpe : b.isEquality = true ∧ b.isPositive = true) (fuel : Nat) (hfuel : 0 < fuel) :
    ∀ j, j ≤ (createLiteralBindings b as inst).2.length →
      ∃ impl, afterCalls [b] inst [as] fuel j = some impl ∧
        SingleReady b inst as j NONE impl.s_matchingData ∧
        (0 < j → SingleAt b inst as j NONE impl.s_matchingData) := by
  intro j
  induction j with
  | zero =>
      intro _
      exact ⟨{ s_matchingData := singleLevel b inst as, s_counter := 0 },
        init_single b inst as, ensureInit_single b inst as hpe, fun h => by omega⟩
  | succ j ih =>
      intro hj
      obtain ⟨impl, h1, h2, _⟩ := ih (by omega)
      obtain ⟨impl2, g1, g2, _⟩ := single_accept impl h2 (by omega) fuel hfuel
      refine ⟨impl2, ?_, singleAt_ready g2, fun _ => g2⟩
      show (afterCalls [b] inst [as] fuel j).bind _ = _
      rw [h1]
      simp only [Option.some_bind, g1]

end Kernel

namespace Kernel

/-! ## The round in which the exception is thrown -/

end Kernel

namespace Kernel

/-! ## Matching under `MapBinder` finds every instance -/

mutual
/-- A term is matched onto each of its instances: when the bindings already in
the map agree with the substitution `σ`, matching `t` onto `t.subst σ` succeeds
and the bindings of the resulting map agree with `σ` too. -/
theorem mb_matchTerms_complete (σ : Nat → Term) :
    ∀ (t : Term) (m0 : List (Nat × Term)), (∀ v u, m0.lookup v = some u → σ v = u) →
      ∃ m, MatchingUtils.matchTerms MapBinder.bind t (t.subst σ) m0 = (true, m) ∧
        ∀ v u, m.lookup v = some u → σ v = u
  | .var v, m0, h => by
      simp only [MatchingUtils.matchTerms, MapBinder.bind, Term.subst]
      cases hl : m0.lookup v with
      | some u => exact ⟨m0, by simp [h v u hl], h⟩
      | none =>
          refine ⟨(v, σ v) :: m0, rfl, ?_⟩
          intro w u hw
          by_cases e : w = v
          · subst e
            simp [List.lookup_cons] at hw
            exact hw
          · have hb : (w == v) = false := by simpa using e
            simp only [List.lookup_cons, hb] at hw
            exact h w u hw
  | .app f as, m0, h => by
      simp only [Term.subst, MatchingUtils.matchTerms, if_true]
      exact mb_matchTermList_complete σ as m0 h
/-- An argument list is matched onto each of its instances. -/
theorem mb_matchTermList_complete (σ : Nat → Term) :
    ∀ (ts : List Term) (m0 : List (Nat × Term)), (∀ v u, m0.lookup v = some u → σ v = u) →
      ∃ m, MatchingUtils.matchTermList MapBinder.bind ts (Term.substList σ ts) m0 = (true, m) ∧
        ∀ v u, m.lookup v = some u → σ v = u
  | [], m0, h => ⟨m0, by simp [Term.substList, MatchingUtils.matchTermList], h⟩
  | a :: as, m0, h => by
      obtain ⟨m1, a1, a2⟩ := mb_matchTerms_complete σ a m0 h
      obtain ⟨m2, b1, b2⟩ := mb_matchTermList_complete σ as m1 a2
      exact ⟨m2, by simp only [Term.substList, MatchingUtils.matchTermList, a1, b1], b2⟩
end

/-- The test `matchArgs` succeeds when a substitution takes the arguments of the
base literal to those of the other literal. -/
theorem matchArgs_complete (b a : Literal) (σ : Nat → Term)
    (h : Term.substList σ b.args = a.args) : MatchingUtils.matchArgs b a = true := by
  obtain ⟨m, h1, _⟩ := mb_matchTermList_complete σ b.args [] (fun v u hv => by simp at hv)
  unfold MatchingUtils.matchArgs
  rw [← h, h1]

/-- The test `matchReversedArgs` succeeds when a substitution takes the two
arguments of the base literal to the arguments of the other literal in the
other order. -/
theorem matchReversedArgs_complete (b a : Literal) (σ : Nat → Term)
    (h0 : Term.subst σ (b.nthArgument 0) = a.nthArgument 1)
    (h1 : Term.subst σ (b.nthArgument 1) = a.nthArgument 0) :
    MatchingUtils.matchReversedArgs b a = true := by
  obtain ⟨m1, a1, a2⟩ := mb_matchTerms_complete σ (b.nthArgument 0) []
    (fun v u hv => by simp at hv)
  obtain ⟨m2, b1, _⟩ := mb_matchTerms_complete σ (b.nthArgument 1) m1 a2
  unfold MatchingUtils.matchReversedArgs
  rw [← h0, a1]
  simp only
  rw [← h1, b1]

/-- The test `matchArgs` decides whether a substitution takes the arguments of
the base literal to those of the other literal. -/
theorem matchArgs_iff (b a : Literal) :
    MatchingUtils.matchArgs b a = true ↔ ∃ σ : Nat → Term, Term.substList σ b.args = a.args :=
  ⟨matchArgs_sound b a, fun ⟨σ, h⟩ => matchArgs_complete b a σ h⟩

/-- The test `matchReversedArgs` decides whether a substitution takes the two
arguments of the base literal to those of the other literal in the other
order. -/
theorem matchReversedArgs_iff (b a : Literal) :
    MatchingUtils.matchReversedArgs b a = true ↔
      ∃ σ : Nat → Term, Term.subst σ (b.nthArgument 0) = a.nthArgument 1 ∧
        Term.subst σ (b.nthArgument 1) = a.nthArgument 0 :=
  ⟨matchReversedArgs_sound b a, fun ⟨σ, h0, h1⟩ => matchReversedArgs_complete b a σ h0 h1⟩

/-- A base literal matches each of its instances with direct or with swapped
arguments. -/
theorem instanceOf_matches {b a : Literal} (h : Literal.instanceOf b a) :
    MatchingUtils.matchArgs b a = true ∨ MatchingUtils.matchReversedArgs b a = true := by
  obtain ⟨σ, hs⟩ := h
  rcases hs with hs | ⟨_, h2, hs⟩
  · left
    apply matchArgs_complete b a σ
    rw [← hs]
    rfl
  · right
    have hl : b.args.length = 2 := by
      simpa [Literal.subst, substList_length] using h2
    have hb := two_args hl
    have ha : a.args = [Term.subst σ (b.nthArgument 1), Term.subst σ (b.nthArgument 0)] := by
      rw [hs]
      simp only [Literal.swapArgs, Literal.subst, Literal.nthArgument]
      rw [hb]
      simp [Term.substList]
    apply matchReversedArgs_complete b a σ
    · simp [Literal.nthArgument, ha]
    · simp [Literal.nthArgument, ha]

end Kernel

namespace Kernel

/-! ## Properties -/

theorem returned_of_value {r : Option MatchResult} {b : Bool}
    (h : r.bind MatchResult.value = some b) : ∃ impl, r = some (MatchResult.returned b impl) := by
  cases r with
  | none => simp at h
  | some m =>
      cases m with
      | returned b2 impl =>
          simp [MatchResult.value] at h
          exact ⟨impl, by rw [h]⟩
      | timeLimitExceeded impl => simp [MatchResult.value] at h

/-- The first call of `nextMatch` on the given problem returns `b`: there are
the state after `init` and the state after the call. -/
theorem first_call_of_eval (baseLits : List Literal) (inst : Clause)
    (alts : List (List Literal)) (fuel : Nat) (b : Bool)
    (h : ((init baseLits inst alts).bind (fun impl => nextMatch noTimeLimit fuel impl)).bind
      MatchResult.value = some b) :
    ∃ impl0 impl, init baseLits inst alts = some impl0 ∧
      nextMatch noTimeLimit fuel impl0 = some (MatchResult.returned b impl) := by
  cases hi : init baseLits inst alts with
  | none => rw [hi] at h; simp at h
  | some impl0 =>
      rw [hi] at h
      simp only [Option.some_bind] at h
      obtain ⟨impl, hr⟩ := returned_of_value h
      exact ⟨impl0, impl, rfl, hr⟩

/-- C2: multiset injectivity. In a valid state of the matcher for a well-formed
problem, whenever `nextMatch` returns `true`, two levels that are not skipped
for demodulation and claim the same position of the instance clause are the
same level: no literal occurrence of the instance is matched by two different
base literals. -/
theorem nextMatch_claims_distinct {baseLits : List Literal} {inst : Clause}
    {alts : List (List Literal)} (hwf : WellFormed baseLits inst alts) {impl impl2 : Impl}
    (hv : ValidState baseLits inst alts impl) {tl : Nat → Bool} {fuel : Nat}
    (h : nextMatch tl fuel impl = some (MatchResult.returned true impl2)) :
    ∀ i j, i < impl2.s_matchingData.len → j < impl2.s_matchingData.len →
      i ≠ impl2.s_matchingData.eqLitForDemodulation →
      j ≠ impl2.s_matchingData.eqLitForDemodulation →
      claimedPos impl2 i = claimedPos impl2 j → i = j := by
  intro i j hi hj hie hje he
  have hm := (hv.matched_of_true hwf h).1
  have h1 := hm.sel_rec i hi hie
  have h2 := hm.sel_rec j hj hje
  have he2 : (impl2.s_matchingData.selRow i).pos = (impl2.s_matchingData.selRow j).pos := he
  rw [he2] at h1
  exact h1.symm.trans h2

theorem exS1_wellFormed :
    WellFormed [exP exX, exQ exX exY] [exP exA, exQ exA exB, exR] [[exP exA], [exQ exA exB]] :=
  ⟨by decide, by decide, by decide⟩

/-- Witness for C2: the problem S1 (base `P(x) ∨ Q(x,y)`, instance
`P(a) ∨ Q(a,b) ∨ R`) is well-formed and its first `nextMatch` call returns
`true`. -/
theorem nextMatch_claims_distinct_witness :
    ∃ impl0 impl,
      init [exP exX, exQ exX exY] [exP exA, exQ exA exB, exR] [[exP exA], [exQ exA exB]]
        = some impl0 ∧
      nextMatch noTimeLimit 10 impl0 = some (MatchResult.returned true impl) ∧
      ∀ i j, i < impl.s_matchingData.len → j < impl.s_matchingData.len →
        i ≠ impl.s_matchingData.eqLitForDemodulation →
        j ≠ impl.s_matchingData.eqLitForDemodulation →
        claimedPos impl i = claimedPos impl j → i = j := by
  obtain ⟨impl0, impl, h0, h1⟩ := first_call_of_eval
    [exP exX, exQ exX exY] [exP exA, exQ exA exB, exR] [[exP exA], [exQ exA exB]] 10 true
    (by decide!)
  exact ⟨impl0, impl, h0, h1,
    nextMatch_claims_distinct exS1_wellFormed (ValidState.init impl0 h0) h1⟩


/-- C3 (evaluation of the code at the failing input): base `P(x) ∨ x = d`,
instance `P(a) ∨ b = d`, alternatives `{P(a)}` and `{b = d}`. Every alternative
occurs in the instance and is an instance of its base literal, the
substitution `x ↦ a` maps `P(x)` to the alternative `P(a)` and leaves only the
positive equality `x = d` unmatched, and yet the first `nextMatch` call returns
`false`. -/
theorem nextMatch_first_call_false_despite_skip_match :
    (exP exX).subst (fun _ => exA) = exP exA
    ∧ (exEq exX exD).subst (fun _ => exB) = exEq exB exD
    ∧ ((exEq exX exD).isEquality = true ∧ (exEq exX exD).isPositive = true)
    ∧ ((init [exP exX, exEq exX exD] [exP exA, exEq exB exD] [[exP exA], [exEq exB exD]]).bind
        (fun impl => nextMatch noTimeLimit 10 impl)).bind MatchResult.value = some false := by
  decide!

/-- C10 (as amended): with an empty base `init` has no result, since
`initMatchingData` reads `s_baseLits[0]`; no matcher state, and so no match,
bindings or bitmap, comes out of it. -/
theorem init_empty_base_none (inst : Clause) (alts : List (List Literal)) :
    init [] inst alts = none := by
  rfl

/-- C10 (counterexample): for the empty base and the instance `P(a)` there is
no matcher state after `init` from which a first `nextMatch` call could return
`true` with empty bindings and an empty bitmap. -/
theorem empty_base_no_match :
    ¬ ∃ impl0 impl fuel, init [] [exP exA] [] = some impl0
        ∧ nextMatch noTimeLimit fuel impl0 = some (MatchResult.returned true impl)
        ∧ getBindings impl = []
        ∧ ∀ v ∈ getMatchedAltsBitmap impl, v = false := by
  rintro ⟨impl0, impl, fuel, h, -⟩
  simp [init, initMatchingData] at h

end Kernel

namespace Kernel

open MatchingData

theorem getD_indexOf_lit (c : Clause) (a : Literal) (h : a ∈ c) :
    c.getD (c.getLiteralPosition a) default = a := by
  unfold Clause.getLiteralPosition
  have hlt := List.indexOf_lt_length.2 h
  rw [List.getD_eq_getElem?_getD, List.getElem?_eq_getElem hlt]
  simp

/-- C1: soundness of a reported match. For a well-formed problem in which every
alternative is an instance of its base literal (equalities being binary),
whenever `nextMatch` returns `true` in a valid state of the matcher, every
level `i` that is not selected for demodulation holds one of the pairs given
to `init`, the row selected at the level points to a position of the instance
whose literal is a member of `alts[i]`, and the substitution of `getBindings`
takes `bases[i]` to exactly that literal of the instance. -/
theorem nextMatch_sound {baseLits : List Literal} {inst : Clause}
    {alts : List (List Literal)} (hwf : WellFormed baseLits inst alts)
    (hbin : ∀ b, b ∈ baseLits → b.isEquality = true → b.args.length = 2)
    (hinst : ∀ p, p ∈ baseLits.zip alts → ∀ a, a ∈ p.2 → Literal.instanceOf p.1 a)
    {impl impl2 : Impl} (hv : ValidState baseLits inst alts impl) {tl : Nat → Bool} {fuel : Nat}
    (h : nextMatch tl fuel impl = some (MatchResult.returned true impl2)) :
    ∀ i, i < impl2.s_matchingData.len → i ≠ impl2.s_matchingData.eqLitForDemodulation →
      (impl2.s_matchingData.bases.getD i default, impl2.s_matchingData.alts.getD i [])
        ∈ baseLits.zip alts ∧
      inst.getD (claimedPos impl2 i) default ∈ impl2.s_matchingData.alts.getD i [] ∧
      Literal.same
        ((impl2.s_matchingData.bases.getD i default).subst (bindingsSubst (getBindings impl2)))
        (inst.getD (claimedPos impl2 i) default) := by
  intro i hi hie
  have hm := hv.matched_of_true hwf h
  obtain ⟨p1, p2, p3, _⟩ := (ValidState.next impl impl2 tl fuel hv h).pairs hwf
  have hpair := p3 i hi
  obtain ⟨a, a1, a2⟩ := mem_createLiteralBindings _ _ _ _ (hm.sel_mem i hi hie)
  have hpos : claimedPos impl2 i = impl2.s_matchingData.inst.getLiteralPosition a :=
    rowsOfAlt_pos _ _ _ _ _ a2
  have hlit : inst.getD (claimedPos impl2 i) default = a := by
    rw [hpos, p2]
    exact getD_indexOf_lit inst a (hwf.alts_inst _ (List.of_mem_zip hpair).2 a a1)
  refine ⟨hpair, by rw [hlit]; exact a1, ?_⟩
  rw [hlit]
  have hs := rowsOfAlt_sound _ a _ (hbin _ (List.of_mem_zip hpair).1) (hinst _ hpair a a1) _ a2
  have e : (impl2.s_matchingData.bases.getD i default).subst (bindingsSubst (getBindings impl2))
      = (impl2.s_matchingData.bases.getD i default).subst
          (rowSubst (boundVarsOf (impl2.s_matchingData.bases.getD i default))
            (impl2.s_matchingData.selRow i)) := by
    unfold Literal.subst
    congr 1
    apply Term.substList_congr
    intro v hv
    exact hm.bindings_agree i hi hie v ((mem_boundVarsOf _ v).2 hv)
  rw [e]
  exact hs

/-- Witness for C1: the problem S1 (base `P(x) ∨ Q(x,y)`, instance
`P(a) ∨ Q(a,b) ∨ R`, alternatives `{P(a)}` and `{Q(a,b)}`). The first call of
`nextMatch` returns `true`, the bindings are `x ↦ a, y ↦ b`, the bitmap is
`[1,1,0]`, and the match is sound. -/
theorem nextMatch_sound_witness :
    ∃ impl0 impl,
      init [exP exX, exQ exX exY] [exP exA, exQ exA exB, exR] [[exP exA], [exQ exA exB]]
        = some impl0 ∧
      nextMatch noTimeLimit 10 impl0 = some (MatchResult.returned true impl) ∧
      ∀ i, i < impl.s_matchingData.len → i ≠ impl.s_matchingData.eqLitForDemodulation →
        (impl.s_matchingData.bases.getD i default, impl.s_matchingData.alts.getD i [])
          ∈ [exP exX, exQ exX exY].zip [[exP exA], [exQ exA exB]] ∧
        [exP exA, exQ exA exB, exR].getD (claimedPos impl i) default
          ∈ impl.s_matchingData.alts.getD i [] ∧
        Literal.same
          ((impl.s_matchingData.bases.getD i default).subst (bindingsSubst (getBindings impl)))
          ([exP exA, exQ exA exB, exR].getD (claimedPos impl i) default) := by
  obtain ⟨impl0, impl, h0, h1⟩ := first_call_of_eval
    [exP exX, exQ exX exY] [exP exA, exQ exA exB, exR] [[exP exA], [exQ exA exB]] 10 true
    (by decide!)
  exact ⟨impl0, impl, h0, h1,
    nextMatch_sound exS1_wellFormed (by decide)
      (by
        intro p hp a ha
        simp only [List.zip_cons_cons, List.zip_nil_right, List.mem_cons, List.mem_singleton,
          List.not_mem_nil, or_false] at hp
        rcases hp with rfl | rfl
        · simp only [List.mem_singleton] at ha
          subst ha
          exact ⟨fun _ => exA, Or.inl (by decide)⟩
        · simp only [List.mem_singleton] at ha
          subst ha
          exact ⟨fun v => if v = 0 then exA else exB, Or.inl (by decide)⟩)
      (ValidState.init impl0 h0) h1⟩

end Kernel

namespace Kernel

open MatchingData

theorem exS2_wellFormed :
    WellFormed [exP exX, exP exY] [exP exA] [[exP exA], [exP exA]] :=
  ⟨by decide, by decide, by decide⟩

/-- C8: subsumption needs a multiset. When no base literal is a positive
equality and the alternatives of all base literals together cover fewer
distinct positions of the instance than there are base literals, a call of
`nextMatch` in a valid state of the matcher never returns `true`, and under no
time limit it returns `false`. -/
theorem nextMatch_false_of_few_positions {baseLits : List Literal} {inst : Clause}
    {alts : List (List Literal)} (hwf : WellFormed baseLits inst alts)
    (hne : ∀ b, b ∈ baseLits → ¬ (b.isEquality = true ∧ b.isPositive = true))
    (hfew : ((alts.flatten.map inst.getLiteralPosition).dedup).length < baseLits.length)
    {impl : Impl} (hv : ValidState baseLits inst alts impl) :
    (∀ tl fuel impl2, nextMatch tl fuel impl ≠ some (MatchResult.returned true impl2)) ∧
    ∃ fuel impl2, nextMatch noTimeLimit fuel impl = some (MatchResult.returned false impl2) := by
  have hno : ∀ tl fuel impl2,
      nextMatch tl fuel impl ≠ some (MatchResult.returned true impl2) := by
    intro tl fuel impl2 h
    have hm := hv.matched_of_true hwf h
    obtain ⟨p1, p2, p3, _⟩ := (ValidState.next impl impl2 tl fuel hv h).pairs hwf
    have hall : ∀ j, j < impl2.s_matchingData.len →
        j ≠ impl2.s_matchingData.eqLitForDemodulation := by
      intro j hj hje
      have := hm.eq_posEq (by rw [← hje]; exact hj)
      rw [← hje] at this
      exact hne _ (List.of_mem_zip (p3 j hj)).1 this
    have := length_le_of_injOn impl2.s_matchingData.len
      (fun j => (impl2.s_matchingData.selRow j).pos)
      (alts.flatten.map inst.getLiteralPosition)
      (by
        intro j hj
        obtain ⟨a, a1, a2⟩ := rowsP_pos_mem (hm.sel_mem j hj (hall j hj))
        show (impl2.s_matchingData.selRow j).pos ∈ _
        rw [a2, p2]
        exact List.mem_map.2 ⟨a, List.mem_flatten.2 ⟨_, (List.of_mem_zip (p3 j hj)).2, a1⟩, rfl⟩)
      (fun i j hi hj he => hm.pos_inj i j hi hj (hall i hi) (hall j hj) he)
    omega
  exact ⟨hno, hv.returns_false hwf (fun fuel impl2 => hno noTimeLimit fuel impl2)⟩

/-- Witness for C8: the problem S2 (base `P(x) ∨ P(y)`, instance `P(a)`, both
lists of alternatives `{P(a)}`); the only position of the instance cannot be
claimed twice. -/
theorem nextMatch_false_of_few_positions_witness :
    ∃ impl0, init [exP exX, exP exY] [exP exA] [[exP exA], [exP exA]] = some impl0 ∧
      ((∀ tl fuel impl2, nextMatch tl fuel impl0 ≠ some (MatchResult.returned true impl2)) ∧
       ∃ fuel impl2, nextMatch noTimeLimit fuel impl0
          = some (MatchResult.returned false impl2)) := by
  obtain ⟨impl0, h0⟩ := init_some [exP exX, exP exY] [exP exA] [[exP exA], [exP exA]]
    (by decide)
  exact ⟨impl0, h0, nextMatch_false_of_few_positions exS2_wellFormed (by decide) (by decide)
    (ValidState.init impl0 h0)⟩

/-- C9: a base literal without alternatives that is not a positive equality.
Whatever the position `k` of that literal among the base literals given to
`init` and whatever the alternatives of the other base literals are, the
first call of `nextMatch` after `init` never returns `true`, and under no time
limit it returns `false`. -/
theorem nextMatch_false_of_zero_alts {baseLits : List Literal} {inst : Clause}
    {alts : List (List Literal)} (hwf : WellFormed baseLits inst alts) (k : Nat)
    (hk : k < baseLits.length) (hz : alts.getD k [] = [])
    (hnpe : ¬ ((baseLits.getD k default).isEquality = true ∧
      (baseLits.getD k default).isPositive = true)) :
    ∃ impl0, init baseLits inst alts = some impl0 ∧
      (∀ tl fuel impl, nextMatch tl fuel impl0 ≠ some (MatchResult.returned true impl)) ∧
      ∃ fuel impl, nextMatch noTimeLimit fuel impl0 = some (MatchResult.returned false impl) := by
  obtain ⟨impl0, h0⟩ := init_some baseLits inst alts (by omega)
  have hv := ValidState.init impl0 h0
  have hno : ∀ tl fuel impl,
      nextMatch tl fuel impl0 ≠ some (MatchResult.returned true impl) := by
    intro tl fuel impl h
    have hm := hv.matched_of_true hwf h
    obtain ⟨p1, p2, p3, p4⟩ := (ValidState.next impl0 impl tl fuel hv h).pairs hwf
    obtain ⟨j, j1, j2, j3⟩ := p4 (baseLits.getD k default, alts.getD k [])
      (mem_zip_getD baseLits alts k hk (by rw [hwf.alts_len]; exact hk))
    have hje := hm.eq_of_no_rows j j1 (rowsP_nil_of_alts (j3.trans hz))
    have := hm.eq_posEq (by rw [← hje]; exact j1)
    rw [← hje, j2] at this
    exact hnpe this
  exact ⟨impl0, h0, hno, hv.returns_false hwf (fun fuel impl => hno noTimeLimit fuel impl)⟩

/-- Witness for C9: base `P(x) ∨ Q(x,y)`, instance `P(a)`; the literal `Q(x,y)`
has no alternative. -/
theorem nextMatch_false_of_zero_alts_witness :
    ∃ impl0, init [exP exX, exQ exX exY] [exP exA] [[exP exA], []] = some impl0 ∧
      (∀ tl fuel impl, nextMatch tl fuel impl0 ≠ some (MatchResult.returned true impl)) ∧
      ∃ fuel impl, nextMatch noTimeLimit fuel impl0 = some (MatchResult.returned false impl) :=
  nextMatch_false_of_zero_alts (show WellFormed [exP exX, exQ exX exY] [exP exA] [[exP exA], []]
    from ⟨by decide, by decide, by decide⟩) 1 (by decide) (by decide) (by decide)

end Kernel

namespace Kernel

open MatchingData

/-- C7: commutative equality. For a base of one equality literal `b` with the
single alternative `a` that `b` matches in both argument orientations, the
first call of `nextMatch` after `init` returns `true` with bindings that take
`b` to `a` (the direct orientation), and the second call returns `true` with
bindings that take `b` to `a` with its two arguments exchanged (the swapped
orientation). -/
theorem nextMatch_equality_both_orientations (b a : Literal) (inst : Clause)
    (hb : b.isEquality = true) (hb2 : b.args.length = 2) (hf : a.functor = b.functor)
    (hp : a.positive = b.positive)
    (hm1 : MatchingUtils.matchArgs b a = true)
    (hm2 : MatchingUtils.matchReversedArgs b a = true) (tl : Nat → Bool) :
    ∃ impl0 impl1 impl2, init [b] inst [[a]] = some impl0 ∧
      nextMatch tl 1 impl0 = some (MatchResult.returned true impl1) ∧
      b.subst (bindingsSubst (getBindings impl1)) = a ∧
      nextMatch tl 1 impl1 = some (MatchResult.returned true impl2) ∧
      b.subst (bindingsSubst (getBindings impl2)) = a.swapArgs := by
  have ha : a.isEquality = true := by
    unfold Literal.isEquality at hb ⊢
    rw [hf]; exact hb
  have hcr := rows_both b inst a ha hm1 hm2
  have hrows : (createLiteralBindings b [a] inst).2 = [directRow b inst a, reversedRow b inst a] := by
    rw [hcr]
  have hne : (createLiteralBindings b [a] inst).2 ≠ [] := by rw [hrows]; simp
  have hlen : (createLiteralBindings b [a] inst).2.length = 2 := by rw [hrows]; rfl
  -- the first call
  have hr1 := round_of_ensureInit (oneLevel b inst a)
    (oneLevelAt b inst a (fun _ => 0) (fun _ => NONE)) (ensureInit_oneLevel b inst a hne) rfl rfl
    (by
      show 0 < TriangularArray.set (fun _ _ => 0) 0 0 (createLiteralBindings b [a] inst).2.length 0 0
      simp [TriangularArray.set, hlen])
  have hc1 := nextMatch_of_complete tl { s_matchingData := oneLevel b inst a, s_counter := 0 } _ hr1
  -- the second call
  have hr2 := round_of_ensureInit
    (oneLevelAt b inst a (Function.update (fun _ => 0) 0 1)
      (Function.update (oneLevelAt b inst a (fun _ => 0) (fun _ => NONE)).unassign.matchRecord
        ((oneLevelAt b inst a (fun _ => 0) (fun _ => NONE)).getAltRecordIndex 0 0) 0))
    _ (ensureInit_oneLevelAt b inst a _ _) rfl rfl
    (by
      show Function.update (fun _ => 0) 0 1 0
        < TriangularArray.set (fun _ _ => 0) 0 0 (createLiteralBindings b [a] inst).2.length 0 0
      simp [TriangularArray.set, hlen])
  have hc2 := nextMatch_of_complete tl
    { s_matchingData := oneLevelAt b inst a (Function.update (fun _ => 0) 0 1)
        (Function.update (oneLevelAt b inst a (fun _ => 0) (fun _ => NONE)).unassign.matchRecord
          ((oneLevelAt b inst a (fun _ => 0) (fun _ => NONE)).getAltRecordIndex 0 0) 0),
      s_counter := 0 } _ hr2
  obtain ⟨σ1, hσ1⟩ := matchArgs_sound b a hm1
  obtain ⟨σ2, hσ2, hσ3⟩ := matchReversedArgs_sound b a hm2
  refine ⟨_, _, _, init_oneLevel b inst a ha, hc1, ?_, hc2, ?_⟩
  · have hsel : (createLiteralBindings b [a] inst).2.getD
        (dec32 (Function.update (fun _ => 0) 0 1 0)) default = directRow b inst a := by
      rw [hrows]; rfl
    have h1 := subst_eq_of_agree b _ (rowSubst (boundVarsOf b) (directRow b inst a)) a.args
      (fun v hv => (bindings_oneLevelAt b inst a (Function.update (fun _ => 0) 0 1)
        (Function.update (oneLevelAt b inst a (fun _ => 0) (fun _ => NONE)).unassign.matchRecord
          ((oneLevelAt b inst a (fun _ => 0) (fun _ => NONE)).getAltRecordIndex 0 0) 0)
        v hv).trans (by rw [hsel]))
      (direct_row_sound b a (inst.getLiteralPosition a) σ1 hσ1)
    exact h1.trans (by rw [← hf, ← hp])
  · have hsel : (createLiteralBindings b [a] inst).2.getD
        (dec32 (Function.update (Function.update (fun _ => 0) 0 1) 0
          (Function.update (fun _ => 0) 0 1 0 + 1) 0)) default = reversedRow b inst a := by
      rw [hrows]; rfl
    have h1 := subst_eq_of_agree b _ (rowSubst (boundVarsOf b) (reversedRow b inst a))
      [a.nthArgument 1, a.nthArgument 0]
      (fun v hv => (bindings_oneLevelAt b inst a
        (Function.update (Function.update (fun _ => 0) 0 1) 0
          (Function.update (fun _ => 0) 0 1 0 + 1))
        (Function.update (oneLevelAt b inst a (Function.update (fun _ => 0) 0 1)
          (Function.update (oneLevelAt b inst a (fun _ => 0) (fun _ => NONE)).unassign.matchRecord
            ((oneLevelAt b inst a (fun _ => 0) (fun _ => NONE)).getAltRecordIndex 0 0)
            0)).unassign.matchRecord
          ((oneLevelAt b inst a (Function.update (fun _ => 0) 0 1)
            (Function.update (oneLevelAt b inst a (fun _ => 0) (fun _ => NONE)).unassign.matchRecord
              ((oneLevelAt b inst a (fun _ => 0) (fun _ => NONE)).getAltRecordIndex 0 0)
              0)).getAltRecordIndex 0 (Function.update (fun _ => 0) 0 1 0)) 0)
        v hv).trans (by rw [hsel]))
      (reversed_row_sound b (inst.getLiteralPosition a) hb2 (a.nthArgument 0)
        (a.nthArgument 1) σ2 hσ2 hσ3)
    exact h1.trans (by rw [← hf, ← hp]; rfl)

/-- Witness for C7: the problem S3, base `x = y` against the instance `a = b`;
the first match binds `x ↦ a, y ↦ b`, the second `x ↦ b, y ↦ a`. -/
theorem nextMatch_equality_both_orientations_witness :
    ∃ impl0 impl1 impl2, init [exEq exX exY] [exEq exA exB] [[exEq exA exB]] = some impl0 ∧
      nextMatch noTimeLimit 1 impl0 = some (MatchResult.returned true impl1) ∧
      (exEq exX exY).subst (bindingsSubst (getBindings impl1)) = exEq exA exB ∧
      nextMatch noTimeLimit 1 impl1 = some (MatchResult.returned true impl2) ∧
      (exEq exX exY).subst (bindingsSubst (getBindings impl2)) = (exEq exA exB).swapArgs :=
  nextMatch_equality_both_orientations (exEq exX exY) (exEq exA exB) [exEq exA exB]
    (by decide) (by decide) (by decide) (by decide) (by decide) (by decide) noTimeLimit

end Kernel

namespace Kernel

open MatchingData

/-- Two calls of `nextMatch` after `init`, evaluated: there are the states
between the calls when the first call returns `true` and the second returns
`b`. -/
theorem two_calls_of_eval (baseLits : List Literal) (inst : Clause)
    (alts : List (List Literal)) (fuel : Nat) (b : Bool)
    (h : (((init baseLits inst alts).bind (fun impl => nextMatch noTimeLimit fuel impl)).bind
      (secondCall fuel)).bind MatchResult.value = some b) :
    ∃ impl0 impl1 impl2, init baseLits inst alts = some impl0 ∧
      nextMatch noTimeLimit fuel impl0 = some (MatchResult.returned true impl1) ∧
      nextMatch noTimeLimit fuel impl1 = some (MatchResult.returned b impl2) := by
  cases hi : init baseLits inst alts with
  | none => rw [hi] at h; simp at h
  | some impl0 =>
      rw [hi] at h
      simp only [Option.some_bind] at h
      cases h1 : nextMatch noTimeLimit fuel impl0 with
      | none => rw [h1] at h; simp at h
      | some r1 =>
          rw [h1] at h
          simp only [Option.some_bind] at h
          cases r1 with
          | timeLimitExceeded i => simp [secondCall] at h
          | returned b1 impl1 =>
              cases b1 with
              | false => simp [secondCall] at h
              | true =>
                  simp only [secondCall] at h
                  obtain ⟨impl2, hr⟩ := returned_of_value h
                  exact ⟨impl0, impl1, impl2, rfl, h1, hr⟩

/-- C5: two consecutive matches differ. When two consecutive calls of
`nextMatch` on the same matcher both return `true`, there is a base level that
was matched in the first match and at which the second match selects a row
with another index or which the second match selects for demodulation. -/
theorem consecutive_matches_differ {baseLits : List Literal} {inst : Clause}
    {alts : List (List Literal)} (hwf : WellFormed baseLits inst alts)
    {impl impl1 impl2 : Impl} (hv : ValidState baseLits inst alts impl)
    {tl1 tl2 : Nat → Bool} {fuel1 fuel2 : Nat}
    (h1 : nextMatch tl1 fuel1 impl = some (MatchResult.returned true impl1))
    (h2 : nextMatch tl2 fuel2 impl1 = some (MatchResult.returned true impl2)) :
    ∃ i, i < impl2.s_matchingData.len ∧ i ≠ impl1.s_matchingData.eqLitForDemodulation ∧
      ((i ≠ impl2.s_matchingData.eqLitForDemodulation ∧
          dec32 (impl1.s_matchingData.nextAlts i) ≠ dec32 (impl2.s_matchingData.nextAlts i)) ∨
        i = impl2.s_matchingData.eqLitForDemodulation) := by
  have hv1 := ValidState.next impl impl1 tl1 fuel1 hv h1
  have hm1 := hv.matched_of_true hwf h1
  have hm2 := hv1.matched_of_true hwf h2
  have hinv1 := hv1.valid_inv hwf
  have hlen := (nextMatchLoop_same tl2 fuel2 0 impl1 _ hinv1 h2).1
  obtain ⟨d, d1, d2, d3, d4⟩ := nextMatchLoop_diverged tl2 impl1.s_matchingData.nextAlts
    impl1.s_matchingData.eqLitForDemodulation fuel2 0 impl1 impl2 hinv1
    (resumed_self _) h2
  have hd : d < impl2.s_matchingData.len := by
    have := hm2.2
    omega
  refine ⟨d, hd, fun e => d3 e.symm, ?_⟩
  rcases d4 with ⟨d5, d6⟩ | d5
  · left
    refine ⟨fun e => d5 e.symm, ?_⟩
    have hpos := hm1.1.sel_pos d (by
      have : impl2.s_matchingData.len = impl1.s_matchingData.len := hlen
      omega) (fun e => d3 e.symm)
    rw [dec32_pos hpos, dec32_pos (by omega)]
    omega
  · right
    exact d5.symm

/-- Witness for C5: the problem S3 (base `x = y`, instance `a = b`); the first
two calls of `nextMatch` return `true`. -/
theorem consecutive_matches_differ_witness :
    ∃ impl0 impl1 impl2,
      init [exEq exX exY] [exEq exA exB] [[exEq exA exB]] = some impl0 ∧
      nextMatch noTimeLimit 5 impl0 = some (MatchResult.returned true impl1) ∧
      nextMatch noTimeLimit 5 impl1 = some (MatchResult.returned true impl2) ∧
      ∃ i, i < impl2.s_matchingData.len ∧ i ≠ impl1.s_matchingData.eqLitForDemodulation ∧
        ((i ≠ impl2.s_matchingData.eqLitForDemodulation ∧
            dec32 (impl1.s_matchingData.nextAlts i) ≠ dec32 (impl2.s_matchingData.nextAlts i)) ∨
          i = impl2.s_matchingData.eqLitForDemodulation) := by
  obtain ⟨impl0, impl1, impl2, h0, h1, h2⟩ := two_calls_of_eval
    [exEq exX exY] [exEq exA exB] [[exEq exA exB]] 5 true (by decide!)
  exact ⟨impl0, impl1, impl2, h0, h1, h2,
    consecutive_matches_differ
      (show WellFormed [exEq exX exY] [exEq exA exB] [[exEq exA exB]] from
        ⟨by decide, by decide, by decide⟩)
      (ValidState.init impl0 h0) h1 h2⟩

end Kernel

namespace Kernel

open MatchingData

/-- C4: exact enumeration for plain subsumption. When no base literal is a
positive equality, the calls of `nextMatch` after `init` return `true` a number
of times and then `false`; that number is the number of ways to choose one
binding row per base literal such that the chosen rows agree on every variable
shared by two base literals and point to pairwise distinct positions of the
instance, and the choices the calls report are, each taken as a multiset of
pairs of base literal and row, exactly those choices, each of them once. The
sequence of calls that return `true` before the first `false` is the only
one. -/
theorem nextMatch_enumerates_valid_choices {baseLits : List Literal} {inst : Clause}
    {alts : List (List Literal)} (hwf : WellFormed baseLits inst alts) {impl0 : Impl}
    (h0 : init baseLits inst alts = some impl0)
    (hn : ∀ b, b ∈ baseLits → ¬ (b.isEquality = true ∧ b.isPositive = true)) :
    ∃ ms implN, Calls impl0 ms implN ∧
      (∃ fuel implF, nextMatch noTimeLimit fuel implN
        = some (MatchResult.returned false implF)) ∧
      ms.length = (validChoices baseLits inst alts).length ∧
      (ms.map (fun i => Multiset.ofList (reportedChoice i))).Perm
        ((validChoices baseLits inst alts).map Multiset.ofList) ∧
      ∀ (ms2 : List Impl) (implN2 : Impl), Calls impl0 ms2 implN2 →
        (∃ fuel implF, nextMatch noTimeLimit fuel implN2
          = some (MatchResult.returned false implF)) → ms2 = ms := by
  unfold Kernel.init at h0
  cases hmd : initMatchingData baseLits inst alts with
  | none => rw [hmd] at h0; simp at h0
  | some md =>
      rw [hmd] at h0
      simp only [Option.map_some', Option.some.injEq] at h0
      subst h0
      have hinv := init_inv hwf hmd
      obtain ⟨q1, _, _⟩ := init_pairs hwf.alts_len hmd
      obtain ⟨first, _, h1, _, h3, h4, h5, h6, h7, _, h9⟩ := initMatchingData_eq hmd
      obtain ⟨p1, p2, p3⟩ := reorder_perm baseLits alts first hwf.alts_len
      rw [← h5] at p1 p2
      rw [← h6] at p1 p3
      have hnp : NoPosEq md := by
        intro i hi
        exact hn _ (List.of_mem_zip (q1 i hi)).1
      have he : EnumInv [] md := init_enum hinv h9 (by rw [h3]) h4
      obtain ⟨ms, implN, fuel, implF, c1, c2, c3⟩ :=
        calls_enum _ { s_matchingData := md, s_counter := 0 } [] hinv hnp he (le_refl _)
      have hid : ((md.ext []).map Multiset.ofList).Perm
          ((validChoices baseLits inst alts).map Multiset.ofList) := by
        rw [ext_nil_eq, levelRows_eq_rowChoices md (by rw [p2, h1]) (by rw [p3, h1]), h7]
        exact validTuples_perm RowsAgree rowsAgree_symmetric (p1.map _)
      have hall : (ms.map (fun i => Multiset.ofList (reportedChoice i))).Perm
          ((validChoices baseLits inst alts).map Multiset.ofList) := by
        rw [List.nil_append] at c3
        have := (c3.map Multiset.ofList).trans hid
        rw [List.map_map] at this
        exact this
      refine ⟨ms, implN, c1, ⟨fuel, implF, c2⟩, ?_, hall, calls_unique c1 ⟨fuel, implF, c2⟩⟩
      have := hall.length_eq
      simpa using this

/-- Witness for C4: base `P(x) ∨ P(y)`, instance `P(a) ∨ P(b)`, both literals
of the instance as alternatives of both base literals; there are two valid
choices. -/
theorem nextMatch_enumerates_valid_choices_witness :
    (validChoices [exP exX, exP exY] [exP exA, exP exB]
      [[exP exA, exP exB], [exP exA, exP exB]]).length = 2 ∧
    ∃ impl0, init [exP exX, exP exY] [exP exA, exP exB]
        [[exP exA, exP exB], [exP exA, exP exB]] = some impl0 ∧
      ∃ ms implN, Calls impl0 ms implN ∧
        (∃ fuel implF, nextMatch noTimeLimit fuel implN
          = some (MatchResult.returned false implF)) ∧
        ms.length = (validChoices [exP exX, exP exY] [exP exA, exP exB]
          [[exP exA, exP exB], [exP exA, exP exB]]).length ∧
        (ms.map (fun i => Multiset.ofList (reportedChoice i))).Perm
          ((validChoices [exP exX, exP exY] [exP exA, exP exB]
            [[exP exA, exP exB], [exP exA, exP exB]]).map Multiset.ofList) ∧
        ∀ (ms2 : List Impl) (implN2 : Impl), Calls impl0 ms2 implN2 →
          (∃ fuel implF, nextMatch noTimeLimit fuel implN2
            = some (MatchResult.returned false implF)) → ms2 = ms := by
  obtain ⟨impl0, h0⟩ := init_some [exP exX, exP exY] [exP exA, exP exB]
    [[exP exA, exP exB], [exP exA, exP exB]] (by decide)
  exact ⟨by decide!, impl0, h0,
    nextMatch_enumerates_valid_choices ⟨by decide, by decide, by decide⟩ h0 (by decide)⟩

end Kernel

namespace Kernel

open MatchingData

/-- The first call of `nextMatch` on the given problem, evaluated together with
an observation `f` of the state it leaves behind. -/
theorem first_call_obs_of_eval {β : Type} (f : Impl → β) (baseLits : List Literal)
    (inst : Clause) (alts : List (List Literal)) (fuel : Nat) (b : Bool) (x : β)
    (h : ((init baseLits inst alts).bind (fun impl => nextMatch noTimeLimit fuel impl)).bind
      (fun r => (MatchResult.value r).map (fun v => (v, f r.impl))) = some (b, x)) :
    ∃ impl0 impl, init baseLits inst alts = some impl0 ∧
      nextMatch noTimeLimit fuel impl0 = some (MatchResult.returned b impl) ∧ f impl = x := by
  cases hi : init baseLits inst alts with
  | none => rw [hi] at h; simp at h
  | some impl0 =>
      rw [hi] at h
      simp only [Option.some_bind] at h
      cases hr : nextMatch noTimeLimit fuel impl0 with
      | none => rw [hr] at h; simp at h
      | some r =>
          rw [hr] at h
          cases r with
          | timeLimitExceeded i => simp [MatchResult.value] at h
          | returned b2 impl =>
              simp only [Option.some_bind, MatchResult.value, Option.map_some',
                Option.some.injEq, Prod.mk.injEq, MatchResult.impl] at h
              exact ⟨impl0, impl, rfl, by rw [← h.1]; exact hr, h.2⟩

/-- C11: the bitmap of the matched alternatives. After `nextMatch` has returned
`true` in a valid state, `getMatchedAltsBitmap` returns a vector with one entry
per literal of the instance, and the entry `p` is `true` if and only if some
level other than the one selected for demodulation claims the position `p`. -/
theorem getMatchedAltsBitmap_spec {baseLits : List Literal} {inst : Clause}
    {alts : List (List Literal)} (hwf : WellFormed baseLits inst alts) {impl impl2 : Impl}
    (hv : ValidState baseLits inst alts impl) {tl : Nat → Bool} {fuel : Nat}
    (h : nextMatch tl fuel impl = some (MatchResult.returned true impl2)) :
    (getMatchedAltsBitmap impl2).length = inst.length ∧
    ∀ p, (getMatchedAltsBitmap impl2).getD p false = true ↔
      ∃ i, i < impl2.s_matchingData.len ∧ i ≠ impl2.s_matchingData.eqLitForDemodulation ∧
        claimedPos impl2 i = p := by
  have hm := hv.matched_of_true hwf h
  obtain ⟨_, p2, _, _⟩ := (ValidState.next impl impl2 tl fuel hv h).pairs hwf
  obtain ⟨h1, h2⟩ := matchedAltsBitmapLoop_spec impl2.s_matchingData impl2.s_matchingData.len
  refine ⟨by rw [← p2]; exact h1, ?_⟩
  intro p
  unfold getMatchedAltsBitmap
  rw [h2 p]
  constructor
  · rintro ⟨_, i, i1, i2, i3⟩
    exact ⟨i, i1, i2, i3⟩
  · rintro ⟨i, i1, i2, i3⟩
    refine ⟨?_, i, i1, i2, i3⟩
    rw [← i3]
    exact hm.sel_pos_lt i i1 i2

/-- Witness for C11: for the problem S1 the first call returns `true` and the
bitmap is `[1,1,0]`. -/
theorem getMatchedAltsBitmap_spec_witness :
    ∃ impl0 impl,
      init [exP exX, exQ exX exY] [exP exA, exQ exA exB, exR] [[exP exA], [exQ exA exB]]
        = some impl0 ∧
      nextMatch noTimeLimit 10 impl0 = some (MatchResult.returned true impl) ∧
      getMatchedAltsBitmap impl = [true, true, false] ∧
      ((getMatchedAltsBitmap impl).length = [exP exA, exQ exA exB, exR].length ∧
        ∀ p, (getMatchedAltsBitmap impl).getD p false = true ↔
          ∃ i, i < impl.s_matchingData.len ∧ i ≠ impl.s_matchingData.eqLitForDemodulation ∧
            claimedPos impl i = p) := by
  obtain ⟨impl0, impl, h0, h1, h2⟩ := first_call_obs_of_eval getMatchedAltsBitmap
    [exP exX, exQ exX exY] [exP exA, exQ exA exB, exR] [[exP exA], [exQ exA exB]] 10 true
    [true, true, false] (by decide!)
  exact ⟨impl0, impl, h0, h1, h2,
    getMatchedAltsBitmap_spec exS1_wellFormed (ValidState.init impl0 h0) h1⟩

/-- C12: at every reported match at most one base literal is left out of the
substitution. After `nextMatch` has returned `true` in a valid state,
`eqLitForDemodulation` is the sentinel and `getEqualityForDemodulation` returns
null, or it is an index below `len` whose base literal is a positive equality,
which is the literal `getEqualityForDemodulation` returns, and that level is
really left out in this match: its alternatives are used up and no position of
the instance is recorded for it. Every other level has a selected
alternative. -/
theorem reported_match_skips_at_most_one {baseLits : List Literal} {inst : Clause}
    {alts : List (List Literal)} (hwf : WellFormed baseLits inst alts) {impl impl2 : Impl}
    (hv : ValidState baseLits inst alts impl) {tl : Nat → Bool} {fuel : Nat}
    (h : nextMatch tl fuel impl = some (MatchResult.returned true impl2)) :
    ((impl2.s_matchingData.eqLitForDemodulation = NONE ∧
        getEqualityForDemodulation impl2 = none) ∨
      (impl2.s_matchingData.eqLitForDemodulation < impl2.s_matchingData.len ∧
        ((impl2.s_matchingData.bases.getD impl2.s_matchingData.eqLitForDemodulation
            default).isEquality = true ∧
          (impl2.s_matchingData.bases.getD impl2.s_matchingData.eqLitForDemodulation
            default).isPositive = true) ∧
        getEqualityForDemodulation impl2
          = some (impl2.s_matchingData.bases.getD impl2.s_matchingData.eqLitForDemodulation
              default) ∧
        impl2.s_matchingData.remaining impl2.s_matchingData.eqLitForDemodulation
            impl2.s_matchingData.eqLitForDemodulation
          ≤ impl2.s_matchingData.nextAlts impl2.s_matchingData.eqLitForDemodulation ∧
        ∀ p, impl2.s_matchingData.matchRecord p ≠ impl2.s_matchingData.eqLitForDemodulation)) ∧
    ∀ i, i < impl2.s_matchingData.len → i ≠ impl2.s_matchingData.eqLitForDemodulation →
      1 ≤ impl2.s_matchingData.nextAlts i := by
  obtain ⟨hm, hc⟩ := hv.matched_of_true hwf h
  have hlen := hm.len_le
  refine ⟨?_, fun i hi hie => hm.sel_pos i hi hie⟩
  rcases hm.eq_dom with he | he
  · left
    refine ⟨he, ?_⟩
    unfold getEqualityForDemodulation
    simp only
    rw [if_pos (by rw [he]; exact hlen)]
  · right
    refine ⟨he, hm.eq_real he, ?_, (hm.eq_exh _ (by omega) rfl).2, ?_⟩
    · unfold getEqualityForDemodulation
      simp only
      rw [if_neg (by omega)]
    · intro p hp
      exact (hm.rec_exact p _ hp he).1 rfl

/-- Witness for C12: the problem S4 (base `x = f(x) ∨ P(x)`, instance
`P(a) ∨ R`, alternatives `{}` and `{P(a)}`); the first call returns `true`. -/
theorem reported_match_skips_at_most_one_witness :
    ∃ impl0 impl,
      init [exEq exX (Term.app 20 [exX]), exP exX] [exP exA, exR] [[], [exP exA]] = some impl0 ∧
      nextMatch noTimeLimit 10 impl0 = some (MatchResult.returned true impl) ∧
      impl.s_matchingData.eqLitForDemodulation = 0 ∧
      (((impl.s_matchingData.eqLitForDemodulation = NONE ∧
          getEqualityForDemodulation impl = none) ∨
        (impl.s_matchingData.eqLitForDemodulation < impl.s_matchingData.len ∧
          ((impl.s_matchingData.bases.getD impl.s_matchingData.eqLitForDemodulation
              default).isEquality = true ∧
            (impl.s_matchingData.bases.getD impl.s_matchingData.eqLitForDemodulation
              default).isPositive = true) ∧
          getEqualityForDemodulation impl
            = some (impl.s_matchingData.bases.getD impl.s_matchingData.eqLitForDemodulation
                default) ∧
          impl.s_matchingData.remaining impl.s_matchingData.eqLitForDemodulation
              impl.s_matchingData.eqLitForDemodulation
            ≤ impl.s_matchingData.nextAlts impl.s_matchingData.eqLitForDemodulation ∧
          ∀ p, impl.s_matchingData.matchRecord p ≠ impl.s_matchingData.eqLitForDemodulation)) ∧
      ∀ i, i < impl.s_matchingData.len → i ≠ impl.s_matchingData.eqLitForDemodulation →
        1 ≤ impl.s_matchingData.nextAlts i) := by
  obtain ⟨impl0, impl, h0, h1, h2⟩ := first_call_obs_of_eval
    (fun i => i.s_matchingData.eqLitForDemodulation)
    [exEq exX (Term.app 20 [exX]), exP exX] [exP exA, exR] [[], [exP exA]] 10 true 0
    (by decide!)
  exact ⟨impl0, impl, h0, h1, h2,
    reported_match_skips_at_most_one
      (show WellFormed [exEq exX (Term.app 20 [exX]), exP exX] [exP exA, exR] [[], [exP exA]]
        from ⟨by decide, by decide, by decide⟩)
      (ValidState.init impl0 h0) h1⟩

end Kernel

namespace Indexing

open IndexManager

/-- C14: reference counting round trip. Starting from a manager that has an
algorithm and no entry for a kind `k` of the fixed enumeration, every sequence
of `request(k)` and `release(k)` calls in which the releases never outnumber
the requests runs to its end; the count stored for `k` is then the number of
requests minus the number of releases when that number is positive, and when
the two numbers are equal `contains(k)` is false. -/
theorem refcount_round_trip (m : IndexManager) (k : IndexType) (cs : List RefCall)
    (ha : ∃ alg, m._alg = some alg) (hk : ∀ n, k ≠ IndexType.OTHER n)
    (h0 : m.contains k = false) (hb : balanced 0 cs = true) :
    ∃ m1, IndexManager.run (cs.map (RefCall.on k)) m = Except.ok m1 ∧
      releases cs ≤ requests cs ∧
      (releases cs < requests cs →
        ∃ e, m1._store (m1.aliased k) = some e ∧
          e.refCnt = (requests cs : Int) - (releases cs : Int)) ∧
      (requests cs = releases cs → m1.contains k = false) := by
  have hk2 : ∀ n, m.aliased k ≠ IndexType.OTHER n := by
    intro n
    unfold IndexManager.aliased
    split
    · simp
    · exact hk n
  have hs : m._store (m.aliased k) = none := by
    unfold IndexManager.contains at h0
    cases hq : m._store (m.aliased k) with
    | none => rfl
    | some e => rw [hq] at h0; simp at h0
  obtain ⟨m1, r1, r2, r3, r4, r5⟩ := run_refcount k cs 0 m ha hk2 (fun _ => hs)
    (fun h => absurd h (by omega)) hb
  have hal : m1.aliased k = m.aliased k := aliased_congr m m1 k r3
  refine ⟨m1, r1, by omega, ?_, ?_⟩
  · intro hlt
    obtain ⟨e, e1, e2⟩ := r5 (by omega)
    refine ⟨e, by rw [hal]; exact e1, ?_⟩
    rw [e2]
    omega
  · intro heq
    unfold IndexManager.contains
    rw [hal, r4 (by omega)]
    rfl

/-- Witness for C14: two requests and two releases of `FW_SUBSUMPTION_CODE_TREE`
interleaved with a third pair. -/
theorem refcount_round_trip_witness :
    ∃ m1, IndexManager.run
        ([RefCall.request, RefCall.request, RefCall.release, RefCall.request,
          RefCall.release, RefCall.release].map (RefCall.on IndexType.FW_SUBSUMPTION_CODE_TREE))
        exManager = Except.ok m1 ∧
      releases [RefCall.request, RefCall.request, RefCall.release, RefCall.request,
          RefCall.release, RefCall.release]
        ≤ requests [RefCall.request, RefCall.request, RefCall.release, RefCall.request,
          RefCall.release, RefCall.release] ∧
      (releases [RefCall.request, RefCall.request, RefCall.release, RefCall.request,
          RefCall.release, RefCall.release]
        < requests [RefCall.request, RefCall.request, RefCall.release, RefCall.request,
          RefCall.release, RefCall.release] →
        ∃ e, m1._store (m1.aliased IndexType.FW_SUBSUMPTION_CODE_TREE) = some e ∧
          e.refCnt = (requests [RefCall.request, RefCall.request, RefCall.release,
              RefCall.request, RefCall.release, RefCall.release] : Int)
            - (releases [RefCall.request, RefCall.request, RefCall.release,
              RefCall.request, RefCall.release, RefCall.release] : Int)) ∧
      (requests [RefCall.request, RefCall.request, RefCall.release, RefCall.request,
          RefCall.release, RefCall.release]
        = releases [RefCall.request, RefCall.request, RefCall.release, RefCall.request,
          RefCall.release, RefCall.release] →
        m1.contains IndexType.FW_SUBSUMPTION_CODE_TREE = false) :=
  refcount_round_trip exManager IndexType.FW_SUBSUMPTION_CODE_TREE
    [RefCall.request, RefCall.request, RefCall.release, RefCall.request,
      RefCall.release, RefCall.release]
    ⟨exAlg, rfl⟩ (by intro n; simp) (by decide) (by decide)

/-- C15: `request` and `release` create and destroy on the edge transitions
only. When the registry holds an entry for the kind, `request` returns the index
of that entry and the only change is the count of the entry, raised by one:
the world is untouched, so nothing is created. When it holds none, `request`
returns what `create` builds and stores it with count one. When the entry has
count one, `release` calls `delete` on its index and removes the entry; for
every other count the only change is the count, lowered by one. -/
theorem request_release_transitions (m : IndexManager) (t : IndexType) :
    (∀ e, m._store (m.aliased t) = some e →
      m.request t
        = Except.ok (e.index, m.storeSet (m.aliased t) ⟨e.index, e.refCnt + 1⟩)) ∧
    (m._store (m.aliased t) = none →
      m.request t
        = (m.create (m.aliased t)).map
            (fun r => (r.1, r.2.storeSet (m.aliased t) ⟨r.1, 1⟩))) ∧
    (∀ e, m._store (m.aliased t) = some e → e.refCnt = 1 →
      ∃ m1, m.release t = Except.ok m1 ∧
        m1._store = Function.update m._store (m.aliased t) none ∧
        m1.world.deleted = e.index :: m.world.deleted ∧
        m1.world.heap = m.world.heap ∧ m1.world.nextPtr = m.world.nextPtr) ∧
    (∀ e, m._store (m.aliased t) = some e → e.refCnt ≠ 1 →
      m.release t = Except.ok (m.storeSet (m.aliased t) ⟨e.index, e.refCnt - 1⟩)) := by
  refine ⟨fun e h => request_of_entry m t e h, fun h => request_of_none m t h, ?_,
    fun e h h1 => release_of_more m t e h h1⟩
  intro e h h1
  obtain ⟨m1, r1, r2, r3, r4, r5, _⟩ := release_of_one m t e h h1
  exact ⟨m1, r1, r2, r3, r4, r5⟩

/-- Witness for C15: on the example manager the first request of
`FW_SUBSUMPTION_CODE_TREE` builds the index at address `100`, the second returns
it with count two, the first release leaves count one and the second deletes
it. -/
theorem request_release_transitions_witness :
    exManager.request IndexType.FW_SUBSUMPTION_CODE_TREE = Except.ok (100, exManager1) ∧
    exManager1.request IndexType.FW_SUBSUMPTION_CODE_TREE
      = Except.ok (100, exManager1.storeSet IndexType.FW_SUBSUMPTION_CODE_TREE ⟨100, 2⟩) ∧
    (∃ m3, (exManager1.storeSet IndexType.FW_SUBSUMPTION_CODE_TREE ⟨100, 2⟩).release
        IndexType.FW_SUBSUMPTION_CODE_TREE = Except.ok m3 ∧
      m3._store IndexType.FW_SUBSUMPTION_CODE_TREE = some ⟨100, 1⟩ ∧ m3.world.deleted = []) ∧
    ∃ m4, exManager1.release IndexType.FW_SUBSUMPTION_CODE_TREE = Except.ok m4 ∧
      m4._store IndexType.FW_SUBSUMPTION_CODE_TREE = none ∧ m4.world.deleted = [100] := by
  refine ⟨(request_release_transitions exManager IndexType.FW_SUBSUMPTION_CODE_TREE).2.1 rfl,
    (request_release_transitions exManager1 IndexType.FW_SUBSUMPTION_CODE_TREE).1 ⟨100, 1⟩ rfl,
    ?_, ?_⟩
  · have h := (request_release_transitions
      (exManager1.storeSet IndexType.FW_SUBSUMPTION_CODE_TREE ⟨100, 2⟩)
      IndexType.FW_SUBSUMPTION_CODE_TREE).2.2.2 ⟨100, 2⟩ rfl (by decide)
    exact ⟨_, h, rfl, rfl⟩
  · obtain ⟨m4, r1, r2, r3, _⟩ := (request_release_transitions exManager1
      IndexType.FW_SUBSUMPTION_CODE_TREE).2.2.1 ⟨100, 1⟩ rfl rfl
    refine ⟨m4, r1, ?_, r3⟩
    rw [r2]
    exact Function.update_same _ _ _

end Indexing

namespace Indexing

open IndexManager

/-- C16: alias collapse. In every state a manager built for an algorithm whose
simplifying and to-be-simplified containers are one container reaches through
calls of `request`, `release` and `provideIndex`, the kinds
`BW_SIMPLIFICATION_SUBST_TREE` and `FW_SIMPLIFICATION_SUBST_TREE` give the same
result in `request`, `release`, `contains` and `get`. A request of the backward
kind succeeds, leaves the entry under the backward key as it was and brings
the one count under the forward key to one more than before; a following
request of the forward kind returns the same index and brings that count to
two more than before (to two when there was no entry). A release of either
kind, when the forward key has an entry, succeeds, leaves the entry under the
backward key as it was and lowers the one count under the forward key by one:
an entry with a count above one stays with the count lowered, an entry with
count one is removed and its index deleted. -/
theorem alias_collapse (a : SaturationAlgorithm) (w : World) (os : List Op)
    (m0 m : IndexManager)
    (ha : a.getSimplifyingClauseContainer = a.getToBeSimplifiedClauseContainer)
    (h0 : IndexManager.new (some a) w = Except.ok m0)
    (hr : IndexManager.run os m0 = Except.ok m) :
    m.request IndexType.BW_SIMPLIFICATION_SUBST_TREE
      = m.request IndexType.FW_SIMPLIFICATION_SUBST_TREE ∧
    m.release IndexType.BW_SIMPLIFICATION_SUBST_TREE
      = m.release IndexType.FW_SIMPLIFICATION_SUBST_TREE ∧
    m.contains IndexType.BW_SIMPLIFICATION_SUBST_TREE
      = m.contains IndexType.FW_SIMPLIFICATION_SUBST_TREE ∧
    m.get IndexType.BW_SIMPLIFICATION_SUBST_TREE
      = m.get IndexType.FW_SIMPLIFICATION_SUBST_TREE ∧
    (∃ p m1 m2, m.request IndexType.BW_SIMPLIFICATION_SUBST_TREE = Except.ok (p, m1) ∧
      m1._store IndexType.BW_SIMPLIFICATION_SUBST_TREE
        = m._store IndexType.BW_SIMPLIFICATION_SUBST_TREE ∧
      m1.request IndexType.FW_SIMPLIFICATION_SUBST_TREE = Except.ok (p, m2) ∧
      m2._store IndexType.BW_SIMPLIFICATION_SUBST_TREE
        = m._store IndexType.BW_SIMPLIFICATION_SUBST_TREE ∧
      m2._store IndexType.FW_SIMPLIFICATION_SUBST_TREE
        = some ⟨p, m.refCount IndexType.FW_SIMPLIFICATION_SUBST_TREE + 2⟩ ∧
      m1._store IndexType.FW_SIMPLIFICATION_SUBST_TREE
        = some ⟨p, m.refCount IndexType.FW_SIMPLIFICATION_SUBST_TREE + 1⟩) ∧
    (∀ e, m._store IndexType.FW_SIMPLIFICATION_SUBST_TREE = some e →
      ∃ m1, m.release IndexType.BW_SIMPLIFICATION_SUBST_TREE = Except.ok m1 ∧
        m.release IndexType.FW_SIMPLIFICATION_SUBST_TREE = Except.ok m1 ∧
        m1.refCount IndexType.FW_SIMPLIFICATION_SUBST_TREE
          = m.refCount IndexType.FW_SIMPLIFICATION_SUBST_TREE - 1 ∧
        m1._store IndexType.BW_SIMPLIFICATION_SUBST_TREE
          = m._store IndexType.BW_SIMPLIFICATION_SUBST_TREE ∧
        (e.refCnt ≠ 1 →
          m1._store IndexType.FW_SIMPLIFICATION_SUBST_TREE = some ⟨e.index, e.refCnt - 1⟩ ∧
          m1.world.deleted = m.world.deleted) ∧
        (e.refCnt = 1 →
          m1._store IndexType.FW_SIMPLIFICATION_SUBST_TREE = none ∧
          m1.world.deleted = e.index :: m.world.deleted)) := by
  obtain ⟨m0x, n1, _, n3, n4⟩ := new_spec (some a) w
  rw [h0] at n1
  simp only [Except.ok.injEq] at n1
  subst n1
  have hf0 : m0._equalSimpContainers = true := n4.2 ⟨a, rfl, ha⟩
  obtain ⟨f1, f2⟩ := run_flags os m0 m hr
  have hf : m._equalSimpContainers = true := by rw [f1]; exact hf0
  have hbw := aliased_bw m hf
  have hfw : m.aliased IndexType.FW_SIMPLIFICATION_SUBST_TREE
      = IndexType.FW_SIMPLIFICATION_SUBST_TREE := aliased_self m _ (by simp)
  have e1 : m.request IndexType.BW_SIMPLIFICATION_SUBST_TREE
      = m.request IndexType.FW_SIMPLIFICATION_SUBST_TREE := by
    unfold IndexManager.request
    rw [hbw, hfw]
  have e2 : m.release IndexType.BW_SIMPLIFICATION_SUBST_TREE
      = m.release IndexType.FW_SIMPLIFICATION_SUBST_TREE := by
    unfold IndexManager.release
    rw [hbw, hfw]
  refine ⟨e1, e2, ?_, ?_, ?_, ?_⟩
  · unfold IndexManager.contains
    rw [hbw, hfw]
  · unfold IndexManager.get
    rw [hbw, hfw]
  · obtain ⟨p, m1, q1⟩ := request_ok m IndexType.BW_SIMPLIFICATION_SUBST_TREE
      (Or.inr ⟨⟨a, by rw [f2, n3]⟩, by rw [hbw]; intro n; simp⟩)
    obtain ⟨s1, s2, s3, _, _, _⟩ := request_spec m _ p m1 q1
    obtain ⟨c1, e, c2, c3⟩ := request_refCount m _ p m1 q1
    rw [hbw] at s3 c1 c2
    have hfw1 : m1.aliased IndexType.FW_SIMPLIFICATION_SUBST_TREE
        = IndexType.FW_SIMPLIFICATION_SUBST_TREE := aliased_self m1 _ (by simp)
    have q2 := request_of_entry m1 IndexType.FW_SIMPLIFICATION_SUBST_TREE e
      (by rw [hfw1]; exact c2)
    rw [hfw1, c3] at q2
    have hs1 : m1._store IndexType.BW_SIMPLIFICATION_SUBST_TREE
        = m._store IndexType.BW_SIMPLIFICATION_SUBST_TREE := s3 _ (by simp)
    have hc : e.refCnt = m.refCount IndexType.FW_SIMPLIFICATION_SUBST_TREE + 1 := by
      rw [← c1]
      unfold IndexManager.refCount
      rw [c2]
    refine ⟨p, m1, _, q1, hs1, q2, ?_, ?_, ?_⟩
    · rw [← hs1]
      simp [IndexManager.storeSet]
    · simp only [IndexManager.storeSet, Function.update_same, hc]
      congr 2
      ring
    · rw [c2, ← c3, ← hc]
  · intro e he
    have he2 : m._store (m.aliased IndexType.FW_SIMPLIFICATION_SUBST_TREE) = some e := by
      rw [hfw]; exact he
    have hcnt : m.refCount IndexType.FW_SIMPLIFICATION_SUBST_TREE = e.refCnt := by
      unfold IndexManager.refCount
      rw [he]
    by_cases h1 : e.refCnt = 1
    · obtain ⟨m1, r1, r2, r3, _⟩ := release_of_one m _ e he2 h1
      rw [hfw] at r2
      refine ⟨m1, by rw [e2]; exact r1, r1, ?_, ?_, fun h => absurd h1 h, fun _ => ⟨?_, r3⟩⟩
      · rw [hcnt, h1]
        unfold IndexManager.refCount
        rw [r2]
        simp
      · rw [r2]
        simp
      · rw [r2]
        simp
    · have r1 := release_of_more m _ e he2 h1
      rw [hfw] at r1
      refine ⟨_, by rw [e2]; exact r1, r1, ?_, ?_, fun _ => ⟨?_, rfl⟩, fun h => absurd h h1⟩
      · rw [hcnt]
        simp [IndexManager.refCount, IndexManager.storeSet]
      · simp [IndexManager.storeSet]
      · simp [IndexManager.storeSet]

/-- Witness for C16: the manager built for the example algorithm, in which the
two containers are one, after a request of the backward kind. The request has
stored the index at address `103` under the forward key with count one; a
further request of the backward kind and one of the forward kind return that
index and bring the count to three, and a release of the backward kind
removes the entry and deletes the index. -/
theorem alias_collapse_witness :
    ∃ m0 m, IndexManager.new (some exAlg) exWorld = Except.ok m0 ∧
      IndexManager.run [Op.request IndexType.BW_SIMPLIFICATION_SUBST_TREE] m0 = Except.ok m ∧
      (m.request IndexType.BW_SIMPLIFICATION_SUBST_TREE
        = m.request IndexType.FW_SIMPLIFICATION_SUBST_TREE ∧
      m.release IndexType.BW_SIMPLIFICATION_SUBST_TREE
        = m.release IndexType.FW_SIMPLIFICATION_SUBST_TREE ∧
      m.contains IndexType.BW_SIMPLIFICATION_SUBST_TREE
        = m.contains IndexType.FW_SIMPLIFICATION_SUBST_TREE ∧
      m.get IndexType.BW_SIMPLIFICATION_SUBST_TREE
        = m.get IndexType.FW_SIMPLIFICATION_SUBST_TREE ∧
      (∃ p m1 m2, m.request IndexType.BW_SIMPLIFICATION_SUBST_TREE = Except.ok (p, m1) ∧
        m1._store IndexType.BW_SIMPLIFICATION_SUBST_TREE
          = m._store IndexType.BW_SIMPLIFICATION_SUBST_TREE ∧
        m1.request IndexType.FW_SIMPLIFICATION_SUBST_TREE = Except.ok (p, m2) ∧
        m2._store IndexType.BW_SIMPLIFICATION_SUBST_TREE
          = m._store IndexType.BW_SIMPLIFICATION_SUBST_TREE ∧
        m2._store IndexType.FW_SIMPLIFICATION_SUBST_TREE
          = some ⟨p, m.refCount IndexType.FW_SIMPLIFICATION_SUBST_TREE + 2⟩ ∧
        m1._store IndexType.FW_SIMPLIFICATION_SUBST_TREE
          = some ⟨p, m.refCount IndexType.FW_SIMPLIFICATION_SUBST_TREE + 1⟩) ∧
      (∀ e, m._store IndexType.FW_SIMPLIFICATION_SUBST_TREE = some e →
        ∃ m1, m.release IndexType.BW_SIMPLIFICATION_SUBST_TREE = Except.ok m1 ∧
          m.release IndexType.FW_SIMPLIFICATION_SUBST_TREE = Except.ok m1 ∧
          m1.refCount IndexType.FW_SIMPLIFICATION_SUBST_TREE
            = m.refCount IndexType.FW_SIMPLIFICATION_SUBST_TREE - 1 ∧
          m1._store IndexType.BW_SIMPLIFICATION_SUBST_TREE
            = m._store IndexType.BW_SIMPLIFICATION_SUBST_TREE ∧
          (e.refCnt ≠ 1 →
            m1._store IndexType.FW_SIMPLIFICATION_SUBST_TREE = some ⟨e.index, e.refCnt - 1⟩ ∧
            m1.world.deleted = m.world.deleted) ∧
          (e.refCnt = 1 →
            m1._store IndexType.FW_SIMPLIFICATION_SUBST_TREE = none ∧
            m1.world.deleted = e.index :: m.world.deleted))) ∧
      m._store IndexType.FW_SIMPLIFICATION_SUBST_TREE = some ⟨103, 1⟩ ∧
      m._store IndexType.BW_SIMPLIFICATION_SUBST_TREE = none ∧
      (∃ m1, m.request IndexType.BW_SIMPLIFICATION_SUBST_TREE = Except.ok (103, m1) ∧
        m1._store IndexType.FW_SIMPLIFICATION_SUBST_TREE = some ⟨103, 2⟩) ∧
      ∃ m1, m.release IndexType.BW_SIMPLIFICATION_SUBST_TREE = Except.ok m1 ∧
        m1._store IndexType.FW_SIMPLIFICATION_SUBST_TREE = none ∧
        m1.world.deleted = [103] :=
  ⟨_, _, rfl, rfl,
    alias_collapse exAlg exWorld [Op.request IndexType.BW_SIMPLIFICATION_SUBST_TREE] _ _
      rfl rfl rfl,
    rfl, rfl, ⟨_, rfl, rfl⟩, _, rfl, rfl, rfl⟩

/-- C17: the manager destroys a provided index. The documentation of
`provideIndex` says that the provided index is never deleted by the manager,
and the count of one it stores is meant to see to that. On the example
manager, which has no entry for `FW_SUBSUMPTION_CODE_TREE`, `provideIndex` of
the index at address `7` registers it with count one, and one `release` of the
kind then takes the count to zero, calls `delete` on the address `7` and
removes the entry. -/
theorem provided_index_deleted_by_release :
    exManager._store IndexType.FW_SUBSUMPTION_CODE_TREE = none ∧
    (exManager.provideIndex IndexType.FW_SUBSUMPTION_CODE_TREE 7)._store
      IndexType.FW_SUBSUMPTION_CODE_TREE = some ⟨7, 1⟩ ∧
    ∃ m1, IndexManager.run [Op.release IndexType.FW_SUBSUMPTION_CODE_TREE]
        (exManager.provideIndex IndexType.FW_SUBSUMPTION_CODE_TREE 7) = Except.ok m1 ∧
      m1._store IndexType.FW_SUBSUMPTION_CODE_TREE = none ∧
      m1.world.deleted = [7] :=
  ⟨rfl, rfl, _, rfl, rfl, rfl⟩

/-- A provided index under balanced use. After `provideIndex(k, idx)` the
registry holds `idx` under `k` with count one, and later calls of `request(k)`
and `release(k)` in which the releases never outnumber the requests run to
their end, leave `idx` registered under `k` and never call `delete` on it. The
manager is in a state that satisfies the registry invariant, it has an
algorithm if its flag `_equalSimpContainers` is set, and `idx` is the address
of an object that exists when it is provided. -/
theorem provided_index_kept (m : IndexManager) (k : IndexType) (idx : Nat)
    (cs : List RefCall) (hc : m.Counted)
    (ha : m._alg = none → m._equalSimpContainers = false)
    (hidx : idx < m.world.nextPtr) (hb : balanced 0 cs = true) :
    (m.provideIndex k idx)._store k = some ⟨idx, 1⟩ ∧
    ∃ m1, IndexManager.run (cs.map (RefCall.on k)) (m.provideIndex k idx) = Except.ok m1 ∧
      (∃ e, m1._store k = some e ∧ e.index = idx ∧ 1 ≤ e.refCnt) ∧
      m1.world.deleted.count idx = m.world.deleted.count idx := by
  have hs : (m.provideIndex k idx)._store k = some ⟨idx, 1⟩ := by
    simp [IndexManager.provideIndex, IndexManager.storeSet]
  have hc2 : (m.provideIndex k idx).Counted :=
    step_counted m _ (Op.provideIndex k idx) hc rfl
  refine ⟨hs, ?_⟩
  exact run_provided k idx cs 0 (m.provideIndex k idx) ha ⟨_, hs, rfl, le_refl _⟩
    (fun e he => ⟨hc2 _ e he, by have := hc2 _ e he; simp only [Nat.cast_zero]; omega,
      fun _ => by have := hc2 _ e he; simp only [Nat.cast_zero]; omega⟩)
    (fun _ => rfl) hidx hb

/-- An instance of balanced use: the index at address `7` provided to the example
manager under `FW_SUBSUMPTION_CODE_TREE`, then a request and a release. -/
theorem provided_index_kept_witness :
    (exManager.provideIndex IndexType.FW_SUBSUMPTION_CODE_TREE 7)._store
      IndexType.FW_SUBSUMPTION_CODE_TREE = some ⟨7, 1⟩ ∧
    ∃ m1, IndexManager.run
        ([RefCall.request, RefCall.release].map (RefCall.on IndexType.FW_SUBSUMPTION_CODE_TREE))
        (exManager.provideIndex IndexType.FW_SUBSUMPTION_CODE_TREE 7) = Except.ok m1 ∧
      (∃ e, m1._store IndexType.FW_SUBSUMPTION_CODE_TREE = some e ∧ e.index = 7 ∧
        1 ≤ e.refCnt) ∧
      m1.world.deleted.count 7 = exManager.world.deleted.count 7 :=
  provided_index_kept exManager IndexType.FW_SUBSUMPTION_CODE_TREE 7
    [RefCall.request, RefCall.release]
    (fun _ _ h => absurd h (by simp [exManager]))
    (fun h => absurd h (by simp [exManager])) (by decide) (by decide)

/-- C18: the registry invariant. In every state a manager reaches from its
constructor through calls of `request`, `release` and `provideIndex` that run
to their end (a `release` runs to its end only for a kind that has an entry),
every entry of the registry has a count of at least one; hence a kind has an
entry if and only if its count is greater than zero. -/
theorem registry_counts_positive (alg : Option SaturationAlgorithm) (w : World)
    (os : List Op) (m0 m : IndexManager)
    (h0 : IndexManager.new alg w = Except.ok m0)
    (hr : IndexManager.run os m0 = Except.ok m) :
    (∀ t e, m._store t = some e → 1 ≤ e.refCnt) ∧
    ∀ t, (m._store t).isSome = true ↔ 0 < m.refCount t := by
  obtain ⟨m0x, n1, n2, _⟩ := new_spec alg w
  rw [h0] at n1
  simp only [Except.ok.injEq] at n1
  subst n1
  have hc : m.Counted := run_counted os m0 m n2 hr
  refine ⟨hc, ?_⟩
  intro t
  unfold IndexManager.refCount
  cases hs : m._store t with
  | none => simp
  | some e =>
      have := hc t e hs
      simp only [Option.isSome_some, true_iff]
      omega

/-- Witness for C18: the manager built for the example algorithm, then a
request, a `provideIndex` of a kind outside the enumeration, a release and a
request of the backward kind. -/
theorem registry_counts_positive_witness :
    ∃ m0 m, IndexManager.new (some exAlg) exWorld = Except.ok m0 ∧
      IndexManager.run [Op.request IndexType.FW_SUBSUMPTION_CODE_TREE,
        Op.provideIndex (IndexType.OTHER 3) 7, Op.release IndexType.FW_SUBSUMPTION_CODE_TREE,
        Op.request IndexType.BW_SIMPLIFICATION_SUBST_TREE] m0 = Except.ok m ∧
      ((∀ t e, m._store t = some e → 1 ≤ e.refCnt) ∧
        ∀ t, (m._store t).isSome = true ↔ 0 < m.refCount t) :=
  ⟨_, _, rfl, rfl, registry_counts_positive (some exAlg) exWorld
    [Op.request IndexType.FW_SUBSUMPTION_CODE_TREE,
      Op.provideIndex (IndexType.OTHER 3) 7, Op.release IndexType.FW_SUBSUMPTION_CODE_TREE,
      Op.request IndexType.BW_SIMPLIFICATION_SUBST_TREE] _ _ rfl rfl⟩

/-- C19: `create` attaches each new index to the container its kind designates.
For a manager with an algorithm and a kind to which the table of index kinds
assigns a container role, `create` succeeds, the index it returns is a new
object, and that index is attached to the container of the algorithm that plays
the role. -/
theorem create_attaches_designated (m : IndexManager) (alg : SaturationAlgorithm)
    (t : IndexType) (role : ContainerRole) (ha : m._alg = some alg)
    (hd : designatedContainer t = some role) :
    ∃ p m1, m.create t = Except.ok (p, m1) ∧ m.world.nextPtr ≤ p ∧
      m1.world.containerOf p = some (role.of alg) := by
  cases t <;> cases hd <;>
    (simp only [IndexManager.create, ha]
     refine ⟨_, _, rfl, ?_, ?_⟩ <;>
       simp [IndexManager.createOver, IndexManager.createPlain, World.alloc,
         World.attachContainer, World.containerOf, ContainerRole.of])

/-- Witness for C19: the kind `BW_DEMODULATION_SUBTERM_SUBST_TREE` on the
example manager. -/
theorem create_attaches_designated_witness :
    ∃ p m1, exManager.create IndexType.BW_DEMODULATION_SUBTERM_SUBST_TREE = Except.ok (p, m1) ∧
      exManager.world.nextPtr ≤ p ∧
      m1.world.containerOf p = some (ContainerRole.toBeSimplified.of exAlg) :=
  create_attaches_designated exManager exAlg IndexType.BW_DEMODULATION_SUBTERM_SUBST_TREE
    ContainerRole.toBeSimplified rfl rfl

/-- C20, counterexample: a request for a kind outside the enumeration succeeds
when the kind has an entry. On the example manager, `provideIndex` of the index
at address `7` under the kind `OTHER 0` followed by `request` of that kind
returns the address `7` and raises the count to two. -/
theorem request_unsupported_provided :
    ∃ m1, (exManager.provideIndex (IndexType.OTHER 0) 7).request (IndexType.OTHER 0)
        = Except.ok (7, m1) ∧
      m1._store (IndexType.OTHER 0) = some ⟨7, 2⟩ :=
  ⟨_, rfl, rfl⟩

/-- C20, amended: a request for a kind outside the enumeration that has no
entry in the registry fails with the invalid-operation error
"Unsupported IndexType.", thrown in the state in which `request` was called:
no entry is added and no count changes. -/
theorem request_unsupported_fails (m : IndexManager) (n : Nat)
    (h : m._store (IndexType.OTHER n) = none) :
    m.request (IndexType.OTHER n)
      = Except.error (Error.invalidOperation ("Unsupported IndexType.") m) := by
  have ha : m.aliased (IndexType.OTHER n) = IndexType.OTHER n := aliased_self m _ (by simp)
  rw [request_of_none m _ (by rw [ha]; exact h), ha]
  rfl

/-- Witness for C20, amended: the kind `OTHER 0` on the example manager. -/
theorem request_unsupported_fails_witness :
    exManager._store (IndexType.OTHER 0) = none ∧
    exManager.request (IndexType.OTHER 0)
      = Except.error (Error.invalidOperation ("Unsupported IndexType.") exManager) :=
  ⟨rfl, request_unsupported_fails exManager 0 rfl⟩

end Indexing

namespace Kernel

open MatchingData

/-- C6: the equality left out for forward-subsumption-demodulation. When a
base literal `e` is a positive equality with an empty list of alternatives and
the other base literals have a match (a choice of one binding row for each of
them, the rows agreeing on shared variables and pointing to distinct positions
of the instance), then no call of `nextMatch` after `init` returns `false`, the
call under no time limit returns `true`, `getEqualityForDemodulation` returns
`e`, every entry of the map of `getBindings` is a binding of a variable of a
level other than that of `e` taken from the row selected there, every bound
variable of such a level has an entry, and the bitmap of
`getMatchedAltsBitmap` has one entry per literal of the instance, set exactly
at the positions these other levels claim. -/
theorem nextMatch_skips_equality_without_alts {baseLits : List Literal} {inst : Clause}
    {alts : List (List Literal)} (hwf : WellFormed baseLits inst alts) {impl0 : Impl}
    (h0 : init baseLits inst alts = some impl0) {e : Literal}
    (he : e.isEquality = true ∧ e.isPositive = true)
    (hmem : (e, ([] : List Literal)) ∈ baseLits.zip alts)
    (ho : othersChoices baseLits inst alts e ≠ []) :
    (∀ (tl : Nat → Bool) (fuel : Nat) (r : MatchResult), nextMatch tl fuel impl0 = some r →
      ∀ impl2, r ≠ MatchResult.returned false impl2) ∧
    ∃ fuel impl1, nextMatch noTimeLimit fuel impl0 = some (MatchResult.returned true impl1) ∧
      getEqualityForDemodulation impl1 = some e ∧
      impl1.s_matchingData.eqLitForDemodulation < impl1.s_matchingData.len ∧
      impl1.s_matchingData.bases.getD impl1.s_matchingData.eqLitForDemodulation default = e ∧
      (∀ v t, (getBindings impl1).lookup v = some t →
        ∃ j, j < impl1.s_matchingData.len ∧ j ≠ impl1.s_matchingData.eqLitForDemodulation ∧
          ∃ k, k < impl1.s_matchingData.varCnts j ∧
            ((impl1.s_matchingData.boundVarNums j).getD []).getD k 0 = v ∧
            t = (impl1.s_matchingData.selRow j).binds.getD k default) ∧
      (∀ j k, j < impl1.s_matchingData.len → j ≠ impl1.s_matchingData.eqLitForDemodulation →
        k < impl1.s_matchingData.varCnts j →
        ((getBindings impl1).lookup
          (((impl1.s_matchingData.boundVarNums j).getD []).getD k 0)).isSome = true) ∧
      (getMatchedAltsBitmap impl1).length = inst.length ∧
      ∀ p, (getMatchedAltsBitmap impl1).getD p false = true ↔
        ∃ i, i < impl1.s_matchingData.len ∧ i ≠ impl1.s_matchingData.eqLitForDemodulation ∧
          claimedPos impl1 i = p := by
  obtain ⟨hno, fuel, impl1, hr, h1, h2⟩ := first_call_skips hwf h0 he hmem ho
  refine ⟨hno, fuel, impl1, hr, ?_, h1, h2, ?_⟩
  · unfold getEqualityForDemodulation
    simp only
    rw [if_neg (by omega), h2]
  · have hv := ValidState.init impl0 h0
    have hm := hv.matched_of_true hwf hr
    obtain ⟨_, p2, _, _⟩ := (ValidState.next impl0 impl1 noTimeLimit fuel hv hr).pairs hwf
    obtain ⟨b1, b2⟩ := bindingsLoop_spec impl1.s_matchingData impl1.s_matchingData.len
    obtain ⟨m1, m2⟩ := matchedAltsBitmapLoop_spec impl1.s_matchingData impl1.s_matchingData.len
    refine ⟨b1, b2, by rw [← p2]; exact m1, ?_⟩
    intro p
    unfold getMatchedAltsBitmap
    rw [m2 p]
    constructor
    · rintro ⟨_, i, i1, i2, i3⟩
      exact ⟨i, i1, i2, i3⟩
    · rintro ⟨i, i1, i2, i3⟩
      refine ⟨?_, i, i1, i2, i3⟩
      rw [← i3]
      exact hm.sel_pos_lt i i1 i2

/-- Witness for C6: the problem S4, base `x = f(x) ∨ P(x)`, instance
`P(a) ∨ R`, alternatives `{}` and `{P(a)}`. The first call returns `true` with
`eqLitForDemodulation = 0`, the bindings `{x ↦ a}` and the bitmap `[1,0]`, and
the second call returns `false`: there is exactly one match. -/
theorem nextMatch_skips_equality_without_alts_witness :
    ∃ impl0 impl1 impl2,
      init [exEq exX (Term.app 20 [exX]), exP exX] [exP exA, exR] [[], [exP exA]] = some impl0 ∧
      nextMatch noTimeLimit 10 impl0 = some (MatchResult.returned true impl1) ∧
      nextMatch noTimeLimit 10 impl1 = some (MatchResult.returned false impl2) ∧
      impl1.s_matchingData.eqLitForDemodulation = 0 ∧
      getEqualityForDemodulation impl1 = some (exEq exX (Term.app 20 [exX])) ∧
      getBindings impl1 = [(0, exA)] ∧ exX = Term.var 0 ∧
      getMatchedAltsBitmap impl1 = [true, false] ∧
      ((∀ (tl : Nat → Bool) (fuel : Nat) (r : MatchResult), nextMatch tl fuel impl0 = some r →
        ∀ impl2, r ≠ MatchResult.returned false impl2) ∧
      ∃ fuel impl1, nextMatch noTimeLimit fuel impl0 = some (MatchResult.returned true impl1) ∧
        getEqualityForDemodulation impl1 = some (exEq exX (Term.app 20 [exX])) ∧
        impl1.s_matchingData.eqLitForDemodulation < impl1.s_matchingData.len ∧
        impl1.s_matchingData.bases.getD impl1.s_matchingData.eqLitForDemodulation default
          = exEq exX (Term.app 20 [exX]) ∧
        (∀ v t, (getBindings impl1).lookup v = some t →
          ∃ j, j < impl1.s_matchingData.len ∧ j ≠ impl1.s_matchingData.eqLitForDemodulation ∧
            ∃ k, k < impl1.s_matchingData.varCnts j ∧
              ((impl1.s_matchingData.boundVarNums j).getD []).getD k 0 = v ∧
              t = (impl1.s_matchingData.selRow j).binds.getD k default) ∧
        (∀ j k, j < impl1.s_matchingData.len → j ≠ impl1.s_matchingData.eqLitForDemodulation →
          k < impl1.s_matchingData.varCnts j →
          ((getBindings impl1).lookup
            (((impl1.s_matchingData.boundVarNums j).getD []).getD k 0)).isSome = true) ∧
        (getMatchedAltsBitmap impl1).length = [exP exA, exR].length ∧
        ∀ p, (getMatchedAltsBitmap impl1).getD p false = true ↔
          ∃ i, i < impl1.s_matchingData.len ∧ i ≠ impl1.s_matchingData.eqLitForDemodulation ∧
            claimedPos impl1 i = p) := by
  obtain ⟨impl0, impl1, impl2, h0, h1, h2⟩ := two_calls_of_eval
    [exEq exX (Term.app 20 [exX]), exP exX] [exP exA, exR] [[], [exP exA]] 10 false (by decide!)
  obtain ⟨j0, j1, g0, g1, g2⟩ := first_call_obs_of_eval
    (fun i : Impl => decide (i.s_matchingData.eqLitForDemodulation = 0) &&
      (decide (getEqualityForDemodulation i = some (exEq exX (Term.app 20 [exX]))) &&
      (decide (getBindings i = [(0, exA)]) && decide (getMatchedAltsBitmap i = [true, false]))))
    [exEq exX (Term.app 20 [exX]), exP exX] [exP exA, exR] [[], [exP exA]] 10 true
    true (by decide!)
  rw [h0] at g0
  cases g0
  rw [h1] at g1
  cases g1
  simp only [Bool.and_eq_true, decide_eq_true_eq] at g2
  exact ⟨impl0, impl1, impl2, h0, h1, h2, g2.1, g2.2.1, g2.2.2.1, rfl, g2.2.2.2,
    nextMatch_skips_equality_without_alts
      (show WellFormed [exEq exX (Term.app 20 [exX]), exP exX] [exP exA, exR] [[], [exP exA]]
        from ⟨by decide, by decide, by decide⟩)
      h0 (by decide) (by decide) (by decide!)⟩

end Kernel

namespace Saturation

open Indexing

/-- C21: the alias policy of the three strategies. For `Discount` the
simplifying and the to-be-simplified container are both the container of the
active clauses, for `Otter` both are its fake container `_simplCont`; a manager
built for either has the flag `_equalSimpContainers` set in every state it
reaches and reads `BW_SIMPLIFICATION_SUBST_TREE` as
`FW_SIMPLIFICATION_SUBST_TREE`, so that `request`, `release`, `contains` and
`get` of the backward kind are those of the forward kind. For `Discott` the
simplifying container is the container of the active clauses and the
to-be-simplified container is its fake container; when these are two objects the
flag is not set, the backward kind is read as itself, a request of one of the
two kinds leaves the entry of the other as it is, and on the new manager the
requests of the forward and of the backward kind build two indices, the first
attached to the container of the active clauses and the second to the fake
container, each registered with its own count of one. -/
theorem strategy_alias_policy :
    (∀ (d : Discount) (w : Indexing.World) (os : List Op) (m0 m : IndexManager),
      IndexManager.new (some d.alg) w = Except.ok m0 → IndexManager.run os m0 = Except.ok m →
      d.getSimplifyingClauseContainer = d.base._active ∧
      d.getToBeSimplifiedClauseContainer = d.base._active ∧
      m._equalSimpContainers = true ∧
      m.aliased IndexType.BW_SIMPLIFICATION_SUBST_TREE = IndexType.FW_SIMPLIFICATION_SUBST_TREE ∧
      m.request IndexType.BW_SIMPLIFICATION_SUBST_TREE
        = m.request IndexType.FW_SIMPLIFICATION_SUBST_TREE ∧
      m.release IndexType.BW_SIMPLIFICATION_SUBST_TREE
        = m.release IndexType.FW_SIMPLIFICATION_SUBST_TREE ∧
      m.contains IndexType.BW_SIMPLIFICATION_SUBST_TREE
        = m.contains IndexType.FW_SIMPLIFICATION_SUBST_TREE ∧
      m.get IndexType.BW_SIMPLIFICATION_SUBST_TREE
        = m.get IndexType.FW_SIMPLIFICATION_SUBST_TREE) ∧
    (∀ (o : Otter) (w : Indexing.World) (os : List Op) (m0 m : IndexManager),
      IndexManager.new (some o.alg) w = Except.ok m0 → IndexManager.run os m0 = Except.ok m →
      o.getSimplifyingClauseContainer = o._simplCont ∧
      o.getToBeSimplifiedClauseContainer = o._simplCont ∧
      m._equalSimpContainers = true ∧
      m.aliased IndexType.BW_SIMPLIFICATION_SUBST_TREE = IndexType.FW_SIMPLIFICATION_SUBST_TREE ∧
      m.request IndexType.BW_SIMPLIFICATION_SUBST_TREE
        = m.request IndexType.FW_SIMPLIFICATION_SUBST_TREE ∧
      m.release IndexType.BW_SIMPLIFICATION_SUBST_TREE
        = m.release IndexType.FW_SIMPLIFICATION_SUBST_TREE ∧
      m.contains IndexType.BW_SIMPLIFICATION_SUBST_TREE
        = m.contains IndexType.FW_SIMPLIFICATION_SUBST_TREE ∧
      m.get IndexType.BW_SIMPLIFICATION_SUBST_TREE
        = m.get IndexType.FW_SIMPLIFICATION_SUBST_TREE) ∧
    (∀ (d : Discott) (w : Indexing.World) (os : List Op) (m0 m : IndexManager), d.TwoContainers →
      IndexManager.new (some d.alg) w = Except.ok m0 → IndexManager.run os m0 = Except.ok m →
      d.getSimplifyingClauseContainer = d.base._active ∧
      d.getToBeSimplifiedClauseContainer = d._toBeSimplifiedContainer ∧
      m._equalSimpContainers = false ∧
      m.aliased IndexType.BW_SIMPLIFICATION_SUBST_TREE = IndexType.BW_SIMPLIFICATION_SUBST_TREE ∧
      (∀ p m1, m.request IndexType.BW_SIMPLIFICATION_SUBST_TREE = Except.ok (p, m1) →
        m1._store IndexType.FW_SIMPLIFICATION_SUBST_TREE
          = m._store IndexType.FW_SIMPLIFICATION_SUBST_TREE) ∧
      (∀ p m1, m.request IndexType.FW_SIMPLIFICATION_SUBST_TREE = Except.ok (p, m1) →
        m1._store IndexType.BW_SIMPLIFICATION_SUBST_TREE
          = m._store IndexType.BW_SIMPLIFICATION_SUBST_TREE) ∧
      ∃ p1 m1 p2 m2,
        m0.request IndexType.FW_SIMPLIFICATION_SUBST_TREE = Except.ok (p1, m1) ∧
        m1.request IndexType.BW_SIMPLIFICATION_SUBST_TREE = Except.ok (p2, m2) ∧
        p1 ≠ p2 ∧
        m2._store IndexType.FW_SIMPLIFICATION_SUBST_TREE = some ⟨p1, 1⟩ ∧
        m2._store IndexType.BW_SIMPLIFICATION_SUBST_TREE = some ⟨p2, 1⟩ ∧
        m2.world.containerOf p1 = some d.base._active ∧
        m2.world.containerOf p2 = some d._toBeSimplifiedContainer) := by
  have hfold : ∀ (a : Indexing.SaturationAlgorithm) (w : Indexing.World) (os : List Op)
      (m0 m : IndexManager),
      a.getSimplifyingClauseContainer = a.getToBeSimplifiedClauseContainer →
      IndexManager.new (some a) w = Except.ok m0 → IndexManager.run os m0 = Except.ok m →
      m._equalSimpContainers = true ∧
      m.aliased IndexType.BW_SIMPLIFICATION_SUBST_TREE = IndexType.FW_SIMPLIFICATION_SUBST_TREE ∧
      m.request IndexType.BW_SIMPLIFICATION_SUBST_TREE
        = m.request IndexType.FW_SIMPLIFICATION_SUBST_TREE ∧
      m.release IndexType.BW_SIMPLIFICATION_SUBST_TREE
        = m.release IndexType.FW_SIMPLIFICATION_SUBST_TREE ∧
      m.contains IndexType.BW_SIMPLIFICATION_SUBST_TREE
        = m.contains IndexType.FW_SIMPLIFICATION_SUBST_TREE ∧
      m.get IndexType.BW_SIMPLIFICATION_SUBST_TREE
        = m.get IndexType.FW_SIMPLIFICATION_SUBST_TREE := by
    intro a w os m0 m ha h0 hr
    obtain ⟨_, n2, _⟩ := new_fresh a w m0 h0
    obtain ⟨f1, _⟩ := run_flags os m0 m hr
    have hf : m._equalSimpContainers = true := by
      rw [f1, n2]; exact decide_eq_true ha
    have hbw := aliased_bw m hf
    have hfw : m.aliased IndexType.FW_SIMPLIFICATION_SUBST_TREE
        = IndexType.FW_SIMPLIFICATION_SUBST_TREE := aliased_self m _ (by simp)
    refine ⟨hf, hbw, ?_, ?_, ?_, ?_⟩
    · unfold IndexManager.request; rw [hbw, hfw]
    · unfold IndexManager.release; rw [hbw, hfw]
    · unfold IndexManager.contains; rw [hbw, hfw]
    · unfold IndexManager.get; rw [hbw, hfw]
  refine ⟨?_, ?_, ?_⟩
  · intro d w os m0 m h0 hr
    exact ⟨rfl, rfl, hfold d.alg w os m0 m rfl h0 hr⟩
  · intro o w os m0 m h0 hr
    exact ⟨rfl, rfl, hfold o.alg w os m0 m rfl h0 hr⟩
  · intro d w os m0 m hd h0 hr
    obtain ⟨n1, n2, n3⟩ := new_fresh d.alg w m0 h0
    obtain ⟨f1, _⟩ := run_flags os m0 m hr
    have hne : ¬ (d.alg.getSimplifyingClauseContainer = d.alg.getToBeSimplifiedClauseContainer) :=
      hd
    have hf0 : m0._equalSimpContainers = false := by
      rw [n2]; exact decide_eq_false hne
    have hf : m._equalSimpContainers = false := by rw [f1]; exact hf0
    have hal : ∀ (x : IndexManager) (t : IndexType), x._equalSimpContainers = false →
        x.aliased t = t := by
      intro x t hx
      simp [IndexManager.aliased, hx]
    refine ⟨rfl, rfl, hf, hal m _ hf, ?_, ?_, ?_⟩
    · intro p m1 h
      obtain ⟨_, _, s3, _⟩ := request_spec m _ p m1 h
      exact s3 _ (by rw [hal m _ hf]; simp)
    · intro p m1 h
      obtain ⟨_, _, s3, _⟩ := request_spec m _ p m1 h
      exact s3 _ (by rw [hal m _ hf]; simp)
    · obtain ⟨p1, m1, r1, a1, a2, a3, _, a5, a6, a7, a8⟩ := request_fresh m0 d.alg
        IndexType.FW_SIMPLIFICATION_SUBST_TREE ContainerRole.simplifying n1
        (by rw [hal m0 _ hf0]; rfl) (by rw [hal m0 _ hf0]; exact n3 _ (by simp))
      have hf1 : m1._equalSimpContainers = false := by rw [a8]; exact hf0
      rw [hal m0 _ hf0] at a5 a6
      obtain ⟨p2, m2, r2, b1, _, b3, b4, b5, b6, _, _⟩ := request_fresh m1 d.alg
        IndexType.BW_SIMPLIFICATION_SUBST_TREE ContainerRole.toBeSimplified (by rw [a7]; exact n1)
        (by rw [hal m1 _ hf1]; rfl)
        (by rw [hal m1 _ hf1, a6 _ (by simp)]; exact n3 _ (by simp))
      rw [hal m1 _ hf1] at b5 b6
      refine ⟨p1, m1, p2, m2, r1, r2, by omega, ?_, b5, ?_, b3⟩
      · rw [b6 _ (by simp)]; exact a5
      · rw [b4 p1 a2]; exact a3

/-- Witness for C21: an algorithm of class `Discott` whose two containers are at
the addresses `5` and `7`; on the new manager the forward kind gets the index at
address `103` and the backward kind the index at address `105`. -/
theorem strategy_alias_policy_witness :
    exDiscottQuiet.TwoContainers ∧
    ∃ m0, IndexManager.new (some exDiscottQuiet.alg) exWorld = Except.ok m0 ∧
      m0._equalSimpContainers = false ∧
      ∃ m1 m2, m0.request IndexType.FW_SIMPLIFICATION_SUBST_TREE = Except.ok (103, m1) ∧
        m1.request IndexType.BW_SIMPLIFICATION_SUBST_TREE = Except.ok (105, m2) ∧
        m2.world.containerOf 103 = some 5 ∧ m2.world.containerOf 105 = some 7 :=
  ⟨by unfold Discott.TwoContainers; decide, _, rfl,
    (strategy_alias_policy.2.2 exDiscottQuiet exWorld [] _ _
      (by unfold Discott.TwoContainers; decide) rfl rfl).2.2.1,
    _, _, rfl, rfl, rfl, rfl⟩

end Saturation

namespace Saturation

/-- C22: `Discount::handleClauseBeforeActivation`. For a clause whose store is
`SELECTED`, the hook returns what `forwardSimplify` returns. When forward
simplification fails, the hook does, after that call, nothing but set the store
of the clause to `NONE`: it does not call `backwardSimplify` and returns
`false`. When forward simplification succeeds, the hook does, after that call,
nothing but call `backwardSimplify` once: it returns `true`, calls `setStore`
on no clause, and the store of the clause is still `SELECTED` when the two
functions of the base class leave the store of this clause alone. -/
theorem discount_handleClauseBeforeActivation_spec (d : Discount) (cl : Nat) (s : State)
    (hsel : s.world.store cl = Store.SELECTED) :
    (d.handleClauseBeforeActivation cl s).1 = (d.base.forwardSimplify cl s.world).1 ∧
    ((d.base.forwardSimplify cl s.world).1 = false →
      (d.handleClauseBeforeActivation cl s).1 = false ∧
      (d.handleClauseBeforeActivation cl s).2.trace
        = s.trace ++ [Action.forwardSimplify cl, Action.setStore cl Store.NONE] ∧
      (d.handleClauseBeforeActivation cl s).2.world
        = (d.base.forwardSimplify cl s.world).2.setStore cl Store.NONE ∧
      (d.handleClauseBeforeActivation cl s).2.world.store cl = Store.NONE ∧
      ∀ c, Action.backwardSimplify c ∉
        ((d.handleClauseBeforeActivation cl s).2.trace.drop s.trace.length)) ∧
    ((d.base.forwardSimplify cl s.world).1 = true →
      (d.handleClauseBeforeActivation cl s).1 = true ∧
      (d.handleClauseBeforeActivation cl s).2.trace
        = s.trace ++ [Action.forwardSimplify cl, Action.backwardSimplify cl] ∧
      ((d.handleClauseBeforeActivation cl s).2.trace.drop s.trace.length).count
        (Action.backwardSimplify cl) = 1 ∧
      (∀ c st, Action.setStore c st ∉
        ((d.handleClauseBeforeActivation cl s).2.trace.drop s.trace.length)) ∧
      (d.handleClauseBeforeActivation cl s).2.world
        = d.base.backwardSimplify cl (d.base.forwardSimplify cl s.world).2 ∧
      ((d.base.forwardSimplify cl s.world).2.store cl = s.world.store cl →
        (∀ w, (d.base.backwardSimplify cl w).store cl = w.store cl) →
        (d.handleClauseBeforeActivation cl s).2.world.store cl = Store.SELECTED)) := by
  unfold Discount.handleClauseBeforeActivation
  simp only
  cases hf : (d.base.forwardSimplify cl s.world).1 with
  | false =>
      refine ⟨rfl, fun _ => ⟨rfl, ?_, rfl, ?_, ?_⟩, fun h => (by cases h)⟩
      · simp
      · simp [World.setStore]
      · intro c
        simp
  | true =>
      refine ⟨rfl, fun h => (by cases h), fun _ => ⟨rfl, ?_, ?_, ?_, rfl, ?_⟩⟩
      · simp
      · simp
      · intro c st
        simp
      · intro h1 h2
        simp only [Bool.not_true, Bool.false_eq_true, if_false]
        rw [h2, h1, hsel]

/-- Witness for C22: the selected clause `1` of the example state, with a
forward simplification that keeps every clause and with one that deletes every
clause. -/
theorem discount_handleClauseBeforeActivation_spec_witness :
    exState.world.store 1 = Store.SELECTED ∧
    (exDiscount.handleClauseBeforeActivation 1 exState).1 = true ∧
    (exDiscount.handleClauseBeforeActivation 1 exState).2.trace
      = [Action.forwardSimplify 1, Action.backwardSimplify 1] ∧
    (exDiscount.handleClauseBeforeActivation 1 exState).2.world.store 1 = Store.SELECTED ∧
    (exDiscountFail.handleClauseBeforeActivation 1 exState).1 = false ∧
    (exDiscountFail.handleClauseBeforeActivation 1 exState).2.trace
      = [Action.forwardSimplify 1, Action.setStore 1 Store.NONE] ∧
    (exDiscountFail.handleClauseBeforeActivation 1 exState).2.world.store 1 = Store.NONE :=
  ⟨rfl, rfl, rfl,
    ((discount_handleClauseBeforeActivation_spec exDiscount 1 exState rfl).2.2 rfl).2.2.2.2.2
      rfl (fun _ => rfl),
    rfl, rfl,
    ((discount_handleClauseBeforeActivation_spec exDiscountFail 1 exState rfl).2.1 rfl).2.2.2.1⟩

/-- C23, counterexample: the population of the to-be-simplified container is not
the same after the call as before it. In the example state the clauses `1` and
`2` are in the population of the fake container at address `7`; the backward
simplification with the selected clause `1` simplifies the active clause `2`
away, the callback `Discott::onActiveRemoved` removes it from the fake
container, and after `Discott::handleClauseBeforeActivation` has returned the
clause `2` is not in the population any more. -/
theorem discott_population_changed :
    exState.world.members exDiscott._toBeSimplifiedContainer 1 = true ∧
    exState.world.members exDiscott._toBeSimplifiedContainer 2 = true ∧
    (exDiscott.handleClauseBeforeActivation 1 exState).1 = true ∧
    (exDiscott.handleClauseBeforeActivation 1 exState).2.trace
      = [Action.removedEvent 7 1, Action.backwardSimplify 1, Action.addedEvent 7 1] ∧
    (exDiscott.handleClauseBeforeActivation 1 exState).2.world.members
      exDiscott._toBeSimplifiedContainer 1 = true ∧
    (exDiscott.handleClauseBeforeActivation 1 exState).2.world.members
      exDiscott._toBeSimplifiedContainer 2 = false ∧
    ¬ (∀ c, (exDiscott.handleClauseBeforeActivation 1 exState).2.world.members
        exDiscott._toBeSimplifiedContainer c
      = exState.world.members exDiscott._toBeSimplifiedContainer c) := by
  refine ⟨by decide, by decide, rfl, rfl, by decide, by decide, ?_⟩
  intro h
  exact absurd (h 2) (by decide)

/-- C23, amended: `Discott::handleClauseBeforeActivation` fires one removed event
for the clause on the to-be-simplified container, then calls
`backwardSimplify`, then fires one added event for the clause on that
container, and returns `true`. The clause is not in the population of the
container when `backwardSimplify` is called; after the call of the hook the
clause is in the population, and every other clause is in it exactly if it was
when `backwardSimplify` returned. When the clause was in the population before
the call and `backwardSimplify` leaves the population as it finds it, the
population is the same after the call as before it. -/
theorem discott_handleClauseBeforeActivation_spec (d : Discott) (cl : Nat) (s : State) :
    (d.handleClauseBeforeActivation cl s).1 = true ∧
    (d.handleClauseBeforeActivation cl s).2.trace
      = s.trace ++ [Action.removedEvent d._toBeSimplifiedContainer cl,
          Action.backwardSimplify cl, Action.addedEvent d._toBeSimplifiedContainer cl] ∧
    (s.world.removedEvent d._toBeSimplifiedContainer cl).members
      d._toBeSimplifiedContainer cl = false ∧
    (d.handleClauseBeforeActivation cl s).2.world
      = (d.base.backwardSimplify cl
          (s.world.removedEvent d._toBeSimplifiedContainer cl)).addedEvent
            d._toBeSimplifiedContainer cl ∧
    (d.handleClauseBeforeActivation cl s).2.world.members d._toBeSimplifiedContainer cl = true ∧
    (∀ c, c ≠ cl →
      (d.handleClauseBeforeActivation cl s).2.world.members d._toBeSimplifiedContainer c
        = (d.base.backwardSimplify cl
            (s.world.removedEvent d._toBeSimplifiedContainer cl)).members
              d._toBeSimplifiedContainer c) ∧
    (s.world.members d._toBeSimplifiedContainer cl = true →
      (∀ w, (d.base.backwardSimplify cl w).members d._toBeSimplifiedContainer
        = w.members d._toBeSimplifiedContainer) →
      ∀ c, (d.handleClauseBeforeActivation cl s).2.world.members d._toBeSimplifiedContainer c
        = s.world.members d._toBeSimplifiedContainer c) := by
  refine ⟨rfl, ?_, ?_, rfl, ?_, ?_, ?_⟩
  · simp [Discott.handleClauseBeforeActivation, FakeContainer.add, FakeContainer.remove]
  · simp [World.removedEvent]
  · simp [Discott.handleClauseBeforeActivation, FakeContainer.add, World.addedEvent]
  · intro c hc
    simp [Discott.handleClauseBeforeActivation, FakeContainer.add, FakeContainer.remove,
      World.addedEvent, Function.update, hc]
  · intro hm hq c
    by_cases hc : c = cl
    · subst hc
      simp [Discott.handleClauseBeforeActivation, FakeContainer.add, World.addedEvent, hm]
    · simp [Discott.handleClauseBeforeActivation, FakeContainer.add, FakeContainer.remove,
        World.addedEvent, Function.update, hc, hq, World.removedEvent]

/-- Witness for C23, amended: in the example state, with a backward
simplification that removes nothing, the population of the fake container at
address `7` is the same after the call as before it. -/
theorem discott_handleClauseBeforeActivation_spec_witness :
    exState.world.members exDiscottQuiet._toBeSimplifiedContainer 1 = true ∧
    (∀ w, (exDiscottQuiet.base.backwardSimplify 1 w).members
        exDiscottQuiet._toBeSimplifiedContainer
      = w.members exDiscottQuiet._toBeSimplifiedContainer) ∧
    (exDiscottQuiet.handleClauseBeforeActivation 1 exState).2.trace
      = [Action.removedEvent 7 1, Action.backwardSimplify 1, Action.addedEvent 7 1] ∧
    ∀ c, (exDiscottQuiet.handleClauseBeforeActivation 1 exState).2.world.members
        exDiscottQuiet._toBeSimplifiedContainer c
      = exState.world.members exDiscottQuiet._toBeSimplifiedContainer c :=
  ⟨rfl, fun _ => rfl, rfl,
    (discott_handleClauseBeforeActivation_spec exDiscottQuiet 1 exState).2.2.2.2.2.2 rfl
      (fun _ => rfl)⟩

end Saturation

namespace Vampire

end Vampire

namespace Kernel

open MatchingData

/-- C25 (evaluation of the code at the failing input): base `P(x) ∨ x = d`,
instance `P(a) ∨ b = d`, alternatives `{P(a)}` and `{b = d}`. After the first
round of the first call of `nextMatch` the search is at level `1` with the row
`x ↦ a` selected at level `0`, which takes `P(x)` to the literal `P(a)` at
position `0`. Level `1` holds a positive equality and no level has been
selected for demodulation, so the selection at level `0` is a match that leaves
out the equality. Yet `ensureInit(1)` returns `MUST_BACKTRACK`: none of the
rows of the equality is compatible with the row selected at level `0`, the
round does not call `skipBinding` and the search goes back to level `0`. -/
theorem ensureInit_backtracks_despite_skip_match :
    ∃ impl0 md,
      init [exP exX, exEq exX exD] [exP exA, exEq exB exD] [[exP exA], [exEq exB exD]]
        = some impl0 ∧
      loopState 1 impl0.s_matchingData = some md ∧
      md.currBLit = 1 ∧ md.eqLitForDemodulation = NONE ∧
      md.bases.getD 0 default = exP exX ∧
      (exP exX).subst (rowSubst (boundVarsOf (exP exX)) (md.selRow 0)) = exP exA ∧
      (md.selRow 0).pos = 0 ∧
      ((md.bases.getD 1 default).isEquality = true ∧
        (md.bases.getD 1 default).isPositive = true) ∧
      (md.ensureInit 1).1 = InitResult.MUST_BACKTRACK ∧
      (md.ensureInit 1).2.remaining 1 1 = 0 ∧
      md.skipBindingCall = none ∧
      ∃ md2, nextMatchRound md = Round.backtrackInit md2 ∧ md2.currBLit = 0 := by
  obtain ⟨md, h1, h2⟩ := obs_of_eval
    ((init [exP exX, exEq exX exD] [exP exA, exEq exB exD] [[exP exA], [exEq exB exD]]).bind
      (fun impl => loopState 1 impl.s_matchingData))
    (fun md => decide (md.currBLit = 1) && (decide (md.eqLitForDemodulation = NONE) &&
      (decide (md.bases.getD 0 default = exP exX) &&
      (decide ((exP exX).subst (rowSubst (boundVarsOf (exP exX)) (md.selRow 0)) = exP exA) &&
      (decide ((md.selRow 0).pos = 0) &&
      (decide ((md.bases.getD 1 default).isEquality = true ∧
        (md.bases.getD 1 default).isPositive = true) &&
      (decide ((md.ensureInit 1).1 = InitResult.MUST_BACKTRACK) &&
      (decide ((md.ensureInit 1).2.remaining 1 1 = 0) &&
      ((md.skipBindingCall).isNone &&
        decide (dec32 (md.ensureInit 1).2.currBLit = 0))))))))))
    (by decide!)
  obtain ⟨impl0, h0, h3⟩ := Option.bind_eq_some.1 h1
  simp only [Bool.and_eq_true, decide_eq_true_eq, Option.isNone_iff_eq_none] at h2
  obtain ⟨g1, g2, g3, g4, g5, g6, g7, g8, g9, g10⟩ := h2
  have hr := round_of_must_backtrack md (by rw [g1]; exact g7)
  rw [g1] at hr
  exact ⟨impl0, md, h0, h3, g1, g2, g3, g4, g5, g6, g7, g8, g9, _, hr, g10⟩

/-- C26 (evaluation of the code at the failing inputs). First input: base
`x = c ∨ P(x)`, instance `a = c ∨ P(a) ∨ P(b)`, alternatives `{a = c}` and
`{P(a), P(b)}`. After the first call of `nextMatch` has returned `true`, the
second round of the second call calls `skipBinding(0)` with level `1`
initialised, `remaining[1][0] = 2` and `remaining[1][1] = 1`: the two entries
differ and `skipBinding` changes `remaining[1][1]` to `2`. Second input: base
`Q(x,x) ∨ z = c ∨ P(x)`, instance `Q(a,a) ∨ Q(b,b) ∨ d = c ∨ P(e) ∨ P(f)`,
alternatives `{Q(a,a), Q(b,b)}`, `{d = c}` and `{P(e), P(f)}`. The fourth round
of the first call calls `skipBinding(1)` with level `2` initialised and
`remaining[2][1] = 0`. -/
theorem skipBinding_not_a_noop :
    (∃ impl1 md md3,
      afterCalls [exEq exX exC, exP exX] [exEq exA exC, exP exA, exP exB]
        [[exEq exA exC], [exP exA, exP exB]] 10 1 = some impl1 ∧
      loopState 1 impl1.s_matchingData = some md ∧
      md.skipBindingCall = some md3 ∧ md3.currBLit = 0 ∧ md3.eqLitForDemodulation = 0 ∧
      0 < 1 ∧ md3.isInitialized 1 = true ∧
      md3.remaining 1 0 = 2 ∧ md3.remaining 1 (0 + 1) = 1 ∧
      (md3.skipBinding 0).remaining 1 (0 + 1) = 2) ∧
    (∃ impl0 md md3,
      afterCalls [exQ exX exX, exEq exZ exC, exP exX]
        [exQ exA exA, exQ exB exB, exEq exD exC, exP exE, exP exF]
        [[exQ exA exA, exQ exB exB], [exEq exD exC], [exP exE, exP exF]] 10 0 = some impl0 ∧
      loopState 3 impl0.s_matchingData = some md ∧
      md.skipBindingCall = some md3 ∧ md3.currBLit = 1 ∧ md3.eqLitForDemodulation = 1 ∧
      1 < 2 ∧ md3.isInitialized 2 = true ∧ md3.remaining 2 1 = 0) := by
  constructor
  · obtain ⟨md3, h1, h2⟩ := obs_of_eval
      (((afterCalls [exEq exX exC, exP exX] [exEq exA exC, exP exA, exP exB]
          [[exEq exA exC], [exP exA, exP exB]] 10 1).bind
        (fun impl => loopState 1 impl.s_matchingData)).bind (fun md => md.skipBindingCall))
      (fun md3 => decide (md3.currBLit = 0) && (decide (md3.eqLitForDemodulation = 0) &&
        (md3.isInitialized 1 && (decide (md3.remaining 1 0 = 2) &&
        (decide (md3.remaining 1 (0 + 1) = 1) &&
          decide ((md3.skipBinding 0).remaining 1 (0 + 1) = 2))))))
      (by decide!)
    obtain ⟨md, h3, h4⟩ := Option.bind_eq_some.1 h1
    obtain ⟨impl1, h5, h6⟩ := Option.bind_eq_some.1 h3
    simp only [Bool.and_eq_true, decide_eq_true_eq] at h2
    obtain ⟨g1, g2, g3, g4, g5, g6⟩ := h2
    exact ⟨impl1, md, md3, h5, h6, h4, g1, g2, by omega, g3, g4, g5, g6⟩
  · obtain ⟨md3, h1, h2⟩ := obs_of_eval
      (((afterCalls [exQ exX exX, exEq exZ exC, exP exX]
          [exQ exA exA, exQ exB exB, exEq exD exC, exP exE, exP exF]
          [[exQ exA exA, exQ exB exB], [exEq exD exC], [exP exE, exP exF]] 10 0).bind
        (fun impl => loopState 3 impl.s_matchingData)).bind (fun md => md.skipBindingCall))
      (fun md3 => decide (md3.currBLit = 1) && (decide (md3.eqLitForDemodulation = 1) &&
        (md3.isInitialized 2 && decide (md3.remaining 2 1 = 0))))
      (by decide!)
    obtain ⟨md, h3, h4⟩ := Option.bind_eq_some.1 h1
    obtain ⟨impl0, h5, h6⟩ := Option.bind_eq_some.1 h3
    simp only [Bool.and_eq_true, decide_eq_true_eq] at h2
    obtain ⟨g1, g2, g3, g4⟩ := h2
    exact ⟨impl0, md, md3, h5, h6, h4, g1, g2, by omega, g3, g4⟩

end Kernel

namespace Kernel

open MatchingData

/-- C27: what `bindAlt` computes. In a state of the search, `bindAlt(b, a)`
returns `true` if and only if every initialised level `i > b` has, among its
first `remaining[i][b]` rows, a row that is compatible with the row `a` of
level `b`. When it returns `true`, for each such level the new entry
`remaining[i][b+1]` is positive and at most `remaining[i][b]`, the first
`remaining[i][b+1]` rows of `altBindings[i]` are, in some order, exactly the
rows among its first `remaining[i][b]` rows that are compatible with the row
`a`, and the rows of the level are the same rows as before. The rows and the
counts of a level that is not initialised are left as they are, and no level
becomes initialised. -/
theorem bindAlt_spec (md : MatchingData) (u : Nat) (hinv : InvAt md u) (b a : Nat) :
    ((md.bindAlt b a).1 = true ↔
      ∀ i, b < i → md.isInitialized i = true →
        ∃ k, k < md.remaining i b ∧
          md.compatible b ((md.altBindings b).getD a default) i k = true) ∧
    ((md.bindAlt b a).1 = true →
      ∀ i, b < i → md.isInitialized i = true →
        0 < (md.bindAlt b a).2.remaining i (b + 1) ∧
        (md.bindAlt b a).2.remaining i (b + 1) ≤ md.remaining i b ∧
        (((md.bindAlt b a).2.altBindings i).take ((md.bindAlt b a).2.remaining i (b + 1))).Perm
          (((md.altBindings i).take (md.remaining i b)).filter
            (fun r => compatibleRows (md.getIntersectInfo b i)
              ((md.altBindings b).getD a default) r)) ∧
        ((md.bindAlt b a).2.altBindings i).Perm (md.altBindings i)) ∧
    (∀ i, md.isInitialized i = false →
      (md.bindAlt b a).2.altBindings i = md.altBindings i ∧
      ∀ k, (md.bindAlt b a).2.remaining i k = md.remaining i k) ∧
    (md.bindAlt b a).2.boundVarNums = md.boundVarNums := by
  obtain ⟨r1, r2, r3, r4⟩ := bindAlt_result md b a hinv.init_down
    (fun l hl hi => hinv.rem_le l b hi (by omega))
  refine ⟨⟨fun h i hi1 hi2 => r1.1 h i hi1 (hinv.init_lt i hi2) hi2,
    fun h => r1.2 (fun i hi1 _ hi3 => h i hi1 hi3)⟩,
    fun h i hi1 hi2 => r2 h i hi1 (hinv.init_lt i hi2) hi2, r3, r4⟩

/-- Witness for C27: the state of the problem S1 (base `P(x) ∨ Q(x,y)`, instance
`P(a) ∨ Q(a,b) ∨ R`) after the first call of `nextMatch`, in which both levels
are initialised; `bindAlt(0, 0)` returns `true` and leaves the one row of level
`1` among the remaining ones. -/
theorem bindAlt_spec_witness :
    ∃ impl0 impl,
      init [exP exX, exQ exX exY] [exP exA, exQ exA exB, exR] [[exP exA], [exQ exA exB]]
        = some impl0 ∧
      nextMatch noTimeLimit 10 impl0 = some (MatchResult.returned true impl) ∧
      InvAt impl.s_matchingData impl.s_matchingData.currBLit ∧
      impl.s_matchingData.isInitialized 1 = true ∧
      (impl.s_matchingData.bindAlt 0 0).1 = true ∧
      (impl.s_matchingData.bindAlt 0 0).2.remaining 1 1 = 1 ∧
      ∀ i, 0 < i → impl.s_matchingData.isInitialized i = true →
        ∃ k, k < impl.s_matchingData.remaining i 0 ∧
          impl.s_matchingData.compatible 0 ((impl.s_matchingData.altBindings 0).getD 0 default)
            i k = true := by
  obtain ⟨impl0, impl, h0, h1, h2⟩ := first_call_obs_of_eval
    (fun i : Impl => i.s_matchingData.isInitialized 1 && ((i.s_matchingData.bindAlt 0 0).1 &&
      decide ((i.s_matchingData.bindAlt 0 0).2.remaining 1 1 = 1)))
    [exP exX, exQ exX exY] [exP exA, exQ exA exB, exR] [[exP exA], [exQ exA exB]] 10 true
    true (by decide!)
  simp only [Bool.and_eq_true, decide_eq_true_eq] at h2
  have hinv := (ValidState.next impl0 impl noTimeLimit 10 (ValidState.init impl0 h0)
    h1).valid_inv exS1_wellFormed
  exact ⟨impl0, impl, h0, h1, hinv, h2.1, h2.2.1, h2.2.2,
    (bindAlt_spec impl.s_matchingData _ hinv 0 0).1.1 h2.2.1⟩

end Kernel

namespace Kernel

open MatchingData

/-- C28: the intersect info and the test of compatibility. For two initialised
base literals whose variable arrays `boundVarNums[b1]` and `boundVarNums[b2]`
are strictly ascending, `getIntersectInfo(b1, b2)` lists exactly the index
pairs `(p, q)` with `boundVarNums[b1][p] == boundVarNums[b2][q]`, in ascending
order of both components, and the array it stores is these pairs followed by
a terminating pair with first component `-1`, which the loop of `compatible`
stops at. Hence `compatible(b1, row1, b2, a2)` is true if and only if the two
rows bind every variable the two arrays share to the same term; it is true
when the arrays share no variable, also when one of them is empty. -/
theorem getIntersectInfo_spec (md : MatchingData) (b1 b2 : Nat) (vs1 vs2 : List Nat)
    (h1 : md.boundVarNums b1 = some vs1) (h2 : md.boundVarNums b2 = some vs2)
    (hs1 : vs1.Sorted (· < ·)) (hs2 : vs2.Sorted (· < ·)) :
    (∀ p q, (p, q) ∈ md.getIntersectInfo b1 b2 ↔
      p < vs1.length ∧ q < vs2.length ∧ vs1.getD p 0 = vs2.getD q 0) ∧
    (md.getIntersectInfo b1 b2).Pairwise (fun x y => x.1 < y.1 ∧ x.2 < y.2) ∧
    (∀ stale : Int,
      (intersectArray vs1 vs2 stale).getLast? = some (-1, stale) ∧
      (intersectArray vs1 vs2 stale).dropLast
        = (md.getIntersectInfo b1 b2).map (fun pq => ((pq.1 : Int), (pq.2 : Int))) ∧
      ∀ x, x ∈ (intersectArray vs1 vs2 stale).dropLast → 0 ≤ x.1 ∧ 0 ≤ x.2) ∧
    ∀ (row1 : AltRow) (a2 : Nat),
      (∀ stale : Int,
        compatibleScan (intersectArray vs1 vs2 stale) row1 ((md.altBindings b2).getD a2 default)
          = some (md.compatible b1 row1 b2 a2)) ∧
      (md.compatible b1 row1 b2 a2 = true ↔
        ∀ p q, p < vs1.length → q < vs2.length → vs1.getD p 0 = vs2.getD q 0 →
          row1.binds.getD p default
            = ((md.altBindings b2).getD a2 default).binds.getD q default) ∧
      (md.compatible b1 row1 b2 a2 = true ↔
        ∀ v, v ∈ vs1 → v ∈ vs2 →
          rowSubst vs1 row1 v = rowSubst vs2 ((md.altBindings b2).getD a2 default) v) ∧
      ((∀ v, v ∈ vs1 → v ∉ vs2) → md.compatible b1 row1 b2 a2 = true) ∧
      (vs1 = [] ∨ vs2 = [] → md.compatible b1 row1 b2 a2 = true) := by
  have hg : md.getIntersectInfo b1 b2 = intersectInfo vs1 vs2 := by
    unfold getIntersectInfo
    rw [h1, h2]
    rfl
  obtain ⟨s1, s2⟩ := intersectInfo_spec vs1 vs2 hs1 hs2
  have hpos : ∀ (row1 : AltRow) (a2 : Nat), (md.compatible b1 row1 b2 a2 = true ↔
      ∀ p q, p < vs1.length → q < vs2.length → vs1.getD p 0 = vs2.getD q 0 →
        row1.binds.getD p default
          = ((md.altBindings b2).getD a2 default).binds.getD q default) := by
    intro row1 a2
    unfold compatible compatibleRows
    rw [hg, List.all_eq_true]
    constructor
    · intro h p q hp hq e
      have := h (p, q) ((s1 p q).2 ⟨hp, hq, e⟩)
      simpa using this
    · intro h pq hpq
      obtain ⟨hp, hq, e⟩ := (s1 pq.1 pq.2).1 hpq
      simpa using h pq.1 pq.2 hp hq e
  have hvar : ∀ (row1 : AltRow) (a2 : Nat), (md.compatible b1 row1 b2 a2 = true ↔
      ∀ v, v ∈ vs1 → v ∈ vs2 →
        rowSubst vs1 row1 v = rowSubst vs2 ((md.altBindings b2).getD a2 default) v) := by
    intro row1 a2
    rw [hpos row1 a2]
    constructor
    · intro h v hv1 hv2
      unfold rowSubst
      exact h _ _ (List.indexOf_lt_length.2 hv1) (List.indexOf_lt_length.2 hv2)
        (by rw [getD_indexOf_nat _ _ hv1, getD_indexOf_nat _ _ hv2])
    · intro h p q hp hq e
      have hv1 : vs1.getD p 0 ∈ vs1 := by
        rw [List.getD_eq_getElem?_getD, List.getElem?_eq_getElem hp]
        exact List.getElem_mem _
      have hv2 : vs1.getD p 0 ∈ vs2 := by
        rw [e, List.getD_eq_getElem?_getD, List.getElem?_eq_getElem hq]
        exact List.getElem_mem _
      have := h _ hv1 hv2
      unfold rowSubst at this
      rw [indexOf_getD_nat vs1 hs1.nodup p hp] at this
      rw [e, indexOf_getD_nat vs2 hs2.nodup q hq] at this
      exact this
  refine ⟨by rw [hg]; exact s1, by rw [hg]; exact s2, ?_, ?_⟩
  · intro stale
    obtain ⟨a1, a2, a3, _⟩ := intersectArray_spec vs1 vs2 stale
    exact ⟨a1, by rw [hg]; exact a2, a3⟩
  · intro row1 a2
    refine ⟨?_, hpos row1 a2, hvar row1 a2, ?_, ?_⟩
    · intro stale
      rw [(intersectArray_spec vs1 vs2 stale).2.2.2]
      unfold compatible
      rw [hg]
    · intro hno
      exact (hvar row1 a2).2 (fun v hv1 hv2 => absurd hv2 (hno v hv1))
    · intro he
      refine (hvar row1 a2).2 (fun v hv1 hv2 => ?_)
      rcases he with he | he
      · rw [he] at hv1; cases hv1
      · rw [he] at hv2; cases hv2

/-- Witness for C28: the state of the problem S1 (base `P(x) ∨ Q(x,y)`) after
the first call of `nextMatch`; the two levels share the variable `x`, which is at
position `0` of both variable arrays. -/
theorem getIntersectInfo_spec_witness :
    ∃ impl0 impl,
      init [exP exX, exQ exX exY] [exP exA, exQ exA exB, exR] [[exP exA], [exQ exA exB]]
        = some impl0 ∧
      nextMatch noTimeLimit 10 impl0 = some (MatchResult.returned true impl) ∧
      impl.s_matchingData.boundVarNums 0 = some [0] ∧
      impl.s_matchingData.boundVarNums 1 = some [0, 1] ∧
      impl.s_matchingData.getIntersectInfo 0 1 = [(0, 0)] ∧
      intersectArray [0] [0, 1] 7 = [(0, 0), (-1, 7)] ∧
      ((∀ p q, (p, q) ∈ impl.s_matchingData.getIntersectInfo 0 1 ↔
        p < [0].length ∧ q < [0, 1].length ∧ [0].getD p 0 = [0, 1].getD q 0) ∧
      (impl.s_matchingData.getIntersectInfo 0 1).Pairwise (fun x y => x.1 < y.1 ∧ x.2 < y.2)) := by
  obtain ⟨impl0, impl, h0, h1, h2⟩ := first_call_obs_of_eval
    (fun i : Impl => decide (i.s_matchingData.boundVarNums 0 = some [0]) &&
      (decide (i.s_matchingData.boundVarNums 1 = some [0, 1]) &&
        decide (i.s_matchingData.getIntersectInfo 0 1 = [(0, 0)])))
    [exP exX, exQ exX exY] [exP exA, exQ exA exB, exR] [[exP exA], [exQ exA exB]] 10 true
    true (by decide!)
  simp only [Bool.and_eq_true, decide_eq_true_eq] at h2
  have hs := getIntersectInfo_spec impl.s_matchingData 0 1 [0] [0, 1] h2.1 h2.2.1
    (by decide) (by decide)
  exact ⟨impl0, impl, h0, h1, h2.1, h2.2.1, h2.2.2, by decide, hs.1, hs.2.1⟩

end Kernel

namespace Kernel

/-- C29: the number of rows per alternative. Let the alternative be one the
base literal can be matched to, that is an instance of it. If the alternative
is an equality literal, `createLiteralBindings` stores exactly two binding
rows when the base literal matches it both with direct and with swapped
arguments, and exactly one row otherwise; for a non-equality alternative it
stores exactly one row. The two tests of the function decide what their names
say: `matchArgs` whether a substitution takes the arguments of the base
literal to those of the alternative, `matchReversedArgs` whether one takes
them to those of the alternative in the other order. The rows of a list of
alternatives are the rows of its members. -/
theorem createLiteralBindings_rows_per_alternative (baseLit alit : Literal) (instCl : Clause)
    (hinst : Literal.instanceOf baseLit alit) :
    (alit.isEquality = true →
      ((MatchingUtils.matchArgs baseLit alit = true ∧
          MatchingUtils.matchReversedArgs baseLit alit = true) →
        (createLiteralBindings baseLit [alit] instCl).2.length = 2) ∧
      (¬ (MatchingUtils.matchArgs baseLit alit = true ∧
          MatchingUtils.matchReversedArgs baseLit alit = true) →
        (createLiteralBindings baseLit [alit] instCl).2.length = 1)) ∧
    (alit.isEquality = false → (createLiteralBindings baseLit [alit] instCl).2.length = 1) ∧
    (MatchingUtils.matchArgs baseLit alit = true ↔
      ∃ σ : Nat → Term, Term.substList σ baseLit.args = alit.args) ∧
    (MatchingUtils.matchReversedArgs baseLit alit = true ↔
      ∃ σ : Nat → Term, Term.subst σ (baseLit.nthArgument 0) = alit.nthArgument 1 ∧
        Term.subst σ (baseLit.nthArgument 1) = alit.nthArgument 0) ∧
    ∀ alts : List Literal,
      (createLiteralBindings baseLit alts instCl).2.length
        = (alts.map (fun a => (createLiteralBindings baseLit [a] instCl).2.length)).sum := by
  have h1 : (createLiteralBindings baseLit [alit] instCl).2.length
      = (rowsOfAlt baseLit (boundVarsOf baseLit) instCl alit).length := by
    simp [createLiteralBindings]
  have h2 := rowsOfAlt_length baseLit (boundVarsOf baseLit) instCl alit
  have hm := instanceOf_matches hinst
  refine ⟨?_, ?_, matchArgs_iff baseLit alit, matchReversedArgs_iff baseLit alit,
    fun alts => createLiteralBindings_length baseLit alts instCl⟩
  · intro he
    rw [h1, h2, if_pos he]
    refine ⟨fun hb => by simp [hb.1, hb.2], fun hn => ?_⟩
    rcases hm with hd | hs
    · have hs : ¬ MatchingUtils.matchReversedArgs baseLit alit = true := fun c => hn ⟨hd, c⟩
      simp [hd, hs]
    · have hd : ¬ MatchingUtils.matchArgs baseLit alit = true := fun c => hn ⟨c, hs⟩
      simp [hd, hs]
  · intro he
    rw [h1, h2, if_neg (by simp [he])]

/-- Witness for C29: the base literal `x = y` matches its instance `a = b` in
both orientations and gets two rows, the base literal `x = d` matches its
instance `b = d` with direct arguments only and gets one row, and the base
literal `P(x)` gets one row for its instance `P(a)`. -/
theorem createLiteralBindings_rows_per_alternative_witness :
    (createLiteralBindings (exEq exX exY) [exEq exA exB] [exEq exA exB]).2.length = 2 ∧
    (createLiteralBindings (exEq exX exD) [exEq exB exD] [exEq exB exD]).2.length = 1 ∧
    (createLiteralBindings (exP exX) [exP exA] [exP exA]).2.length = 1 :=
  ⟨((createLiteralBindings_rows_per_alternative (exEq exX exY) (exEq exA exB) [exEq exA exB]
      ⟨fun v => if v = 0 then exA else exB, by decide⟩).1 (by decide)).1
      ⟨by decide, by decide⟩,
    ((createLiteralBindings_rows_per_alternative (exEq exX exD) (exEq exB exD) [exEq exB exD]
      ⟨fun _ => exB, by decide⟩).1 (by decide)).2 (by decide),
    (createLiteralBindings_rows_per_alternative (exP exX) (exP exA) [exP exA]
      ⟨fun _ => exA, by decide⟩).2.1 (by decide)⟩

end Kernel

namespace Kernel

open MatchingData

/-- C30: the data of a level after `ensureInit`. In a state of the search whose
current level `i` has a base literal that is binary if it is an equality and
alternatives that are instances of it, after `ensureInit(i)` the array
`boundVarNums[i]` lists every variable that occurs in `bases[i]` exactly once
and in strictly ascending order, `varCnts[i]` is its length and the number of
distinct variables of `bases[i]`, and every binding row of level `i` belongs to
an alternative of the level and a substitution that takes `bases[i]` to that
alternative: the row has `varCnts[i]` cells for the bindings, cell `k` holds the
term the substitution binds to `boundVarNums[i][k]`, and the cell after them
holds the position of the alternative in the instance clause. -/
theorem ensureInit_level_data (md : MatchingData) (hinv : InvAt md md.currBLit)
    (hbin : (md.bases.getD md.currBLit default).isEquality = true →
      (md.bases.getD md.currBLit default).args.length = 2)
    (hinst : ∀ a, a ∈ md.alts.getD md.currBLit [] →
      Literal.instanceOf (md.bases.getD md.currBLit default) a) :
    ∃ vars : List Nat,
      (md.ensureInit md.currBLit).2.boundVarNums md.currBLit = some vars ∧
      vars.Sorted (· < ·) ∧ vars.Nodup ∧
      (∀ v, v ∈ vars ↔ v ∈ (md.bases.getD md.currBLit default).vars) ∧
      (md.ensureInit md.currBLit).2.varCnts md.currBLit = vars.length ∧
      (md.ensureInit md.currBLit).2.varCnts md.currBLit
        = (md.bases.getD md.currBLit default).getDistinctVars ∧
      ∀ r, r ∈ (md.ensureInit md.currBLit).2.altBindings md.currBLit →
        r.binds.length = (md.ensureInit md.currBLit).2.varCnts md.currBLit ∧
        ∃ alit, alit ∈ md.alts.getD md.currBLit [] ∧
          r.pos = md.inst.getLiteralPosition alit ∧
          ∃ σ : Nat → Term,
            Literal.same ((md.bases.getD md.currBLit default).subst σ) alit ∧
            ∀ k, k < (md.ensureInit md.currBLit).2.varCnts md.currBLit →
              r.binds.getD k default = σ (vars.getD k 0) := by
  obtain ⟨e1, e2, e3, _⟩ := ensureInit_level md hinv
  refine ⟨md.varsP md.currBLit, e1, boundVarsOf_sorted _, boundVarsOf_nodup _,
    mem_boundVarsOf _, e2, ?_, ?_⟩
  · rw [e2]
    exact boundVarsOf_length _
  · intro r hr
    have hr2 : r ∈ md.rowsP md.currBLit := e3.mem_iff.1 hr
    obtain ⟨alit, ha1, ha2⟩ := mem_createLiteralBindings _ _ _ _ hr2
    refine ⟨?_, alit, ha1, rowsOfAlt_pos _ _ _ _ _ ha2,
      rowSubst (md.varsP md.currBLit) r,
      rowsOfAlt_sound _ _ _ hbin (hinst alit ha1) r ha2, ?_⟩
    · rw [e2]
      exact rowsOfAlt_binds_length _ _ _ _ _ ha2
    · intro k hk
      rw [e2] at hk
      show r.binds.getD k default
        = r.binds.getD ((md.varsP md.currBLit).indexOf ((md.varsP md.currBLit).getD k 0)) default
      rw [indexOf_getD_nat (md.varsP md.currBLit) (boundVarsOf_nodup _) k hk]

/-- Witness for C30: the problem S1 (base `P(x) ∨ Q(x,y)`, instance
`P(a) ∨ Q(a,b) ∨ R`) right after `init`. The current level is `0` with the base
literal `P(x)`; `ensureInit(0)` stores the one variable `x`, the count `1` and
the one row with the cell `a` and the position `0`. -/
theorem ensureInit_level_data_witness :
    ∃ impl0,
      init [exP exX, exQ exX exY] [exP exA, exQ exA exB, exR] [[exP exA], [exQ exA exB]]
        = some impl0 ∧
      impl0.s_matchingData.currBLit = 0 ∧
      impl0.s_matchingData.bases.getD 0 default = exP exX ∧
      (impl0.s_matchingData.ensureInit 0).2.boundVarNums 0 = some [0] ∧
      (impl0.s_matchingData.ensureInit 0).2.varCnts 0 = 1 ∧
      (impl0.s_matchingData.ensureInit 0).2.altBindings 0 = [AltRow.mk [exA] 0] ∧
      ∃ vars : List Nat,
        (impl0.s_matchingData.ensureInit 0).2.boundVarNums 0 = some vars ∧
        vars.Sorted (· < ·) ∧ vars.Nodup ∧
        (∀ v, v ∈ vars ↔ v ∈ (impl0.s_matchingData.bases.getD 0 default).vars) ∧
        (impl0.s_matchingData.ensureInit 0).2.varCnts 0 = vars.length ∧
        (impl0.s_matchingData.ensureInit 0).2.varCnts 0
          = (impl0.s_matchingData.bases.getD 0 default).getDistinctVars ∧
        ∀ r, r ∈ (impl0.s_matchingData.ensureInit 0).2.altBindings 0 →
          r.binds.length = (impl0.s_matchingData.ensureInit 0).2.varCnts 0 ∧
          ∃ alit, alit ∈ impl0.s_matchingData.alts.getD 0 [] ∧
            r.pos = impl0.s_matchingData.inst.getLiteralPosition alit ∧
            ∃ σ : Nat → Term,
              Literal.same ((impl0.s_matchingData.bases.getD 0 default).subst σ) alit ∧
              ∀ k, k < (impl0.s_matchingData.ensureInit 0).2.varCnts 0 →
                r.binds.getD k default = σ (vars.getD k 0) := by
  obtain ⟨impl0, h0, h2⟩ := obs_of_eval
    (init [exP exX, exQ exX exY] [exP exA, exQ exA exB, exR] [[exP exA], [exQ exA exB]])
    (fun i : Impl => decide (i.s_matchingData.currBLit = 0) &&
      (decide (i.s_matchingData.bases.getD 0 default = exP exX) &&
      (decide (i.s_matchingData.alts.getD 0 [] = [exP exA]) &&
      (decide ((i.s_matchingData.ensureInit 0).2.boundVarNums 0 = some [0]) &&
      (decide ((i.s_matchingData.ensureInit 0).2.varCnts 0 = 1) &&
      decide ((i.s_matchingData.ensureInit 0).2.altBindings 0 = [AltRow.mk [exA] 0]))))))
    (by decide!)
  simp only [Bool.and_eq_true, decide_eq_true_eq] at h2
  obtain ⟨c0, c1, c2, c3, c4, c5⟩ := h2
  have hinv := (ValidState.init impl0 h0).valid_inv exS1_wellFormed
  have hmain := ensureInit_level_data impl0.s_matchingData hinv
    (by rw [c0, c1]; decide)
    (by
      rw [c0, c1, c2]
      intro a ha
      simp only [List.mem_singleton] at ha
      subst ha
      exact ⟨fun _ => exA, Or.inl (by decide)⟩)
  rw [c0] at hmain
  exact ⟨impl0, h0, c0, c1, c3, c4, c5, hmain⟩

end Kernel

namespace Kernel

open MatchingData

/-- C31 (evaluation of the code at the failing input): base `P(x) ∨ Q(x,y)` with
the alternatives `{P(a)}` for `P(x)` and none for `Q(x,y)`. In the round of
the reordering loop for `Q(x,y)` there is one literal with one alternative and
none with more, so `singleAlts = i`: the exchange of the positions `singleAlts`
and `zeroAlts` and the exchange of the positions `i` and `zeroAlts` are the
same exchange, done twice. The literal without alternatives stays behind the
literal with one alternative, while `zeroAlts` counts one literal without
alternatives at the front. -/
theorem initMatchingData_one_before_zero :
    ∃ md, initMatchingData [exP exX, exQ exX exY] [exP exA] [[exP exA], []] = some md ∧
      md.bases = [exP exX, exQ exX exY] ∧ md.alts = [[exP exA], []] ∧
      currAltCnt (md.alts.getD 0 []) = 1 ∧ currAltCnt (md.alts.getD 1 []) = 0 ∧
      (reorder [exP exX, exQ exX exY] [[exP exA], []] (exP exX)).zeroAlts = 1 ∧
      (reorder [exP exX, exQ exX exY] [[exP exA], []] (exP exX)).singleAlts = 2 := by
  refine ⟨_, rfl, ?_, ?_, ?_, ?_, ?_, ?_⟩ <;> decide

/-- C32 (evaluation of the code at the failing input): base
`Q(x,y) ∨ P(x) ∨ Q(y,x)` with the alternatives `{Q(a,b)}`, `{P(a), P(b)}` and
`{Q(a,b), Q(b,a)}`. The running maximum `mostDistVarsCnt` starts with the two
variables of the first literal, which has one alternative only; no literal with
more alternatives has more than two variables, so `mostDistVarsLit` stays `0`
and the final exchange is not made. The first literal with two or more
alternatives is `P(x)` with one variable, although `Q(y,x)`, of the same group,
has two. -/
theorem initMatchingData_first_not_most_vars :
    ∃ md, initMatchingData [exQ exX exY, exP exX, exQ exY exX]
        [exQ exA exB, exP exA, exP exB, exQ exB exA]
        [[exQ exA exB], [exP exA, exP exB], [exQ exA exB, exQ exB exA]] = some md ∧
      md.bases = [exQ exX exY, exP exX, exQ exY exX] ∧
      currAltCnt (md.alts.getD 0 []) = 1 ∧
      currAltCnt (md.alts.getD 1 []) = 2 ∧ currAltCnt (md.alts.getD 2 []) = 2 ∧
      (md.bases.getD 1 default).getDistinctVars = 1 ∧
      (md.bases.getD 2 default).getDistinctVars = 2 ∧
      (reorder [exQ exX exY, exP exX, exQ exY exX]
        [[exQ exA exB], [exP exA, exP exB], [exQ exA exB, exQ exB exA]]
        (exQ exX exY)).mostDistVarsLit = 0 := by
  refine ⟨_, rfl, ?_, ?_, ?_, ?_, ?_, ?_, ?_⟩ <;> decide

/-- C33: reordering only permutes. When `init` is given one list of
alternatives per base literal, the sequence of the pairs of a base literal and
its list of alternatives that the matcher holds after `initMatchingData` is a
permutation of the sequence of the pairs `(baseLits[i], alts[i])` passed to
`init`: the two arrays keep their length, every base literal keeps its own list
of alternatives, and no pair is lost or duplicated. -/
theorem initMatchingData_permutes_pairs {baseLits : List Literal} {inst : Clause}
    {alts : List (List Literal)} {md : MatchingData}
    (hlen : alts.length = baseLits.length)
    (h : initMatchingData baseLits inst alts = some md) :
    (md.bases.zip md.alts).Perm (baseLits.zip alts) ∧
    md.len = baseLits.length ∧ md.bases.length = baseLits.length ∧
    md.alts.length = baseLits.length ∧
    (∀ k, k < md.len → (md.bases.getD k default, md.alts.getD k []) ∈ baseLits.zip alts) ∧
    (∀ p, (md.bases.zip md.alts).countP (fun q => decide (q = p))
      = (baseLits.zip alts).countP (fun q => decide (q = p))) := by
  obtain ⟨first, _, h1, _, _, _, h5, h6, _, _, _⟩ := initMatchingData_eq h
  obtain ⟨p1, p2, p3⟩ := reorder_perm baseLits alts first hlen
  rw [← h5] at p1 p2
  rw [← h6] at p1 p3
  refine ⟨p1, h1, p2, p3, ?_, fun p => p1.countP_eq _⟩
  intro k hk
  exact p1.mem_iff.1 (mem_zip_getD md.bases md.alts k (by omega) (by omega))

/-- Witness for C33: the problem S1 (base `P(x) ∨ Q(x,y)`, alternatives `{P(a)}`
and `{Q(a,b)}`). -/
theorem initMatchingData_permutes_pairs_witness :
    ∃ md, initMatchingData [exP exX, exQ exX exY] [exP exA, exQ exA exB, exR]
        [[exP exA], [exQ exA exB]] = some md ∧
      (md.bases.zip md.alts).Perm ([exP exX, exQ exX exY].zip [[exP exA], [exQ exA exB]]) ∧
      md.len = 2 :=
  ⟨_, rfl,
    (initMatchingData_permutes_pairs
      (show [[exP exA], [exQ exA exB]].length = [exP exX, exQ exX exY].length from rfl) rfl).1,
    (initMatchingData_permutes_pairs
      (show [[exP exA], [exQ exA exB]].length = [exP exX, exQ exX exY].length from rfl) rfl).2.1⟩

end Kernel

namespace Kernel

open MatchingData

/-- C38: termination of `nextMatch`. For a matching problem that meets the
preconditions of `init` and has at least one base literal, `init` gives a
matcher, and for every valid state of the matcher there is a number `n` of
rounds such that every call of `nextMatch` leaves its search loop within `n`
rounds, whatever the time-limit check answers: the call ends with a result for
every answer of the check, and when the check never reports that the limit is
reached the call returns `true` or `false`. -/
theorem nextMatch_terminates {baseLits : List Literal} {inst : Clause}
    {alts : List (List Literal)} (hwf : WellFormed baseLits inst alts)
    (hpos : 0 < baseLits.length) :
    (∃ impl0, init baseLits inst alts = some impl0) ∧
    ∀ impl, ValidState baseLits inst alts impl →
      ∃ n, ∀ fuel, n ≤ fuel →
        (∀ tl : Nat → Bool, ∃ r, nextMatch tl fuel impl = some r) ∧
        (∀ tl : Nat → Bool, (∀ t, tl t = false) →
          ∃ b impl2, nextMatch tl fuel impl = some (MatchResult.returned b impl2)) := by
  refine ⟨init_some baseLits inst alts hpos, ?_⟩
  intro impl hv
  have hinv := hv.valid_inv hwf
  refine ⟨impl.s_matchingData.progressBound, ?_⟩
  intro fuel hfuel
  have hall : ∀ tl : Nat → Bool, ∃ r, nextMatch tl fuel impl = some r := by
    intro tl
    obtain ⟨r, hr⟩ := nextMatchLoop_terminates tl impl.s_matchingData.progressBound 0 impl hinv
      (Nat.sub_le _ _)
    exact ⟨r, nextMatchLoop_mono tl _ 0 impl r hr fuel hfuel⟩
  refine ⟨hall, ?_⟩
  intro tl htl
  have e : tl = noTimeLimit := funext htl
  subst e
  obtain ⟨r, hr⟩ := hall noTimeLimit
  obtain ⟨b, impl2, e2⟩ := nextMatchLoop_noTimeLimit fuel 0 impl r hr
  exact ⟨b, impl2, by rw [← e2]; exact hr⟩

/-- Witness for C38: the problem S2 (base `P(x) ∨ P(y)`, instance `P(a)`), whose
search ends without a match. -/
theorem nextMatch_terminates_witness :
    (∃ impl0, init [exP exX, exP exY] [exP exA] [[exP exA], [exP exA]] = some impl0) ∧
    ∀ impl, ValidState [exP exX, exP exY] [exP exA] [[exP exA], [exP exA]] impl →
      ∃ n, ∀ fuel, n ≤ fuel →
        (∀ tl : Nat → Bool, ∃ r, nextMatch tl fuel impl = some r) ∧
        (∀ tl : Nat → Bool, (∀ t, tl t = false) →
          ∃ b impl2, nextMatch tl fuel impl = some (MatchResult.returned b impl2)) :=
  nextMatch_terminates exS2_wellFormed (by decide)

end Kernel

namespace Kernel

/-- C39: the symbols a `TermFunIterator` yields. For every term `t` with functor
`f` and arguments `as`, calling `hasNext()` and, after each answer `true`,
`next()` on `TermFunIterator(t)` yields exactly the function symbols of `t` in
pre-order (the functor of `t` first, then the symbols of each argument from left
to right, variables contributing nothing), after which `hasNext()` answers
`false`, and goes on answering `false`; one call of `hasNext()` more than the
term has symbols is enough. On any iterator, when `hasNext()` has answered
`true`, a second call of `hasNext()` without `next()` in between answers `true`
again and leaves the iterator as it is, so the same symbol is still the next
one. -/
theorem termFunIterator_yields_preorder (f : Nat) (as : List Term) :
    (∀ fuel, (Term.funSymbols (.app f as)).length < fuel →
      ∃ it2, TermFunIterator.drain fuel (TermFunIterator.new f as)
          = some (Term.funSymbols (.app f as), it2) ∧
        it2.hasNext = (false, it2)) ∧
    (∀ it : TermFunIterator, it.hasNext.1 = true →
      it.hasNext.2.hasNext = (true, it.hasNext.2)) := by
  constructor
  · intro fuel hfuel
    obtain ⟨n, rfl⟩ : ∃ n, fuel = n + 1 := ⟨fuel - 1, by omega⟩
    simp only [Term.funSymbols, List.length_cons] at hfuel
    obtain ⟨it2, g1, g2, g3⟩ := drain_spec n ⟨[as], false, f⟩ rfl (by
      show (TermFunIterator.stackSymbols [as]).length < n
      simp only [TermFunIterator.stackSymbols, List.append_nil]
      omega)
    refine ⟨it2, ?_, hasNext_of_empty it2 g2 g3⟩
    have e : (TermFunIterator.new f as).hasNext = (true, TermFunIterator.new f as) := rfl
    unfold TermFunIterator.drain
    rw [e]
    simp only [TermFunIterator.next, TermFunIterator.new, if_true]
    rw [g1]
    simp [TermFunIterator.stackSymbols, Term.funSymbols]
  · intro it h
    have hn : it.hasNext.2._hasNext = true := by
      unfold TermFunIterator.hasNext at h ⊢
      by_cases hb : it._hasNext = true
      · rw [if_pos hb]
        exact hb
      · rw [if_neg hb] at h ⊢
        obtain ⟨h1, h2⟩ := hasNextLoop_spec it it._stack
        cases hsym : TermFunIterator.stackSymbols it._stack with
        | nil => rw [h1 hsym] at h; cases h
        | cons x xs =>
            obtain ⟨s2, e1, _⟩ := h2 x xs hsym
            rw [e1]
    generalize it.hasNext.2 = it1 at hn
    unfold TermFunIterator.hasNext
    rw [if_pos hn]

/-- Witness for C39: the term `f(x, g(a, y), b)`, where `f`, `g`, `a`, `b` are
the symbols `20`, `21`, `10`, `11`; five calls of `hasNext()` yield the four
symbols in pre-order and the answer `false`. -/
theorem termFunIterator_yields_preorder_witness :
    ∃ it2, TermFunIterator.drain 5 (TermFunIterator.new 20 [exX, .app 21 [exA, exY], exB])
        = some ([20, 21, 10, 11], it2) ∧
      it2.hasNext = (false, it2) :=
  (termFunIterator_yields_preorder 20 [exX, .app 21 [exA, exY], exB]).1 5 (by decide)

end Kernel

namespace Saturation

/-- C34: in `Discott` the to-be-simplified container tracks Passive and Active.
Let the callbacks of the algorithm be invoked along the state machine of the
clauses (`onPassiveAdded` and `onPassiveRemoved` while the store is `PASSIVE`,
`onSOSClauseAdded` and `onActiveRemoved` while it is `ACTIVE`,
`handleClauseBeforeActivation` for a selected clause, followed by the
activation or by `handleUnsuccessfulActivation`), let the functions of the base
class follow the state machine, and let the container of the active clauses
and the to-be-simplified container be two objects. Then, from a state in which
the container tracks Passive and Active, as the state before any clause exists
is one, after every number of transitions and for every clause: at every
moment of the log of events the added events of the clause on that container
do not trail its removed events and are at most one ahead, they are one ahead
whenever the store of the clause is `PASSIVE` or `ACTIVE`, and there are as
many of the one kind as of the other once the store is `NONE`. -/
theorem discott_container_tracks (d : Discott) (h2 : d.TwoContainers)
    (hb : d.FollowsStateMachine) (steps : List LoopStep) (s0 : State)
    (h0 : d.Tracks s0.world) (hadm : d.Admissible steps s0) :
    d.Tracks World.empty ∧
    ∀ n c,
      (∀ m,
        (((d.run (steps.take n) s0).world.fired.take m).countP
            (fun e => decide (e = ContainerEvent.removed d._toBeSimplifiedContainer c))
          ≤ ((d.run (steps.take n) s0).world.fired.take m).countP
            (fun e => decide (e = ContainerEvent.added d._toBeSimplifiedContainer c))) ∧
        (((d.run (steps.take n) s0).world.fired.take m).countP
            (fun e => decide (e = ContainerEvent.added d._toBeSimplifiedContainer c))
          ≤ ((d.run (steps.take n) s0).world.fired.take m).countP
            (fun e => decide (e = ContainerEvent.removed d._toBeSimplifiedContainer c)) + 1)) ∧
      (d.run (steps.take n) s0).world.removeEvents d._toBeSimplifiedContainer c
        ≤ (d.run (steps.take n) s0).world.addEvents d._toBeSimplifiedContainer c ∧
      (d.run (steps.take n) s0).world.addEvents d._toBeSimplifiedContainer c
        ≤ (d.run (steps.take n) s0).world.removeEvents d._toBeSimplifiedContainer c + 1 ∧
      (((d.run (steps.take n) s0).world.store c = Store.PASSIVE ∨
          (d.run (steps.take n) s0).world.store c = Store.ACTIVE) →
        (d.run (steps.take n) s0).world.addEvents d._toBeSimplifiedContainer c
          = (d.run (steps.take n) s0).world.removeEvents d._toBeSimplifiedContainer c + 1) ∧
      ((d.run (steps.take n) s0).world.store c = Store.NONE →
        (d.run (steps.take n) s0).world.addEvents d._toBeSimplifiedContainer c
          = (d.run (steps.take n) s0).world.removeEvents d._toBeSimplifiedContainer c) := by
  constructor
  · intro c
    refine ⟨fun n => by simp [World.empty], fun _ => ?_, fun _ => rfl⟩
    rename_i h
    simp [World.empty] at h
  · intro n c
    have ht := run_tracks d h2 hb (steps.take n) s0 h0 (admissible_take d steps s0 n hadm)
    obtain ⟨t1, t2, t3⟩ := ht c
    have hfull := balanced_full t1
    refine ⟨t1, hfull.1, hfull.2, ?_, ?_⟩
    · intro hs
      rcases hs with hs | hs
      · exact t2 (Or.inl hs)
      · exact t2 (Or.inr (Or.inr hs))
    · intro hs
      exact t3 (Or.inl hs)

/-- The example algorithm meets what the claim assumes of the base class. -/
theorem exDiscottLoop_follows : exDiscottLoop.FollowsStateMachine where
  backward := by
    intro cl w
    show exDiscottLoop.Simplifies w
      (if w.store 2 = Store.ACTIVE then discardActive exDiscottQuiet 2 cl w else w)
    by_cases h : w.store 2 = Store.ACTIVE
    · rw [if_pos h]
      exact Discott.Simplifies.active 2 w _ h (Discott.Simplifies.done _)
    · rw [if_neg h]
      exact Discott.Simplifies.done w
  activeRemoved_store := fun _ _ => rfl
  activeRemoved_fired := fun _ _ => rfl
  passiveRemoved_store := fun _ _ => rfl
  passiveRemoved_fired := fun _ _ => rfl
  passiveAdded_store := fun _ _ => rfl
  passiveAdded_fired := fun _ _ => rfl
  sosAdded_store := fun _ _ => rfl
  sosAdded_fired := fun _ _ => rfl

/-- Witness for C34: the run in which the clause `2` becomes active and is then
simplified away by the backward simplification with the clause `1`. At the
end the clause `1` is active with two added events and one removed event, and
the clause `2` has the store `NONE` with two events of each kind. -/
theorem discott_container_tracks_witness :
    (exDiscottLoop.run exSteps exStart).world.store 1 = Store.ACTIVE ∧
    (exDiscottLoop.run exSteps exStart).world.addEvents 7 1 = 2 ∧
    (exDiscottLoop.run exSteps exStart).world.removeEvents 7 1 = 1 ∧
    (exDiscottLoop.run exSteps exStart).world.store 2 = Store.NONE ∧
    (exDiscottLoop.run exSteps exStart).world.addEvents 7 2 = 2 ∧
    (exDiscottLoop.run exSteps exStart).world.removeEvents 7 2 = 2 ∧
    ((exDiscottLoop.run (exSteps.take 8) exStart).world.store 2 = Store.NONE →
      (exDiscottLoop.run (exSteps.take 8) exStart).world.addEvents 7 2
        = (exDiscottLoop.run (exSteps.take 8) exStart).world.removeEvents 7 2) :=
  ⟨by decide, by decide, by decide, by decide, by decide, by decide,
    ((discott_container_tracks exDiscottLoop (by unfold Discott.TwoContainers; decide)
      exDiscottLoop_follows exSteps exStart
      (discott_container_tracks exDiscottLoop (by unfold Discott.TwoContainers; decide)
        exDiscottLoop_follows [] exStart (fun c =>
          ⟨fun n => by simp [exStart, World.empty], fun h => by simp [exStart, World.empty] at h,
            fun _ => rfl⟩) trivial).1
      (by
        simp only [exSteps, Discott.Admissible, and_true]
        decide)).2 8 2).2.2.2.2⟩

end Saturation

namespace Kernel

open MatchingData

/-- C35: filtering never loses an alternative. In a state of the search, for a
level `i` that is initialised: the rows of `altBindings[i]` are, in some order,
the rows `createLiteralBindings` made for the level, and `remaining[i][0]` is
their number; every `bindAlt`, every `skipBinding`, every round of the loop of
`nextMatch` and every whole call of `nextMatch`, however it ends, leaves the
level initialised, leaves `altBindings[i]` with the same rows in some order
(`skipBinding` in the same order), and leaves `remaining[i][0]` at its
value. -/
theorem filtering_keeps_rows (md : MatchingData) (hinv : InvAt md md.currBLit) (i : Nat)
    (hi : md.isInitialized i = true) :
    ((md.altBindings i).Perm
        (createLiteralBindings (md.bases.getD i default) (md.alts.getD i []) md.inst).2 ∧
      md.remaining i 0
        = (createLiteralBindings (md.bases.getD i default) (md.alts.getD i []) md.inst).2.length) ∧
    (∀ b a, (md.bindAlt b a).2.isInitialized i = true ∧
      ((md.bindAlt b a).2.altBindings i).Perm (md.altBindings i) ∧
      (md.bindAlt b a).2.remaining i 0 = md.remaining i 0) ∧
    (∀ b, (md.skipBinding b).isInitialized i = true ∧
      (md.skipBinding b).altBindings i = md.altBindings i ∧
      (md.skipBinding b).remaining i 0 = md.remaining i 0) ∧
    ((nextMatchRound md).state.isInitialized i = true ∧
      ((nextMatchRound md).state.altBindings i).Perm (md.altBindings i) ∧
      (nextMatchRound md).state.remaining i 0 = md.remaining i 0) ∧
    (∀ (tl : Nat → Bool) (fuel : Nat) (impl : Impl) (r : MatchResult),
      impl.s_matchingData = md → nextMatch tl fuel impl = some r →
      r.impl.s_matchingData.isInitialized i = true ∧
      (r.impl.s_matchingData.altBindings i).Perm (md.altBindings i) ∧
      r.impl.s_matchingData.remaining i 0 = md.remaining i 0) := by
  refine ⟨⟨hinv.init_rows i hi, ?_⟩, ?_, ?_, ?_, ?_⟩
  · rw [hinv.rem_zero i hi]
    exact (hinv.init_rows i hi).length_eq
  · intro b a
    exact bindAlt_keepsRows md b a hinv.init_down
      (fun l hl hil => hinv.rem_le l b hil (by omega)) i hi
  · intro b
    obtain ⟨h1, h2⟩ := skipBinding_keepsRows md b hinv.init_down
    obtain ⟨g1, _, g3⟩ := h2 i hi
    exact ⟨g1, by rw [h1], g3⟩
  · exact (nextMatchRound_cases md hinv).round_rows i hi
  · intro tl fuel impl r hm h
    subst hm
    exact nextMatchLoop_rows tl fuel 0 impl r hinv h i hi

/-- Witness for C35: the problem S1 after the first call of `nextMatch`; the
level `1` is initialised and holds its one row. -/
theorem filtering_keeps_rows_witness :
    ∃ impl0 impl,
      init [exP exX, exQ exX exY] [exP exA, exQ exA exB, exR] [[exP exA], [exQ exA exB]]
        = some impl0 ∧
      nextMatch noTimeLimit 10 impl0 = some (MatchResult.returned true impl) ∧
      impl.s_matchingData.isInitialized 1 = true ∧
      impl.s_matchingData.remaining 1 0 = 1 ∧
      ((impl.s_matchingData.altBindings 1).Perm
          (createLiteralBindings (impl.s_matchingData.bases.getD 1 default)
            (impl.s_matchingData.alts.getD 1 []) impl.s_matchingData.inst).2 ∧
        impl.s_matchingData.remaining 1 0
          = (createLiteralBindings (impl.s_matchingData.bases.getD 1 default)
              (impl.s_matchingData.alts.getD 1 []) impl.s_matchingData.inst).2.length) := by
  obtain ⟨impl0, impl, h0, h1, h2⟩ := first_call_obs_of_eval
    (fun i : Impl => i.s_matchingData.isInitialized 1 &&
      decide (i.s_matchingData.remaining 1 0 = 1))
    [exP exX, exQ exX exY] [exP exA, exQ exA exB, exR] [[exP exA], [exQ exA exB]] 10 true
    true (by decide!)
  simp only [Bool.and_eq_true, decide_eq_true_eq] at h2
  have hinv := (ValidState.next impl0 impl noTimeLimit 10 (ValidState.init impl0 h0)
    h1).valid_inv exS1_wellFormed
  exact ⟨impl0, impl, h0, h1, h2.1, h2.2,
    (filtering_keeps_rows impl.s_matchingData hinv 1 h2.1).1⟩

end Kernel

namespace Kernel

open MatchingData

/-- C36: at every reported match the match record is exact. After `nextMatch`
has returned `true` in a valid state: `matchRecord[p]` is the level `i` if and
only if `i` is not the level selected for demodulation and the alternative it
selects is at the position `p` of the instance; `matchRecord[p]` is
`0xFFFFFFFF` at every position that no such level selects, so no stale entry
is left; and the number of entries of the bitmap of the matched alternatives
that are set is the number of base literals minus the number of levels selected
for demodulation, which is one when `eqLitForDemodulation` is a level and zero
when it is `0xFFFFFFFF`. -/
theorem matchRecord_exact {baseLits : List Literal} {inst : Clause}
    {alts : List (List Literal)} (hwf : WellFormed baseLits inst alts) {impl impl2 : Impl}
    (hv : ValidState baseLits inst alts impl) {tl : Nat → Bool} {fuel : Nat}
    (h : nextMatch tl fuel impl = some (MatchResult.returned true impl2)) :
    (∀ p i, i < impl2.s_matchingData.len →
      (impl2.s_matchingData.matchRecord p = i ↔
        i ≠ impl2.s_matchingData.eqLitForDemodulation ∧ claimedPos impl2 i = p)) ∧
    (∀ p, (¬ ∃ i, i < impl2.s_matchingData.len ∧
        i ≠ impl2.s_matchingData.eqLitForDemodulation ∧ claimedPos impl2 i = p) →
      impl2.s_matchingData.matchRecord p = NONE) ∧
    (impl2.s_matchingData.eqLitForDemodulation = NONE ∨
      impl2.s_matchingData.eqLitForDemodulation < impl2.s_matchingData.len) ∧
    impl2.s_matchingData.len = baseLits.length ∧
    (getMatchedAltsBitmap impl2).count true
      = baseLits.length
        - (if impl2.s_matchingData.eqLitForDemodulation < impl2.s_matchingData.len then 1
            else 0) := by
  have hm := hv.matched_of_true hwf h
  have hv2 := ValidState.next impl impl2 tl fuel hv h
  have hrec := hv2.rec_range hwf
  obtain ⟨p1, _, _, _⟩ := hv2.pairs hwf
  refine ⟨?_, ?_, hm.1.eq_dom, p1, ?_⟩
  · intro p i hi
    constructor
    · intro e
      exact hm.1.rec_exact p i e hi
    · rintro ⟨e1, e2⟩
      rw [← e2]
      exact hm.1.sel_rec i hi e1
  · intro p hno
    rcases hrec p with e | e
    · exact e
    · exfalso
      obtain ⟨g1, g2⟩ := hm.1.rec_exact p _ rfl e
      exact hno ⟨_, e, g1, g2⟩
  · unfold getMatchedAltsBitmap
    rw [matchedAltsBitmapLoop_count impl2.s_matchingData
      (fun bi hbi hne => hm.sel_pos_lt bi hbi hne)
      (fun bi bj hbi hbj h1 h2 e => hm.pos_inj bi bj hbi hbj h1 h2 e)
      impl2.s_matchingData.len (le_refl _), matchedLevels_eq, p1]

/-- Witness for C36: the problem S4 (base `x = f(x) ∨ P(x)`, instance
`P(a) ∨ R`, the equality without alternatives). The first call returns `true`
with the equality selected for demodulation; the position `0` is recorded for
the level of `P(x)`, the position `1` holds the sentinel, and one entry of the
bitmap is set: two base literals minus one. -/
theorem matchRecord_exact_witness :
    ∃ impl0 impl,
      init [exEq exX (.app 20 [exX]), exP exX] [exP exA, exR] [[], [exP exA]] = some impl0 ∧
      nextMatch noTimeLimit 10 impl0 = some (MatchResult.returned true impl) ∧
      impl.s_matchingData.eqLitForDemodulation = 0 ∧
      impl.s_matchingData.matchRecord 0 = 1 ∧
      impl.s_matchingData.matchRecord 1 = NONE ∧
      getMatchedAltsBitmap impl = [true, false] ∧
      (getMatchedAltsBitmap impl).count true
        = [exEq exX (.app 20 [exX]), exP exX].length
          - (if impl.s_matchingData.eqLitForDemodulation < impl.s_matchingData.len then 1
              else 0) := by
  obtain ⟨impl0, impl, h0, h1, h2⟩ := first_call_obs_of_eval
    (fun i : Impl => decide (i.s_matchingData.eqLitForDemodulation = 0) &&
      (decide (i.s_matchingData.matchRecord 0 = 1) &&
      (decide (i.s_matchingData.matchRecord 1 = NONE) &&
      decide (getMatchedAltsBitmap i = [true, false]))))
    [exEq exX (.app 20 [exX]), exP exX] [exP exA, exR] [[], [exP exA]] 10 true
    true (by decide!)
  simp only [Bool.and_eq_true, decide_eq_true_eq] at h2
  exact ⟨impl0, impl, h0, h1, h2.1, h2.2.1, h2.2.2.1, h2.2.2.2,
    (matchRecord_exact (by exact ⟨by decide, by decide, by decide⟩)
      (ValidState.init impl0 h0) h1).2.2.2.2⟩

end Kernel

namespace Kernel

open MatchingData

/-- C37: a base of one positive equality. Let the base consist of the positive
equality `b`, with any alternatives, and let `createLiteralBindings` make `r`
rows for it (`r` may be `0`). Then exactly `r + 1` calls of `nextMatch` return
`true` before the first call that returns `false`, each call needing one round
of the loop. For `j < r` the call number `j + 1` reports the row `j`: no
equality is selected for demodulation, the level claims the position of that
row, the bitmap has that position set and no other, and the bindings are those
of the row. The call number `r + 1` reports the match in which `b` is selected
for demodulation, with empty bindings and no bit set in the bitmap. The call
after it returns `false`. -/
theorem single_equality_matches (b : Literal) (inst : Clause) (as : List Literal)
    (hpe : b.isEquality = true ∧ b.isPositive = true) (fuel : Nat) (hfuel : 0 < fuel) :
    (∀ j, j < (createLiteralBindings b as inst).2.length →
      ∃ impl, afterCalls [b] inst [as] fuel (j + 1) = some impl ∧
        getEqualityForDemodulation impl = none ∧
        impl.s_matchingData.selRow 0 = (createLiteralBindings b as inst).2.getD j default ∧
        claimedPos impl 0 = ((createLiteralBindings b as inst).2.getD j default).pos ∧
        getMatchedAltsBitmap impl
          = (List.replicate inst.length false).set
              ((createLiteralBindings b as inst).2.getD j default).pos true ∧
        ∀ v, v ∈ boundVarsOf b →
          bindingsSubst (getBindings impl) v
            = rowSubst (boundVarsOf b) ((createLiteralBindings b as inst).2.getD j default) v) ∧
    (∃ impl, afterCalls [b] inst [as] fuel ((createLiteralBindings b as inst).2.length + 1)
        = some impl ∧
      getEqualityForDemodulation impl = some b ∧
      getBindings impl = [] ∧
      getMatchedAltsBitmap impl = List.replicate inst.length false ∧
      ∃ impl2, nextMatch noTimeLimit fuel impl = some (MatchResult.returned false impl2)) ∧
    afterCalls [b] inst [as] fuel ((createLiteralBindings b as inst).2.length + 2) = none := by
  have hskip : ∃ impl,
      afterCalls [b] inst [as] fuel ((createLiteralBindings b as inst).2.length + 1)
        = some impl ∧
      SingleAt b inst as (createLiteralBindings b as inst).2.length 0 impl.s_matchingData ∧
      ∃ impl2, nextMatch noTimeLimit fuel impl = some (MatchResult.returned false impl2) := by
    obtain ⟨impl, h1, h2, _⟩ := single_calls b inst as hpe fuel hfuel _ (le_refl _)
    obtain ⟨impl2, g1, g2⟩ := single_skip impl h2 hpe (by decide) fuel hfuel
    refine ⟨impl2, ?_, g2, single_fail impl2 (singleAt_ready g2) fuel hfuel⟩
    show (afterCalls [b] inst [as] fuel _).bind _ = _
    rw [h1]
    simp only [Option.some_bind, g1]
  refine ⟨?_, ?_, ?_⟩
  · intro j hj
    obtain ⟨impl, h1, _, h3⟩ := single_calls b inst as hpe fuel hfuel (j + 1) (by omega)
    have hS := h3 (by omega)
    have hd : dec32 (j + 1) = j := rfl
    refine ⟨impl, h1, ?_, ?_, ?_, ?_, ?_⟩
    · unfold getEqualityForDemodulation
      simp only [hS.eqLit_eq, hS.len_eq]
      rfl
    · unfold selRow
      rw [hS.rows_eq, hS.next_eq, hd]
    · unfold claimedPos getAltRecordIndex
      rw [hS.rows_eq, hS.next_eq, hd]
    · rw [singleAt_bitmap impl hS, if_pos (by decide), hd]
    · intro v hv
      rw [singleAt_bindings impl hS (by decide) v hv, hd]
  · obtain ⟨impl, h1, hS, h3⟩ := hskip
    refine ⟨impl, h1, ?_, singleAt_bindings_skip impl hS, ?_, h3⟩
    · unfold getEqualityForDemodulation
      simp only [hS.eqLit_eq, hS.len_eq, hS.bases_eq]
      rfl
    · rw [singleAt_bitmap impl hS, if_neg (by simp)]
  · obtain ⟨impl, h1, _, impl2, h3⟩ := hskip
    show (afterCalls [b] inst [as] fuel _).bind _ = _
    rw [h1]
    simp only [Option.some_bind, h3]

/-- Witness for C37: the problem S3 (base `x = y`, instance `a = b`), where the
equality has two rows. The third call of `nextMatch` is the last that returns
`true`; it reports the equality as selected for demodulation, with no binding
and no bit set. -/
theorem single_equality_matches_witness :
    (createLiteralBindings (exEq exX exY) [exEq exA exB] [exEq exA exB]).2.length = 2 ∧
    (∃ impl, afterCalls [exEq exX exY] [exEq exA exB] [[exEq exA exB]] 10
        ((createLiteralBindings (exEq exX exY) [exEq exA exB] [exEq exA exB]).2.length + 1)
          = some impl ∧
      getEqualityForDemodulation impl = some (exEq exX exY) ∧
      getBindings impl = [] ∧
      getMatchedAltsBitmap impl = List.replicate [exEq exA exB].length false ∧
      ∃ impl2, nextMatch noTimeLimit 10 impl = some (MatchResult.returned false impl2)) :=
  ⟨by decide,
    (single_equality_matches (exEq exX exY) [exEq exA exB] [exEq exA exB]
      ⟨by decide, by decide⟩ 10 (by decide)).2.1⟩

end Kernel
